import Mathlib

/-! SatEncoder: equivalence checking of Clifford circuits.

A shallow embedding of `src/src/satencoder/SatEncoder.cpp`.

* Vectors and bitsets are lists; an unchecked `operator[]` outside the container and a
  throwing `.at(...)` both make the embedded function return `none`
  ("does not return normally").
* `std::map` is an association list in insertion order; `emplace` and `insert`
  keep the first entry of a key.
* The encoder object is passed explicitly as a `SatEncoder` record.
* The z3 solver is a collaborator: the assertions added to it are kept as a list of
  expression trees with their bit-vector semantics, and `check()` is a parameter.
-/

namespace QSat

/-! ## Data model -/

/-- One row of a bit matrix (`boost::dynamic_bitset<>`). -/
abbrev BitRow := List Bool

/-- The canonical key of a tableau (`std::vector<boost::dynamic_bitset<>>`). -/
abbrev Generator := List BitRow

/-- Identifier of a generator (`boost::uuids::uuid`). -/
abbrev Uuid := Nat

/-- Stabilizer tableau `SatEncoder::QState`. -/
structure QState where
  n : Nat
  x : List BitRow
  z : List BitRow
  r : List Int
  prevGenId : Uuid
deriving DecidableEq, Repr

/-- Integral promotion of a C++ `bool`. -/
def boolToInt (b : Bool) : Int := if b then 1 else 0

/-- The data of row `i` of a tableau: `x[i]`, `z[i]` and `r[i]`. -/
abbrev Row := BitRow × BitRow × Int

/-- One pass of a loop body `for (i = 0; i < n; i++)` that reads and writes
`x[i]`, `z[i]`, `r[i]` only: `f` is the body on the data of row `i`. -/
def updateRow (f : Row → Option Row) (s : QState) (i : Nat) : Option QState := do
  let xi ← s.x[i]?
  let zi ← s.z[i]?
  let ri ← s.r[i]?
  let (xi1, zi1, ri1) ← f (xi, zi, ri)
  some { s with x := s.x.set i xi1, z := s.z.set i zi1, r := s.r.set i ri1 }

/-- The loop `for (std::size_t i = 0U; i < n; i++) body`. -/
def forRows (n : Nat) (f : Row → Option Row) (s : QState) : Option QState :=
  (List.range n).foldlM (updateRow f) s

/-- Body of the loop of `applyCNOT` on row `i`. -/
def cnotRow (control target : Nat) (row : Row) : Option Row := do
  let xc ← row.1[control]?
  let zt ← row.2.1[target]?
  let xt ← row.1[target]?
  let zc ← row.2.1[control]?
  -- r[i] ^= (x[i][control] * z[i][target]) * (x[i][target] ^ z[i][control] ^ 1);
  let ri := Int.xor row.2.2
    ((boolToInt xc * boolToInt zt) * Int.xor (Int.xor (boolToInt xt) (boolToInt zc)) 1)
  -- x[i][target] ^= x[i][control];
  let xi := row.1.set target (xor xt xc)
  -- z[i][control] ^= z[i][target];
  let zi := row.2.1.set control (xor zc zt)
  some (xi, zi, ri)

/-- Body of the loop of `applyH` on row `i`. -/
def hRow (target : Nat) (row : Row) : Option Row := do
  let xt ← row.1[target]?
  let zt ← row.2.1[target]?
  -- r[i] ^= x[i][target] * z[i][target];
  let ri := Int.xor row.2.2 (boolToInt xt * boolToInt zt)
  -- x[i][target] ^= z[i][target];
  let xt1 := xor xt zt
  -- z[i][target] = x[i][target] ^ z[i][target];
  let zt1 := xor xt1 zt
  -- x[i][target] ^= z[i][target];
  let xt2 := xor xt1 zt1
  some (row.1.set target xt2, row.2.1.set target zt1, ri)

/-- Body of the loop of `applyS` on row `i`. -/
def sRow (target : Nat) (row : Row) : Option Row := do
  let xt ← row.1[target]?
  let zt ← row.2.1[target]?
  -- r[i] ^= x[i][target] * z[i][target];
  let ri := Int.xor row.2.2 (boolToInt xt * boolToInt zt)
  -- z[i][target] ^= x[i][target];
  some (row.1, row.2.1.set target (xor zt xt), ri)

/-- Tableau update `SatEncoder::QState::applyCNOT`. -/
def QState.applyCNOT (s : QState) (control target : Nat) : Option QState :=
  if target > s.n || control > s.n then some s
  else forRows s.n (cnotRow control target) s

/-- Tableau update `SatEncoder::QState::applyH`. -/
def QState.applyH (s : QState) (target : Nat) : Option QState :=
  if target > s.n then some s
  else forRows s.n (hRow target) s

/-- Tableau update `SatEncoder::QState::applyS`. -/
def QState.applyS (s : QState) (target : Nat) : Option QState :=
  if target > s.n then some s
  else forRows s.n (sRow target) s

/-- Canonical key `SatEncoder::QState::getLevelGenerator`: per row a bitset of
`2n+1` bits, filled with the X row, the Z row and the phase. -/
def QState.getLevelGenerator (s : QState) : Option Generator :=
  let size := 2 * s.n + 1
  (List.range s.n).mapM fun i => do
    let gen : BitRow := List.replicate size false
    let xi ← s.x[i]?
    let gen ← (List.range s.n).foldlM
      (fun (g : BitRow) j => do let b ← xi[j]?; some (g.set j b)) gen
    let zi ← s.z[i]?
    let gen ← (List.range s.n).foldlM
      (fun (g : BitRow) j => do let b ← zi[j]?; some (g.set (s.n + j) b)) gen
    let ri ← s.r[i]?
    some (gen.set (s.n + s.n) (if ri = 1 then true else false))

/-- The gates that `initializeState` applies for the character `c` on qubit `i`. -/
def prepareQubit (s : QState) (i : Nat) (c : Char) : Option QState :=
  if c = 'Z' then do
    let s ← s.applyH i
    let s ← s.applyS i
    let s ← s.applyS i
    s.applyH i
  else if c = 'x' then
    s.applyH i
  else if c = 'X' then do
    let s ← s.applyH i
    let s ← s.applyS i
    s.applyS i
  else if c = 'y' then do
    let s ← s.applyH i
    s.applyS i
  else if c = 'Y' then do
    let s ← s.applyH i
    let s ← s.applyS i
    let s ← s.applyS i
    s.applyS i
  else some s

/-- The loop `for (i = 0; i < input.length(); i++) switch (input[i])`, started at
index `i` on the remaining characters. -/
def prepareFrom : Nat → List Char → QState → Option QState
  | _, [], s => some s
  | i, c :: cs, s => do
    let s ← prepareQubit s i c
    prepareFrom (i + 1) cs s

/-- Input preparation `SatEncoder::initializeState`: `x = 0`, `z = Id`, `r = 0`,
then one gate sequence per character of `input`. The uuid of a new `QState` is
not set by the source; it is taken as `0`. -/
def initializeState (nrOfQubits : Nat) (input : String) : Option QState :=
  let tx : List BitRow :=
    (List.range nrOfQubits).map fun _ => List.replicate nrOfQubits false
  let tz : List BitRow :=
    (List.range nrOfQubits).map fun i =>
      (List.range nrOfQubits).map fun j => if i = j then true else false
  let tr : List Int := List.replicate nrOfQubits 0
  let result : QState := { n := nrOfQubits, x := tx, z := tz, r := tr, prevGenId := 0 }
  if input.length ≠ 0 then prepareFrom 0 input.toList result else some result

/-! ## Circuits -/

/-- Modelled from the spec: the operation types `qc::OpType` of the
quantum-computation collaborator. Only the names that `SatEncoder.cpp` compares
against are listed one by one; `other` stands for every further type. -/
inductive OpType where
  | I | H | X | Y | Z | S | Sdag | T | Tdag
  | other (code : Nat)
deriving DecidableEq, Repr

/-- Modelled from the spec: an operation `qc::Operation` of the collaborator, with
what the encoder reads of it: `getType()`, `getTargets()`, `getControls()`. -/
structure Operation where
  type : OpType
  targets : List Nat
  controls : List Nat
deriving DecidableEq, Repr

/-- The call `isControlled()` of the collaborator: the operation has a control. -/
def Operation.isControlled (op : Operation) : Bool := !op.controls.isEmpty

/-- Modelled from the spec: a circuit `qc::QuantumComputation`, its qubit count and
its operations in order. -/
structure QuantumComputation where
  nqubits : Nat
  ops : List Operation
deriving DecidableEq, Repr

/-- The call `empty()` of the collaborator. -/
def QuantumComputation.empty (qc : QuantumComputation) : Bool := qc.ops.isEmpty

/-- The call `getNqubits()` of the collaborator. -/
def QuantumComputation.getNqubits (qc : QuantumComputation) : Nat := qc.nqubits

/-- The per-qubit DAG `qc::DAG`: for each qubit the ordered list of nullable gate
references (`none` is `nullptr`). -/
abbrev DAG := List (List (Option Operation))

/-- Clifford check `SatEncoder::isClifford`: the loop over the operations, which
returns `false` at the first type outside the list. -/
def isClifford (qc : QuantumComputation) : Bool :=
  let rec loop : List Operation → Bool
    | [] => true
    | op :: rest =>
      let opType := op.type
      if opType ≠ OpType.H ∧ opType ≠ OpType.S ∧ opType ≠ OpType.Sdag ∧
          opType ≠ OpType.X ∧ opType ≠ OpType.Z ∧ opType ≠ OpType.Y ∧
          opType ≠ OpType.I then
        false
      else loop rest
  loop qc.ops

/-! ## Maps -/

namespace StdMap

/-- Lookup `std::map::at`; `none` when the key is absent (the source throws). -/
def atKey {κ ν : Type} [DecidableEq κ] : List (κ × ν) → κ → Option ν
  | [], _ => none
  | (k1, v) :: rest, k => if k1 = k then some v else atKey rest k

/-- Insertion `std::map::emplace` (and `insert` of a pair): the map, and `true`
when the key was absent and the pair was inserted. -/
def emplace {κ ν : Type} [DecidableEq κ] (m : List (κ × ν)) (k : κ) (v : ν) :
    List (κ × ν) × Bool :=
  match atKey m k with
  | some _ => (m, false)
  | none => (m ++ [(k, v)], true)

end StdMap

/-! ## Encoder state -/

/-- A `double`, kept as its uninterpreted bit pattern. -/
structure Double where
  bits : Nat
deriving DecidableEq, Repr

/-- The record `Statistics`. -/
structure Statistics where
  nrOfGates : Nat
  nrOfQubits : Nat
  nrOfSatVars : Nat
  nrOfGenerators : Nat
  nrOfFunctionalConstr : Nat
  circuitDepth : Nat
  nrOfDiffInputStates : Nat
  z3StatsMap : List (String × Double)
  equal : Bool
  satisfiable : Bool
  preprocTime : Nat
  solvingTime : Nat
  satConstructionTime : Nat
deriving DecidableEq, Repr

/-- The result `SatEncoder::CircuitRepresentation` of preprocessing. -/
structure CircuitRepresentation where
  generatorMappings : List (List (Uuid × Uuid))
  idGeneratorMap : List (Uuid × Generator)
deriving DecidableEq, Repr

/-- The member variables of the class `SatEncoder`. -/
structure SatEncoder where
  generators : List (Generator × Nat)
  generatorIdMap : List (Generator × Uuid)
  stats : Statistics
  nrOfInputGenerators : Nat
  uniqueGenCnt : Nat
deriving DecidableEq, Repr

/-- A newly constructed encoder: empty maps, zero counters, default statistics. -/
def SatEncoder.fresh : SatEncoder :=
  { generators := [], generatorIdMap := [], nrOfInputGenerators := 0, uniqueGenCnt := 0,
    stats :=
      { nrOfGates := 0, nrOfQubits := 0, nrOfSatVars := 0, nrOfGenerators := 0,
        nrOfFunctionalConstr := 0, circuitDepth := 0, nrOfDiffInputStates := 0,
        z3StatsMap := [], equal := false, satisfiable := false, preprocTime := 0,
        solvingTime := 0, satConstructionTime := 0 } }

/-- The call `boost::uuids::random_generator()()`: random uuids are taken never to
collide; the uuid drawn is the number of uuids handed out so far, each of which
the source stores in `generatorIdMap` right away. -/
def randomUuid (enc : SatEncoder) : Uuid := enc.generatorIdMap.length

/-! ## Preprocessing -/

/-- Registry step shared by the two interning loops of `preprocessCircuit`:
`generators.emplace(gen, uniqueGenCnt)` and the choice of `genId`
(a new uuid for a new generator, `generatorIdMap.at(gen)` otherwise). -/
def internGenerator (enc : SatEncoder) (gen : Generator) : Option (Uuid × SatEncoder) :=
  let inspair := StdMap.emplace enc.generators gen enc.uniqueGenCnt
  let enc := { enc with generators := inspair.1 }
  if inspair.2 then
    let genId := randomUuid enc
    some (genId, { enc with
      uniqueGenCnt := enc.uniqueGenCnt + 1
      generatorIdMap := (StdMap.emplace enc.generatorIdMap gen genId).1 })
  else do
    let genId ← StdMap.atKey enc.generatorIdMap gen
    some (genId, enc)

/-- Body of the loop "store generators of input state" for one state. -/
def internInitial (acc : CircuitRepresentation × SatEncoder) (state : QState) :
    Option (QState × CircuitRepresentation × SatEncoder) := do
  let initLevelGenerator ← state.getLevelGenerator
  let (genId, enc) ← internGenerator acc.2 initLevelGenerator
  let rep := { acc.1 with
    idGeneratorMap := (StdMap.emplace acc.1.idGeneratorMap genId initLevelGenerator).1 }
  some ({ state with prevGenId := genId }, rep, enc)

/-- Body of the interning loop at the end of level `levelCnt` for one state. -/
def internLevel (levelCnt : Nat) (acc : CircuitRepresentation × SatEncoder)
    (state : QState) : Option (QState × CircuitRepresentation × SatEncoder) := do
  let currLevelGen ← state.getLevelGenerator
  let (genId, enc) ← internGenerator acc.2 currLevelGen
  let idGeneratorMap := (StdMap.emplace acc.1.idGeneratorMap genId currLevelGen).1
  let layer ← acc.1.generatorMappings[levelCnt]?
  let generatorMappings :=
    acc.1.generatorMappings.set levelCnt (StdMap.emplace layer state.prevGenId genId).1
  some ({ state with prevGenId := genId },
    { generatorMappings := generatorMappings, idGeneratorMap := idGeneratorMap }, enc)

/-- The loop `for (auto& state: states)` with a body that updates the state, the
representation and the encoder. -/
def forStates
    (body : CircuitRepresentation × SatEncoder → QState →
      Option (QState × CircuitRepresentation × SatEncoder)) :
    List QState → CircuitRepresentation × SatEncoder →
      Option (List QState × CircuitRepresentation × SatEncoder)
  | [], acc => some ([], acc)
  | state :: rest, acc => do
    let (state1, acc1) ← body acc state
    let (rest1, acc2) ← forStates body rest acc1
    some (state1 :: rest1, acc2)

/-- The gate dispatch inside `for (auto& currState: states)` of `preprocessCircuit`,
for one state. `control` is read from the first control; it is used on the
controlled-X branch only, where a control exists. -/
def applyGate (gate : Operation) (qubitCnt target : Nat) (currState : QState) :
    Option QState :=
  if gate.type = OpType.H then
    currState.applyH target
  else if gate.type = OpType.S then
    currState.applyS target
  else if gate.type = OpType.Sdag then do
    let s ← currState.applyS target
    let s ← s.applyS target
    s.applyS target
  else if gate.type = OpType.Z then do
    let s ← currState.applyH target
    let s ← s.applyS target
    let s ← s.applyS target
    s.applyH target
  else if gate.type = OpType.X ∧ ¬ gate.isControlled then do
    let s ← currState.applyH target
    let s ← s.applyS target
    s.applyS target
  else if gate.type = OpType.Y then do
    let s ← currState.applyH target
    let s ← s.applyS target
    let s ← s.applyS target
    s.applyS target
  else if gate.isControlled ∧ gate.type = OpType.X then
    match gate.controls.head? with
    | some control =>
      if qubitCnt = control then currState.applyCNOT control target else some currState
    | none => some currState
  else some currState

/-- Body of the loop over `qubitCnt` inside one level of `preprocessCircuit`:
the gate referenced at `dag[qubitCnt][levelCnt]`, if any, is counted and applied
to every state. -/
def applyQubit (dag : DAG) (levelCnt : Nat) (acc : List QState × Nat) (qubitCnt : Nat) :
    Option (List QState × Nat) := do
  let ops ← dag[qubitCnt]?
  let nrOfOpsOnQubit := ops.length
  if levelCnt < nrOfOpsOnQubit then
    if !ops.isEmpty then
      match ← ops[levelCnt]? with
      | some gate => do
        let target ← gate.targets[0]?
        let states ← acc.1.mapM (applyGate gate qubitCnt target)
        some (states, acc.2 + 1)
      | none => some acc
    else some acc
  else some acc

/-- The gates of level `levelCnt`, applied to the bank of states in ascending
qubit order; the second component counts the visited gates (`stats.nrOfGates`). -/
def applyLevel (dag : DAG) (levelCnt : Nat) (acc : List QState × Nat) :
    Option (List QState × Nat) :=
  (List.range dag.length).foldlM (applyQubit dag levelCnt) acc

/-- Body of the loop over `levelCnt` of `preprocessCircuit`. -/
def preprocessLevel (dag : DAG)
    (acc : List QState × CircuitRepresentation × SatEncoder) (levelCnt : Nat) :
    Option (List QState × CircuitRepresentation × SatEncoder) := do
  let (states, nrOfGates) ← applyLevel dag levelCnt (acc.1, acc.2.2.stats.nrOfGates)
  let enc := { acc.2.2 with stats := { acc.2.2.stats with nrOfGates := nrOfGates } }
  forStates (internLevel levelCnt) states (acc.2.1, enc)

/-- The number of levels of a DAG: the largest number of entries of a qubit. -/
def nrOfLevels (dag : DAG) : Nat :=
  dag.foldl (fun acc ops => if ops.length > acc then ops.length else acc) 0

/-- The initial bank of states of `preprocessCircuit`: one state per input string
when there are at least two inputs, the all-zero state otherwise. -/
def initialStates (nrOfQubits : Nat) (inputs : List String) : Option (List QState) :=
  if inputs.length > 1 then
    inputs.mapM (initializeState nrOfQubits)
  else do
    let s ← initializeState nrOfQubits ""
    some [s]

/-- Preprocessing `SatEncoder::preprocessCircuit`; `elapsed` is the measured
duration in milliseconds. -/
def SatEncoder.preprocessCircuit (enc : SatEncoder) (dag : DAG) (inputs : List String)
    (elapsed : Nat) : Option (CircuitRepresentation × SatEncoder) := do
  let nrOfQubits := dag.length
  let nrOfLevels := nrOfLevels dag
  let enc := { enc with stats := { enc.stats with
    circuitDepth :=
      if nrOfLevels > enc.stats.circuitDepth then nrOfLevels else enc.stats.circuitDepth } }
  let representation : CircuitRepresentation :=
    { generatorMappings := List.replicate nrOfLevels [], idGeneratorMap := [] }
  let states ← initialStates nrOfQubits inputs
  let (states, representation, enc) ← forStates internInitial states (representation, enc)
  let enc :=
    if enc.nrOfInputGenerators = 0 then
      { enc with nrOfInputGenerators := enc.uniqueGenCnt }
    else enc
  let (_, representation, enc) ←
    (List.range nrOfLevels).foldlM (preprocessLevel dag) (states, representation, enc)
  let enc := { enc with stats := { enc.stats with
    preprocTime := enc.stats.preprocTime + elapsed } }
  some (representation, enc)

/-! ## The solver collaborator -/

/-- Name of a bit-vector constant: the source prints the stem (`x^` for the first
circuit, the primed stem for the second) followed by the level `k`; two
names are the same string exactly when stem and level agree. -/
structure BvName where
  primed : Bool
  level : Nat
deriving DecidableEq, Repr

/-- Bit-vector terms built through `z3::context`. -/
inductive BvExpr where
  | const (name : BvName) (width : Nat)
  | val (value : Nat) (width : Nat)
deriving DecidableEq, Repr

/-- Boolean z3 expressions that the encoder builds: `==` and `!=` on bit-vectors,
`ult`, `==` on Booleans (`iff`) and `implies`. -/
inductive Z3Expr where
  | eq (a b : BvExpr)
  | ne (a b : BvExpr)
  | ult (a b : BvExpr)
  | iff (p q : Z3Expr)
  | implies (p q : Z3Expr)
deriving DecidableEq, Repr

/-- The call `ctx.bv_const(name, width)` of z3. There is no bit-vector sort of width
zero: z3 reports an invalid argument and the C++ API raises `z3::exception`. -/
def bvConst (name : BvName) (width : Nat) : Option BvExpr :=
  if width = 0 then none else some (BvExpr.const name width)

/-- The call `ctx.bv_val(value, width)` of z3. The numeral denotes `value` modulo
`2 ^ width` (see `BvExpr.eval`); width zero is rejected as in `bvConst`. -/
def bvVal (value : Nat) (width : Nat) : Option BvExpr :=
  if width = 0 then none else some (BvExpr.val value width)

/-- An assignment gives every bit-vector constant a value. -/
abbrev Assignment := BvName → Nat

/-- Value of a bit-vector term: an unsigned number below `2 ^ width`. -/
def BvExpr.eval (σ : Assignment) : BvExpr → Nat
  | BvExpr.const name width => σ name % 2 ^ width
  | BvExpr.val value width => value % 2 ^ width

/-- Truth value of a z3 expression under an assignment. -/
def Z3Expr.eval (σ : Assignment) : Z3Expr → Bool
  | Z3Expr.eq a b => decide (a.eval σ = b.eval σ)
  | Z3Expr.ne a b => decide (a.eval σ ≠ b.eval σ)
  | Z3Expr.ult a b => decide (a.eval σ < b.eval σ)
  | Z3Expr.iff p q => p.eval σ == q.eval σ
  | Z3Expr.implies p q => !p.eval σ || q.eval σ

/-- The state of a `z3::solver`: the assertions added so far. -/
structure Solver where
  assertions : List Z3Expr
deriving DecidableEq, Repr

/-- The call `solver.add(cons)`. -/
def Solver.add (solver : Solver) (cons : Z3Expr) : Solver :=
  { assertions := solver.assertions ++ [cons] }

/-- A set of assertions is satisfiable when one assignment makes all of them true. -/
def Satisfiable (assertions : List Z3Expr) : Prop :=
  ∃ σ : Assignment, ∀ c ∈ assertions, c.eval σ = true

/-- The answers `z3::check_result` of `solver.check()`. -/
inductive CheckResult where
  | sat | unsat | unknown
deriving DecidableEq, Repr

/-- What the encoder takes from outside: the DAG constructor of the circuit
library, `check()` and `statistics()` of the solver, and the measured durations. -/
structure Environment where
  constructDAG : QuantumComputation → DAG
  check : Solver → CheckResult
  statistics : Solver → List (String × Double)
  preprocMillis : DAG → Nat
  constructionMillis : Nat
  solvingMillis : Nat

/-- A solver is sound when `sat` is answered for satisfiable assertions only and
`unsat` for unsatisfiable ones only. -/
def SolverSound (check : Solver → CheckResult) : Prop :=
  ∀ solver, (check solver = CheckResult.sat → Satisfiable solver.assertions) ∧
    (check solver = CheckResult.unsat → ¬ Satisfiable solver.assertions)

/-- A solver is decisive when it never answers `unknown`. -/
def SolverDecisive (check : Solver → CheckResult) : Prop :=
  ∀ solver, check solver ≠ CheckResult.unknown

/-! ## Encoding -/

/-- The bit-width `static_cast<std::size_t>(std::ceil(std::log2(generatorCnt)))`:
the least `w` with `generatorCnt ≤ 2 ^ w`. The floating-point `log2` and `ceil`
are taken as exact. -/
def bitwidthOf (generatorCnt : Nat) : Nat :=
  ((List.range generatorCnt).find? fun w => decide (generatorCnt ≤ 2 ^ w)).getD 0

/-- The flag `std::log2(generatorCnt) < static_cast<double>(bitwidth)`. -/
def blockingConstraintsNeeded (generatorCnt bitwidth : Nat) : Bool :=
  decide (generatorCnt < 2 ^ bitwidth)

/-- The loop that creates the bit-vector constants of levels `0 .. depth`. -/
def mkVars (primed : Bool) (depth bitwidth : Nat) : Option (List BvExpr) :=
  (List.range (depth + 1)).mapM fun k => bvConst { primed := primed, level := k } bitwidth

/-- The constraint of one entry `(from, to)` of the generator map of level `i`, with
the dense ids looked up in the registry `generators`;
`connective` is `==` in the miter and `implies` in the single-circuit instance. -/
def mappingConstraint (generators : List (Generator × Nat)) (rep : CircuitRepresentation)
    (vars : List BvExpr) (bitwidth : Nat) (connective : Z3Expr → Z3Expr → Z3Expr) (i : Nat)
    (entry : Uuid × Uuid) : Option Z3Expr := do
  let g1 ← StdMap.atKey generators (← StdMap.atKey rep.idGeneratorMap entry.1)
  let g2 ← StdMap.atKey generators (← StdMap.atKey rep.idGeneratorMap entry.2)
  let left := Z3Expr.eq (← vars[i]?) (← bvVal g1 bitwidth)
  let right := Z3Expr.eq (← vars[i + 1]?) (← bvVal g2 bitwidth)
  some (connective left right)

/-- The loops over the levels `i < depth` and over the entries of each level. -/
def functionalConstraints (generators : List (Generator × Nat))
    (rep : CircuitRepresentation) (vars : List BvExpr) (bitwidth : Nat)
    (connective : Z3Expr → Z3Expr → Z3Expr) : Option (List Z3Expr) := do
  let perLevel ← (List.range rep.generatorMappings.length).mapM fun i => do
    let layer ← rep.generatorMappings[i]?
    layer.mapM (mappingConstraint generators rep vars bitwidth connective i)
  some perLevel.flatten

/-- The blocking constraints `ult(var, bv_val(generatorCnt, bitwidth))`, when needed. -/
def blockingConstraints (needed : Bool) (vars : List BvExpr) (generatorCnt bitwidth : Nat) :
    Option (List Z3Expr) :=
  if needed then
    vars.mapM fun var => do some (Z3Expr.ult var (← bvVal generatorCnt bitwidth))
  else some []

/-- The encoding of one circuit inside `constructMiterInstance` and
`constructSatInstance`: constants, functional constraints, blocking constraints. -/
def encodeCircuit (enc : SatEncoder) (rep : CircuitRepresentation) (primed : Bool)
    (connective : Z3Expr → Z3Expr → Z3Expr) (generatorCnt bitwidth : Nat) (needed : Bool)
    (solver : Solver) : Option (List BvExpr × Solver × SatEncoder) := do
  let depth := rep.generatorMappings.length
  let vars ← mkVars primed depth bitwidth
  let enc := { enc with stats := { enc.stats with
    nrOfSatVars := enc.stats.nrOfSatVars + (depth + 1) } }
  let functional ← functionalConstraints enc.generators rep vars bitwidth connective
  let enc := { enc with stats := { enc.stats with
    nrOfFunctionalConstr := enc.stats.nrOfFunctionalConstr + functional.length } }
  let blocking ← blockingConstraints needed vars generatorCnt bitwidth
  some (vars, (functional ++ blocking).foldl Solver.add solver, enc)

/-- Single-circuit instance `SatEncoder::constructSatInstance`. -/
def SatEncoder.constructSatInstance (enc : SatEncoder)
    (circuitRepresentation : CircuitRepresentation) (solver : Solver) (elapsed : Nat) :
    Option (Solver × SatEncoder) := do
  let generatorCnt := enc.generators.length
  let enc := { enc with stats := { enc.stats with nrOfGenerators := generatorCnt } }
  let bitwidth := bitwidthOf generatorCnt
  let needed := blockingConstraintsNeeded generatorCnt bitwidth
  let (_, solver, enc) ←
    encodeCircuit enc circuitRepresentation false Z3Expr.implies generatorCnt bitwidth
      needed solver
  some (solver, { enc with stats := { enc.stats with satConstructionTime := elapsed } })

/-- Miter instance `SatEncoder::constructMiterInstance`. -/
def SatEncoder.constructMiterInstance (enc : SatEncoder)
    (circOneRep circTwoRep : CircuitRepresentation) (solver : Solver) (elapsed : Nat) :
    Option (Solver × SatEncoder) := do
  let generatorCnt := enc.generators.length
  let enc := { enc with stats := { enc.stats with nrOfGenerators := generatorCnt } }
  let bitwidth := bitwidthOf generatorCnt
  let needed := blockingConstraintsNeeded generatorCnt bitwidth
  let (varsOne, solver, enc) ←
    encodeCircuit enc circOneRep false Z3Expr.iff generatorCnt bitwidth needed solver
  let (varsTwo, solver, enc) ←
    encodeCircuit enc circTwoRep true Z3Expr.iff generatorCnt bitwidth needed solver
  let equalInputs := Z3Expr.eq (← varsOne.head?) (← varsTwo.head?)
  let unequalOutputs := Z3Expr.ne (← varsOne.getLast?) (← varsTwo.getLast?)
  let nrOfInputs ← bvVal enc.nrOfInputGenerators bitwidth
  let input1 := Z3Expr.ult (← varsOne.head?) nrOfInputs
  let input2 := Z3Expr.ult (← varsTwo.head?) nrOfInputs
  let solver := solver.add equalInputs
  let solver := solver.add unequalOutputs
  let solver := solver.add input1
  let solver := solver.add input2
  some (solver, { enc with stats := { enc.stats with satConstructionTime := elapsed } })

/-- Solver call `SatEncoder::isSatisfiable`. -/
def SatEncoder.isSatisfiable (enc : SatEncoder) (env : Environment) (solver : Solver) :
    Bool × SatEncoder :=
  let answer := env.check solver
  let enc := { enc with stats := { enc.stats with solvingTime := env.solvingMillis } }
  let (result, enc) :=
    if answer = CheckResult.sat then
      (true, { enc with stats := { enc.stats with satisfiable := true } })
    else if answer = CheckResult.unsat then (false, enc)
    else (false, enc)
  let z3StatsMap := (env.statistics solver).foldl
    (fun m kv => (StdMap.emplace m kv.1 kv.2).1) enc.stats.z3StatsMap
  (result, { enc with stats := { enc.stats with z3StatsMap := z3StatsMap } })

/-- Equivalence check `SatEncoder::testEqual`. The line appended to the benchmark
file `filename` is an output only and is left out. -/
def SatEncoder.testEqual (enc : SatEncoder) (env : Environment)
    (circuitOne circuitTwo : QuantumComputation) (inputs : List String) :
    Option (Bool × SatEncoder) :=
  if !isClifford circuitOne || !isClifford circuitTwo then
    some (false, enc)
  else if circuitOne.empty || circuitTwo.empty then
    some (false, enc)
  else do
    let enc := { enc with stats := { enc.stats with
      nrOfDiffInputStates := inputs.length
      nrOfQubits := circuitOne.getNqubits } }
    let dagOne := env.constructDAG circuitOne
    let dagTwo := env.constructDAG circuitTwo
    let (circOneRep, enc) ← enc.preprocessCircuit dagOne inputs (env.preprocMillis dagOne)
    let (circTwoRep, enc) ← enc.preprocessCircuit dagTwo inputs (env.preprocMillis dagTwo)
    let (solver, enc) ←
      enc.constructMiterInstance circOneRep circTwoRep { assertions := [] }
        env.constructionMillis
    let (satisfiable, enc) := enc.isSatisfiable env solver
    let equal := !satisfiable
    some (equal, { enc with stats := { enc.stats with equal := equal } })

/-- Satisfiability check `SatEncoder::checkSatisfiability`. -/
def SatEncoder.checkSatisfiability (enc : SatEncoder) (env : Environment)
    (circuitOne : QuantumComputation) (inputs : List String) : Option SatEncoder :=
  if !isClifford circuitOne then
    some enc
  else do
    let enc := { enc with stats := { enc.stats with
      nrOfDiffInputStates := inputs.length
      nrOfQubits := circuitOne.getNqubits } }
    let dag := env.constructDAG circuitOne
    let (circRep, enc) ← enc.preprocessCircuit dag inputs (env.preprocMillis dag)
    let (solver, enc) ←
      enc.constructSatInstance circRep { assertions := [] } env.constructionMillis
    let (satisfiable, enc) := enc.isSatisfiable env solver
    some { enc with stats := { enc.stats with satisfiable := satisfiable } }

/-! ## A reference solver

An executable decision procedure for the assertions the encoder builds: it tries
every assignment of the constants that occur. -/

/-- The constants of a bit-vector term, with their widths. -/
def BvExpr.names : BvExpr → List (BvName × Nat)
  | BvExpr.const name width => [(name, width)]
  | BvExpr.val _ _ => []

/-- The constants of an expression, with their widths. -/
def Z3Expr.names : Z3Expr → List (BvName × Nat)
  | Z3Expr.eq a b => a.names ++ b.names
  | Z3Expr.ne a b => a.names ++ b.names
  | Z3Expr.ult a b => a.names ++ b.names
  | Z3Expr.iff p q => p.names ++ q.names
  | Z3Expr.implies p q => p.names ++ q.names

/-- The largest width in a list of constants. -/
def maxWidth : List (BvName × Nat) → Nat
  | [] => 0
  | p :: rest => max p.2 (maxWidth rest)

/-- All value tables that give each listed name a value below `bound`. -/
def candidates (bound : Nat) : List BvName → List (List (BvName × Nat))
  | [] => [[]]
  | name :: rest =>
    (List.range bound).flatMap fun v => (candidates bound rest).map fun l => (name, v) :: l

/-- The assignment read off a value table (`0` for names outside the table). -/
def assignmentOf (l : List (BvName × Nat)) : Assignment :=
  fun name => (StdMap.atKey l name).getD 0

/-- Exhaustive search over the assignments of the constants that occur. -/
def referenceCheck (solver : Solver) : CheckResult :=
  let names := solver.assertions.flatMap Z3Expr.names
  let bound := 2 ^ maxWidth names
  if (candidates bound (names.map Prod.fst).dedup).any
      (fun l => solver.assertions.all fun c => c.eval (assignmentOf l)) then
    CheckResult.sat
  else CheckResult.unsat

/-- An environment around the reference solver: the given DAG constructor, no
solver statistics, zero durations. -/
def referenceEnv (constructDAG : QuantumComputation → DAG) : Environment :=
  { constructDAG := constructDAG, check := referenceCheck, statistics := fun _ => [],
    preprocMillis := fun _ => 0, constructionMillis := 0, solvingMillis := 0 }

/-! ## Vocabulary of the statements -/

/-- A tableau is well shaped: `x` and `z` are `n × n`, and `r` holds `n` phase
bits, each `0` or `1`. -/
def QState.WellShaped (s : QState) : Prop :=
  s.x.length = s.n ∧ s.z.length = s.n ∧ s.r.length = s.n ∧
    (∀ row ∈ s.x, row.length = s.n) ∧ (∀ row ∈ s.z, row.length = s.n) ∧
    (∀ v ∈ s.r, v = 0 ∨ v = 1)

instance (s : QState) : Decidable s.WellShaped := by
  unfold QState.WellShaped; infer_instance

/-- The rows of a tableau, each with its X part, Z part and phase. -/
def QState.rows (s : QState) : List Row := List.zip s.x (List.zip s.z s.r)

/-- The tableau with its rows replaced. -/
def QState.withRows (s : QState) (rows : List Row) : QState :=
  { s with x := rows.map (fun row => row.1), z := rows.map (fun row => row.2.1),
           r := rows.map (fun row => row.2.2) }

/-- A row of an `n`-qubit well-shaped tableau. -/
def RowOK (n : Nat) (row : Row) : Prop :=
  row.1.length = n ∧ row.2.1.length = n ∧ (row.2.2 = 0 ∨ row.2.2 = 1)

/-! ### Closed forms of the tableau updates -/

/-- Closed form of `hRow` on a row that has column `t`. -/
def hPure (t : Nat) (row : Row) : Row :=
  (row.1.set t (row.2.1.getD t false), row.2.1.set t (row.1.getD t false),
    Int.xor row.2.2 (boolToInt (row.1.getD t false) * boolToInt (row.2.1.getD t false)))

/-- Closed form of `sRow` on a row that has column `t`. -/
def sPure (t : Nat) (row : Row) : Row :=
  (row.1, row.2.1.set t (xor (row.2.1.getD t false) (row.1.getD t false)),
    Int.xor row.2.2 (boolToInt (row.1.getD t false) * boolToInt (row.2.1.getD t false)))

/-- Closed form of `cnotRow` on a row that has the columns `c` and `t`. -/
def cnotPure (c t : Nat) (row : Row) : Row :=
  (row.1.set t (xor (row.1.getD t false) (row.1.getD c false)),
    row.2.1.set c (xor (row.2.1.getD c false) (row.2.1.getD t false)),
    Int.xor row.2.2
      ((boolToInt (row.1.getD c false) * boolToInt (row.2.1.getD t false)) *
        Int.xor (Int.xor (boolToInt (row.1.getD t false)) (boolToInt (row.2.1.getD c false))) 1))

/-- The rows of a well-shaped `n`-qubit tableau. -/
def RowsOK (n : Nat) (rows : List Row) : Prop :=
  rows.length = n ∧ ∀ row ∈ rows, RowOK n row

/-- A well-shaped two-qubit tableau with non-trivial entries and both phase values. -/
def sampleTableau : QState :=
  { n := 2, x := [[true, false], [true, true]], z := [[false, true], [true, false]],
    r := [1, 0], prevGenId := 0 }

/-! ### Diagonal tableaux and input preparation -/

/-- The effect of `applyH` on the bits `(x, z, r)` of the target column. -/
def hBit (p : Bool × Bool × Int) : Bool × Bool × Int :=
  (p.2.1, p.1, Int.xor p.2.2 (boolToInt p.1 * boolToInt p.2.1))

/-- The effect of `applyS` on the bits `(x, z, r)` of the target column. -/
def sBit (p : Bool × Bool × Int) : Bool × Bool × Int :=
  (p.1, xor p.2.1 p.1, Int.xor p.2.2 (boolToInt p.1 * boolToInt p.2.1))

/-- Row `i` of a diagonal tableau: zero outside column `i`, the bits `p` there. -/
def diagRow (n i : Nat) (p : Bool × Bool × Int) : Row :=
  ((List.range n).map fun j => decide (i = j) && p.1,
   (List.range n).map fun j => decide (i = j) && p.2.1, p.2.2)

/-- The rows of the diagonal tableau with the bits `d i` on row `i`. -/
def diagRows (n : Nat) (d : Nat → Bool × Bool × Int) : List Row :=
  (List.range n).map fun i => diagRow n i (d i)

/-- The diagonal tableau with the bits `d i` on row `i`. -/
def diagState (n : Nat) (d : Nat → Bool × Bool × Int) : QState :=
  { n := n, x := (diagRows n d).map (fun row => row.1),
    z := (diagRows n d).map (fun row => row.2.1),
    r := (diagRows n d).map (fun row => row.2.2), prevGenId := 0 }

/-- Phases are bits on every row. -/
def PhaseOK (d : Nat → Bool × Bool × Int) : Prop := ∀ i, (d i).2.2 = 0 ∨ (d i).2.2 = 1

/-- The bits `d` with those of row `i` changed by `f`. -/
def upd (d : Nat → Bool × Bool × Int) (i : Nat) (f : Bool × Bool × Int → Bool × Bool × Int) :
    Nat → Bool × Bool × Int :=
  fun j => if j = i then f (d j) else d j

/-- The bits `(X, Z, r)` of the stabilizer that the specification lets an input
character name; every character other than `Z x X y Y` names `+Z`, as `z` does. -/
def stabilizerOf (c : Char) : Bool × Bool × Int :=
  if c = 'Z' then (false, true, 1)
  else if c = 'x' then (true, false, 0)
  else if c = 'X' then (true, false, 1)
  else if c = 'y' then (true, true, 0)
  else if c = 'Y' then (true, true, 1)
  else (false, true, 0)

/-- The bits after the characters `cs` have been applied from qubit `i` on. -/
def preparedBits (d : Nat → Bool × Bool × Int) (i : Nat) (cs : List Char) :
    Nat → Bool × Bool × Int :=
  fun j => if i ≤ j ∧ j < i + cs.length then stabilizerOf (cs.getD (j - i) 'z') else d j

/-! ### The encoder up to statistics -/

/-- The encoder with its statistics reset: what remains is the registry. -/
def SatEncoder.core (e : SatEncoder) : SatEncoder := { e with stats := SatEncoder.fresh.stats }

/-- The part of the preprocessing state that does not hold statistics. -/
def coreAcc (acc : List QState × CircuitRepresentation × SatEncoder) :
    List QState × CircuitRepresentation × SatEncoder :=
  (acc.1, acc.2.1, acc.2.2.core)

/-- The steps of `testEqual` between the input checks and the solver call: both
circuits are preprocessed on the same encoder and the miter is built. -/
def miterPipeline (enc : SatEncoder) (dagOne dagTwo : DAG) (inputs : List String)
    (t1 t2 t3 : Nat) : Option (Solver × SatEncoder) := do
  let (circOneRep, enc) ← enc.preprocessCircuit dagOne inputs t1
  let (circTwoRep, enc) ← enc.preprocessCircuit dagTwo inputs t2
  enc.constructMiterInstance circOneRep circTwoRep { assertions := [] } t3

/-! ### Circuits, outputs and trajectories of the scenarios -/

/-- An uncontrolled operation of the given type on one target qubit. -/
def gate (type : OpType) (target : Nat) : Operation :=
  { type := type, targets := [target], controls := [] }

/-- The controlled-X operation with one control and one target. -/
def cnot (control target : Nat) : Operation :=
  { type := OpType.X, targets := [target], controls := [control] }

/-- Modelled from the spec: one step of the DAG constructor of the circuit library. The
operation is appended to the lists of its control and target qubits, at the same
index in each: shorter lists are first filled up with null references. -/
def addToDag (dag : DAG) (op : Operation) : DAG :=
  let qubits := op.controls ++ op.targets
  let layer := (qubits.map fun q => (dag.getD q []).length).foldl max 0
  (List.range dag.length).map fun q =>
    let ops := dag.getD q []
    if q ∈ qubits then ops ++ List.replicate (layer - ops.length) none ++ [some op] else ops

/-- Modelled from the spec: the DAG constructor `qc::CircuitOptimizer::constructDAG` of
the circuit library: one list of gate references per qubit, every operation referenced
from each qubit it touches. -/
def constructDAG (qc : QuantumComputation) : DAG :=
  qc.ops.foldl addToDag (List.replicate qc.nqubits [])

/-- The canonical generator that a DAG produces from one input state: the state is
prepared by `initializeState`, taken through the levels by `applyLevel` and keyed
by `getLevelGenerator`. -/
def finalGenerator (dag : DAG) (input : String) : Option Generator := do
  let state ← initializeState dag.length input
  let (states, _) ← (List.range (nrOfLevels dag)).foldlM
    (fun acc levelCnt => applyLevel dag levelCnt acc) ([state], 0)
  let final ← states.head?
  final.getLevelGenerator

/-- The uuid under which the registry knows the generator with dense id `g`. -/
def uuidOfDense (enc : SatEncoder) (g : Nat) : Option Uuid := do
  let entry ← enc.generators.find? fun p => p.2 == g
  StdMap.atKey enc.generatorIdMap entry.1

/-- The dense id of the generator that a representation files under `uuid`. -/
def denseOfUuid (enc : SatEncoder) (rep : CircuitRepresentation) (uuid : Uuid) : Option Nat := do
  StdMap.atKey enc.generators (← StdMap.atKey rep.idGeneratorMap uuid)

/-- The trajectory of the dense id `g` through the generator maps of a
representation: the dense id reached after the last level. -/
def trajectoryEnd (enc : SatEncoder) (rep : CircuitRepresentation) (g : Nat) : Option Nat := do
  let start ← uuidOfDense enc g
  let last ← rep.generatorMappings.foldlM (fun uuid layer => StdMap.atKey layer uuid) start
  denseOfUuid enc rep last

/-- An environment whose solver gives up on every query. -/
def unknownEnv : Environment :=
  { constructDAG := constructDAG, check := fun _ => CheckResult.unknown,
    statistics := fun _ => [], preprocMillis := fun _ => 0, constructionMillis := 0,
    solvingMillis := 0 }

/-- The constraint `(a == i) == (b == j)` at bit-width 3. -/
def link3 (a : BvExpr) (i : Nat) (b : BvExpr) (j : Nat) : Z3Expr :=
  Z3Expr.iff (Z3Expr.eq a (BvExpr.val i 3)) (Z3Expr.eq b (BvExpr.val j 3))

/-- The constant of level `k` of circuit one (`primed = false`) or two, at bit-width 3. -/
def var3 (primed : Bool) (k : Nat) : BvExpr :=
  BvExpr.const { primed := primed, level := k } 3

/-- The miter of the scenario "CNOT twice against the identity" on two qubits with the
inputs `zz, zx, xz, xx`: seven generators, bit-width 3, four input generators. -/
def cnotMiter : List Z3Expr :=
  [link3 (var3 false 0) 0 (var3 false 1) 0, link3 (var3 false 0) 1 (var3 false 1) 1,
   link3 (var3 false 0) 2 (var3 false 1) 2, link3 (var3 false 0) 3 (var3 false 1) 3,
   Z3Expr.ult (var3 false 0) (BvExpr.val 7 3), Z3Expr.ult (var3 false 1) (BvExpr.val 7 3),
   link3 (var3 true 0) 0 (var3 true 1) 4, link3 (var3 true 0) 1 (var3 true 1) 1,
   link3 (var3 true 0) 2 (var3 true 1) 5, link3 (var3 true 0) 3 (var3 true 1) 6,
   link3 (var3 true 1) 4 (var3 true 2) 0, link3 (var3 true 1) 1 (var3 true 2) 1,
   link3 (var3 true 1) 5 (var3 true 2) 2, link3 (var3 true 1) 6 (var3 true 2) 3,
   Z3Expr.ult (var3 true 0) (BvExpr.val 7 3), Z3Expr.ult (var3 true 1) (BvExpr.val 7 3),
   Z3Expr.ult (var3 true 2) (BvExpr.val 7 3),
   Z3Expr.eq (var3 false 0) (var3 true 0), Z3Expr.ne (var3 false 1) (var3 true 2),
   Z3Expr.ult (var3 false 0) (BvExpr.val 4 3), Z3Expr.ult (var3 true 0) (BvExpr.val 4 3)]

/-- The bitset that `getLevelGenerator` emits for a row: the X part, the Z part and
the phase bit. -/
def keyRow (row : Row) : BitRow := row.1 ++ row.2.1 ++ [decide (row.2.2 = 1)]

/-- The way a primitive update acts on the well-shaped tableaux of `n` qubits: row by
row through a shape-preserving map (`some g`), or not at all because it reads outside
a row (`none`). -/
def ActsBy (n : Nat) (op : QState → Option QState) : Option (Row → Row) → Prop
  | some g => (∀ row, RowOK n row → RowOK n (g row)) ∧
      ∀ s : QState, s.WellShaped → s.n = n → op s = some (s.withRows (s.rows.map g))
  | none => ∀ s : QState, s.WellShaped → s.n = n → op s = none

/-! ## Statistics as JSON -/

/-- A value of the JSON library, restricted to the kinds that occur in the statistics:
`null`, booleans, unsigned numbers, floating-point numbers and objects (the library
keeps an object as a `std::map` from strings to values). -/
inductive Json where
  | null
  | boolean (b : Bool)
  | unsigned (v : Nat)
  | float (d : Double)
  | object (fields : List (String × Json))

/-- The conversions the library applies when a stored number is read into a variable
of another arithmetic type. They differ between platforms and are not used when a
value is read back with the type it was written with, so they are left open. -/
structure JsonCasts where
  sizeOfFloat : Double → Nat
  sizeOfBool : Bool → Option Nat
  floatOfUnsigned : Nat → Double

/-- Construction of an object from a list of key/value pairs, as the initializer-list
constructor and the conversion from a `std::map` do: the pairs are inserted in order. -/
def Json.ofPairs (pairs : List (String × Json)) : Json :=
  Json.object (pairs.foldl (fun m kv => (StdMap.emplace m kv.1 kv.2).1) [])

/-- Conversion of a `std::map<std::string, double>` to JSON. -/
def Json.ofDoubleMap (m : List (String × Double)) : Json :=
  Json.ofPairs (m.map fun kv => (kv.1, Json.float kv.2))

/-- Access `json::at(key)`; `none` when the value is not an object or lacks the key
(the library throws). -/
def Json.atKey : Json → String → Option Json
  | Json.object fields, key => StdMap.atKey fields key
  | _, _ => none

/-- Read `get_to` into a `std::size_t`; `none` when the library throws. -/
def Json.getSize (casts : JsonCasts) : Json → Option Nat
  | Json.unsigned v => some v
  | Json.float d => some (casts.sizeOfFloat d)
  | Json.boolean b => casts.sizeOfBool b
  | _ => none

/-- Read `get_to` into a `bool`; `none` when the library throws. -/
def Json.getBool : Json → Option Bool
  | Json.boolean b => some b
  | _ => none

/-- Read `get` of a `double`; `none` when the library throws. -/
def Json.getDouble (casts : JsonCasts) : Json → Option Double
  | Json.float d => some d
  | Json.unsigned v => some (casts.floatOfUnsigned v)
  | _ => none

/-- Read `get_to` into a `std::map<std::string, double>`: every member is read as a
`double` and inserted into a new map, which replaces the old one. -/
def Json.getDoubleMap (casts : JsonCasts) : Json → Option (List (String × Double))
  | Json.object fields => do
    let entries ← fields.mapM fun kv => do
      let d ← kv.2.getDouble casts
      some (kv.1, d)
    some (entries.foldl (fun m kv => (StdMap.emplace m kv.1 kv.2).1) [])
  | _ => none

/-- Serialisation `SatEncoder::Statistics::to_json`. -/
def Statistics.to_json (s : Statistics) : Json :=
  Json.ofPairs
    [("numGates", Json.unsigned s.nrOfGates),
     ("nrOfQubits", Json.unsigned s.nrOfQubits),
     ("numSatVarsCreated", Json.unsigned s.nrOfSatVars),
     ("numGenerators", Json.unsigned s.nrOfGenerators),
     ("numFuncConstr", Json.unsigned s.nrOfFunctionalConstr),
     ("circDepth", Json.unsigned s.circuitDepth),
     ("numInputs", Json.unsigned s.nrOfDiffInputStates),
     ("equivalent", Json.boolean s.equal),
     ("satisfiable", Json.boolean s.satisfiable),
     ("preprocTime", Json.unsigned s.preprocTime),
     ("solvingTime", Json.unsigned s.solvingTime),
     ("satConstructionTime", Json.unsigned s.satConstructionTime),
     ("z3map", Json.ofDoubleMap s.z3StatsMap)]

/-- The read `j.at(key).get_to(field)` into a `std::size_t` field. -/
def Json.readSize (casts : JsonCasts) (j : Json) (key : String) : Option Nat :=
  (j.atKey key).bind (Json.getSize casts)

/-- The read `j.at(key).get_to(field)` into a `bool` field. -/
def Json.readBool (j : Json) (key : String) : Option Bool :=
  (j.atKey key).bind Json.getBool

/-- The read `j.at(key).get_to(field)` into a map field. -/
def Json.readDoubleMap (casts : JsonCasts) (j : Json) (key : String) :
    Option (List (String × Double)) :=
  (j.atKey key).bind (Json.getDoubleMap casts)

/-- Deserialisation `SatEncoder::Statistics::from_json`: thirteen reads
`j.at(key).get_to(field)`, which together overwrite every field of the record;
`none` when one of the reads throws. -/
def Statistics.from_json (casts : JsonCasts) (_s : Statistics) (j : Json) :
    Option Statistics :=
  (j.readSize casts "numGates").bind fun nrOfGates =>
  (j.readSize casts "nrOfQubits").bind fun nrOfQubits =>
  (j.readSize casts "numSatVarsCreated").bind fun nrOfSatVars =>
  (j.readSize casts "numGenerators").bind fun nrOfGenerators =>
  (j.readSize casts "numFuncConstr").bind fun nrOfFunctionalConstr =>
  (j.readSize casts "circDepth").bind fun circuitDepth =>
  (j.readSize casts "numInputs").bind fun nrOfDiffInputStates =>
  (j.readBool "equivalent").bind fun equal =>
  (j.readBool "satisfiable").bind fun satisfiable =>
  (j.readSize casts "preprocTime").bind fun preprocTime =>
  (j.readSize casts "solvingTime").bind fun solvingTime =>
  (j.readSize casts "satConstructionTime").bind fun satConstructionTime =>
  (j.readDoubleMap casts "z3map").bind fun z3StatsMap =>
  some
    { nrOfGates := nrOfGates, nrOfQubits := nrOfQubits, nrOfSatVars := nrOfSatVars,
      nrOfGenerators := nrOfGenerators, nrOfFunctionalConstr := nrOfFunctionalConstr,
      circuitDepth := circuitDepth, nrOfDiffInputStates := nrOfDiffInputStates,
      z3StatsMap := z3StatsMap, equal := equal, satisfiable := satisfiable,
      preprocTime := preprocTime, solvingTime := solvingTime,
      satConstructionTime := satConstructionTime }

/-- A sample record of statistics with two solver statistics. -/
def sampleStatistics : Statistics :=
  { nrOfGates := 3, nrOfQubits := 2, nrOfSatVars := 4, nrOfGenerators := 7,
    nrOfFunctionalConstr := 8, circuitDepth := 2, nrOfDiffInputStates := 4,
    z3StatsMap := [("conflicts", { bits := 5 }), ("memory", { bits := 17 })],
    equal := true, satisfiable := false, preprocTime := 1, solvingTime := 2,
    satConstructionTime := 3 }

/-- One choice of the conversions, for evaluating examples. -/
def sampleCasts : JsonCasts :=
  { sizeOfFloat := fun d => d.bits, sizeOfBool := fun _ => none,
    floatOfUnsigned := fun v => { bits := v } }

/-- The constants `x^0 .. x^depth` (or the primed ones) at a positive bit-width. -/
def layerVars (primed : Bool) (depth bitwidth : Nat) : List BvExpr :=
  (List.range (depth + 1)).map fun k => BvExpr.const { primed := primed, level := k } bitwidth

/-- The blocking constraints of a list of constants, present when the registry size
is below `2 ^ bitwidth`. -/
def blockingOf (vars : List BvExpr) (generatorCnt bitwidth : Nat) : List Z3Expr :=
  if generatorCnt < 2 ^ bitwidth then
    vars.map fun var => Z3Expr.ult var (BvExpr.val generatorCnt bitwidth)
  else []

/-- Whether an assertion is an unsigned comparison `ult`. -/
def Z3Expr.isUlt : Z3Expr → Bool
  | Z3Expr.ult _ _ => true
  | _ => false

/-- The one-qubit tableau of the state stabilised by `+Z`. -/
def zeroTableau : QState := { n := 1, x := [[false]], z := [[true]], r := [0], prevGenId := 0 }

/-- Registry invariant: the dense ids stored in `generators` are `0, 1, .., size-1` in
insertion order, `uniqueGenCnt` is the size, the keys are distinct, and
`generatorIdMap` files every generator under the uuid drawn for it (with the uuids of
`randomUuid`, the same list of pairs). -/
def RegistryOK (enc : SatEncoder) : Prop :=
  enc.generatorIdMap = enc.generators ∧
  enc.generators.map Prod.snd = List.range enc.generators.length ∧
  enc.uniqueGenCnt = enc.generators.length ∧
  (enc.generators.map Prod.fst).Nodup

instance (enc : SatEncoder) : Decidable (RegistryOK enc) := by
  unfold RegistryOK; infer_instance

/-- The canonical key of a tableau, in closed form. -/
def QState.key (s : QState) : Generator := s.rows.map keyRow

/-- The uuid map of a representation agrees with the registry: a generator filed
under a uuid is registered under that uuid. -/
def IdMapOK (idm : List (Uuid × Generator)) (enc : SatEncoder) : Prop :=
  ∀ u g, StdMap.atKey idm u = some g → StdMap.atKey enc.generators g = some u

/-- A map keeps its entries: every lookup that succeeds in `m` gives the same in `m1`. -/
def MapGrows {κ ν : Type} [DecidableEq κ] (m m1 : List (κ × ν)) : Prop :=
  ∀ k v, StdMap.atKey m k = some v → StdMap.atKey m1 k = some v

/-- The registry only grows: new generators are appended, the snapshot of the input
generators stays. -/
def RegGrows (enc enc1 : SatEncoder) : Prop :=
  (∃ new, enc1.generators = enc.generators ++ new) ∧
  enc1.nrOfInputGenerators = enc.nrOfInputGenerators

/-- The generator map of level `k` (empty outside the levels). -/
def layerOf (rep : CircuitRepresentation) (k : Nat) : List (Uuid × Uuid) :=
  rep.generatorMappings.getD k []

/-- What the loop over `qubitCnt` does to one state of the bank at the qubit
`qubitCnt`: the gate referenced at `dag[qubitCnt][levelCnt]`, if any, is applied. -/
def applyQubitOne (dag : DAG) (levelCnt : Nat) (state : QState) (qubitCnt : Nat) :
    Option QState := do
  let ops ← dag[qubitCnt]?
  if levelCnt < ops.length then
    if !ops.isEmpty then
      match ← ops[levelCnt]? with
      | some gate => do
        let target ← gate.targets[0]?
        applyGate gate qubitCnt target state
      | none => some state
    else some state
  else some state

/-- What level `levelCnt` does to one state of the bank: its gates in ascending qubit
order. -/
def levelFun (dag : DAG) (levelCnt : Nat) (state : QState) : Option QState :=
  (List.range dag.length).foldlM (applyQubitOne dag levelCnt) state

/-- An update keeps the shape, the size and the label of every well-shaped tableau it
returns on. -/
def Keeps (op : QState → Option QState) : Prop :=
  ∀ s s1, s.WellShaped → op s = some s1 →
    s1.WellShaped ∧ s1.n = s.n ∧ s1.prevGenId = s.prevGenId

/-- The first part of `preprocessCircuit`: the bank of input states, the interning of
their generators and the snapshot `nrOfInputGenerators`. -/
def SatEncoder.preprocessStart (enc : SatEncoder) (dag : DAG) (inputs : List String) :
    Option (List QState × CircuitRepresentation × SatEncoder) := do
  let nrOfQubits := dag.length
  let nrOfLevels := nrOfLevels dag
  let enc := { enc with stats := { enc.stats with
    circuitDepth :=
      if nrOfLevels > enc.stats.circuitDepth then nrOfLevels else enc.stats.circuitDepth } }
  let representation : CircuitRepresentation :=
    { generatorMappings := List.replicate nrOfLevels [], idGeneratorMap := [] }
  let states ← initialStates nrOfQubits inputs
  let (states, representation, enc) ← forStates internInitial states (representation, enc)
  let enc :=
    if enc.nrOfInputGenerators = 0 then
      { enc with nrOfInputGenerators := enc.uniqueGenCnt }
    else enc
  some (states, representation, enc)

/-- The state of `preprocessCircuit` after its first `levels` passes of the loop over
`levelCnt`: the bank, the representation and the encoder. -/
def SatEncoder.preprocessUpTo (enc : SatEncoder) (dag : DAG) (inputs : List String) :
    Nat → Option (List QState × CircuitRepresentation × SatEncoder)
  | 0 => enc.preprocessStart dag inputs
  | levels + 1 =>
    (enc.preprocessUpTo dag inputs levels).bind fun acc => preprocessLevel dag acc levels

/-- Invariant of the loop over `levelCnt` before pass `k`: the registry invariant, the
uuid map agrees with the registry, there is one generator map per level, every state
of the bank is well shaped, has the qubit count of the DAG and is labelled with the
uuid under which its key is filed, the maps of the levels from `k` on are still empty,
and every uuid in a generator map is filed in the uuid map. -/
def BankInv (dag : DAG) (k : Nat) (acc : List QState × CircuitRepresentation × SatEncoder) :
    Prop :=
  RegistryOK acc.2.2 ∧ IdMapOK acc.2.1.idGeneratorMap acc.2.2 ∧
  acc.2.1.generatorMappings.length = nrOfLevels dag ∧
  (∀ s ∈ acc.1, s.WellShaped ∧ s.n = dag.length ∧
    StdMap.atKey acc.2.1.idGeneratorMap s.prevGenId = some s.key) ∧
  (∀ j, k ≤ j → layerOf acc.2.1 j = []) ∧
  (∀ j, ∀ p ∈ layerOf acc.2.1 j,
    (∃ g, StdMap.atKey acc.2.1.idGeneratorMap p.1 = some g) ∧
    (∃ g, StdMap.atKey acc.2.1.idGeneratorMap p.2 = some g))

/-- A sequence of `preprocessCircuit` calls on the same encoder, each with its DAG, its
inputs and its measured duration; the representations are dropped. -/
def preprocessAll (enc : SatEncoder) : List (DAG × List String × Nat) → Option SatEncoder
  | [] => some enc
  | (dag, inputs, elapsed) :: rest =>
    (enc.preprocessCircuit dag inputs elapsed).bind fun r => preprocessAll r.2 rest

/-- Every uuid that occurs in a generator map of the representation is filed in its
uuid map, and the generator filed there is registered with a dense id below the size
of the registry. -/
def RepFiled (rep : CircuitRepresentation) (enc : SatEncoder) : Prop :=
  ∀ layer ∈ rep.generatorMappings, ∀ p ∈ layer,
    (∃ g d, StdMap.atKey rep.idGeneratorMap p.1 = some g ∧
      StdMap.atKey enc.generators g = some d ∧ d < enc.generators.length) ∧
    (∃ g d, StdMap.atKey rep.idGeneratorMap p.2 = some g ∧
      StdMap.atKey enc.generators g = some d ∧ d < enc.generators.length)

/-- The functional constraint of the entry `p` of level `i`, with the dense ids looked
up as `constructSatInstance` and `constructMiterInstance` do. -/
def linkOf (connective : Z3Expr → Z3Expr → Z3Expr) (primed : Bool) (bitwidth : Nat)
    (enc : SatEncoder) (rep : CircuitRepresentation) (i : Nat) (p : Uuid × Uuid) : Z3Expr :=
  connective
    (Z3Expr.eq (BvExpr.const { primed := primed, level := i } bitwidth)
      (BvExpr.val ((denseOfUuid enc rep p.1).getD 0) bitwidth))
    (Z3Expr.eq (BvExpr.const { primed := primed, level := i + 1 } bitwidth)
      (BvExpr.val ((denseOfUuid enc rep p.2).getD 0) bitwidth))

/-- A sample circuit on two qubits: `H(0)`, then `CNOT(0, 1)`, which the DAG lists
under both of its qubits. -/
def sampleDag : DAG := [[some (gate OpType.H 0), some (cnot 0 1)], [none, some (cnot 0 1)]]

/-- The inputs of the sample runs. -/
def sampleInputs : List String := ["zz", "zx", "xz", "xx"]

/-- The sample circuit preprocessed on a new encoder. -/
def sampleRun : CircuitRepresentation × SatEncoder :=
  (SatEncoder.fresh.preprocessCircuit sampleDag sampleInputs 0).getD
    ({ generatorMappings := [], idGeneratorMap := [] }, SatEncoder.fresh)

/-- A second circuit, `CNOT(0, 1)` alone, preprocessed after the sample circuit on the
same encoder. -/
def sampleRunTwo : CircuitRepresentation × SatEncoder :=
  (sampleRun.2.preprocessCircuit [[some (cnot 0 1)], [some (cnot 0 1)]] sampleInputs 0).getD
    ({ generatorMappings := [], idGeneratorMap := [] }, SatEncoder.fresh)

/-- The state of the sample run after its first `k` levels. -/
def sampleUpTo (k : Nat) : List QState × CircuitRepresentation × SatEncoder :=
  (SatEncoder.fresh.preprocessUpTo sampleDag sampleInputs k).getD
    ([], { generatorMappings := [], idGeneratorMap := [] }, SatEncoder.fresh)

/-- The state of the second sample run right after its initial interning. -/
def sampleStartTwo : List QState × CircuitRepresentation × SatEncoder :=
  (sampleRun.2.preprocessStart [[some (cnot 0 1)], [some (cnot 0 1)]] sampleInputs).getD
    ([], { generatorMappings := [], idGeneratorMap := [] }, SatEncoder.fresh)

/-- The uuid reached from `start` after the first `k` generator maps of a
representation. -/
def trajectory (rep : CircuitRepresentation) (start : Uuid) (k : Nat) : Option Uuid :=
  (rep.generatorMappings.take k).foldlM (fun uuid layer => StdMap.atKey layer uuid) start

/-- The assignment that gives the constant of every level the dense id of the uuid
that the generator maps reach from the uuid `start` at that level. -/
def trajectoryAssignment (enc : SatEncoder) (rep : CircuitRepresentation) (start : Uuid) :
    Assignment :=
  fun name => ((trajectory rep start name.level).bind (denseOfUuid enc rep)).getD 0

/-- Whether the indices an operation is applied with are qubits of an `n`-qubit
circuit: the first target and the first control; on an `X` gate the control differs
from the target. -/
def gateOK (n : Nat) (gate : Operation) : Bool :=
  match gate.targets[0]? with
  | none => true
  | some target =>
    decide (target < n) &&
      match gate.controls.head? with
      | none => true
      | some control =>
        decide (control < n) && (decide (gate.type ≠ OpType.X) || decide (control ≠ target))

/-- Whether every operation that a DAG references has its indices among the qubits of
the DAG, with the control of a controlled `X` different from its target. -/
def dagOK (dag : DAG) : Bool :=
  dag.all fun ops => ops.all fun og =>
    match og with
    | some gate => gateOK dag.length gate
    | none => true

/-- An update that is a bijection of the well-shaped tableaux of `n` qubits: it returns
on each of them, with a well-shaped tableau of `n` qubits, two of them with the same
result are equal, and each of them is a result. -/
def BijectiveOn (n : Nat) (op : QState → Option QState) : Prop :=
  (∀ s : QState, s.WellShaped → s.n = n → ∃ m, op s = some m ∧ m.WellShaped ∧ m.n = n) ∧
  (∀ s s1 : QState, s.WellShaped → s1.WellShaped → s.n = n → s1.n = n → op s = op s1 →
    s = s1) ∧
  (∀ m : QState, m.WellShaped → m.n = n → ∃ s, s.WellShaped ∧ s.n = n ∧ op s = some m)

/-- An update that, where it returns on a well-shaped tableau of `n` qubits, acts row
by row through a shape-preserving map that has a left inverse. -/
def InjUpdate (n : Nat) (op : QState → Option QState) : Prop :=
  ∃ g ginv : Row → Row, (∀ row, RowOK n row → RowOK n (g row) ∧ ginv (g row) = row) ∧
    ∀ s : QState, s.WellShaped → s.n = n →
      op s = none ∨ op s = some (s.withRows (s.rows.map g))

/-! # Theorems -/

/-! ## The row loop -/

theorem withRows_rows (s : QState) (hx : s.x.length = s.z.length)
    (hz : s.z.length = s.r.length) : s.withRows s.rows = s := by
  have h1 : List.map (fun row : Row => row.1) (List.zip s.x (List.zip s.z s.r)) = s.x := by
    exact List.map_fst_zip _ _ (by simp [List.length_zip]; omega)
  have h2 : List.map (fun row : Row => row.2.1) (List.zip s.x (List.zip s.z s.r)) = s.z := by
    have : List.map (fun row : Row => row.2.1) (List.zip s.x (List.zip s.z s.r))
        = List.map Prod.fst (List.map Prod.snd (List.zip s.x (List.zip s.z s.r))) := by
      simp [List.map_map]
    rw [this, List.map_snd_zip _ _ (by simp [List.length_zip]; omega),
      List.map_fst_zip _ _ (by omega)]
  have h3 : List.map (fun row : Row => row.2.2) (List.zip s.x (List.zip s.z s.r)) = s.r := by
    have : List.map (fun row : Row => row.2.2) (List.zip s.x (List.zip s.z s.r))
        = List.map Prod.snd (List.map Prod.snd (List.zip s.x (List.zip s.z s.r))) := by
      simp [List.map_map]
    rw [this, List.map_snd_zip _ _ (by simp [List.length_zip]; omega),
      List.map_snd_zip _ _ (by omega)]
  cases s
  simp only [QState.withRows, QState.rows] at *
  simp [h1, h2, h3]

theorem rows_withRows (s : QState) (rows : List Row) : (s.withRows rows).rows = rows := by
  simp only [QState.rows, QState.withRows]
  induction rows with
  | nil => rfl
  | cons a l ih => simp [ih]

theorem withRows_withRows (s : QState) (l1 l2 : List Row) :
    (s.withRows l1).withRows l2 = s.withRows l2 := rfl

theorem updateRow_withRows (f : Row → Option Row) (s : QState) (rows : List Row) (k : Nat)
    (row row1 : Row) (hk : rows[k]? = some row) (hf : f row = some row1) :
    updateRow f (s.withRows rows) k = some (s.withRows (rows.set k row1)) := by
  obtain ⟨a, b, c⟩ := row
  obtain ⟨a1, b1, c1⟩ := row1
  simp [updateRow, QState.withRows, List.getElem?_map, hk, hf, List.map_set]

theorem set_take_map_append_drop {α : Type} (g : α → α) (l : List α) (k : Nat)
    (hk : k < l.length) :
    ((l.take k).map g ++ l.drop k).set k (g l[k]) = (l.take (k + 1)).map g ++ l.drop (k + 1) := by
  rw [List.set_append]
  have hlen : ((l.take k).map g).length = k := by simp; omega
  rw [if_neg (by omega), hlen, Nat.sub_self, List.drop_eq_getElem_cons hk, List.set_cons_zero,
    List.take_succ, List.getElem?_eq_getElem hk, Option.toList_some, List.map_append,
    List.append_assoc]
  rfl

theorem foldlM_updateRow (f : Row → Option Row) (g : Row → Row) (s : QState)
    (rows : List Row) (hf : ∀ row ∈ rows, f row = some (g row)) (k : Nat)
    (hk : k ≤ rows.length) :
    (List.range k).foldlM (updateRow f) (s.withRows rows)
      = some (s.withRows ((rows.take k).map g ++ rows.drop k)) := by
  induction k with
  | zero => simp
  | succ k ih =>
    have hk1 : k < rows.length := by omega
    rw [List.range_succ, List.foldlM_append, ih (by omega)]
    have hget : ((rows.take k).map g ++ rows.drop k)[k]? = some rows[k] := by
      rw [List.getElem?_append_right (by simp)]
      simp [Nat.min_eq_left (Nat.le_of_lt hk1), List.getElem?_eq_getElem hk1]
    simp only [Option.bind_eq_bind, Option.some_bind, List.foldlM_cons, List.foldlM_nil]
    rw [updateRow_withRows f s _ k rows[k] (g rows[k]) hget
      (hf _ (List.getElem_mem hk1)), set_take_map_append_drop g rows k hk1]
    rfl

/-- Closed form of the row loop on a tableau whose three vectors have `n` entries. -/
theorem forRows_eq (f : Row → Option Row) (g : Row → Row) (s : QState)
    (hx : s.x.length = s.n) (hz : s.z.length = s.n) (hr : s.r.length = s.n)
    (hf : ∀ row ∈ s.rows, f row = some (g row)) :
    forRows s.n f s = some (s.withRows (s.rows.map g)) := by
  have hlen : s.rows.length = s.n := by simp [QState.rows, List.length_zip, hx, hz, hr]
  have h := foldlM_updateRow f g s s.rows hf s.n (by omega)
  rw [withRows_rows s (by omega) (by omega)] at h
  rw [forRows, h, ← hlen]
  simp

theorem getD_eq_of_lt {α : Type} (l : List α) (i : Nat) (d : α) (h : i < l.length) :
    l[i]? = some (l.getD i d) := by
  simp [List.getD, List.getElem?_eq_getElem h]

theorem hRow_eq (n t : Nat) (ht : t < n) (row : Row) (h : RowOK n row) :
    hRow t row = some (hPure t row) := by
  obtain ⟨hx, hz, _⟩ := h
  have h1 := getD_eq_of_lt row.1 t false (by omega)
  have h2 := getD_eq_of_lt row.2.1 t false (by omega)
  simp only [hRow, hPure, h1, h2, Option.bind_eq_bind, Option.some_bind]
  cases row.1.getD t false <;> cases row.2.1.getD t false <;> rfl

theorem sRow_eq (n t : Nat) (ht : t < n) (row : Row) (h : RowOK n row) :
    sRow t row = some (sPure t row) := by
  obtain ⟨hx, hz, _⟩ := h
  have h1 := getD_eq_of_lt row.1 t false (by omega)
  have h2 := getD_eq_of_lt row.2.1 t false (by omega)
  simp only [sRow, sPure, h1, h2, Option.bind_eq_bind, Option.some_bind]

theorem cnotRow_eq (n c t : Nat) (hc : c < n) (ht : t < n) (row : Row) (h : RowOK n row) :
    cnotRow c t row = some (cnotPure c t row) := by
  obtain ⟨hx, hz, _⟩ := h
  have h1 := getD_eq_of_lt row.1 t false (by omega)
  have h2 := getD_eq_of_lt row.2.1 t false (by omega)
  have h3 := getD_eq_of_lt row.1 c false (by omega)
  have h4 := getD_eq_of_lt row.2.1 c false (by omega)
  simp only [cnotRow, cnotPure, h1, h2, h3, h4, Option.bind_eq_bind, Option.some_bind]

theorem xor_bit_cases (v : Int) (hv : v = 0 ∨ v = 1) (a b : Bool) :
    Int.xor v (boolToInt a * boolToInt b) = 0 ∨ Int.xor v (boolToInt a * boolToInt b) = 1 := by
  rcases hv with h | h <;> subst h <;> cases a <;> cases b <;> decide

theorem hPure_ok (n t : Nat) (row : Row) (h : RowOK n row) : RowOK n (hPure t row) := by
  obtain ⟨hx, hz, hr⟩ := h
  refine ⟨by simp [hPure, hx], by simp [hPure, hz], ?_⟩
  exact xor_bit_cases _ hr _ _

theorem sPure_ok (n t : Nat) (row : Row) (h : RowOK n row) : RowOK n (sPure t row) := by
  obtain ⟨hx, hz, hr⟩ := h
  refine ⟨by simp [sPure, hx], by simp [sPure, hz], ?_⟩
  exact xor_bit_cases _ hr _ _

theorem cnotPure_ok (n c t : Nat) (row : Row) (h : RowOK n row) :
    RowOK n (cnotPure c t row) := by
  obtain ⟨hx, hz, hr⟩ := h
  refine ⟨by simp [cnotPure, hx], by simp [cnotPure, hz], ?_⟩
  simp only [cnotPure]
  rcases hr with h | h <;> rw [h] <;> cases row.1.getD c false <;>
    cases row.2.1.getD t false <;> cases row.1.getD t false <;>
    cases row.2.1.getD c false <;> decide

theorem wellShaped_rowsOK (s : QState) (h : s.WellShaped) : RowsOK s.n s.rows := by
  obtain ⟨hx, hz, hr, hxr, hzr, hrr⟩ := h
  refine ⟨by simp [QState.rows, List.length_zip, hx, hz, hr], ?_⟩
  rintro ⟨a, b, c⟩ hmem
  have h1 := List.of_mem_zip hmem
  have h2 := List.of_mem_zip h1.2
  exact ⟨hxr a h1.1, hzr b h2.1, hrr c h2.2⟩

theorem wellShaped_withRows (s : QState) (l : List Row) (h : RowsOK s.n l) :
    (s.withRows l).WellShaped := by
  obtain ⟨hlen, hrows⟩ := h
  refine ⟨by simp [QState.withRows, hlen], by simp [QState.withRows, hlen],
    by simp [QState.withRows, hlen], ?_, ?_, ?_⟩
  · intro row hrow
    simp only [QState.withRows, List.mem_map] at hrow
    obtain ⟨r0, hr0, rfl⟩ := hrow
    exact (hrows r0 hr0).1
  · intro row hrow
    simp only [QState.withRows, List.mem_map] at hrow
    obtain ⟨r0, hr0, rfl⟩ := hrow
    exact (hrows r0 hr0).2.1
  · intro v hv
    simp only [QState.withRows, List.mem_map] at hv
    obtain ⟨r0, hr0, rfl⟩ := hv
    exact (hrows r0 hr0).2.2

theorem wellShaped_eq_withRows (s : QState) (h : s.WellShaped) : s.withRows s.rows = s :=
  withRows_rows s (by rw [h.1, h.2.1]) (by rw [h.2.1, h.2.2.1])

theorem rowsOK_map (n : Nat) (g : Row → Row) (hg : ∀ row, RowOK n row → RowOK n (g row))
    (l : List Row) (h : RowsOK n l) : RowsOK n (l.map g) := by
  refine ⟨by simp [h.1], ?_⟩
  intro row hrow
  obtain ⟨r0, hr0, rfl⟩ := List.mem_map.1 hrow
  exact hg r0 (h.2 r0 hr0)

/-- The row loop on a well-shaped tableau, for a body with a closed form. -/
theorem forRows_pure (f : Row → Option Row) (g : Row → Row) (s : QState)
    (hs : s.WellShaped) (hfg : ∀ row, RowOK s.n row → f row = some (g row)) :
    forRows s.n f s = some (s.withRows (s.rows.map g)) :=
  forRows_eq f g s hs.1 hs.2.1 hs.2.2.1
    (fun row hrow => hfg row ((wellShaped_rowsOK s hs).2 row hrow))

theorem applyH_eq (s : QState) (t : Nat) (hs : s.WellShaped) (ht : t < s.n) :
    s.applyH t = some (s.withRows (s.rows.map (hPure t))) := by
  rw [QState.applyH, if_neg (by omega)]
  exact forRows_pure _ _ s hs (hRow_eq s.n t ht)

theorem applyS_eq (s : QState) (t : Nat) (hs : s.WellShaped) (ht : t < s.n) :
    s.applyS t = some (s.withRows (s.rows.map (sPure t))) := by
  rw [QState.applyS, if_neg (by omega)]
  exact forRows_pure _ _ s hs (sRow_eq s.n t ht)

theorem applyCNOT_eq (s : QState) (c t : Nat) (hs : s.WellShaped) (hc : c < s.n)
    (ht : t < s.n) :
    s.applyCNOT c t = some (s.withRows (s.rows.map (cnotPure c t))) := by
  have hguard : (decide (t > s.n) || decide (c > s.n)) = false := by
    simp; omega
  rw [QState.applyCNOT, hguard]
  exact forRows_pure _ _ s hs (cnotRow_eq s.n c t hc ht)

/-- Updates that act row by row through `g` keep tableaux well shaped and compose. -/
theorem withRows_map_wellShaped (s : QState) (g : Row → Row) (hs : s.WellShaped)
    (hg : ∀ row, RowOK s.n row → RowOK s.n (g row)) :
    (s.withRows (s.rows.map g)).WellShaped :=
  wellShaped_withRows s _ (rowsOK_map s.n g hg _ (wellShaped_rowsOK s hs))

theorem applyH_wellShaped (s s1 : QState) (t : Nat) (hs : s.WellShaped) (ht : t < s.n)
    (h : s.applyH t = some s1) : s1.WellShaped ∧ s1.n = s.n := by
  rw [applyH_eq s t hs ht] at h
  cases h
  exact ⟨withRows_map_wellShaped s _ hs (hPure_ok s.n t), rfl⟩

theorem applyS_wellShaped (s s1 : QState) (t : Nat) (hs : s.WellShaped) (ht : t < s.n)
    (h : s.applyS t = some s1) : s1.WellShaped ∧ s1.n = s.n := by
  rw [applyS_eq s t hs ht] at h
  cases h
  exact ⟨withRows_map_wellShaped s _ hs (sPure_ok s.n t), rfl⟩

theorem applyCNOT_wellShaped (s s1 : QState) (c t : Nat) (hs : s.WellShaped) (hc : c < s.n)
    (ht : t < s.n) (h : s.applyCNOT c t = some s1) : s1.WellShaped ∧ s1.n = s.n := by
  rw [applyCNOT_eq s c t hs hc ht] at h
  cases h
  exact ⟨withRows_map_wellShaped s _ hs (cnotPure_ok s.n c t), rfl⟩

theorem withRows_map_id (s : QState) (g : Row → Row) (hs : s.WellShaped)
    (hg : ∀ row, RowOK s.n row → g row = row) : s.withRows (s.rows.map g) = s := by
  have : s.rows.map g = s.rows := by
    conv_rhs => rw [← List.map_id s.rows]
    apply List.map_congr_left
    intro row hrow
    exact hg row ((wellShaped_rowsOK s hs).2 row hrow)
  rw [this, wellShaped_eq_withRows s hs]

theorem mapRows_mapRows (s : QState) (g1 g2 : Row → Row) :
    (s.withRows (s.rows.map g1)).withRows ((s.withRows (s.rows.map g1)).rows.map g2)
      = s.withRows (s.rows.map (g2 ∘ g1)) := by
  rw [rows_withRows, withRows_withRows, List.map_map]

theorem getD_set_self {α : Type} (l : List α) (i : Nat) (v d : α) (h : i < l.length) :
    (l.set i v).getD i d = v := by
  simp [List.getD_eq_getElem?_getD, List.getElem?_set, h]

theorem getD_set_ne {α : Type} (l : List α) (i j : Nat) (v d : α) (h : i ≠ j) :
    (l.set i v).getD j d = l.getD j d := by
  simp [List.getD_eq_getElem?_getD, List.getElem?_set, h]

theorem set_getD_self {α : Type} (l : List α) (i : Nat) (d : α) (h : i < l.length) :
    l.set i (l.getD i d) = l := by
  apply List.ext_getElem?
  intro j
  by_cases hij : i = j
  · subst hij
    simp [List.getElem?_set, h, List.getD_eq_getElem?_getD, List.getElem?_eq_getElem h]
  · simp [List.getElem?_set, hij]

theorem hPure_hPure (n t : Nat) (ht : t < n) (row : Row) (h : RowOK n row) :
    hPure t (hPure t row) = row := by
  obtain ⟨xi, zi, ri⟩ := row
  obtain ⟨hx, hz, hr⟩ := h
  simp only at hx hz hr
  have e1 := set_getD_self xi t false (by omega)
  have e2 := set_getD_self zi t false (by omega)
  simp only [hPure, getD_set_self xi t _ false (by omega), getD_set_self zi t _ false (by omega),
    List.set_set, e1, e2]
  have : Int.xor (Int.xor ri (boolToInt (xi.getD t false) * boolToInt (zi.getD t false)))
      (boolToInt (zi.getD t false) * boolToInt (xi.getD t false)) = ri := by
    rcases hr with h | h <;> subst h <;> cases xi.getD t false <;> cases zi.getD t false <;>
      decide
  rw [this]

theorem sPure_four (n t : Nat) (ht : t < n) (row : Row) (h : RowOK n row) :
    sPure t (sPure t (sPure t (sPure t row))) = row := by
  obtain ⟨xi, zi, ri⟩ := row
  obtain ⟨hx, hz, hr⟩ := h
  simp only at hx hz hr
  have e2 := set_getD_self zi t false (by omega)
  have hl : ∀ v, (zi.set t v).length = zi.length := fun v => by simp
  simp only [sPure, List.set_set]
  rw [getD_set_self zi t _ false (by omega), getD_set_self zi t _ false (by omega),
    getD_set_self zi t _ false (by omega)]
  have hz4 : xor (xor (xor (xor (zi.getD t false) (xi.getD t false)) (xi.getD t false))
      (xi.getD t false)) (xi.getD t false) = zi.getD t false := by
    cases xi.getD t false <;> cases zi.getD t false <;> rfl
  rw [hz4, e2]
  have : Int.xor (Int.xor (Int.xor (Int.xor ri
      (boolToInt (xi.getD t false) * boolToInt (zi.getD t false)))
      (boolToInt (xi.getD t false) * boolToInt (xor (zi.getD t false) (xi.getD t false))))
      (boolToInt (xi.getD t false) *
        boolToInt (xor (xor (zi.getD t false) (xi.getD t false)) (xi.getD t false))))
      (boolToInt (xi.getD t false) *
        boolToInt (xor (xor (xor (zi.getD t false) (xi.getD t false)) (xi.getD t false))
          (xi.getD t false))) = ri := by
    rcases hr with h | h <;> subst h <;> cases xi.getD t false <;> cases zi.getD t false <;>
      decide
  rw [this]

theorem cnotPure_cnotPure (n c t : Nat) (hc : c < n) (ht : t < n) (hct : c ≠ t) (row : Row)
    (h : RowOK n row) : cnotPure c t (cnotPure c t row) = row := by
  obtain ⟨xi, zi, ri⟩ := row
  obtain ⟨hx, hz, hr⟩ := h
  simp only at hx hz hr
  have e1 := set_getD_self xi t false (by omega)
  have e2 := set_getD_self zi c false (by omega)
  simp only [cnotPure, List.set_set, getD_set_self xi t _ false (by omega),
    getD_set_self zi c _ false (by omega), getD_set_ne xi t c _ false (Ne.symm hct),
    getD_set_ne zi c t _ false hct]
  have hx2 : xor (xor (xi.getD t false) (xi.getD c false)) (xi.getD c false)
      = xi.getD t false := by
    cases xi.getD t false <;> cases xi.getD c false <;> rfl
  have hz2 : xor (xor (zi.getD c false) (zi.getD t false)) (zi.getD t false)
      = zi.getD c false := by
    cases zi.getD t false <;> cases zi.getD c false <;> rfl
  rw [hx2, hz2, e1, e2]
  congr 2
  rcases hr with h | h <;> subst h <;> cases xi.getD t false <;> cases xi.getD c false <;>
    cases zi.getD t false <;> cases zi.getD c false <;> decide

theorem applyH_mapRows (s : QState) (g : Row → Row) (t : Nat) (hs : s.WellShaped)
    (hg : ∀ row, RowOK s.n row → RowOK s.n (g row)) (ht : t < s.n) :
    (s.withRows (s.rows.map g)).applyH t = some (s.withRows (s.rows.map (hPure t ∘ g))) := by
  rw [applyH_eq _ t (withRows_map_wellShaped s g hs hg) ht, mapRows_mapRows]

theorem applyS_mapRows (s : QState) (g : Row → Row) (t : Nat) (hs : s.WellShaped)
    (hg : ∀ row, RowOK s.n row → RowOK s.n (g row)) (ht : t < s.n) :
    (s.withRows (s.rows.map g)).applyS t = some (s.withRows (s.rows.map (sPure t ∘ g))) := by
  rw [applyS_eq _ t (withRows_map_wellShaped s g hs hg) ht, mapRows_mapRows]

theorem applyCNOT_mapRows (s : QState) (g : Row → Row) (c t : Nat) (hs : s.WellShaped)
    (hg : ∀ row, RowOK s.n row → RowOK s.n (g row)) (hc : c < s.n) (ht : t < s.n) :
    (s.withRows (s.rows.map g)).applyCNOT c t
      = some (s.withRows (s.rows.map (cnotPure c t ∘ g))) := by
  rw [applyCNOT_eq _ c t (withRows_map_wellShaped s g hs hg) hc ht, mapRows_mapRows]

/-- C8 (involution of the single-qubit updates): on a well-shaped tableau and a
target `t < n`, `applyH(t)` twice and `applyS(t)` four times both return, and
return the tableau they started from (same `x`, `z`, `r`, `n` and uuid). -/
theorem applyH_twice_applyS_four_times (s : QState) (t : Nat) (hs : s.WellShaped)
    (ht : t < s.n) :
    ((s.applyH t).bind fun s1 => s1.applyH t) = some s ∧
    ((((s.applyS t).bind fun s1 => s1.applyS t).bind fun s2 => s2.applyS t).bind
      fun s3 => s3.applyS t) = some s := by
  have hh := hPure_ok s.n t
  have hS := sPure_ok s.n t
  constructor
  · rw [applyH_eq s t hs ht, Option.some_bind, applyH_mapRows s _ t hs hh ht]
    exact congrArg some (withRows_map_id s _ hs (fun row hrow => hPure_hPure s.n t ht row hrow))
  · rw [applyS_eq s t hs ht, Option.some_bind, applyS_mapRows s _ t hs hS ht, Option.some_bind,
      applyS_mapRows s (sPure t ∘ sPure t) t hs (fun row hrow => hS _ (hS _ hrow)) ht,
      Option.some_bind,
      applyS_mapRows s (sPure t ∘ sPure t ∘ sPure t) t hs
        (fun row hrow => hS _ (hS _ (hS _ hrow))) ht]
    exact congrArg some (withRows_map_id s _ hs (fun row hrow => sPure_four s.n t ht row hrow))

/-- C8 on the sample tableau with target `1`. -/
theorem applyH_twice_applyS_four_times_witness :
    sampleTableau.WellShaped ∧ 1 < sampleTableau.n ∧
    ((sampleTableau.applyH 1).bind fun s1 => s1.applyH 1) = some sampleTableau ∧
    ((((sampleTableau.applyS 1).bind fun s1 => s1.applyS 1).bind fun s2 => s2.applyS 1).bind
      fun s3 => s3.applyS 1) = some sampleTableau :=
  ⟨by decide, by decide,
    applyH_twice_applyS_four_times sampleTableau 1 (by decide) (by decide)⟩

/-- C9 (involution of CNOT): on a well-shaped tableau, with control and target
below `n` and different, `applyCNOT(c, t)` twice returns, and returns the tableau
it started from, phases included. -/
theorem applyCNOT_twice (s : QState) (c t : Nat) (hs : s.WellShaped) (hc : c < s.n)
    (ht : t < s.n) (hct : c ≠ t) :
    ((s.applyCNOT c t).bind fun s1 => s1.applyCNOT c t) = some s := by
  rw [applyCNOT_eq s c t hs hc ht, Option.some_bind,
    applyCNOT_mapRows s _ c t hs (cnotPure_ok s.n c t) hc ht]
  exact congrArg some
    (withRows_map_id s _ hs (fun row hrow => cnotPure_cnotPure s.n c t hc ht hct row hrow))

/-- C9 on the sample tableau with control `0` and target `1`. -/
theorem applyCNOT_twice_witness :
    sampleTableau.WellShaped ∧ 0 < sampleTableau.n ∧ 1 < sampleTableau.n ∧ (0 : Nat) ≠ 1 ∧
    ((sampleTableau.applyCNOT 0 1).bind fun s1 => s1.applyCNOT 0 1) = some sampleTableau :=
  ⟨by decide, by decide, by decide, by decide,
    applyCNOT_twice sampleTableau 0 1 (by decide) (by decide) (by decide) (by decide)⟩

theorem getD_map_range (n t : Nat) (f : Nat → Bool) (ht : t < n) :
    ((List.range n).map f).getD t false = f t := by
  simp [List.getD_eq_getElem?_getD, List.getElem?_map, List.getElem?_range ht]

theorem getElem?_range_ite (n j : Nat) :
    (List.range n)[j]? = if j < n then some j else none := by
  by_cases hj : j < n
  · simp [List.getElem?_range hj, hj]
  · rw [if_neg hj]
    exact List.getElem?_eq_none (by simp; omega)

theorem set_map_range_diag (n t : Nat) (a b : Bool) :
    ((List.range n).map fun j => decide (t = j) && a).set t b
      = (List.range n).map fun j => decide (t = j) && b := by
  apply List.ext_getElem?
  intro j
  simp only [List.getElem?_set, List.getElem?_map, getElem?_range_ite, List.length_map,
    List.length_range]
  by_cases hj : j < n <;> by_cases htj : t = j
  · subst htj; simp [hj]
  · simp [hj, htj]
  · subst htj; simp [hj]
  · simp [hj, htj]

theorem set_map_range_off (n i t : Nat) (a : Bool) (h : i ≠ t) :
    ((List.range n).map fun j => decide (i = j) && a).set t false
      = (List.range n).map fun j => decide (i = j) && a := by
  apply List.ext_getElem?
  intro j
  simp only [List.getElem?_set, List.getElem?_map, getElem?_range_ite, List.length_map,
    List.length_range]
  by_cases hj : j < n <;> by_cases htj : t = j
  · subst htj; simp [hj, h]
  · simp [hj, htj]
  · subst htj; simp [hj]
  · simp [hj, htj]

theorem hPure_diagRow (n i t : Nat) (ht : t < n) (p : Bool × Bool × Int)
    (hp : p.2.2 = 0 ∨ p.2.2 = 1) :
    hPure t (diagRow n i p) = diagRow n i (if i = t then hBit p else p) := by
  obtain ⟨a, b, c⟩ := p
  simp only at hp
  by_cases h : i = t
  · subst h
    simp only [hPure, diagRow, getD_map_range n i _ ht, if_true, hBit, set_map_range_diag,
      decide_True, Bool.true_and]
  · simp only [hPure, diagRow, getD_map_range n t _ ht, if_neg h, decide_eq_false h,
      Bool.false_and, set_map_range_off n i t _ h]
    rcases hp with hc | hc <;> subst hc <;> rfl

theorem sPure_diagRow (n i t : Nat) (ht : t < n) (p : Bool × Bool × Int)
    (hp : p.2.2 = 0 ∨ p.2.2 = 1) :
    sPure t (diagRow n i p) = diagRow n i (if i = t then sBit p else p) := by
  obtain ⟨a, b, c⟩ := p
  simp only at hp
  by_cases h : i = t
  · subst h
    simp only [sPure, diagRow, getD_map_range n i _ ht, if_true, sBit, set_map_range_diag,
      decide_True, Bool.true_and]
  · simp only [sPure, diagRow, getD_map_range n t _ ht, if_neg h, decide_eq_false h,
      Bool.false_and, Bool.xor_false, set_map_range_off n i t _ h]
    rcases hp with hc | hc <;> subst hc <;> rfl

theorem rows_diagState (n : Nat) (d : Nat → Bool × Bool × Int) :
    (diagState n d).rows = diagRows n d :=
  rows_withRows (diagState n d) (diagRows n d)

theorem diagState_wellShaped (n : Nat) (d : Nat → Bool × Bool × Int) (hd : PhaseOK d) :
    (diagState n d).WellShaped := by
  apply wellShaped_withRows (diagState n d) (diagRows n d)
  refine ⟨by simp [diagRows, diagState], ?_⟩
  intro row hrow
  obtain ⟨i, _, rfl⟩ := List.mem_map.1 hrow
  exact ⟨by simp [diagRow, diagState], by simp [diagRow, diagState], hd i⟩

theorem hBit_phase (p : Bool × Bool × Int) (hp : p.2.2 = 0 ∨ p.2.2 = 1) :
    (hBit p).2.2 = 0 ∨ (hBit p).2.2 = 1 := xor_bit_cases _ hp _ _

theorem sBit_phase (p : Bool × Bool × Int) (hp : p.2.2 = 0 ∨ p.2.2 = 1) :
    (sBit p).2.2 = 0 ∨ (sBit p).2.2 = 1 := xor_bit_cases _ hp _ _

theorem phaseOK_upd (d : Nat → Bool × Bool × Int) (i : Nat)
    (f : Bool × Bool × Int → Bool × Bool × Int) (hd : PhaseOK d)
    (hf : ∀ p, (p.2.2 = 0 ∨ p.2.2 = 1) → ((f p).2.2 = 0 ∨ (f p).2.2 = 1)) :
    PhaseOK (upd d i f) := by
  intro j
  by_cases h : j = i
  · simp only [upd, if_pos h]; exact hf _ (hd j)
  · simp only [upd, if_neg h]; exact hd j

theorem applyH_diag (n t : Nat) (d : Nat → Bool × Bool × Int) (ht : t < n) (hd : PhaseOK d) :
    (diagState n d).applyH t = some (diagState n (upd d t hBit)) := by
  rw [applyH_eq _ t (diagState_wellShaped n d hd) ht, rows_diagState]
  have : (diagRows n d).map (hPure t) = diagRows n (upd d t hBit) := by
    simp only [diagRows, List.map_map]
    apply List.map_congr_left
    intro i _
    simp only [Function.comp, hPure_diagRow n i t ht (d i) (hd i), upd]
  rw [this]
  rfl

theorem applyS_diag (n t : Nat) (d : Nat → Bool × Bool × Int) (ht : t < n) (hd : PhaseOK d) :
    (diagState n d).applyS t = some (diagState n (upd d t sBit)) := by
  rw [applyS_eq _ t (diagState_wellShaped n d hd) ht, rows_diagState]
  have : (diagRows n d).map (sPure t) = diagRows n (upd d t sBit) := by
    simp only [diagRows, List.map_map]
    apply List.map_congr_left
    intro i _
    simp only [Function.comp, sPure_diagRow n i t ht (d i) (hd i), upd]
  rw [this]
  rfl

theorem stabilizerOf_phase (c : Char) :
    (stabilizerOf c).2.2 = 0 ∨ (stabilizerOf c).2.2 = 1 := by
  unfold stabilizerOf
  split_ifs <;> simp

theorem upd_upd (d : Nat → Bool × Bool × Int) (i : Nat)
    (f g : Bool × Bool × Int → Bool × Bool × Int) :
    upd (upd d i f) i g = upd d i (g ∘ f) := by
  funext j
  by_cases h : j = i <;> simp [upd, h]

theorem upd_const (d : Nat → Bool × Bool × Int) (i : Nat)
    (f : Bool × Bool × Int → Bool × Bool × Int) (p q : Bool × Bool × Int) (hd : d i = p)
    (hf : f p = q) : upd d i f = upd d i (fun _ => q) := by
  funext j
  by_cases h : j = i
  · subst h; simp [upd, hd, hf]
  · simp [upd, h]

theorem prepareQubit_diag (n i : Nat) (c : Char) (d : Nat → Bool × Bool × Int) (hi : i < n)
    (hd : PhaseOK d) (h0 : d i = (false, true, 0)) :
    prepareQubit (diagState n d) i c = some (diagState n (upd d i fun _ => stabilizerOf c)) := by
  have pH := fun d hd => phaseOK_upd d i hBit hd hBit_phase
  have pS := fun d hd => phaseOK_upd d i sBit hd sBit_phase
  have aH := fun d hd => applyH_diag n i d hi hd
  have aS := fun d hd => applyS_diag n i d hi hd
  unfold prepareQubit stabilizerOf
  split_ifs
  · simp only [Option.bind_eq_bind]
    rw [aH d hd, Option.some_bind, aS _ (pH d hd), Option.some_bind, aS _ (pS _ (pH d hd)),
      Option.some_bind, aH _ (pS _ (pS _ (pH d hd))), upd_upd, upd_upd, upd_upd]
    exact congrArg (fun e => some (diagState n e)) (upd_const d i _ _ _ h0 (by decide))
  · rw [aH d hd]
    exact congrArg (fun e => some (diagState n e)) (upd_const d i _ _ _ h0 (by decide))
  · simp only [Option.bind_eq_bind]
    rw [aH d hd, Option.some_bind, aS _ (pH d hd), Option.some_bind, aS _ (pS _ (pH d hd)),
      upd_upd, upd_upd]
    exact congrArg (fun e => some (diagState n e)) (upd_const d i _ _ _ h0 (by decide))
  · simp only [Option.bind_eq_bind]
    rw [aH d hd, Option.some_bind, aS _ (pH d hd), upd_upd]
    exact congrArg (fun e => some (diagState n e)) (upd_const d i _ _ _ h0 (by decide))
  · simp only [Option.bind_eq_bind]
    rw [aH d hd, Option.some_bind, aS _ (pH d hd), Option.some_bind, aS _ (pS _ (pH d hd)),
      Option.some_bind, aS _ (pS _ (pS _ (pH d hd))), upd_upd, upd_upd, upd_upd]
    exact congrArg (fun e => some (diagState n e)) (upd_const d i _ _ _ h0 (by decide))
  · have : upd d i (fun _ => ((false, true, 0) : Bool × Bool × Int)) = d := by
      funext j
      by_cases h : j = i
      · subst h; simp [upd, h0]
      · simp [upd, h]
    rw [this]

theorem diagState_congr (n : Nat) (d1 d2 : Nat → Bool × Bool × Int)
    (h : ∀ i, i < n → d1 i = d2 i) : diagState n d1 = diagState n d2 := by
  have : diagRows n d1 = diagRows n d2 := by
    apply List.map_congr_left
    intro i hi
    rw [h i (List.mem_range.1 hi)]
  simp only [diagState, this]

theorem prepareFrom_diag (n : Nat) (cs : List Char) :
    ∀ (i : Nat) (d : Nat → Bool × Bool × Int), i + cs.length ≤ n → PhaseOK d →
      (∀ j, i ≤ j → d j = (false, true, 0)) →
      prepareFrom i cs (diagState n d) = some (diagState n (preparedBits d i cs)) := by
  induction cs with
  | nil =>
    intro i d _ _ _
    simp only [prepareFrom]
    refine congrArg some (diagState_congr n _ _ (fun j _ => ?_))
    have : ¬ (i ≤ j ∧ j < i + ([] : List Char).length) := by simp
    simp only [preparedBits, if_neg this]
  | cons c cs ih =>
    intro i d hlen hd h0
    simp only [List.length_cons] at hlen
    simp only [prepareFrom, Option.bind_eq_bind]
    rw [prepareQubit_diag n i c d (by omega) hd (h0 i (le_refl i)), Option.some_bind,
      ih (i + 1) _ (by omega)
        (phaseOK_upd d i _ hd (fun _ _ => stabilizerOf_phase c))
        (fun j hj => by
          have : j ≠ i := by omega
          simp only [upd, if_neg this]
          exact h0 j (by omega))]
    apply congrArg some
    apply diagState_congr
    intro j _
    simp only [preparedBits, List.length_cons, upd]
    by_cases h1 : j = i
    · subst h1
      simp
    · by_cases h2 : i + 1 ≤ j ∧ j < i + 1 + cs.length
      · have h3 : i ≤ j ∧ j < i + (cs.length + 1) := by omega
        have h4 : j - i = (j - (i + 1)) + 1 := by omega
        rw [if_pos h2, if_pos h3, h4, List.getD_cons_succ]
      · have h3 : ¬ (i ≤ j ∧ j < i + (cs.length + 1)) := by omega
        rw [if_neg h2, if_neg h3, if_neg h1]

theorem initial_eq_diag (n : Nat) :
    ({ n := n, x := (List.range n).map fun _ => List.replicate n false,
       z := (List.range n).map fun i => (List.range n).map fun j => if i = j then true else false,
       r := List.replicate n 0, prevGenId := 0 } : QState)
      = diagState n (fun _ => (false, true, 0)) := by
  have hx : ∀ i : Nat, List.replicate n false
      = (List.range n).map (fun j => decide (i = j) && false) := by
    intro i
    apply List.ext_getElem?
    intro j
    simp only [List.getElem?_map, getElem?_range_ite, List.getElem?_replicate]
    by_cases hj : j < n <;> simp [hj]
  have hz : ∀ i : Nat, ((List.range n).map fun j => if i = j then true else false)
      = (List.range n).map (fun j => decide (i = j) && true) := by
    intro i
    apply List.map_congr_left
    intro j _
    by_cases h : i = j <;> simp [h]
  have hr : List.replicate n (0 : Int) = (List.range n).map (fun _ => (0 : Int)) := by
    apply List.ext_getElem?
    intro j
    simp only [List.getElem?_map, getElem?_range_ite, List.getElem?_replicate]
    by_cases hj : j < n <;> simp [hj]
  simp only [diagState, diagRows, diagRow, List.map_map, Function.comp, ← hx, ← hz]
  rw [hr]
  rfl

theorem initializeState_eq (n : Nat) (input : String) (hlen : input.length ≤ n) :
    initializeState n input
      = some (diagState n (preparedBits (fun _ => (false, true, 0)) 0 input.toList)) := by
  simp only [initializeState, initial_eq_diag]
  by_cases h : input.length = 0
  · have hnil : input.toList = [] := List.length_eq_zero.1 h
    simp only [h, ne_eq, not_true_eq_false, if_false, hnil]
    refine congrArg some (diagState_congr n _ _ (fun j _ => ?_))
    have : ¬ (0 ≤ j ∧ j < 0 + ([] : List Char).length) := by simp
    simp only [preparedBits, if_neg this]
  · rw [if_pos h]
    exact prepareFrom_diag n input.toList 0 _ (by simpa using hlen) (fun _ => Or.inl rfl)
      (fun _ _ => rfl)

theorem getD_map_range_gen {α : Type} (n t : Nat) (f : Nat → α) (dflt : α) (ht : t < n) :
    ((List.range n).map f).getD t dflt = f t := by
  simp [List.getD_eq_getElem?_getD, List.getElem?_map, List.getElem?_range ht]

theorem preparedBits_phase (cs : List Char) : PhaseOK (preparedBits (fun _ => (false, true, 0)) 0 cs) := by
  intro j
  simp only [preparedBits]
  split_ifs
  · exact stabilizerOf_phase _
  · exact Or.inl rfl

theorem preparedBits_eq (cs : List Char) (i : Nat) :
    preparedBits (fun _ => (false, true, 0)) 0 cs i = stabilizerOf (cs.getD i 'z') := by
  simp only [preparedBits]
  by_cases h : i < cs.length
  · rw [if_pos (by omega)]; simp
  · rw [if_neg (by omega)]
    have : cs.getD i 'z' = 'z' := by
      simp [List.getD_eq_getElem?_getD, List.getElem?_eq_none (Nat.le_of_not_lt h)]
    rw [this]
    decide

/-- C10 (input-state preparation): for an input string of length at most `n`,
`initializeState n input` returns a well-shaped `n`-qubit tableau in which every
off-diagonal entry of `x` and `z` is `0`, and the diagonal entries and the phase of
row `i` are the bits `stabilizerOf` of character `i`: `z` gives `(0,1,0)`, `Z`
`(0,1,1)`, `x` `(1,0,0)`, `X` `(1,0,1)`, `y` `(1,1,0)`, `Y` `(1,1,1)`; rows past the
end of the string are `(0,1,0)`, so the empty string gives `x = 0`, `z = Id`, `r = 0`. -/
theorem initializeState_prepares (n : Nat) (input : String) (hlen : input.length ≤ n)
    (hchars : ∀ c ∈ input.toList, c ∈ ['z', 'Z', 'x', 'X', 'y', 'Y']) :
    ∃ st, initializeState n input = some st ∧ st.n = n ∧ st.WellShaped ∧
      ∀ i, i < n →
        (∀ j, j < n →
          (st.x.getD i []).getD j false
            = (decide (i = j) && (stabilizerOf (input.toList.getD i 'z')).1) ∧
          (st.z.getD i []).getD j false
            = (decide (i = j) && (stabilizerOf (input.toList.getD i 'z')).2.1)) ∧
        st.r.getD i 0 = (stabilizerOf (input.toList.getD i 'z')).2.2 := by
  have _ := hchars
  refine ⟨_, initializeState_eq n input hlen, rfl,
    diagState_wellShaped n _ (preparedBits_phase _), ?_⟩
  intro i hi
  simp only [diagState, diagRows, List.map_map]
  rw [getD_map_range_gen n i _ _ hi, getD_map_range_gen n i _ _ hi,
    getD_map_range_gen n i _ _ hi]
  simp only [Function.comp, diagRow, preparedBits_eq]
  refine ⟨fun j hj => ?_, trivial⟩
  rw [getD_map_range n j _ hj, getD_map_range n j _ hj]
  exact ⟨rfl, rfl⟩

/-- C10 for four qubits and the input `ZyX`. -/
theorem initializeState_prepares_witness :
    "ZyX".length ≤ 4 ∧ (∀ c ∈ "ZyX".toList, c ∈ ['z', 'Z', 'x', 'X', 'y', 'Y']) ∧
    ∃ st, initializeState 4 "ZyX" = some st ∧ st.n = 4 ∧ st.WellShaped ∧
      ∀ i, i < 4 →
        (∀ j, j < 4 →
          (st.x.getD i []).getD j false
            = (decide (i = j) && (stabilizerOf ("ZyX".toList.getD i 'z')).1) ∧
          (st.z.getD i []).getD j false
            = (decide (i = j) && (stabilizerOf ("ZyX".toList.getD i 'z')).2.1)) ∧
        st.r.getD i 0 = (stabilizerOf ("ZyX".toList.getD i 'z')).2.2 :=
  ⟨by decide, by decide, initializeState_prepares 4 "ZyX" (by decide) (by decide)⟩

/-! ## Clifford check and early returns -/

theorem isClifford_loop_iff (ops : List Operation) :
    isClifford.loop ops = true ↔
      ∀ op ∈ ops, op.type ∈ [OpType.H, OpType.S, OpType.Sdag, OpType.X, OpType.Y, OpType.Z,
        OpType.I] := by
  induction ops with
  | nil => simp [isClifford.loop]
  | cons op rest ih =>
    rw [List.forall_mem_cons, ← ih]
    have hmem : op.type ∈ [OpType.H, OpType.S, OpType.Sdag, OpType.X, OpType.Y, OpType.Z,
        OpType.I] ↔ ¬ (op.type ≠ OpType.H ∧ op.type ≠ OpType.S ∧ op.type ≠ OpType.Sdag ∧
          op.type ≠ OpType.X ∧ op.type ≠ OpType.Z ∧ op.type ≠ OpType.Y ∧
          op.type ≠ OpType.I) := by
      simp only [List.mem_cons, List.mem_singleton, List.not_mem_nil, or_false]
      tauto
    simp only [isClifford.loop]
    split_ifs with h
    · simp only [Bool.false_eq_true, false_iff, not_and]
      intro hop
      exact absurd h (hmem.1 hop)
    · exact ⟨fun hrest => ⟨hmem.2 h, hrest⟩, fun hall => hall.2⟩

/-- C5 (Clifford acceptance): `isClifford` returns `true` exactly when the type of
every operation is one of `H, S, Sdag, X, Y, Z, I`, whatever its controls; so it is
`true` for the empty circuit and `false` once some operation has another type. -/
theorem isClifford_iff (qc : QuantumComputation) :
    (isClifford qc = true ↔
      ∀ op ∈ qc.ops, op.type ∈ [OpType.H, OpType.S, OpType.Sdag, OpType.X, OpType.Y,
        OpType.Z, OpType.I]) ∧
    isClifford { nqubits := qc.nqubits, ops := [] } = true ∧
    (∀ (before after : List Operation) (op : Operation),
      op.type ∉ [OpType.H, OpType.S, OpType.Sdag, OpType.X, OpType.Y, OpType.Z, OpType.I] →
      isClifford { nqubits := qc.nqubits, ops := before ++ op :: after } = false) := by
  refine ⟨isClifford_loop_iff qc.ops, rfl, ?_⟩
  intro before after op hop
  have h := isClifford_loop_iff (before ++ op :: after)
  cases hc : isClifford { nqubits := qc.nqubits, ops := before ++ op :: after } with
  | false => rfl
  | true =>
    exfalso
    exact hop ((h.1 hc) op (by simp))

/-- C4 (invalid input): when one of the circuits is not Clifford or is empty,
`testEqual` returns `false` and hands back the encoder as it was (statistics,
registry, `uniqueGenCnt`, `nrOfInputGenerators`), in every environment: no DAG
is built, nothing is preprocessed and the solver is not asked. -/
theorem testEqual_rejects (enc : SatEncoder) (env : Environment)
    (circuitOne circuitTwo : QuantumComputation) (inputs : List String)
    (h : isClifford circuitOne = false ∨ isClifford circuitTwo = false ∨
      circuitOne.empty = true ∨ circuitTwo.empty = true) :
    enc.testEqual env circuitOne circuitTwo inputs = some (false, enc) := by
  unfold SatEncoder.testEqual
  by_cases h1 : (!isClifford circuitOne || !isClifford circuitTwo) = true
  · rw [if_pos h1]
  · rw [if_neg h1]
    have h2 : (circuitOne.empty || circuitTwo.empty) = true := by
      rcases h with h | h | h | h
      · simp [h] at h1
      · simp [h] at h1
      · simp [h]
      · simp [h]
    rw [if_pos h2]

/-- C4 for a circuit with a `T` gate. -/
theorem testEqual_rejects_witness :
    (isClifford { nqubits := 1, ops := [gate OpType.T 0] } = false ∨
      isClifford { nqubits := 1, ops := [gate OpType.H 0] } = false ∨
      QuantumComputation.empty { nqubits := 1, ops := [gate OpType.T 0] } = true ∨
      QuantumComputation.empty { nqubits := 1, ops := [gate OpType.H 0] } = true) ∧
    SatEncoder.fresh.testEqual (referenceEnv constructDAG)
      { nqubits := 1, ops := [gate OpType.T 0] } { nqubits := 1, ops := [gate OpType.H 0] }
      ["z"] = some (false, SatEncoder.fresh) :=
  ⟨by decide, testEqual_rejects SatEncoder.fresh (referenceEnv constructDAG) _ _ _ (by decide)⟩

/-! ## The reference solver is sound and decisive -/

theorem bvExpr_eval_congr (σ τ : Assignment) (e : BvExpr)
    (h : ∀ p ∈ e.names, σ p.1 % 2 ^ p.2 = τ p.1 % 2 ^ p.2) : e.eval σ = e.eval τ := by
  cases e with
  | const name width => exact h (name, width) (by simp [BvExpr.names])
  | val value width => rfl

theorem z3Expr_eval_congr (σ τ : Assignment) (c : Z3Expr)
    (h : ∀ p ∈ c.names, σ p.1 % 2 ^ p.2 = τ p.1 % 2 ^ p.2) : c.eval σ = c.eval τ := by
  induction c with
  | eq a b =>
    simp only [Z3Expr.names, List.mem_append] at h
    simp only [Z3Expr.eval, bvExpr_eval_congr σ τ a (fun p hp => h p (Or.inl hp)),
      bvExpr_eval_congr σ τ b (fun p hp => h p (Or.inr hp))]
  | ne a b =>
    simp only [Z3Expr.names, List.mem_append] at h
    simp only [Z3Expr.eval, bvExpr_eval_congr σ τ a (fun p hp => h p (Or.inl hp)),
      bvExpr_eval_congr σ τ b (fun p hp => h p (Or.inr hp))]
  | ult a b =>
    simp only [Z3Expr.names, List.mem_append] at h
    simp only [Z3Expr.eval, bvExpr_eval_congr σ τ a (fun p hp => h p (Or.inl hp)),
      bvExpr_eval_congr σ τ b (fun p hp => h p (Or.inr hp))]
  | iff p q ihp ihq =>
    simp only [Z3Expr.names, List.mem_append] at h
    simp only [Z3Expr.eval, ihp (fun x hx => h x (Or.inl hx)), ihq (fun x hx => h x (Or.inr hx))]
  | implies p q ihp ihq =>
    simp only [Z3Expr.names, List.mem_append] at h
    simp only [Z3Expr.eval, ihp (fun x hx => h x (Or.inl hx)), ihq (fun x hx => h x (Or.inr hx))]

theorem le_maxWidth (l : List (BvName × Nat)) (p : BvName × Nat) (hp : p ∈ l) :
    p.2 ≤ maxWidth l := by
  induction l with
  | nil => cases hp
  | cons q rest ih =>
    simp only [maxWidth]
    rcases List.mem_cons.1 hp with h | h
    · subst h; exact le_max_left _ _
    · exact le_trans (ih h) (le_max_right _ _)

theorem table_mem_candidates (bound : Nat) (vals : BvName → Nat) (hv : ∀ name, vals name < bound)
    (names : List BvName) :
    names.map (fun name => (name, vals name)) ∈ candidates bound names := by
  induction names with
  | nil => simp [candidates]
  | cons name rest ih =>
    simp only [candidates, List.map_cons, List.mem_flatMap, List.mem_range, List.mem_map]
    exact ⟨vals name, hv name, _, ih, rfl⟩

theorem atKey_table (vals : BvName → Nat) (names : List BvName) (name : BvName)
    (h : name ∈ names) :
    StdMap.atKey (names.map (fun nm => (nm, vals nm))) name = some (vals name) := by
  induction names with
  | nil => cases h
  | cons a rest ih =>
    simp only [List.map_cons, StdMap.atKey]
    by_cases ha : a = name
    · subst ha; simp
    · rw [if_neg ha]
      exact ih ((List.mem_cons.1 h).resolve_left (fun e => ha e.symm))

theorem referenceCheck_sat_iff (solver : Solver) :
    referenceCheck solver = CheckResult.sat ↔ Satisfiable solver.assertions := by
  unfold referenceCheck
  simp only
  constructor
  · intro h
    split_ifs at h with hany
    obtain ⟨l, _, hl⟩ := List.any_eq_true.1 hany
    exact ⟨assignmentOf l, List.all_eq_true.1 hl⟩
  · rintro ⟨σ, hσ⟩
    have hany : (candidates (2 ^ maxWidth (solver.assertions.flatMap Z3Expr.names))
        ((solver.assertions.flatMap Z3Expr.names).map Prod.fst).dedup).any
        (fun l => solver.assertions.all fun c => c.eval (assignmentOf l)) = true := by
      rw [List.any_eq_true]
      refine ⟨_, table_mem_candidates _
        (fun name => σ name % 2 ^ maxWidth (solver.assertions.flatMap Z3Expr.names))
        (fun name => Nat.mod_lt _ (Nat.pos_pow_of_pos _ (by decide))) _, ?_⟩
      rw [List.all_eq_true]
      intro c hc
      rw [← hσ c hc]
      apply z3Expr_eval_congr
      intro p hp
      have hmem : p ∈ solver.assertions.flatMap Z3Expr.names :=
        List.mem_flatMap.2 ⟨c, hc, hp⟩
      have hname : p.1 ∈ ((solver.assertions.flatMap Z3Expr.names).map Prod.fst).dedup :=
        List.mem_dedup.2 (List.mem_map.2 ⟨p, hmem, rfl⟩)
      simp only [assignmentOf, atKey_table _ _ _ hname, Option.getD_some]
      exact Nat.mod_mod_of_dvd _ (Nat.pow_dvd_pow 2 (le_maxWidth _ p hmem))
    rw [if_pos hany]

theorem referenceCheck_sound : SolverSound referenceCheck := by
  intro solver
  refine ⟨(referenceCheck_sat_iff solver).1, ?_⟩
  intro h hsat
  rw [(referenceCheck_sat_iff solver).2 hsat] at h
  cases h

theorem referenceCheck_decisive : SolverDecisive referenceCheck := by
  intro solver h
  unfold referenceCheck at h
  simp only at h
  split_ifs at h

theorem bind_map_congr {α β γ δ : Type} (a b : Option α) (f : α → γ) (k1 k2 : α → Option β)
    (g : β → δ) (h : a.map f = b.map f)
    (hk : ∀ x y, f x = f y → (k1 x).map g = (k2 y).map g) :
    (a.bind k1).map g = (b.bind k2).map g := by
  cases a with
  | none =>
    cases b with
    | none => rfl
    | some y => cases h
  | some x =>
    cases b with
    | none => cases h
    | some y =>
      simp only [Option.map_some', Option.some.injEq] at h
      exact hk x y h

theorem core_core (e : SatEncoder) : e.core.core = e.core := rfl

theorem internGenerator_core (e1 e2 : SatEncoder) (h : e1.core = e2.core) (g : Generator) :
    (internGenerator e1 g).map (fun p => (p.1, p.2.core))
      = (internGenerator e2 g).map (fun p => (p.1, p.2.core)) := by
  obtain ⟨a1, b1, c1, d1, f1⟩ := e1
  obtain ⟨a2, b2, c2, d2, f2⟩ := e2
  simp only [SatEncoder.core, SatEncoder.mk.injEq, and_true, true_and] at h
  obtain ⟨rfl, rfl, rfl, rfl⟩ := h
  unfold internGenerator
  simp only [SatEncoder.core, randomUuid]
  split
  · rfl
  · cases StdMap.atKey b1 g <;> rfl

theorem internInitial_core (rep : CircuitRepresentation) (e1 e2 : SatEncoder)
    (h : e1.core = e2.core) (st : QState) :
    (internInitial (rep, e1) st).map (fun p => (p.1, p.2.1, p.2.2.core))
      = (internInitial (rep, e2) st).map (fun p => (p.1, p.2.1, p.2.2.core)) := by
  unfold internInitial
  cases st.getLevelGenerator with
  | none => rfl
  | some gen =>
    simp only [Option.bind_eq_bind, Option.some_bind]
    apply bind_map_congr _ _ _ _ _ _ (internGenerator_core e1 e2 h gen)
    rintro ⟨u, x⟩ ⟨v, y⟩ hxy
    simp only [Prod.mk.injEq] at hxy
    obtain ⟨rfl, hc⟩ := hxy
    simp [hc]

theorem internLevel_core (levelCnt : Nat) (rep : CircuitRepresentation) (e1 e2 : SatEncoder)
    (h : e1.core = e2.core) (st : QState) :
    (internLevel levelCnt (rep, e1) st).map (fun p => (p.1, p.2.1, p.2.2.core))
      = (internLevel levelCnt (rep, e2) st).map (fun p => (p.1, p.2.1, p.2.2.core)) := by
  unfold internLevel
  cases st.getLevelGenerator with
  | none => rfl
  | some gen =>
    simp only [Option.bind_eq_bind, Option.some_bind]
    apply bind_map_congr _ _ _ _ _ _ (internGenerator_core e1 e2 h gen)
    rintro ⟨u, x⟩ ⟨v, y⟩ hxy
    simp only [Prod.mk.injEq] at hxy
    obtain ⟨rfl, hc⟩ := hxy
    cases rep.generatorMappings[levelCnt]? with
    | none => rfl
    | some layer => simp [hc]

theorem forStates_core
    (body : CircuitRepresentation × SatEncoder → QState →
      Option (QState × CircuitRepresentation × SatEncoder))
    (hbody : ∀ rep e1 e2 st, e1.core = e2.core →
      (body (rep, e1) st).map (fun p => (p.1, p.2.1, p.2.2.core))
        = (body (rep, e2) st).map (fun p => (p.1, p.2.1, p.2.2.core)))
    (states : List QState) :
    ∀ (rep : CircuitRepresentation) (e1 e2 : SatEncoder), e1.core = e2.core →
      (forStates body states (rep, e1)).map (fun p => (p.1, p.2.1, p.2.2.core))
        = (forStates body states (rep, e2)).map (fun p => (p.1, p.2.1, p.2.2.core)) := by
  induction states with
  | nil =>
    intro rep e1 e2 h
    simp [forStates, h]
  | cons st rest ih =>
    intro rep e1 e2 h
    simp only [forStates, Option.bind_eq_bind]
    apply bind_map_congr _ _ _ _ _ _ (hbody rep e1 e2 st h)
    rintro ⟨s1, r1, x⟩ ⟨s2, r2, y⟩ hxy
    simp only [Prod.mk.injEq] at hxy
    obtain ⟨rfl, rfl, hc⟩ := hxy
    apply bind_map_congr _ _ _ _ _ _ (ih r1 x y hc)
    rintro ⟨l1, q1, x1⟩ ⟨l2, q2, y1⟩ h1
    simp only [Prod.mk.injEq] at h1
    obtain ⟨rfl, rfl, hc1⟩ := h1
    simp [hc1]

theorem foldlM_map_congr {α β γ : Type} (f : β → α → Option β) (proj : β → γ)
    (hf : ∀ b1 b2 a, proj b1 = proj b2 → (f b1 a).map proj = (f b2 a).map proj)
    (l : List α) :
    ∀ b1 b2, proj b1 = proj b2 → (l.foldlM f b1).map proj = (l.foldlM f b2).map proj := by
  induction l with
  | nil =>
    intro b1 b2 h
    simp [h]
  | cons a rest ih =>
    intro b1 b2 h
    simp only [List.foldlM_cons, Option.bind_eq_bind]
    exact bind_map_congr _ _ proj _ _ proj (hf b1 b2 a h) (fun x y hxy => ih x y hxy)

theorem applyQubit_fst (dag : DAG) (levelCnt : Nat) (b1 b2 : List QState × Nat) (q : Nat)
    (h : b1.1 = b2.1) :
    (applyQubit dag levelCnt b1 q).map Prod.fst = (applyQubit dag levelCnt b2 q).map Prod.fst := by
  obtain ⟨s1, c1⟩ := b1
  obtain ⟨s2, c2⟩ := b2
  simp only at h
  subst h
  unfold applyQubit
  cases dag[q]? with
  | none => rfl
  | some ops =>
    simp only [Option.bind_eq_bind, Option.some_bind]
    split_ifs
    · cases ops[levelCnt]? with
      | none => rfl
      | some og =>
        cases og with
        | none => rfl
        | some gate =>
          simp only [Option.some_bind]
          cases gate.targets[0]? with
          | none => rfl
          | some target =>
            simp only [Option.some_bind]
            cases List.mapM (applyGate gate q target) s1 <;> rfl
    · rfl
    · rfl

theorem applyLevel_fst (dag : DAG) (levelCnt : Nat) (b1 b2 : List QState × Nat)
    (h : b1.1 = b2.1) :
    (applyLevel dag levelCnt b1).map Prod.fst = (applyLevel dag levelCnt b2).map Prod.fst :=
  foldlM_map_congr _ Prod.fst (fun x y q hxy => applyQubit_fst dag levelCnt x y q hxy) _ b1 b2 h

theorem preprocessLevel_core (dag : DAG)
    (a1 a2 : List QState × CircuitRepresentation × SatEncoder) (levelCnt : Nat)
    (h : coreAcc a1 = coreAcc a2) :
    (preprocessLevel dag a1 levelCnt).map coreAcc
      = (preprocessLevel dag a2 levelCnt).map coreAcc := by
  obtain ⟨s1, r1, e1⟩ := a1
  obtain ⟨s2, r2, e2⟩ := a2
  simp only [coreAcc, Prod.mk.injEq] at h
  obtain ⟨rfl, rfl, hc⟩ := h
  unfold preprocessLevel
  simp only [Option.bind_eq_bind]
  apply bind_map_congr _ _ Prod.fst _ _ _
    (applyLevel_fst dag levelCnt (s1, e1.stats.nrOfGates) (s1, e2.stats.nrOfGates) rfl)
  rintro ⟨l1, n1⟩ ⟨l2, n2⟩ hl
  simp only at hl
  subst hl
  exact forStates_core _ (fun rep x y st hxy => internLevel_core levelCnt rep x y hxy st)
    l1 r1 _ _ (by simpa [SatEncoder.core] using hc)

theorem preprocessCircuit_core (e1 e2 : SatEncoder) (h : e1.core = e2.core) (dag : DAG)
    (inputs : List String) (t1 t2 : Nat) :
    (e1.preprocessCircuit dag inputs t1).map (fun p => (p.1, p.2.core))
      = (e2.preprocessCircuit dag inputs t2).map (fun p => (p.1, p.2.core)) := by
  simp only [SatEncoder.preprocessCircuit, Option.bind_eq_bind]
  cases initialStates dag.length inputs with
  | none => rfl
  | some states =>
    simp only [Option.some_bind]
    apply bind_map_congr _ _ coreAcc _ _ _
      (forStates_core _ (fun rep x y st hxy => internInitial_core rep x y hxy st) states _ _ _
        (by simpa [SatEncoder.core] using h))
    rintro ⟨l1, r1, x⟩ ⟨l2, r2, y⟩ hxy
    simp only [coreAcc, Prod.mk.injEq] at hxy
    obtain ⟨rfl, rfl, hc⟩ := hxy
    have hni : x.nrOfInputGenerators = y.nrOfInputGenerators := by
      have h0 := congrArg SatEncoder.nrOfInputGenerators hc
      exact h0
    have hu : x.uniqueGenCnt = y.uniqueGenCnt := by
      have h0 := congrArg SatEncoder.uniqueGenCnt hc
      exact h0
    have hg : x.generators = y.generators := by
      have h0 := congrArg SatEncoder.generators hc
      exact h0
    have hgi : x.generatorIdMap = y.generatorIdMap := by
      have h0 := congrArg SatEncoder.generatorIdMap hc
      exact h0
    apply bind_map_congr _ _ coreAcc _ _ _
      (foldlM_map_congr _ coreAcc (preprocessLevel_core dag) _ _ _ _)
    · rintro ⟨l3, r3, x3⟩ ⟨l4, r4, y3⟩ h3
      simp only [coreAcc, Prod.mk.injEq] at h3
      obtain ⟨rfl, rfl, hc3⟩ := h3
      simpa [SatEncoder.core] using hc3
    · simp only [coreAcc, Prod.mk.injEq, true_and, hni, hu]
      split_ifs <;> simp [SatEncoder.core, hg, hgi, hni, hu]

theorem encodeCircuit_core (e1 e2 : SatEncoder) (h : e1.core = e2.core)
    (rep : CircuitRepresentation) (primed : Bool) (connective : Z3Expr → Z3Expr → Z3Expr)
    (generatorCnt bitwidth : Nat) (needed : Bool) (solver : Solver) :
    (encodeCircuit e1 rep primed connective generatorCnt bitwidth needed solver).map
        (fun p => (p.1, p.2.1, p.2.2.core))
      = (encodeCircuit e2 rep primed connective generatorCnt bitwidth needed solver).map
        (fun p => (p.1, p.2.1, p.2.2.core)) := by
  have hg : e1.generators = e2.generators := by
    have h0 := congrArg SatEncoder.generators h
    exact h0
  have hgi : e1.generatorIdMap = e2.generatorIdMap := by
    have h0 := congrArg SatEncoder.generatorIdMap h
    exact h0
  have hni : e1.nrOfInputGenerators = e2.nrOfInputGenerators := by
    have h0 := congrArg SatEncoder.nrOfInputGenerators h
    exact h0
  have hu : e1.uniqueGenCnt = e2.uniqueGenCnt := by
    have h0 := congrArg SatEncoder.uniqueGenCnt h
    exact h0
  simp only [encodeCircuit, Option.bind_eq_bind]
  cases mkVars primed rep.generatorMappings.length bitwidth with
  | none => rfl
  | some vars =>
    simp only [Option.some_bind]
    rw [hg]
    cases functionalConstraints e2.generators rep vars bitwidth connective with
    | none => rfl
    | some functional =>
      simp only [Option.some_bind]
      cases blockingConstraints needed vars generatorCnt bitwidth with
      | none => rfl
      | some blocking => simp [SatEncoder.core, hg, hgi, hni, hu]

theorem constructMiterInstance_core (e1 e2 : SatEncoder) (h : e1.core = e2.core)
    (rep1 rep2 : CircuitRepresentation) (solver : Solver) (t1 t2 : Nat) :
    (e1.constructMiterInstance rep1 rep2 solver t1).map Prod.fst
      = (e2.constructMiterInstance rep1 rep2 solver t2).map Prod.fst := by
  have hg : e1.generators = e2.generators := by
    have h0 := congrArg SatEncoder.generators h
    exact h0
  have hgi : e1.generatorIdMap = e2.generatorIdMap := by
    have h0 := congrArg SatEncoder.generatorIdMap h
    exact h0
  have hni : e1.nrOfInputGenerators = e2.nrOfInputGenerators := by
    have h0 := congrArg SatEncoder.nrOfInputGenerators h
    exact h0
  have hu : e1.uniqueGenCnt = e2.uniqueGenCnt := by
    have h0 := congrArg SatEncoder.uniqueGenCnt h
    exact h0
  simp only [SatEncoder.constructMiterInstance, Option.bind_eq_bind, hg]
  apply bind_map_congr _ _ _ _ _ _ (encodeCircuit_core _ _ _ rep1 false Z3Expr.iff _ _ _ solver)
  · rintro ⟨v1, s1, x⟩ ⟨v2, s2, y⟩ hxy
    simp only [Prod.mk.injEq] at hxy
    obtain ⟨rfl, rfl, hc⟩ := hxy
    apply bind_map_congr _ _ _ _ _ _ (encodeCircuit_core _ _ hc rep2 true Z3Expr.iff _ _ _ s1)
    rintro ⟨w1, s3, x1⟩ ⟨w2, s4, y1⟩ h1
    simp only [Prod.mk.injEq] at h1
    obtain ⟨rfl, rfl, hc1⟩ := h1
    have hni1 : x1.nrOfInputGenerators = y1.nrOfInputGenerators := by
      have h0 := congrArg SatEncoder.nrOfInputGenerators hc1
      exact h0
    simp only [hni1]
    cases v1.head? <;> cases w1.head? <;> cases v1.getLast? <;> cases w1.getLast? <;>
      cases bvVal y1.nrOfInputGenerators (bitwidthOf e2.generators.length) <;> rfl
  · simp [SatEncoder.core, hg, hgi, hni, hu]

theorem miterPipeline_core (e1 e2 : SatEncoder) (h : e1.core = e2.core) (dagOne dagTwo : DAG)
    (inputs : List String) (t1 t2 t3 s1 s2 s3 : Nat) :
    (miterPipeline e1 dagOne dagTwo inputs t1 t2 t3).map Prod.fst
      = (miterPipeline e2 dagOne dagTwo inputs s1 s2 s3).map Prod.fst := by
  simp only [miterPipeline, Option.bind_eq_bind]
  apply bind_map_congr _ _ _ _ _ _ (preprocessCircuit_core e1 e2 h dagOne inputs t1 s1)
  rintro ⟨r1, x⟩ ⟨r2, y⟩ hxy
  simp only [Prod.mk.injEq] at hxy
  obtain ⟨rfl, hc⟩ := hxy
  apply bind_map_congr _ _ _ _ _ _ (preprocessCircuit_core x y hc dagTwo inputs t2 s2)
  rintro ⟨q1, x1⟩ ⟨q2, y1⟩ h1
  simp only [Prod.mk.injEq] at h1
  obtain ⟨rfl, hc1⟩ := h1
  exact constructMiterInstance_core x1 y1 hc1 r1 q1 _ t3 s3

/-- The verdict of `testEqual` on circuits that pass the input checks: the miter of
the two DAGs is built, and the result is `true` unless the solver answers `sat`. -/
theorem testEqual_verdict (enc : SatEncoder) (env : Environment)
    (circuitOne circuitTwo : QuantumComputation) (inputs : List String)
    (h1 : isClifford circuitOne = true) (h2 : isClifford circuitTwo = true)
    (h3 : circuitOne.empty = false) (h4 : circuitTwo.empty = false) :
    (enc.testEqual env circuitOne circuitTwo inputs).map Prod.fst
      = (miterPipeline enc.core (env.constructDAG circuitOne) (env.constructDAG circuitTwo)
          inputs 0 0 0).map (fun p => !decide (env.check p.1 = CheckResult.sat)) := by
  have e : (miterPipeline enc.core (env.constructDAG circuitOne) (env.constructDAG circuitTwo)
      inputs 0 0 0).map (fun p => !decide (env.check p.1 = CheckResult.sat))
      = ((miterPipeline enc.core (env.constructDAG circuitOne) (env.constructDAG circuitTwo)
          inputs 0 0 0).map Prod.fst).map (fun s => !decide (env.check s = CheckResult.sat)) := by
    rw [Option.map_map]; rfl
  rw [e, miterPipeline_core enc.core
    { enc with stats := { enc.stats with
        nrOfDiffInputStates := inputs.length, nrOfQubits := circuitOne.getNqubits } } rfl _ _ _
    0 0 0 (env.preprocMillis (env.constructDAG circuitOne))
    (env.preprocMillis (env.constructDAG circuitTwo)) env.constructionMillis]
  simp only [SatEncoder.testEqual, h1, h2, h3, h4, Bool.not_true, Bool.or_self,
    Bool.false_eq_true, if_false, miterPipeline, Option.bind_eq_bind]
  cases SatEncoder.preprocessCircuit _ (env.constructDAG circuitOne) inputs _ with
  | none => rfl
  | some p1 =>
    obtain ⟨r1, x1⟩ := p1
    simp only [Option.some_bind]
    cases SatEncoder.preprocessCircuit x1 (env.constructDAG circuitTwo) inputs _ with
    | none => rfl
    | some p2 =>
      obtain ⟨r2, x2⟩ := p2
      simp only [Option.some_bind]
      cases SatEncoder.constructMiterInstance x2 r1 r2 _ _ with
      | none => rfl
      | some p3 =>
        obtain ⟨s, x3⟩ := p3
        simp only [Option.some_bind, Option.map_some', SatEncoder.isSatisfiable]
        by_cases hs : env.check s = CheckResult.sat
        · simp [hs]
        · by_cases hu : env.check s = CheckResult.unsat <;> simp [hs, hu]

/-! ## Verdicts of `testEqual` -/

theorem verdict_true (enc : SatEncoder) (env : Environment)
    (circuitOne circuitTwo : QuantumComputation) (inputs : List String)
    (h1 : isClifford circuitOne = true) (h2 : isClifford circuitTwo = true)
    (h3 : circuitOne.empty = false) (h4 : circuitTwo.empty = false)
    (hs : SolverSound env.check) (solver : Solver)
    (hp : (miterPipeline enc.core (env.constructDAG circuitOne) (env.constructDAG circuitTwo)
      inputs 0 0 0).map Prod.fst = some solver)
    (hu : ¬ Satisfiable solver.assertions) :
    (enc.testEqual env circuitOne circuitTwo inputs).map Prod.fst = some true := by
  rw [testEqual_verdict enc env circuitOne circuitTwo inputs h1 h2 h3 h4]
  cases hq : miterPipeline enc.core (env.constructDAG circuitOne)
      (env.constructDAG circuitTwo) inputs 0 0 0 with
  | none => rw [hq] at hp; cases hp
  | some p =>
    rw [hq] at hp
    simp only [Option.map_some', Option.some.injEq] at hp
    subst hp
    have : env.check p.1 ≠ CheckResult.sat := fun h => hu ((hs p.1).1 h)
    simp [this]

theorem verdict_false (enc : SatEncoder) (env : Environment)
    (circuitOne circuitTwo : QuantumComputation) (inputs : List String)
    (h1 : isClifford circuitOne = true) (h2 : isClifford circuitTwo = true)
    (h3 : circuitOne.empty = false) (h4 : circuitTwo.empty = false)
    (hs : SolverSound env.check) (hd : SolverDecisive env.check) (solver : Solver)
    (hp : (miterPipeline enc.core (env.constructDAG circuitOne) (env.constructDAG circuitTwo)
      inputs 0 0 0).map Prod.fst = some solver)
    (hsat : Satisfiable solver.assertions) :
    (enc.testEqual env circuitOne circuitTwo inputs).map Prod.fst = some false := by
  rw [testEqual_verdict enc env circuitOne circuitTwo inputs h1 h2 h3 h4]
  cases hq : miterPipeline enc.core (env.constructDAG circuitOne)
      (env.constructDAG circuitTwo) inputs 0 0 0 with
  | none => rw [hq] at hp; cases hp
  | some p =>
    rw [hq] at hp
    simp only [Option.map_some', Option.some.injEq] at hp
    subst hp
    have : env.check p.1 = CheckResult.sat := by
      cases hc : env.check p.1 with
      | sat => rfl
      | unsat => exact absurd hsat ((hs p.1).2 hc)
      | unknown => exact absurd hc (hd p.1)
    simp [this]

/-- A miter that the reference solver refutes has no satisfying assignment. -/
theorem unsat_of_reference (o : Option (Solver × SatEncoder))
    (h : o.map (fun p => referenceCheck p.1) = some CheckResult.unsat) :
    ∃ solver, o.map Prod.fst = some solver ∧ ¬ Satisfiable solver.assertions := by
  cases o with
  | none => cases h
  | some p =>
    simp only [Option.map_some', Option.some.injEq] at h
    exact ⟨p.1, rfl, (referenceCheck_sound p.1).2 h⟩

/-- A miter that the reference solver satisfies has a satisfying assignment. -/
theorem sat_of_reference (o : Option (Solver × SatEncoder))
    (h : o.map (fun p => referenceCheck p.1) = some CheckResult.sat) :
    ∃ solver, o.map Prod.fst = some solver ∧ Satisfiable solver.assertions := by
  cases o with
  | none => cases h
  | some p =>
    simp only [Option.map_some', Option.some.injEq] at h
    exact ⟨p.1, rfl, (referenceCheck_sound p.1).1 h⟩

/-! ## Soundness of the miter -/

/-- C1 (miter soundness, failing input): one qubit, circuit one `[X(0)]`, circuit two
`[X(0), Z(0)]`, input list `["x"]`, new encoder. With every sound solver
`testEqual` returns `true`, although on the input state `x` circuit one ends in the
generator `+Z` and circuit two in `-Z`: a list of one input is replaced by the
all-zero state, on which the two circuits agree. -/
theorem testEqual_true_on_different_outputs (env : Environment)
    (hOne : env.constructDAG { nqubits := 1, ops := [gate OpType.X 0] }
      = [[some (gate OpType.X 0)]])
    (hTwo : env.constructDAG { nqubits := 1, ops := [gate OpType.X 0, gate OpType.Z 0] }
      = [[some (gate OpType.X 0), some (gate OpType.Z 0)]])
    (hs : SolverSound env.check) :
    (SatEncoder.fresh.testEqual env { nqubits := 1, ops := [gate OpType.X 0] }
      { nqubits := 1, ops := [gate OpType.X 0, gate OpType.Z 0] } ["x"]).map Prod.fst
        = some true ∧
    finalGenerator [[some (gate OpType.X 0)]] "x" = some [[false, true, false]] ∧
    finalGenerator [[some (gate OpType.X 0), some (gate OpType.Z 0)]] "x"
      = some [[false, true, true]] := by
  refine ⟨?_, by decide, by decide⟩
  obtain ⟨solver, hp, hu⟩ := unsat_of_reference
    (miterPipeline SatEncoder.fresh [[some (gate OpType.X 0)]]
      [[some (gate OpType.X 0), some (gate OpType.Z 0)]] ["x"] 0 0 0) (by decide)
  exact verdict_true SatEncoder.fresh env _ _ ["x"] (by decide) (by decide) (by decide)
    (by decide) hs solver (by rw [hOne, hTwo]; exact hp) hu

/-- C1 with the reference solver and the modelled DAG constructor. -/
theorem testEqual_true_on_different_outputs_witness :
    (referenceEnv constructDAG).constructDAG { nqubits := 1, ops := [gate OpType.X 0] }
      = [[some (gate OpType.X 0)]] ∧
    (referenceEnv constructDAG).constructDAG
      { nqubits := 1, ops := [gate OpType.X 0, gate OpType.Z 0] }
      = [[some (gate OpType.X 0), some (gate OpType.Z 0)]] ∧
    SolverSound (referenceEnv constructDAG).check ∧
    (SatEncoder.fresh.testEqual (referenceEnv constructDAG)
      { nqubits := 1, ops := [gate OpType.X 0] }
      { nqubits := 1, ops := [gate OpType.X 0, gate OpType.Z 0] } ["x"]).map Prod.fst
        = some true ∧
    finalGenerator [[some (gate OpType.X 0)]] "x" = some [[false, true, false]] ∧
    finalGenerator [[some (gate OpType.X 0), some (gate OpType.Z 0)]] "x"
      = some [[false, true, true]] :=
  ⟨by decide, by decide, referenceCheck_sound,
    testEqual_true_on_different_outputs (referenceEnv constructDAG) (by decide) (by decide)
      referenceCheck_sound⟩

/-! ## Completeness of the miter -/

/-- C2 (bounded completeness, failing input): one qubit, inputs `z` and `x`, circuit
one `[I(0)]`, circuit two `[H(0)]`, new encoder. Both circuits are preprocessed and
the miter is built; the registry holds two generators and both are input
generators. The input id `0` ends in id `0` in circuit one and in id `1` in circuit
two, and still the miter has no satisfying assignment: the bound of the input
constraint, `nrOfInputGenerators = 2`, is the numeral `0` at bit-width `1`. -/
theorem miter_unsat_on_different_trajectories :
    ∃ (rep1 rep2 : CircuitRepresentation) (e1 e2 e3 : SatEncoder) (solver : Solver),
      SatEncoder.fresh.preprocessCircuit [[some (gate OpType.I 0)]] ["z", "x"] 0
        = some (rep1, e1) ∧
      e1.preprocessCircuit [[some (gate OpType.H 0)]] ["z", "x"] 0 = some (rep2, e2) ∧
      e2.constructMiterInstance rep1 rep2 { assertions := [] } 0 = some (solver, e3) ∧
      e2.generators.length = 2 ∧ e2.nrOfInputGenerators = 2 ∧
      bitwidthOf e2.generators.length = 1 ∧
      trajectoryEnd e2 rep1 0 = some 0 ∧ trajectoryEnd e2 rep2 0 = some 1 ∧
      ¬ Satisfiable solver.assertions := by
  have h : ((SatEncoder.fresh.preprocessCircuit [[some (gate OpType.I 0)]] ["z", "x"] 0).bind
      fun p1 => (p1.2.preprocessCircuit [[some (gate OpType.H 0)]] ["z", "x"] 0).bind
        fun p2 => (p2.2.constructMiterInstance p1.1 p2.1 { assertions := [] } 0).bind
          fun p3 => some (decide (p2.2.generators.length = 2 ∧ p2.2.nrOfInputGenerators = 2 ∧
            bitwidthOf p2.2.generators.length = 1 ∧ trajectoryEnd p2.2 p1.1 0 = some 0 ∧
            trajectoryEnd p2.2 p2.1 0 = some 1 ∧ referenceCheck p3.1 = CheckResult.unsat)))
      = some true := by decide
  obtain ⟨⟨rep1, e1⟩, h1, h⟩ := Option.bind_eq_some.1 h
  obtain ⟨⟨rep2, e2⟩, h2, h⟩ := Option.bind_eq_some.1 h
  obtain ⟨⟨solver, e3⟩, h3, h⟩ := Option.bind_eq_some.1 h
  simp only [Option.some.injEq, decide_eq_true_eq] at h
  obtain ⟨h4, h5, h6, h7, h8, h9⟩ := h
  exact ⟨rep1, rep2, e1, e2, e3, solver, h1, h2, h3, h4, h5, h6, h7, h8,
    (referenceCheck_sound solver).2 h9⟩

/-! ## The answer `unknown` -/

/-- C3 (solver gives up, failing input): one qubit, circuit one `[H(0)]`, circuit two
`[S(0)]`, input `z`, new encoder, and a solver that answers `unknown`. `testEqual`
returns `true` and sets `stats.equal` to `true`, while `stats.satisfiable` stays
`false`; the two circuits end in different generators and the miter handed to the
solver is satisfiable. -/
theorem testEqual_unknown_reports_equal :
    (SatEncoder.fresh.testEqual unknownEnv { nqubits := 1, ops := [gate OpType.H 0] }
      { nqubits := 1, ops := [gate OpType.S 0] } ["z"]).map
        (fun p => (p.1, p.2.stats.equal, p.2.stats.satisfiable)) = some (true, true, false) ∧
    finalGenerator [[some (gate OpType.H 0)]] "z" = some [[true, false, false]] ∧
    finalGenerator [[some (gate OpType.S 0)]] "z" = some [[false, true, false]] ∧
    ∃ solver, (miterPipeline SatEncoder.fresh [[some (gate OpType.H 0)]]
      [[some (gate OpType.S 0)]] ["z"] 0 0 0).map Prod.fst = some solver ∧
      Satisfiable solver.assertions :=
  ⟨by decide, by decide, by decide, sat_of_reference _ (by decide)⟩

theorem cnotMiter_unsat : ¬ Satisfiable cnotMiter := by
  rintro ⟨σ, h⟩
  simp only [cnotMiter, List.forall_mem_cons, List.not_mem_nil, link3, var3, Z3Expr.eval,
    BvExpr.eval, beq_iff_eq, decide_eq_true_eq, decide_eq_decide] at h
  generalize σ { primed := false, level := 0 } % 2 ^ 3 = a at h
  generalize σ { primed := false, level := 1 } % 2 ^ 3 = b at h
  generalize σ { primed := true, level := 0 } % 2 ^ 3 = c at h
  generalize σ { primed := true, level := 1 } % 2 ^ 3 = d at h
  generalize σ { primed := true, level := 2 } % 2 ^ 3 = e at h
  norm_num at h
  omega

/-! ## End-to-end scenarios -/

theorem hadamard_miter_satisfiable :
    ∃ solver, (miterPipeline SatEncoder.fresh [[some (gate OpType.H 0)]]
      [[some (gate OpType.H 0), some (gate OpType.H 0), some (gate OpType.H 0),
        some (gate OpType.H 0)]] [] 0 0 0).map Prod.fst = some solver ∧
      Satisfiable solver.assertions :=
  sat_of_reference _ (by decide)

/-- C6 (scenario "H against H H H H", as the code decides it): one qubit, circuit one
`[H(0)]` with a DAG of one level, circuit two four times `H(0)` with a DAG of four
levels, no inputs, new encoder. With every sound solver that answers definitively,
`testEqual` returns `false`: from the all-zero state circuit one ends in the
generator `+X` and circuit two in `+Z`, and the miter is satisfiable. -/
theorem testEqual_hadamard_false (env : Environment)
    (hOne : env.constructDAG { nqubits := 1, ops := [gate OpType.H 0] }
      = [[some (gate OpType.H 0)]])
    (hTwo : env.constructDAG { nqubits := 1, ops := [gate OpType.H 0, gate OpType.H 0,
        gate OpType.H 0, gate OpType.H 0] }
      = [[some (gate OpType.H 0), some (gate OpType.H 0), some (gate OpType.H 0),
          some (gate OpType.H 0)]])
    (hs : SolverSound env.check) (hd : SolverDecisive env.check) :
    (SatEncoder.fresh.testEqual env { nqubits := 1, ops := [gate OpType.H 0] }
      { nqubits := 1, ops := [gate OpType.H 0, gate OpType.H 0, gate OpType.H 0,
        gate OpType.H 0] } []).map Prod.fst = some false ∧
    finalGenerator [[some (gate OpType.H 0)]] "" = some [[true, false, false]] ∧
    finalGenerator [[some (gate OpType.H 0), some (gate OpType.H 0), some (gate OpType.H 0),
      some (gate OpType.H 0)]] "" = some [[false, true, false]] := by
  refine ⟨?_, by decide, by decide⟩
  obtain ⟨solver, hp, hsat⟩ := hadamard_miter_satisfiable
  exact verdict_false SatEncoder.fresh env _ _ [] (by decide) (by decide) (by decide)
    (by decide) hs hd solver (by rw [hOne, hTwo]; exact hp) hsat

/-- C6 with the reference solver and the modelled DAG constructor. -/
theorem testEqual_hadamard_false_witness :
    (referenceEnv constructDAG).constructDAG { nqubits := 1, ops := [gate OpType.H 0] }
      = [[some (gate OpType.H 0)]] ∧
    (referenceEnv constructDAG).constructDAG { nqubits := 1, ops := [gate OpType.H 0,
        gate OpType.H 0, gate OpType.H 0, gate OpType.H 0] }
      = [[some (gate OpType.H 0), some (gate OpType.H 0), some (gate OpType.H 0),
          some (gate OpType.H 0)]] ∧
    SolverSound (referenceEnv constructDAG).check ∧
    SolverDecisive (referenceEnv constructDAG).check ∧
    (SatEncoder.fresh.testEqual (referenceEnv constructDAG)
      { nqubits := 1, ops := [gate OpType.H 0] }
      { nqubits := 1, ops := [gate OpType.H 0, gate OpType.H 0, gate OpType.H 0,
        gate OpType.H 0] } []).map Prod.fst = some false ∧
    finalGenerator [[some (gate OpType.H 0)]] "" = some [[true, false, false]] ∧
    finalGenerator [[some (gate OpType.H 0), some (gate OpType.H 0), some (gate OpType.H 0),
      some (gate OpType.H 0)]] "" = some [[false, true, false]] :=
  ⟨by decide, by decide, referenceCheck_sound, referenceCheck_decisive,
    testEqual_hadamard_false (referenceEnv constructDAG) (by decide) (by decide)
      referenceCheck_sound referenceCheck_decisive⟩

/-- C6, refuted as stated: in the scenario, with the reference solver (sound and
decisive) and the DAGs of one and of four levels, `testEqual` does not return `true`
and the miter is not unsatisfiable. -/
theorem testEqual_hadamard_not_true :
    (referenceEnv constructDAG).constructDAG { nqubits := 1, ops := [gate OpType.H 0] }
      = [[some (gate OpType.H 0)]] ∧
    (referenceEnv constructDAG).constructDAG { nqubits := 1, ops := [gate OpType.H 0,
        gate OpType.H 0, gate OpType.H 0, gate OpType.H 0] }
      = [[some (gate OpType.H 0), some (gate OpType.H 0), some (gate OpType.H 0),
          some (gate OpType.H 0)]] ∧
    (SatEncoder.fresh.testEqual (referenceEnv constructDAG)
      { nqubits := 1, ops := [gate OpType.H 0] }
      { nqubits := 1, ops := [gate OpType.H 0, gate OpType.H 0, gate OpType.H 0,
        gate OpType.H 0] } []).map Prod.fst ≠ some true ∧
    ¬ ∀ solver, (miterPipeline SatEncoder.fresh [[some (gate OpType.H 0)]]
        [[some (gate OpType.H 0), some (gate OpType.H 0), some (gate OpType.H 0),
          some (gate OpType.H 0)]] [] 0 0 0).map Prod.fst = some solver →
      ¬ Satisfiable solver.assertions := by
  refine ⟨by decide, by decide, by decide, ?_⟩
  intro hall
  obtain ⟨solver, hp, hsat⟩ := hadamard_miter_satisfiable
  exact hall solver hp hsat

/-- C7 (scenario "CNOT twice against the identity"): two qubits, circuit one `[I(0)]`,
circuit two `[CNOT(0,1), CNOT(0,1)]` with each CNOT referenced from both qubits at
the same level, inputs `zz, zx, xz, xx`, new encoder. With every sound solver
`testEqual` returns `true`. Both circuits are preprocessed and the miter is built;
the four inputs get the ids `0..3`, each of them ends in its own id in both
circuits, and the miter has no satisfying assignment. -/
theorem testEqual_cnot_twice_true (env : Environment)
    (hOne : env.constructDAG { nqubits := 2, ops := [gate OpType.I 0] }
      = [[some (gate OpType.I 0)], []])
    (hTwo : env.constructDAG { nqubits := 2, ops := [cnot 0 1, cnot 0 1] }
      = [[some (cnot 0 1), some (cnot 0 1)], [some (cnot 0 1), some (cnot 0 1)]])
    (hs : SolverSound env.check) :
    (SatEncoder.fresh.testEqual env { nqubits := 2, ops := [gate OpType.I 0] }
      { nqubits := 2, ops := [cnot 0 1, cnot 0 1] } ["zz", "zx", "xz", "xx"]).map Prod.fst
        = some true ∧
    ∃ (rep1 rep2 : CircuitRepresentation) (e1 e2 e3 : SatEncoder) (solver : Solver),
      SatEncoder.fresh.preprocessCircuit [[some (gate OpType.I 0)], []]
        ["zz", "zx", "xz", "xx"] 0 = some (rep1, e1) ∧
      e1.preprocessCircuit [[some (cnot 0 1), some (cnot 0 1)],
        [some (cnot 0 1), some (cnot 0 1)]] ["zz", "zx", "xz", "xx"] 0 = some (rep2, e2) ∧
      e2.constructMiterInstance rep1 rep2 { assertions := [] } 0 = some (solver, e3) ∧
      e2.nrOfInputGenerators = 4 ∧
      (∀ g, g < 4 → trajectoryEnd e2 rep1 g = some g ∧ trajectoryEnd e2 rep2 g = some g) ∧
      ¬ Satisfiable solver.assertions := by
  have h : ((SatEncoder.fresh.preprocessCircuit [[some (gate OpType.I 0)], []]
        ["zz", "zx", "xz", "xx"] 0).bind
      fun (p1 : CircuitRepresentation × SatEncoder) =>
        (p1.2.preprocessCircuit [[some (cnot 0 1), some (cnot 0 1)],
          [some (cnot 0 1), some (cnot 0 1)]] ["zz", "zx", "xz", "xx"] 0).bind
        fun (p2 : CircuitRepresentation × SatEncoder) =>
          (p2.2.constructMiterInstance p1.1 p2.1 { assertions := [] } 0).bind
          fun (p3 : Solver × SatEncoder) => some (decide (p2.2.nrOfInputGenerators = 4 ∧
            (∀ g ∈ ([0, 1, 2, 3] : List Nat), trajectoryEnd p2.2 p1.1 g = some g ∧
              trajectoryEnd p2.2 p2.1 g = some g) ∧
            p3.1.assertions = cnotMiter)))
      = some true := by decide
  obtain ⟨⟨rep1, e1⟩, h1, h⟩ := Option.bind_eq_some.1 h
  obtain ⟨⟨rep2, e2⟩, h2, h⟩ := Option.bind_eq_some.1 h
  obtain ⟨⟨solver, e3⟩, h3, h⟩ := Option.bind_eq_some.1 h
  simp only [Option.some.injEq, decide_eq_true_eq] at h
  obtain ⟨h4, h5, h6⟩ := h
  have hu : ¬ Satisfiable solver.assertions := by
    rw [h6]; exact cnotMiter_unsat
  have h5b : ∀ g, g < 4 → trajectoryEnd e2 rep1 g = some g ∧ trajectoryEnd e2 rep2 g = some g := by
    intro g hg
    apply h5
    interval_cases g <;> simp
  refine ⟨?_, rep1, rep2, e1, e2, e3, solver, h1, h2, h3, h4, h5b, hu⟩
  refine verdict_true SatEncoder.fresh env _ _ _ (by decide) (by decide) (by decide)
    (by decide) hs solver ?_ hu
  rw [hOne, hTwo]
  have hc : SatEncoder.fresh.core = SatEncoder.fresh := rfl
  simp only [miterPipeline, hc, h1, h2, h3, Option.bind_eq_bind, Option.some_bind,
    Option.map_some']

/-- C7 with the reference solver and the modelled DAG constructor. -/
theorem testEqual_cnot_twice_true_witness :
    (referenceEnv constructDAG).constructDAG { nqubits := 2, ops := [gate OpType.I 0] }
      = [[some (gate OpType.I 0)], []] ∧
    (referenceEnv constructDAG).constructDAG { nqubits := 2, ops := [cnot 0 1, cnot 0 1] }
      = [[some (cnot 0 1), some (cnot 0 1)], [some (cnot 0 1), some (cnot 0 1)]] ∧
    SolverSound (referenceEnv constructDAG).check ∧
    ((SatEncoder.fresh.testEqual (referenceEnv constructDAG)
      { nqubits := 2, ops := [gate OpType.I 0] }
      { nqubits := 2, ops := [cnot 0 1, cnot 0 1] } ["zz", "zx", "xz", "xx"]).map Prod.fst
        = some true ∧
    ∃ (rep1 rep2 : CircuitRepresentation) (e1 e2 e3 : SatEncoder) (solver : Solver),
      SatEncoder.fresh.preprocessCircuit [[some (gate OpType.I 0)], []]
        ["zz", "zx", "xz", "xx"] 0 = some (rep1, e1) ∧
      e1.preprocessCircuit [[some (cnot 0 1), some (cnot 0 1)],
        [some (cnot 0 1), some (cnot 0 1)]] ["zz", "zx", "xz", "xx"] 0 = some (rep2, e2) ∧
      e2.constructMiterInstance rep1 rep2 { assertions := [] } 0 = some (solver, e3) ∧
      e2.nrOfInputGenerators = 4 ∧
      (∀ g, g < 4 → trajectoryEnd e2 rep1 g = some g ∧ trajectoryEnd e2 rep2 g = some g) ∧
      ¬ Satisfiable solver.assertions) :=
  ⟨by decide, by decide, referenceCheck_sound,
    testEqual_cnot_twice_true (referenceEnv constructDAG) (by decide) (by decide)
      referenceCheck_sound⟩

/-! ## Out-of-range indices -/

theorem forRows_none_of_first (n : Nat) (f : Row → Option Row) (s : QState) (hn : 0 < n)
    (h : updateRow f s 0 = none) : forRows n f s = none := by
  obtain ⟨m, rfl⟩ : ∃ m, n = m + 1 := ⟨n - 1, by omega⟩
  rw [forRows, List.range_succ_eq_map, List.foldlM_cons, h]
  rfl

theorem updateRow_none_of_row (f : Row → Option Row) (s : QState) (i : Nat) (xi zi : BitRow)
    (ri : Int) (hx : s.x[i]? = some xi) (hz : s.z[i]? = some zi) (hr : s.r[i]? = some ri)
    (hf : f (xi, zi, ri) = none) : updateRow f s i = none := by
  simp [updateRow, hx, hz, hr, hf]

theorem first_row (s : QState) (hs : s.WellShaped) (hn : 0 < s.n) :
    ∃ xi zi ri, s.x[0]? = some xi ∧ s.z[0]? = some zi ∧ s.r[0]? = some ri ∧
      xi.length = s.n ∧ zi.length = s.n := by
  obtain ⟨hx, hz, hr, hxr, hzr, _⟩ := hs
  have h0x : 0 < s.x.length := by omega
  have h0z : 0 < s.z.length := by omega
  have h0r : 0 < s.r.length := by omega
  exact ⟨s.x[0], s.z[0], s.r[0], List.getElem?_eq_getElem h0x, List.getElem?_eq_getElem h0z,
    List.getElem?_eq_getElem h0r, hxr _ (List.getElem_mem h0x), hzr _ (List.getElem_mem h0z)⟩

theorem applyH_at_n (s : QState) (hs : s.WellShaped) (hn : 0 < s.n) : s.applyH s.n = none := by
  obtain ⟨xi, zi, ri, hx, hz, hr, hxl, _⟩ := first_row s hs hn
  rw [QState.applyH, if_neg (by omega)]
  apply forRows_none_of_first _ _ _ hn
  apply updateRow_none_of_row _ _ _ xi zi ri hx hz hr
  have : xi[s.n]? = none := List.getElem?_eq_none (by omega)
  simp [hRow, this]

theorem applyS_at_n (s : QState) (hs : s.WellShaped) (hn : 0 < s.n) : s.applyS s.n = none := by
  obtain ⟨xi, zi, ri, hx, hz, hr, hxl, _⟩ := first_row s hs hn
  rw [QState.applyS, if_neg (by omega)]
  apply forRows_none_of_first _ _ _ hn
  apply updateRow_none_of_row _ _ _ xi zi ri hx hz hr
  have : xi[s.n]? = none := List.getElem?_eq_none (by omega)
  simp [sRow, this]

theorem applyCNOT_control_at_n (s : QState) (t : Nat) (hs : s.WellShaped) (hn : 0 < s.n)
    (ht : t ≤ s.n) : s.applyCNOT s.n t = none := by
  obtain ⟨xi, zi, ri, hx, hz, hr, hxl, _⟩ := first_row s hs hn
  have hguard : (decide (t > s.n) || decide (s.n > s.n)) = false := by simp; omega
  rw [QState.applyCNOT, hguard]
  apply forRows_none_of_first _ _ _ hn
  apply updateRow_none_of_row _ _ _ xi zi ri hx hz hr
  have : xi[s.n]? = none := List.getElem?_eq_none (by omega)
  simp [cnotRow, this]

theorem applyCNOT_target_at_n (s : QState) (c : Nat) (hs : s.WellShaped) (hn : 0 < s.n)
    (hc : c ≤ s.n) : s.applyCNOT c s.n = none := by
  obtain ⟨xi, zi, ri, hx, hz, hr, hxl, hzl⟩ := first_row s hs hn
  have hguard : (decide (s.n > s.n) || decide (c > s.n)) = false := by simp; omega
  rw [QState.applyCNOT, hguard]
  apply forRows_none_of_first _ _ _ hn
  apply updateRow_none_of_row _ _ _ xi zi ri hx hz hr
  have h1 : zi[s.n]? = none := List.getElem?_eq_none (by omega)
  simp only [cnotRow, h1, Option.bind_eq_bind]
  cases xi[c]? <;> rfl

/-- C14 (out-of-range indices, failing input): the guards of the three updates test
`> n`. Every index above `n` is ignored: the tableau comes back unchanged. The index
`n` itself passes the guard, and on every well-shaped tableau with at least one qubit
the loop then reads column `n` of row `0`, outside the row: `applyH(n)`, `applyS(n)`
and `applyCNOT` with control or target `n` do not return normally. -/
theorem index_n_passes_guard (s : QState) (hs : s.WellShaped) (hn : 0 < s.n) :
    s.applyH s.n = none ∧ s.applyS s.n = none ∧
    (∀ t, t ≤ s.n → s.applyCNOT s.n t = none) ∧
    (∀ c, c ≤ s.n → s.applyCNOT c s.n = none) ∧
    (∀ t, s.n < t → s.applyH t = some s ∧ s.applyS t = some s) ∧
    (∀ c t, s.n < c ∨ s.n < t → s.applyCNOT c t = some s) := by
  refine ⟨applyH_at_n s hs hn, applyS_at_n s hs hn,
    fun t ht => applyCNOT_control_at_n s t hs hn ht,
    fun c hc => applyCNOT_target_at_n s c hs hn hc, ?_, ?_⟩
  · intro t ht
    simp [QState.applyH, QState.applyS, ht]
  · intro c t h
    have hguard : (decide (t > s.n) || decide (c > s.n)) = true := by
      rcases h with h | h <;> simp [h]
    rw [QState.applyCNOT, hguard]
    rfl

/-- C14 on the sample tableau of two qubits: index `2`. -/
theorem index_n_passes_guard_witness :
    sampleTableau.WellShaped ∧ 0 < sampleTableau.n ∧
    sampleTableau.applyH 2 = none ∧ sampleTableau.applyS 2 = none ∧
    (∀ t, t ≤ sampleTableau.n → sampleTableau.applyCNOT sampleTableau.n t = none) ∧
    (∀ c, c ≤ sampleTableau.n → sampleTableau.applyCNOT c sampleTableau.n = none) ∧
    (∀ t, sampleTableau.n < t →
      sampleTableau.applyH t = some sampleTableau ∧
      sampleTableau.applyS t = some sampleTableau) ∧
    (∀ c t, sampleTableau.n < c ∨ sampleTableau.n < t →
      sampleTableau.applyCNOT c t = some sampleTableau) :=
  ⟨by decide, by decide, index_n_passes_guard sampleTableau (by decide) (by decide)⟩

/-! ## The initial bank -/

/-- C15 (one tableau per input, failing input): `preprocessCircuit` builds the bank
with the test `inputs.size() > 1`. Lists of two or more inputs give one tableau per
string; the empty list gives the all-zero tableau; a list of exactly one string is
treated like the empty list: the bank holds the all-zero tableau whatever the
string is. For one qubit and the list `["x"]` the bank holds the tableau of `+Z`,
not the tableau of `+X` that `initializeState` prepares for `x`. -/
theorem single_input_is_dropped :
    (∀ (n : Nat) (input : String),
      initialStates n [input] = (initializeState n "").map fun s => [s]) ∧
    (∀ (n : Nat), initialStates n [] = (initializeState n "").map fun s => [s]) ∧
    (∀ (n : Nat) (a b : String) (rest : List String),
      initialStates n (a :: b :: rest) = (a :: b :: rest).mapM (initializeState n)) ∧
    initialStates 1 ["x"]
      = some [{ n := 1, x := [[false]], z := [[true]], r := [0], prevGenId := 0 }] ∧
    initializeState 1 "x"
      = some { n := 1, x := [[true]], z := [[false]], r := [0], prevGenId := 0 } := by
  refine ⟨?_, ?_, ?_, by decide, by decide⟩
  · intro n input
    simp only [initialStates, List.length_singleton, gt_iff_lt, lt_self_iff_false, if_false]
    cases initializeState n "" <;> rfl
  · intro n
    simp only [initialStates, List.length_nil, gt_iff_lt, Nat.not_lt_zero, if_false]
    cases initializeState n "" <;> rfl
  · intro n a b rest
    simp [initialStates]

/-! ## Bit-width -/

theorem find_range_least (p : Nat → Bool) (m w : Nat) (hw : w < m) (hp : p w = true)
    (hleast : ∀ v, v < w → p v = false) : (List.range m).find? p = some w := by
  rw [List.find?_eq_some]
  refine ⟨hp, List.range w, (List.range' (w + 1) (m - (w + 1))), ?_, ?_⟩
  · have h1 : List.range m = List.range' 0 m := List.range_eq_range' m
    have h2 : List.range w = List.range' 0 w := List.range_eq_range' w
    rw [h1, h2]
    have : w :: List.range' (w + 1) (m - (w + 1)) = List.range' w (m - w) := by
      have e : m - w = (m - (w + 1)) + 1 := by omega
      rw [e, List.range'_succ]
    rw [this]
    have e2 : m = (m - w) + w := by omega
    conv_lhs => rw [e2]
    rw [← List.range'_append_1]
    simp
  · intro a ha
    have := hleast a (List.mem_range.1 ha)
    simp [this]

theorem lt_two_pow_pred (m : Nat) (hm : 1 ≤ m) : m ≤ 2 ^ (m - 1) := by
  have h := Nat.lt_two_pow (m - 1)
  omega

theorem bitwidthOf_spec (m : Nat) (hm : 1 ≤ m) :
    m ≤ 2 ^ bitwidthOf m ∧ ∀ w, m ≤ 2 ^ w → bitwidthOf m ≤ w := by
  have hex : ∃ w, m ≤ 2 ^ w := ⟨m - 1, lt_two_pow_pred m hm⟩
  have hfind := Nat.find_spec hex
  have hmin : ∀ v, v < Nat.find hex → ¬ m ≤ 2 ^ v := fun v hv => Nat.find_min hex hv
  have hlt : Nat.find hex < m := by
    have : Nat.find hex ≤ m - 1 := Nat.find_min' hex (lt_two_pow_pred m hm)
    omega
  have hb : bitwidthOf m = Nat.find hex := by
    unfold bitwidthOf
    rw [find_range_least _ m (Nat.find hex) hlt (by simpa using hfind)
      (fun v hv => by simpa using hmin v hv)]
    rfl
  rw [hb]
  exact ⟨hfind, fun w hw => Nat.find_min' hex hw⟩

theorem bitwidthOf_eq_clog (m : Nat) : bitwidthOf m = Nat.clog 2 m := by
  by_cases hm : 1 ≤ m
  · obtain ⟨h1, h2⟩ := bitwidthOf_spec m hm
    apply le_antisymm
    · exact h2 _ (Nat.le_pow_clog (by decide) m)
    · exact (Nat.le_pow_iff_clog_le (by decide)).1 h1
  · have : m = 0 := by omega
    subst this
    rw [Nat.clog_of_right_le_one (by decide)]
    decide

/-! ## The canonical key -/

theorem copyLoop (src : BitRow) (off : Nat) (k : Nat) :
    ∀ (gen : BitRow), k ≤ src.length → off + k ≤ gen.length →
      (List.range k).foldlM
          (fun (g : BitRow) j => (src[j]?).bind fun b => some (g.set (off + j) b)) gen
        = some (gen.take off ++ src.take k ++ gen.drop (off + k)) := by
  induction k with
  | zero =>
    intro gen _ _
    simp
  | succ k ih =>
    intro gen hk hg
    rw [List.range_succ, List.foldlM_append, ih gen (by omega) (by omega)]
    have hsrc : src[k]? = some src[k] := List.getElem?_eq_getElem (by omega)
    simp only [Option.bind_eq_bind, Option.some_bind, List.foldlM_cons, List.foldlM_nil, hsrc]
    apply congrArg some
    have hlen : (gen.take off ++ src.take k).length = off + k := by
      simp [List.length_take]; omega
    rw [List.set_append, if_neg (by omega), hlen, Nat.sub_self]
    have hd : gen.drop (off + k) = gen[off + k] :: gen.drop (off + k + 1) :=
      List.drop_eq_getElem_cons (by omega)
    rw [hd, List.set_cons_zero, List.take_succ, hsrc, Option.toList_some]
    simp only [List.append_assoc, List.singleton_append, List.cons_append, List.nil_append,
      Nat.add_assoc]

theorem keyLoops (n : Nat) (xi zi : BitRow) (ri : Int) (hx : xi.length = n)
    (hz : zi.length = n) :
    (do
      let gen : BitRow := List.replicate (2 * n + 1) false
      let gen ← (List.range n).foldlM
        (fun (g : BitRow) j => do let b ← xi[j]?; some (g.set j b)) gen
      let gen ← (List.range n).foldlM
        (fun (g : BitRow) j => do let b ← zi[j]?; some (g.set (n + j) b)) gen
      some (gen.set (n + n) (if ri = 1 then true else false)))
      = some (keyRow (xi, zi, ri)) := by
  have h1 := copyLoop xi 0 n (List.replicate (2 * n + 1) false) (by omega) (by simp; omega)
  simp only [Nat.zero_add, List.take_zero, List.nil_append] at h1
  simp only [Option.bind_eq_bind]
  rw [h1, Option.some_bind]
  have h2 := copyLoop zi n n (xi.take n ++ (List.replicate (2 * n + 1) false).drop n)
    (by omega) (by simp [List.length_take]; omega)
  rw [h2, Option.some_bind]
  apply congrArg some
  have hxt : xi.take n = xi := List.take_of_length_le (by omega)
  have hzt : zi.take n = zi := List.take_of_length_le (by omega)
  rw [hxt, hzt]
  have ht : (xi ++ (List.replicate (2 * n + 1) false).drop n).take n = xi := by
    rw [List.take_append_of_le_length (by omega), List.take_of_length_le (by omega)]
  have hd : (xi ++ (List.replicate (2 * n + 1) false).drop n).drop (n + n) = [false] := by
    rw [List.drop_append_eq_append_drop, List.drop_of_length_le (by omega)]
    simp [hx]
    have : 2 * n + 1 - n - n = 1 := by omega
    rw [this]
    rfl
  rw [ht, hd]
  have hlen : (xi ++ zi).length = n + n := by simp [hx, hz]
  rw [List.set_append, if_neg (by omega), hlen, Nat.sub_self, List.set_cons_zero]
  simp [keyRow]

theorem mapM_range_some {α : Type} (f : Nat → Option α) (g : Nat → α) (l : List Nat)
    (h : ∀ i ∈ l, f i = some (g i)) : l.mapM f = some (l.map g) := by
  induction l with
  | nil => rfl
  | cons a rest ih =>
    rw [List.mapM_cons, h a (List.mem_cons_self _ _),
      ih (fun i hi => h i (List.mem_cons_of_mem _ hi))]
    rfl

theorem rows_eq_range (s : QState) (hs : s.WellShaped) :
    s.rows = (List.range s.n).map fun i => (s.x.getD i [], s.z.getD i [], s.r.getD i 0) := by
  obtain ⟨hx, hz, hr, _⟩ := hs
  apply List.ext_getElem
  · simp [QState.rows, List.length_zip, hx, hz, hr]
  · intro i h1 h2
    simp only [QState.rows, List.getElem_zip, List.getElem_map, List.getElem_range]
    have hi : i < s.n := by simpa using h2
    simp [List.getD_eq_getElem?_getD, List.getElem?_eq_getElem, hx, hz, hr, hi]

/-- Closed form of `getLevelGenerator` on a well-shaped tableau. -/
theorem getLevelGenerator_eq (s : QState) (hs : s.WellShaped) :
    s.getLevelGenerator = some (s.rows.map keyRow) := by
  have hrows := rows_eq_range s hs
  obtain ⟨hx, hz, hr, hxr, hzr, _⟩ := hs
  rw [hrows, List.map_map]
  unfold QState.getLevelGenerator
  apply mapM_range_some
  intro i hi
  have hi' : i < s.n := List.mem_range.1 hi
  have h1 := getD_eq_of_lt s.x i [] (by omega)
  have h2 := getD_eq_of_lt s.z i [] (by omega)
  have h3 := getD_eq_of_lt s.r i 0 (by omega)
  have hxl : (s.x.getD i []).length = s.n := by
    apply hxr
    rw [List.getD_eq_getElem?_getD, List.getElem?_eq_getElem (by omega)]
    exact List.getElem_mem _
  have hzl : (s.z.getD i []).length = s.n := by
    apply hzr
    rw [List.getD_eq_getElem?_getD, List.getElem?_eq_getElem (by omega)]
    exact List.getElem_mem _
  have key := keyLoops s.n (s.x.getD i []) (s.z.getD i []) (s.r.getD i 0) hxl hzl
  simp only [Option.bind_eq_bind] at key
  simp only [Option.bind_eq_bind, h1, h2, h3, Option.some_bind, Function.comp]
  cases hl1 : (List.range s.n).foldlM
      (fun (g : BitRow) j => do let b ← (s.x.getD i [])[j]?; some (g.set j b))
      (List.replicate (2 * s.n + 1) false) with
  | none => simp only [Option.bind_eq_bind] at hl1; rw [hl1] at key; cases key
  | some gen1 =>
    simp only [Option.bind_eq_bind] at hl1
    rw [hl1] at key
    simp only [Option.some_bind] at key ⊢
    cases hl2 : (List.range s.n).foldlM
        (fun (g : BitRow) j => do let b ← (s.z.getD i [])[j]?; some (g.set (s.n + j) b))
        gen1 with
    | none => simp only [Option.bind_eq_bind] at hl2; rw [hl2] at key; cases key
    | some gen2 =>
      simp only [Option.bind_eq_bind] at hl2
      rw [hl2] at key
      simpa using key


theorem map_inj_on {α β : Type} (f : α → β) (P : α → Prop)
    (hf : ∀ a b, P a → P b → f a = f b → a = b) :
    ∀ (l1 l2 : List α), (∀ a ∈ l1, P a) → (∀ b ∈ l2, P b) → l1.map f = l2.map f → l1 = l2 := by
  intro l1
  induction l1 with
  | nil =>
    intro l2 _ _ h
    cases l2 with
    | nil => rfl
    | cons b r => cases h
  | cons a r ih =>
    intro l2 h1 h2 h
    cases l2 with
    | nil => cases h
    | cons b r2 =>
      simp only [List.map_cons, List.cons.injEq] at h
      have hab := hf a b (h1 a (List.mem_cons_self _ _)) (h2 b (List.mem_cons_self _ _)) h.1
      rw [hab, ih r2 (fun x hx => h1 x (List.mem_cons_of_mem _ hx))
        (fun x hx => h2 x (List.mem_cons_of_mem _ hx)) h.2]

theorem keyRow_inj (n : Nat) (a b : Row) (ha : RowOK n a) (hb : RowOK n b)
    (h : keyRow a = keyRow b) : a = b := by
  obtain ⟨xa, za, ra⟩ := a
  obtain ⟨xb, zb, rb⟩ := b
  obtain ⟨hxa, hza, hra⟩ := ha
  obtain ⟨hxb, hzb, hrb⟩ := hb
  simp only at hxa hza hra hxb hzb hrb
  simp only [keyRow] at h
  have h1 := List.append_inj h (by simp [hxa, hza, hxb, hzb])
  have h2 := List.append_inj h1.1 (by rw [hxa, hxb])
  have hr : ra = rb := by
    have h3 := h1.2
    simp only [List.cons.injEq, and_true] at h3
    rcases hra with e | e <;> rcases hrb with e' | e' <;> subst e <;> subst e' <;>
      first | rfl | simp at h3
  rw [h2.1, h2.2, hr]

theorem fields_of_rows (s : QState) (hs : s.WellShaped) :
    s.x = s.rows.map (fun row => row.1) ∧ s.z = s.rows.map (fun row => row.2.1) ∧
      s.r = s.rows.map (fun row => row.2.2) := by
  have h := wellShaped_eq_withRows s hs
  refine ⟨?_, ?_, ?_⟩
  · conv_lhs => rw [← h]
    rfl
  · conv_lhs => rw [← h]
    rfl
  · conv_lhs => rw [← h]
    rfl

theorem generator_eq_iff (s1 s2 : QState) (h1 : s1.WellShaped) (h2 : s2.WellShaped) :
    s1.getLevelGenerator = s2.getLevelGenerator ↔
      s1.n = s2.n ∧ s1.x = s2.x ∧ s1.z = s2.z ∧ s1.r = s2.r := by
  rw [getLevelGenerator_eq s1 h1, getLevelGenerator_eq s2 h2]
  have r1 := wellShaped_rowsOK s1 h1
  have r2 := wellShaped_rowsOK s2 h2
  constructor
  · intro h
    simp only [Option.some.injEq] at h
    have hn : s1.n = s2.n := by
      have := congrArg List.length h
      simpa [r1.1, r2.1] using this
    have hrows : s1.rows = s2.rows :=
      map_inj_on keyRow (RowOK s1.n) (keyRow_inj s1.n) _ _ r1.2 (by rw [hn]; exact r2.2) h
    obtain ⟨a1, b1, c1⟩ := fields_of_rows s1 h1
    obtain ⟨a2, b2, c2⟩ := fields_of_rows s2 h2
    exact ⟨hn, by rw [a1, a2, hrows], by rw [b1, b2, hrows], by rw [c1, c2, hrows]⟩
  · rintro ⟨_, hx, hz, hr⟩
    simp only [QState.rows, hx, hz, hr]

/-- C13 (canonical key): on a well-shaped tableau `getLevelGenerator` returns `n`
rows of `2n+1` bits, bit `j` of row `i` being `x[i][j]`, bit `n+j` being `z[i][j]`
and bit `2n` telling whether `r[i]` is `1`; two well-shaped tableaux get the same
key exactly when they have the same `n`, `x`, `z` and `r`. -/
theorem getLevelGenerator_key (s1 s2 : QState) (h1 : s1.WellShaped) (h2 : s2.WellShaped) :
    (∃ key, s1.getLevelGenerator = some key ∧ key.length = s1.n ∧
      ∀ i, i < s1.n → ∃ row, key[i]? = some row ∧ row.length = 2 * s1.n + 1 ∧
        (∀ j, j < s1.n → row[j]? = (s1.x.getD i [])[j]? ∧
          row[s1.n + j]? = (s1.z.getD i [])[j]?) ∧
        row[2 * s1.n]? = some (decide (s1.r.getD i 0 = 1))) ∧
    (s1.getLevelGenerator = s2.getLevelGenerator ↔
      s1.n = s2.n ∧ s1.x = s2.x ∧ s1.z = s2.z ∧ s1.r = s2.r) := by
  refine ⟨⟨_, getLevelGenerator_eq s1 h1, ?_, ?_⟩, generator_eq_iff s1 s2 h1 h2⟩
  · simp [(wellShaped_rowsOK s1 h1).1]
  · intro i hi
    have hrows := rows_eq_range s1 h1
    have hok := (wellShaped_rowsOK s1 h1).2
    have hmem : (s1.x.getD i [], s1.z.getD i [], s1.r.getD i 0) ∈ s1.rows := by
      rw [hrows]
      exact List.mem_map.2 ⟨i, List.mem_range.2 hi, rfl⟩
    obtain ⟨hxl, hzl, _⟩ := hok _ hmem
    simp only at hxl hzl
    refine ⟨keyRow (s1.x.getD i [], s1.z.getD i [], s1.r.getD i 0), ?_, ?_, ?_, ?_⟩
    · rw [hrows, List.map_map, List.getElem?_map, List.getElem?_range hi]
      rfl
    · simp only [keyRow, List.length_append, List.length_singleton, hxl, hzl]; omega
    · intro j hj
      constructor
      · simp only [keyRow, List.append_assoc]
        rw [List.getElem?_append_left (by omega)]
      · simp only [keyRow, List.append_assoc]
        rw [List.getElem?_append_right (by omega), hxl, Nat.add_sub_cancel_left,
          List.getElem?_append_left (by omega)]
    · simp only [keyRow]
      rw [List.getElem?_append_right
        (by simp only [List.length_append, hxl, hzl]; omega)]
      simp only [List.length_append, hxl, hzl]
      have h0 : 2 * s1.n - (s1.n + s1.n) = 0 := by omega
      rw [h0]
      rfl

/-- C13 on the sample tableau. -/
theorem getLevelGenerator_key_witness :
    sampleTableau.WellShaped ∧
    ((∃ key, sampleTableau.getLevelGenerator = some key ∧ key.length = sampleTableau.n ∧
      ∀ i, i < sampleTableau.n → ∃ row, key[i]? = some row ∧
        row.length = 2 * sampleTableau.n + 1 ∧
        (∀ j, j < sampleTableau.n → row[j]? = (sampleTableau.x.getD i [])[j]? ∧
          row[sampleTableau.n + j]? = (sampleTableau.z.getD i [])[j]?) ∧
        row[2 * sampleTableau.n]? = some (decide (sampleTableau.r.getD i 0 = 1))) ∧
    (sampleTableau.getLevelGenerator = sampleTableau.getLevelGenerator ↔
      sampleTableau.n = sampleTableau.n ∧ sampleTableau.x = sampleTableau.x ∧
      sampleTableau.z = sampleTableau.z ∧ sampleTableau.r = sampleTableau.r)) :=
  ⟨by decide, getLevelGenerator_key sampleTableau sampleTableau (by decide) (by decide)⟩

/-! ## Updates on disjoint qubits -/

theorem actsBy_commute (n : Nat) (op1 op2 : QState → Option QState)
    (g1 g2 : Option (Row → Row)) (h1 : ActsBy n op1 g1) (h2 : ActsBy n op2 g2)
    (hc : ∀ a b, g1 = some a → g2 = some b → ∀ row, RowOK n row → b (a row) = a (b row))
    (s : QState) (hs : s.WellShaped) (hn : s.n = n) :
    (op1 s).bind op2 = (op2 s).bind op1 := by
  subst hn
  cases g1 with
  | none =>
    cases g2 with
    | none =>
      rw [h1 s hs rfl, h2 s hs rfl]
      rfl
    | some b =>
      rw [h1 s hs rfl, h2.2 s hs rfl, Option.some_bind,
        h1 _ (withRows_map_wellShaped s b hs h2.1) rfl]
      rfl
  | some a =>
    cases g2 with
    | none =>
      rw [h2 s hs rfl, h1.2 s hs rfl, Option.some_bind,
        h2 _ (withRows_map_wellShaped s a hs h1.1) rfl]
      rfl
    | some b =>
      rw [h1.2 s hs rfl, h2.2 s hs rfl, Option.some_bind, Option.some_bind,
        h2.2 _ (withRows_map_wellShaped s a hs h1.1) rfl,
        h1.2 _ (withRows_map_wellShaped s b hs h2.1) rfl, mapRows_mapRows, mapRows_mapRows]
      have hmap : s.rows.map (b ∘ a) = s.rows.map (a ∘ b) := by
        apply List.map_congr_left
        intro row hrow
        exact hc a b rfl rfl row ((wellShaped_rowsOK s hs).2 row hrow)
      rw [hmap]

theorem actsBy_id (n : Nat) (op : QState → Option QState)
    (h : ∀ s : QState, s.WellShaped → s.n = n → op s = some s) : ActsBy n op (some id) := by
  refine ⟨fun row hrow => hrow, fun s hs hn => ?_⟩
  rw [h s hs hn, withRows_map_id s id hs (fun _ _ => rfl)]

theorem applyH_acts (n t : Nat) :
    ∃ g, ActsBy n (fun s => s.applyH t) g ∧
      ((g = some (hPure t) ∧ t < n) ∨ g = some id ∨ g = none) := by
  rcases Nat.lt_trichotomy t n with h | h | h
  · exact ⟨some (hPure t), ⟨fun row hrow => hPure_ok n t row hrow,
      fun s hs hn => applyH_eq s t hs (by omega)⟩, Or.inl ⟨rfl, h⟩⟩
  · by_cases h0 : 0 < n
    · exact ⟨none, fun s hs hn => by
        have := applyH_at_n s hs (by omega)
        rw [hn, ← h] at this
        exact this, Or.inr (Or.inr rfl)⟩
    · refine ⟨some id, actsBy_id n _ (fun s hs hn => ?_), Or.inr (Or.inl rfl)⟩
      have hz : s.n = 0 := by omega
      simp only [QState.applyH, forRows, hz]
      split <;> rfl
  · refine ⟨some id, actsBy_id n _ (fun s hs hn => ?_), Or.inr (Or.inl rfl)⟩
    simp only [QState.applyH]
    rw [if_pos (by omega)]

theorem applyS_acts (n t : Nat) :
    ∃ g, ActsBy n (fun s => s.applyS t) g ∧
      ((g = some (sPure t) ∧ t < n) ∨ g = some id ∨ g = none) := by
  rcases Nat.lt_trichotomy t n with h | h | h
  · exact ⟨some (sPure t), ⟨fun row hrow => sPure_ok n t row hrow,
      fun s hs hn => applyS_eq s t hs (by omega)⟩, Or.inl ⟨rfl, h⟩⟩
  · by_cases h0 : 0 < n
    · exact ⟨none, fun s hs hn => by
        have := applyS_at_n s hs (by omega)
        rw [hn, ← h] at this
        exact this, Or.inr (Or.inr rfl)⟩
    · refine ⟨some id, actsBy_id n _ (fun s hs hn => ?_), Or.inr (Or.inl rfl)⟩
      have hz : s.n = 0 := by omega
      simp only [QState.applyS, forRows, hz]
      split <;> rfl
  · refine ⟨some id, actsBy_id n _ (fun s hs hn => ?_), Or.inr (Or.inl rfl)⟩
    simp only [QState.applyS]
    rw [if_pos (by omega)]

theorem applyCNOT_acts (n c t : Nat) :
    ∃ g, ActsBy n (fun s => s.applyCNOT c t) g ∧
      ((g = some (cnotPure c t) ∧ c < n ∧ t < n) ∨ g = some id ∨ g = none) := by
  by_cases hin : c < n ∧ t < n
  · exact ⟨some (cnotPure c t), ⟨fun row hrow => cnotPure_ok n c t row hrow,
      fun s hs hn => applyCNOT_eq s c t hs (by omega) (by omega)⟩, Or.inl ⟨rfl, hin⟩⟩
  · by_cases hout : n < t ∨ n < c
    · refine ⟨some id, actsBy_id n _ (fun s hs hn => ?_), Or.inr (Or.inl rfl)⟩
      have hguard : (decide (t > s.n) || decide (c > s.n)) = true := by
        simp only [Bool.or_eq_true, decide_eq_true_eq]; omega
      simp only [QState.applyCNOT]
      rw [hguard]
      rfl
    · by_cases h0 : 0 < n
      · refine ⟨none, fun s hs hn => ?_, Or.inr (Or.inr rfl)⟩
        by_cases hc : c = n
        · have := applyCNOT_control_at_n s t hs (by omega) (by omega)
          rw [hn, ← hc] at this
          exact this
        · have ht : t = n := by omega
          have := applyCNOT_target_at_n s c hs (by omega) (by omega)
          rw [hn, ← ht] at this
          exact this
      · refine ⟨some id, actsBy_id n _ (fun s hs hn => ?_), Or.inr (Or.inl rfl)⟩
        have hz : s.n = 0 := by omega
        simp only [QState.applyCNOT, forRows, hz]
        split <;> rfl

theorem xor_swap (v a b : Int) (hv : v = 0 ∨ v = 1) (ha : a = 0 ∨ a = 1) (hb : b = 0 ∨ b = 1) :
    Int.xor (Int.xor v a) b = Int.xor (Int.xor v b) a := by
  rcases hv with h | h <;> rcases ha with h1 | h1 <;> rcases hb with h2 | h2 <;>
    subst h <;> subst h1 <;> subst h2 <;> decide

theorem phase_bit (a b : Bool) : boolToInt a * boolToInt b = 0 ∨ boolToInt a * boolToInt b = 1 := by
  cases a <;> cases b <;> decide

theorem cnot_phase_bit (a b c d : Bool) :
    (boolToInt a * boolToInt b) * Int.xor (Int.xor (boolToInt c) (boolToInt d)) 1 = 0 ∨
    (boolToInt a * boolToInt b) * Int.xor (Int.xor (boolToInt c) (boolToInt d)) 1 = 1 := by
  cases a <;> cases b <;> cases c <;> cases d <;> decide

theorem hPure_hPure_comm (a b : Nat) (hab : a ≠ b) (n : Nat) (row : Row) (h : RowOK n row) :
    hPure b (hPure a row) = hPure a (hPure b row) := by
  obtain ⟨xi, zi, ri⟩ := row
  obtain ⟨_, _, hr⟩ := h
  simp only at hr
  simp only [hPure, getD_set_ne xi a b _ false hab, getD_set_ne zi a b _ false hab,
    getD_set_ne xi b a _ false (Ne.symm hab), getD_set_ne zi b a _ false (Ne.symm hab)]
  rw [List.set_comm _ _ xi hab, List.set_comm _ _ zi hab,
    xor_swap ri _ _ hr (phase_bit _ _) (phase_bit _ _)]

theorem sPure_hPure_comm (a b : Nat) (hab : a ≠ b) (n : Nat) (row : Row) (h : RowOK n row) :
    sPure b (hPure a row) = hPure a (sPure b row) := by
  obtain ⟨xi, zi, ri⟩ := row
  obtain ⟨_, _, hr⟩ := h
  simp only at hr
  simp only [hPure, sPure, getD_set_ne xi a b _ false hab, getD_set_ne zi a b _ false hab,
    getD_set_ne zi b a _ false (Ne.symm hab)]
  rw [List.set_comm _ _ zi hab,
    xor_swap ri _ _ hr (phase_bit _ _) (phase_bit _ _)]

theorem sPure_sPure_comm (a b : Nat) (hab : a ≠ b) (n : Nat) (row : Row) (h : RowOK n row) :
    sPure b (sPure a row) = sPure a (sPure b row) := by
  obtain ⟨xi, zi, ri⟩ := row
  obtain ⟨_, _, hr⟩ := h
  simp only at hr
  simp only [sPure, getD_set_ne zi a b _ false hab,
    getD_set_ne zi b a _ false (Ne.symm hab)]
  rw [List.set_comm _ _ zi hab,
    xor_swap ri _ _ hr (phase_bit _ _) (phase_bit _ _)]

theorem cnotPure_hPure_comm (q c t : Nat) (hc : q ≠ c) (ht : q ≠ t) (n : Nat) (row : Row)
    (h : RowOK n row) : cnotPure c t (hPure q row) = hPure q (cnotPure c t row) := by
  obtain ⟨xi, zi, ri⟩ := row
  obtain ⟨_, _, hr⟩ := h
  simp only at hr
  simp only [hPure, cnotPure, getD_set_ne xi q c _ false hc, getD_set_ne zi q c _ false hc,
    getD_set_ne xi q t _ false ht, getD_set_ne zi q t _ false ht,
    getD_set_ne xi t q _ false (Ne.symm ht), getD_set_ne zi c q _ false (Ne.symm hc)]
  rw [List.set_comm _ _ xi ht, List.set_comm _ _ zi hc,
    xor_swap ri _ _ hr (phase_bit _ _) (cnot_phase_bit _ _ _ _)]

theorem cnotPure_sPure_comm (q c t : Nat) (hc : q ≠ c) (ht : q ≠ t) (n : Nat) (row : Row)
    (h : RowOK n row) : cnotPure c t (sPure q row) = sPure q (cnotPure c t row) := by
  obtain ⟨xi, zi, ri⟩ := row
  obtain ⟨_, _, hr⟩ := h
  simp only at hr
  simp only [sPure, cnotPure, getD_set_ne zi q c _ false hc,
    getD_set_ne zi q t _ false ht,
    getD_set_ne xi t q _ false (Ne.symm ht), getD_set_ne zi c q _ false (Ne.symm hc)]
  rw [List.set_comm _ _ zi hc,
    xor_swap ri _ _ hr (phase_bit _ _) (cnot_phase_bit _ _ _ _)]

theorem cnotPure_cnotPure_comm (c t c2 t2 : Nat) (h1 : c ≠ c2) (h2 : c ≠ t2) (h3 : t ≠ c2)
    (h4 : t ≠ t2) (n : Nat) (row : Row) (h : RowOK n row) :
    cnotPure c2 t2 (cnotPure c t row) = cnotPure c t (cnotPure c2 t2 row) := by
  obtain ⟨xi, zi, ri⟩ := row
  obtain ⟨_, _, hr⟩ := h
  simp only at hr
  simp only [cnotPure, getD_set_ne xi t c2 _ false h3, getD_set_ne xi t t2 _ false h4,
    getD_set_ne zi c c2 _ false h1, getD_set_ne zi c t2 _ false h2,
    getD_set_ne xi t2 c _ false (Ne.symm h2), getD_set_ne xi t2 t _ false (Ne.symm h4),
    getD_set_ne zi c2 c _ false (Ne.symm h1), getD_set_ne zi c2 t _ false (Ne.symm h3)]
  rw [List.set_comm _ _ xi h4, List.set_comm _ _ zi h1,
    xor_swap ri _ _ hr (cnot_phase_bit _ _ _ _) (cnot_phase_bit _ _ _ _)]

theorem updates_commute (n : Nat) (op1 op2 : QState → Option QState) (p1 p2 : Row → Row)
    (A B : Prop)
    (h1 : ∃ g, ActsBy n op1 g ∧ ((g = some p1 ∧ A) ∨ g = some id ∨ g = none))
    (h2 : ∃ g, ActsBy n op2 g ∧ ((g = some p2 ∧ B) ∨ g = some id ∨ g = none))
    (hcomm : ∀ row, RowOK n row → p2 (p1 row) = p1 (p2 row))
    (s : QState) (hs : s.WellShaped) (hn : s.n = n) :
    (op1 s).bind op2 = (op2 s).bind op1 := by
  obtain ⟨g1, a1, c1⟩ := h1
  obtain ⟨g2, a2, c2⟩ := h2
  refine actsBy_commute n op1 op2 g1 g2 a1 a2 ?_ s hs hn
  intro a b ea eb row hrow
  rcases c1 with ⟨e1, _⟩ | e1 | e1
  · rcases c2 with ⟨e2, _⟩ | e2 | e2
    · rw [e1] at ea
      rw [e2] at eb
      cases ea
      cases eb
      exact hcomm row hrow
    · rw [e2] at eb
      cases eb
      rfl
    · rw [e2] at eb
      cases eb
  · rw [e1] at ea
    cases ea
    rfl
  · rw [e1] at ea
    cases ea

/-- C19 (order independence within a layer): on a well-shaped tableau two primitive
updates on disjoint qubits give the same result in either order: `applyH`/`applyS` on
`a` with `applyH`/`applyS` on `b` for `a ≠ b`, `applyH` or `applyS` on `q` with
`applyCNOT c t` for `q` outside `{c, t}`, and two `applyCNOT` on disjoint pairs. With
indices below `n` every update returns a well-shaped tableau of the same size, so both
orders return the same tableau. -/
theorem disjoint_updates_commute (s : QState) (hs : s.WellShaped) :
    (∀ a b, a ≠ b →
      (s.applyH a).bind (fun s1 => s1.applyH b) = (s.applyH b).bind (fun s1 => s1.applyH a) ∧
      (s.applyH a).bind (fun s1 => s1.applyS b) = (s.applyS b).bind (fun s1 => s1.applyH a) ∧
      (s.applyS a).bind (fun s1 => s1.applyS b) = (s.applyS b).bind (fun s1 => s1.applyS a)) ∧
    (∀ q c t, q ≠ c → q ≠ t →
      (s.applyH q).bind (fun s1 => s1.applyCNOT c t)
        = (s.applyCNOT c t).bind (fun s1 => s1.applyH q) ∧
      (s.applyS q).bind (fun s1 => s1.applyCNOT c t)
        = (s.applyCNOT c t).bind (fun s1 => s1.applyS q)) ∧
    (∀ c t c2 t2, c ≠ c2 → c ≠ t2 → t ≠ c2 → t ≠ t2 →
      (s.applyCNOT c t).bind (fun s1 => s1.applyCNOT c2 t2)
        = (s.applyCNOT c2 t2).bind (fun s1 => s1.applyCNOT c t)) ∧
    (∀ (s0 : QState) (a : Nat), s0.WellShaped → a < s0.n →
      (∃ s1, s0.applyH a = some s1 ∧ s1.WellShaped ∧ s1.n = s0.n) ∧
      (∃ s1, s0.applyS a = some s1 ∧ s1.WellShaped ∧ s1.n = s0.n)) ∧
    (∀ (s0 : QState) (c t : Nat), s0.WellShaped → c < s0.n → t < s0.n →
      ∃ s1, s0.applyCNOT c t = some s1 ∧ s1.WellShaped ∧ s1.n = s0.n) := by
  refine ⟨fun a b hab => ⟨?_, ?_, ?_⟩, fun q c t hc ht => ⟨?_, ?_⟩,
    fun c t c2 t2 h1 h2 h3 h4 => ?_, fun s0 a h0 ha => ⟨?_, ?_⟩, fun s0 c t h0 hc ht => ?_⟩
  · exact updates_commute s.n (fun s1 => s1.applyH a) (fun s1 => s1.applyH b) _ _ _ _
      (applyH_acts s.n a) (applyH_acts s.n b) (hPure_hPure_comm a b hab s.n) s hs rfl
  · exact updates_commute s.n (fun s1 => s1.applyH a) (fun s1 => s1.applyS b) _ _ _ _
      (applyH_acts s.n a) (applyS_acts s.n b) (sPure_hPure_comm a b hab s.n) s hs rfl
  · exact updates_commute s.n (fun s1 => s1.applyS a) (fun s1 => s1.applyS b) _ _ _ _
      (applyS_acts s.n a) (applyS_acts s.n b) (sPure_sPure_comm a b hab s.n) s hs rfl
  · exact updates_commute s.n (fun s1 => s1.applyH q) (fun s1 => s1.applyCNOT c t) _ _ _ _
      (applyH_acts s.n q) (applyCNOT_acts s.n c t) (cnotPure_hPure_comm q c t hc ht s.n) s hs rfl
  · exact updates_commute s.n (fun s1 => s1.applyS q) (fun s1 => s1.applyCNOT c t) _ _ _ _
      (applyS_acts s.n q) (applyCNOT_acts s.n c t) (cnotPure_sPure_comm q c t hc ht s.n) s hs rfl
  · exact updates_commute s.n (fun s1 => s1.applyCNOT c t) (fun s1 => s1.applyCNOT c2 t2)
      _ _ _ _ (applyCNOT_acts s.n c t) (applyCNOT_acts s.n c2 t2)
      (cnotPure_cnotPure_comm c t c2 t2 h1 h2 h3 h4 s.n) s hs rfl
  · exact ⟨_, applyH_eq s0 a h0 ha,
      withRows_map_wellShaped s0 _ h0 (fun row hrow => hPure_ok s0.n a row hrow), rfl⟩
  · exact ⟨_, applyS_eq s0 a h0 ha,
      withRows_map_wellShaped s0 _ h0 (fun row hrow => sPure_ok s0.n a row hrow), rfl⟩
  · exact ⟨_, applyCNOT_eq s0 c t h0 hc ht,
      withRows_map_wellShaped s0 _ h0 (fun row hrow => cnotPure_ok s0.n c t row hrow), rfl⟩

/-- C19 on the sample tableau: `applyH 0` and `applyS 1` in either order. -/
theorem disjoint_updates_commute_witness :
    sampleTableau.WellShaped ∧
    (sampleTableau.applyH 0).bind (fun s1 => s1.applyS 1)
      = (sampleTableau.applyS 1).bind (fun s1 => s1.applyH 0) ∧
    ((sampleTableau.applyH 0).bind (fun s1 => s1.applyS 1)).isSome = true :=
  ⟨by decide, ((disjoint_updates_commute sampleTableau (by decide)).1 0 1 (by decide)).2.1,
    by decide⟩

/-! ## Statistics as JSON -/

theorem atKey_append_new {ν : Type} (m : List (String × ν)) (k : String) (v : ν)
    (h : StdMap.atKey m k = none) : StdMap.atKey (m ++ [(k, v)]) k = some v := by
  induction m with
  | nil => simp [StdMap.atKey]
  | cons p rest ih =>
    obtain ⟨k1, v1⟩ := p
    simp only [StdMap.atKey] at h
    simp only [List.cons_append, StdMap.atKey]
    split at h
    · cases h
    · rename_i hne
      rw [if_neg hne]
      exact ih h

theorem atKey_none_iff {ν : Type} (m : List (String × ν)) (k : String) :
    StdMap.atKey m k = none ↔ k ∉ m.map Prod.fst := by
  induction m with
  | nil => simp [StdMap.atKey]
  | cons p rest ih =>
    obtain ⟨k1, v1⟩ := p
    simp only [StdMap.atKey, List.map_cons, List.mem_cons, not_or]
    by_cases hk : k1 = k
    · simp [hk]
    · rw [if_neg hk, ih]
      constructor
      · intro h
        exact ⟨fun e => hk e.symm, h⟩
      · intro h
        exact h.2

theorem foldl_emplace_nodup {ν : Type} (l acc : List (String × ν))
    (h : ((acc ++ l).map Prod.fst).Nodup) :
    l.foldl (fun m kv => (StdMap.emplace m kv.1 kv.2).1) acc = acc ++ l := by
  induction l generalizing acc with
  | nil => simp
  | cons p rest ih =>
    have hnone : StdMap.atKey acc p.1 = none := by
      rw [atKey_none_iff]
      intro hmem
      rw [List.map_append, List.map_cons] at h
      have := List.nodup_append.1 h
      exact this.2.2 hmem (List.mem_cons_self _ _)
    have hstep : (StdMap.emplace acc p.1 p.2).1 = acc ++ [p] := by
      simp only [StdMap.emplace, hnone]
    rw [List.foldl_cons, hstep, ih (acc ++ [p]) (by simpa using h)]
    simp

theorem getDoubleMap_ofDoubleMap (casts : JsonCasts) (m : List (String × Double))
    (h : (m.map Prod.fst).Nodup) :
    (Json.ofDoubleMap m).getDoubleMap casts = some m := by
  have h1 : ((m.map fun kv => (kv.1, Json.float kv.2)).map Prod.fst).Nodup := by
    rw [List.map_map]
    exact h
  have hmapM : ∀ l : List (String × Double),
      (l.map fun kv => (kv.1, Json.float kv.2)).mapM
        (fun (kv : String × Json) => (kv.2.getDouble casts).bind fun d => some (kv.1, d))
        = some l := by
    intro l
    induction l with
    | nil => rfl
    | cons p rest ih =>
      rw [List.map_cons, List.mapM_cons, ih]
      rfl
  simp only [Json.ofDoubleMap, Json.ofPairs, Json.getDoubleMap]
  rw [foldl_emplace_nodup _ [] (by simpa using h1), List.nil_append]
  simp only [Option.bind_eq_bind] at hmapM ⊢
  rw [hmapM m, Option.some_bind, foldl_emplace_nodup m [] (by simpa using h), List.nil_append]

theorem to_json_fields (s : Statistics) :
    s.to_json = Json.object
      [("numGates", Json.unsigned s.nrOfGates),
       ("nrOfQubits", Json.unsigned s.nrOfQubits),
       ("numSatVarsCreated", Json.unsigned s.nrOfSatVars),
       ("numGenerators", Json.unsigned s.nrOfGenerators),
       ("numFuncConstr", Json.unsigned s.nrOfFunctionalConstr),
       ("circDepth", Json.unsigned s.circuitDepth),
       ("numInputs", Json.unsigned s.nrOfDiffInputStates),
       ("equivalent", Json.boolean s.equal),
       ("satisfiable", Json.boolean s.satisfiable),
       ("preprocTime", Json.unsigned s.preprocTime),
       ("solvingTime", Json.unsigned s.solvingTime),
       ("satConstructionTime", Json.unsigned s.satConstructionTime),
       ("z3map", Json.ofDoubleMap s.z3StatsMap)] := by
  unfold Statistics.to_json Json.ofPairs
  rw [foldl_emplace_nodup _ [] (by
    simp only [List.nil_append, List.map_cons, List.map_nil]
    decide)]
  rfl

/-- C18 (statistics JSON round trip): for every record of statistics whose map of
solver statistics has distinct keys (as every `std::map` has), `from_json` applied to
the result of `to_json` returns, and overwrites any record with the serialised one in
all thirteen fields, each read under the key it was written with. Insertions keep the
keys of a map distinct. -/
theorem from_json_to_json (casts : JsonCasts) (s t : Statistics)
    (h : (s.z3StatsMap.map Prod.fst).Nodup) :
    Statistics.from_json casts t s.to_json = some s ∧
    (∀ (k : String) (v : Double),
      ((StdMap.emplace s.z3StatsMap k v).1.map Prod.fst).Nodup) := by
  constructor
  · have hz := getDoubleMap_ofDoubleMap casts s.z3StatsMap h
    rw [to_json_fields]
    simp only [Statistics.from_json, Json.readSize, Json.readBool, Json.readDoubleMap,
      Json.atKey, StdMap.atKey, String.reduceEq, if_false, if_true, ite_true, ite_false,
      Option.some_bind, Option.bind_some, Json.getSize, Json.getBool, hz]
  · intro k v
    simp only [StdMap.emplace]
    cases hk : StdMap.atKey s.z3StatsMap k with
    | some _ => exact h
    | none =>
      simp only [List.map_append, List.map_cons, List.map_nil]
      rw [List.nodup_append]
      refine ⟨h, List.nodup_singleton _, ?_⟩
      intro a ha hb
      rw [List.mem_singleton] at hb
      subst hb
      exact (atKey_none_iff _ _).1 hk ha

/-- C18 on a sample record, read into the default record. -/
theorem from_json_to_json_witness :
    (sampleStatistics.z3StatsMap.map Prod.fst).Nodup ∧
    Statistics.from_json sampleCasts SatEncoder.fresh.stats sampleStatistics.to_json
      = some sampleStatistics :=
  ⟨by decide,
    (from_json_to_json sampleCasts sampleStatistics SatEncoder.fresh.stats (by decide)).1⟩

/-! ## The shape of the instances -/

theorem mapM_eq_some_map {α β : Type} (f : α → Option β) (g : α → β) (l : List α)
    (h : ∀ a ∈ l, f a = some (g a)) : l.mapM f = some (l.map g) := by
  induction l with
  | nil => rfl
  | cons a rest ih =>
    rw [List.mapM_cons, h a (List.mem_cons_self _ _),
      ih (fun i hi => h i (List.mem_cons_of_mem _ hi))]
    rfl

theorem foldl_add_assertions (l : List Z3Expr) (solver : Solver) :
    (l.foldl Solver.add solver).assertions = solver.assertions ++ l := by
  induction l generalizing solver with
  | nil => simp
  | cons c rest ih =>
    rw [List.foldl_cons, ih]
    simp [Solver.add]

theorem mkVars_eq (primed : Bool) (depth bitwidth : Nat) (hw : 0 < bitwidth) :
    mkVars primed depth bitwidth
      = some ((List.range (depth + 1)).map fun k =>
          BvExpr.const { primed := primed, level := k } bitwidth) := by
  unfold mkVars
  apply mapM_eq_some_map
  intro k _
  simp only [bvConst]
  rw [if_neg (by omega)]

theorem mkVars_none (primed : Bool) (depth : Nat) : mkVars primed depth 0 = none := by
  unfold mkVars
  rw [List.range_succ_eq_map, List.mapM_cons]
  rfl

theorem blockingConstraints_eq (needed : Bool) (vars : List BvExpr) (generatorCnt bitwidth : Nat)
    (hw : 0 < bitwidth) :
    blockingConstraints needed vars generatorCnt bitwidth
      = some (if needed then
          vars.map fun var => Z3Expr.ult var (BvExpr.val generatorCnt bitwidth)
        else []) := by
  unfold blockingConstraints
  cases needed with
  | false => rfl
  | true =>
    simp only [if_true]
    apply mapM_eq_some_map
    intro var _
    simp only [bvVal]
    rw [if_neg (by omega)]
    rfl

theorem encodeCircuit_some (enc : SatEncoder) (rep : CircuitRepresentation) (primed : Bool)
    (connective : Z3Expr → Z3Expr → Z3Expr) (generatorCnt bitwidth : Nat) (needed : Bool)
    (solver : Solver) (vars : List BvExpr) (solver1 : Solver) (enc1 : SatEncoder)
    (h : encodeCircuit enc rep primed connective generatorCnt bitwidth needed solver
      = some (vars, solver1, enc1)) :
    0 < bitwidth ∧
    vars = (List.range (rep.generatorMappings.length + 1)).map (fun k =>
      BvExpr.const { primed := primed, level := k } bitwidth) ∧
    (∃ functional,
      functionalConstraints enc.generators rep vars bitwidth connective = some functional ∧
      solver1.assertions = solver.assertions ++ functional ++
        (if needed then vars.map fun var => Z3Expr.ult var (BvExpr.val generatorCnt bitwidth)
          else [])) ∧
    enc1.generators = enc.generators ∧ enc1.nrOfInputGenerators = enc.nrOfInputGenerators := by
  have hw : 0 < bitwidth := by
    rcases Nat.eq_zero_or_pos bitwidth with h0 | h0
    · subst h0
      simp only [encodeCircuit, mkVars_none, Option.bind_eq_bind, Option.none_bind] at h
      cases h
    · exact h0
  simp only [encodeCircuit, mkVars_eq primed _ bitwidth hw, Option.bind_eq_bind,
    Option.some_bind, blockingConstraints_eq needed _ generatorCnt bitwidth hw] at h
  obtain ⟨functional, hf, h⟩ := Option.bind_eq_some.1 h
  simp only [Option.some.injEq, Prod.mk.injEq] at h
  obtain ⟨hv, hs, he⟩ := h
  subst hv
  refine ⟨hw, rfl, ⟨functional, hf, ?_⟩, ?_, ?_⟩
  · rw [← hs, foldl_add_assertions, List.append_assoc]
  · rw [← he]
  · rw [← he]

theorem layerVars_head (primed : Bool) (depth bitwidth : Nat) :
    (layerVars primed depth bitwidth).head?
      = some (BvExpr.const { primed := primed, level := 0 } bitwidth) := by
  rw [layerVars, List.range_succ_eq_map]
  rfl

theorem layerVars_getLast (primed : Bool) (depth bitwidth : Nat) :
    (layerVars primed depth bitwidth).getLast?
      = some (BvExpr.const { primed := primed, level := depth } bitwidth) := by
  rw [layerVars, List.range_succ, List.map_append, List.map_singleton,
    List.getLast?_append, List.getLast?_singleton]
  rfl

theorem constructMiterInstance_some (enc : SatEncoder) (r1 r2 : CircuitRepresentation)
    (solver : Solver) (elapsed : Nat) (solver1 : Solver) (enc1 : SatEncoder)
    (h : enc.constructMiterInstance r1 r2 solver elapsed = some (solver1, enc1)) :
    0 < bitwidthOf enc.generators.length ∧
    ∃ f1 f2,
      functionalConstraints enc.generators r1
        (layerVars false r1.generatorMappings.length (bitwidthOf enc.generators.length))
        (bitwidthOf enc.generators.length) Z3Expr.iff = some f1 ∧
      functionalConstraints enc.generators r2
        (layerVars true r2.generatorMappings.length (bitwidthOf enc.generators.length))
        (bitwidthOf enc.generators.length) Z3Expr.iff = some f2 ∧
      solver1.assertions = solver.assertions ++ f1 ++
        blockingOf (layerVars false r1.generatorMappings.length
          (bitwidthOf enc.generators.length)) enc.generators.length
          (bitwidthOf enc.generators.length) ++ f2 ++
        blockingOf (layerVars true r2.generatorMappings.length
          (bitwidthOf enc.generators.length)) enc.generators.length
          (bitwidthOf enc.generators.length) ++
        [Z3Expr.eq (BvExpr.const { primed := false, level := 0 }
              (bitwidthOf enc.generators.length))
            (BvExpr.const { primed := true, level := 0 } (bitwidthOf enc.generators.length)),
          Z3Expr.ne (BvExpr.const { primed := false, level := r1.generatorMappings.length }
              (bitwidthOf enc.generators.length))
            (BvExpr.const { primed := true, level := r2.generatorMappings.length }
              (bitwidthOf enc.generators.length)),
          Z3Expr.ult (BvExpr.const { primed := false, level := 0 }
              (bitwidthOf enc.generators.length))
            (BvExpr.val enc.nrOfInputGenerators (bitwidthOf enc.generators.length)),
          Z3Expr.ult (BvExpr.const { primed := true, level := 0 }
              (bitwidthOf enc.generators.length))
            (BvExpr.val enc.nrOfInputGenerators (bitwidthOf enc.generators.length))] := by
  simp only [SatEncoder.constructMiterInstance, Option.bind_eq_bind] at h
  obtain ⟨⟨vars1, s1, e1⟩, h1, h⟩ := Option.bind_eq_some.1 h
  obtain ⟨⟨vars2, s2, e2⟩, h2, h⟩ := Option.bind_eq_some.1 h
  obtain ⟨hw, hv1, ⟨f1, hf1, ha1⟩, hg1, hn1⟩ := encodeCircuit_some _ _ _ _ _ _ _ _ _ _ _ h1
  obtain ⟨_, hv2, ⟨f2, hf2, ha2⟩, hg2, hn2⟩ := encodeCircuit_some _ _ _ _ _ _ _ _ _ _ _ h2
  simp only at hf1 hf2 hg1 hg2 hn1 hn2
  have hv1 : vars1 = layerVars false r1.generatorMappings.length
      (bitwidthOf enc.generators.length) := hv1
  have hv2 : vars2 = layerVars true r2.generatorMappings.length
      (bitwidthOf enc.generators.length) := hv2
  subst hv1
  subst hv2
  rw [hg1] at hf2
  simp only [layerVars_head, layerVars_getLast, Option.some_bind, bvVal,
    if_neg (Nat.pos_iff_ne_zero.1 hw), Option.some.injEq, Prod.mk.injEq] at h
  refine ⟨hw, f1, f2, hf1, hf2, ?_⟩
  rw [← h.1]
  simp only [Solver.add, ha2, ha1, hn2, hn1, blockingOf, blockingConstraintsNeeded,
    decide_eq_true_eq, List.append_assoc, List.cons_append, List.nil_append]

theorem lt_pow_bitwidth_iff (m : Nat) (hm : 1 ≤ m) :
    m < 2 ^ bitwidthOf m ↔ ¬ ∃ k, m = 2 ^ k := by
  obtain ⟨h1, h2⟩ := bitwidthOf_spec m hm
  constructor
  · rintro hlt ⟨k, hk⟩
    have hle : bitwidthOf m ≤ k := h2 k (by omega)
    have hpow : 2 ^ bitwidthOf m ≤ 2 ^ k := Nat.pow_le_pow_right (by decide) hle
    omega
  · intro hno
    rcases Nat.lt_or_ge m (2 ^ bitwidthOf m) with h | h
    · exact h
    · exact absurd ⟨bitwidthOf m, by omega⟩ hno

theorem ult_val_eval (σ : Assignment) (name : BvName) (bound width : Nat)
    (h : bound < 2 ^ width) :
    (Z3Expr.ult (BvExpr.const name width) (BvExpr.val bound width)).eval σ = true ↔
      (BvExpr.const name width).eval σ < bound := by
  simp only [Z3Expr.eval, BvExpr.eval, decide_eq_true_eq, Nat.mod_eq_of_lt h]

theorem ult_val_wrap (σ : Assignment) (name : BvName) (width : Nat) :
    (Z3Expr.ult (BvExpr.const name width) (BvExpr.val (2 ^ width) width)).eval σ = false := by
  simp [Z3Expr.eval, BvExpr.eval]

/-- C21 (range blocking): with a registry of `M ≥ 2` generators and `W` the bit-width,
the flag of `constructMiterInstance` is set exactly when `M < 2 ^ W`, which is exactly
when `M` is not a power of two. The assertions of a miter are the functional
constraints and the blocking constraints of circuit one, those of circuit two, and the
four miter constraints; the blocking constraints are one `ult(var, M)` per layer
variable (`L + 1` and `L' + 1` of them) when the flag is set and none otherwise. A
blocking constraint holds exactly when the value of its variable is below `M`. -/
theorem blocking_iff_not_power_of_two (m : Nat) (hm : 2 ≤ m) :
    (blockingConstraintsNeeded m (bitwidthOf m) = true ↔ ¬ ∃ k, m = 2 ^ k) ∧
    (∀ (enc : SatEncoder) (r1 r2 : CircuitRepresentation) (solver : Solver) (elapsed : Nat)
      (solver1 : Solver) (enc1 : SatEncoder), enc.generators.length = m →
      enc.constructMiterInstance r1 r2 solver elapsed = some (solver1, enc1) →
      ∃ f1 f2 rest,
        functionalConstraints enc.generators r1
          (layerVars false r1.generatorMappings.length (bitwidthOf m)) (bitwidthOf m)
          Z3Expr.iff = some f1 ∧
        functionalConstraints enc.generators r2
          (layerVars true r2.generatorMappings.length (bitwidthOf m)) (bitwidthOf m)
          Z3Expr.iff = some f2 ∧
        rest.length = 4 ∧
        solver1.assertions = solver.assertions ++ f1 ++
          blockingOf (layerVars false r1.generatorMappings.length (bitwidthOf m)) m
            (bitwidthOf m) ++ f2 ++
          blockingOf (layerVars true r2.generatorMappings.length (bitwidthOf m)) m
            (bitwidthOf m) ++ rest) ∧
    (∀ (primed : Bool) (depth : Nat),
      ((∃ k, m = 2 ^ k) → blockingOf (layerVars primed depth (bitwidthOf m)) m (bitwidthOf m)
        = []) ∧
      ((¬ ∃ k, m = 2 ^ k) → blockingOf (layerVars primed depth (bitwidthOf m)) m (bitwidthOf m)
        = (List.range (depth + 1)).map fun k =>
            Z3Expr.ult (BvExpr.const { primed := primed, level := k } (bitwidthOf m))
              (BvExpr.val m (bitwidthOf m)))) ∧
    (∀ (σ : Assignment) (name : BvName), (¬ ∃ k, m = 2 ^ k) →
      ((Z3Expr.ult (BvExpr.const name (bitwidthOf m)) (BvExpr.val m (bitwidthOf m))).eval σ
          = true ↔
        (BvExpr.const name (bitwidthOf m)).eval σ < m)) := by
  have hiff := lt_pow_bitwidth_iff m (by omega)
  refine ⟨?_, ?_, ?_, ?_⟩
  · rw [← hiff]
    simp [blockingConstraintsNeeded]
  · intro enc r1 r2 solver elapsed solver1 enc1 hlen h
    obtain ⟨_, f1, f2, hf1, hf2, ha⟩ := constructMiterInstance_some _ _ _ _ _ _ _ h
    rw [hlen] at hf1 hf2 ha
    exact ⟨f1, f2, [_, _, _, _], hf1, hf2, rfl, ha⟩
  · intro primed depth
    constructor
    · intro hp
      have hnot : ¬ m < 2 ^ bitwidthOf m := fun hlt => hiff.1 hlt hp
      simp only [blockingOf, if_neg hnot]
    · intro hp
      simp only [blockingOf, if_pos (hiff.2 hp), layerVars, List.map_map]
      rfl
  · intro σ name hp
    exact ult_val_eval σ name m _ (hiff.2 hp)

/-- C21 on a registry of three generators: one qubit, circuit one `[H(0)]`, circuit
two `[H(0), S(0)]`, the all-zero input. The miter holds twelve assertions, among them
the blocking constraints of the five layer variables; the only other comparisons are
the two input constraints. -/
theorem blocking_iff_not_power_of_two_witness :
    2 ≤ 3 ∧ (blockingConstraintsNeeded 3 (bitwidthOf 3) = true ↔ ¬ ∃ k, 3 = 2 ^ k) ∧
    ∃ (rep1 rep2 : CircuitRepresentation) (e1 e2 e3 : SatEncoder) (solver : Solver),
      SatEncoder.fresh.preprocessCircuit [[some (gate OpType.H 0)]] [] 0 = some (rep1, e1) ∧
      e1.preprocessCircuit [[some (gate OpType.H 0), some (gate OpType.S 0)]] [] 0
        = some (rep2, e2) ∧
      e2.constructMiterInstance rep1 rep2 { assertions := [] } 0 = some (solver, e3) ∧
      e2.generators.length = 3 ∧ solver.assertions.length = 12 ∧
      solver.assertions.filter Z3Expr.isUlt
        = blockingOf (layerVars false 1 2) 3 2 ++ blockingOf (layerVars true 2 2) 3 2 ++
          [Z3Expr.ult (BvExpr.const { primed := false, level := 0 } 2) (BvExpr.val 1 2),
           Z3Expr.ult (BvExpr.const { primed := true, level := 0 } 2) (BvExpr.val 1 2)] := by
  refine ⟨by decide, (blocking_iff_not_power_of_two 3 (by decide)).1, ?_⟩
  have h : ((SatEncoder.fresh.preprocessCircuit [[some (gate OpType.H 0)]] [] 0).bind
      fun p1 => (p1.2.preprocessCircuit [[some (gate OpType.H 0), some (gate OpType.S 0)]]
          [] 0).bind
        fun p2 => (p2.2.constructMiterInstance p1.1 p2.1 { assertions := [] } 0).bind
          fun p3 => some (decide (p2.2.generators.length = 3 ∧ p3.1.assertions.length = 12 ∧
            p3.1.assertions.filter Z3Expr.isUlt
              = blockingOf (layerVars false 1 2) 3 2 ++ blockingOf (layerVars true 2 2) 3 2 ++
                [Z3Expr.ult (BvExpr.const { primed := false, level := 0 } 2) (BvExpr.val 1 2),
                 Z3Expr.ult (BvExpr.const { primed := true, level := 0 } 2)
                   (BvExpr.val 1 2)])))
      = some true := by decide
  obtain ⟨⟨rep1, e1⟩, h1, h⟩ := Option.bind_eq_some.1 h
  obtain ⟨⟨rep2, e2⟩, h2, h⟩ := Option.bind_eq_some.1 h
  obtain ⟨⟨solver, e3⟩, h3, h⟩ := Option.bind_eq_some.1 h
  simp only [Option.some.injEq, decide_eq_true_eq] at h
  exact ⟨rep1, rep2, e1, e2, e3, solver, h1, h2, h3, h.1, h.2.1, h.2.2⟩

/-- C22 (input restriction, failing input): the two input constraints of a miter are
`ult(x^0, bv_val(M_in, W))` and `ult(y^0, bv_val(M_in, W))`. For `M_in < 2 ^ W` they
hold exactly when the value is below `M_in`. For `M_in = 2 ^ W` the numeral is `0` and
no value satisfies them. This happens for one qubit, the inputs `z` and `x`, circuit
one `[I(0)]` and circuit two `[H(0)]` on a new encoder: two generators, both of them
input generators, bit-width `1`. -/
theorem input_bound_wraps :
    (∀ (σ : Assignment) (name : BvName) (width inputCnt : Nat), inputCnt < 2 ^ width →
      ((Z3Expr.ult (BvExpr.const name width) (BvExpr.val inputCnt width)).eval σ = true ↔
        (BvExpr.const name width).eval σ < inputCnt)) ∧
    (∀ (σ : Assignment) (name : BvName) (width : Nat),
      (Z3Expr.ult (BvExpr.const name width) (BvExpr.val (2 ^ width) width)).eval σ = false) ∧
    (∀ (enc : SatEncoder) (r1 r2 : CircuitRepresentation) (solver : Solver) (elapsed : Nat)
      (solver1 : Solver) (enc1 : SatEncoder),
      enc.constructMiterInstance r1 r2 solver elapsed = some (solver1, enc1) →
      Z3Expr.ult (BvExpr.const { primed := false, level := 0 }
          (bitwidthOf enc.generators.length))
        (BvExpr.val enc.nrOfInputGenerators (bitwidthOf enc.generators.length))
          ∈ solver1.assertions ∧
      Z3Expr.ult (BvExpr.const { primed := true, level := 0 }
          (bitwidthOf enc.generators.length))
        (BvExpr.val enc.nrOfInputGenerators (bitwidthOf enc.generators.length))
          ∈ solver1.assertions) ∧
    (∃ (rep1 rep2 : CircuitRepresentation) (e1 e2 e3 : SatEncoder) (solver : Solver),
      SatEncoder.fresh.preprocessCircuit [[some (gate OpType.I 0)]] ["z", "x"] 0
        = some (rep1, e1) ∧
      e1.preprocessCircuit [[some (gate OpType.H 0)]] ["z", "x"] 0 = some (rep2, e2) ∧
      e2.constructMiterInstance rep1 rep2 { assertions := [] } 0 = some (solver, e3) ∧
      e2.generators.length = 2 ∧ e2.nrOfInputGenerators = 2 ∧
      bitwidthOf e2.generators.length = 1 ∧
      Z3Expr.ult (BvExpr.const { primed := false, level := 0 } 1) (BvExpr.val 2 1)
        ∈ solver.assertions ∧
      ∀ σ : Assignment,
        (Z3Expr.ult (BvExpr.const { primed := false, level := 0 } 1) (BvExpr.val 2 1)).eval σ
          = false) := by
  refine ⟨fun σ name width inputCnt h => ult_val_eval σ name inputCnt width h,
    fun σ name width => ult_val_wrap σ name width, ?_, ?_⟩
  · intro enc r1 r2 solver elapsed solver1 enc1 h
    obtain ⟨_, f1, f2, _, _, ha⟩ := constructMiterInstance_some _ _ _ _ _ _ _ h
    rw [ha]
    constructor
    · apply List.mem_append_right
      simp
    · apply List.mem_append_right
      simp
  · have h : ((SatEncoder.fresh.preprocessCircuit [[some (gate OpType.I 0)]] ["z", "x"] 0).bind
        fun p1 => (p1.2.preprocessCircuit [[some (gate OpType.H 0)]] ["z", "x"] 0).bind
          fun p2 => (p2.2.constructMiterInstance p1.1 p2.1 { assertions := [] } 0).bind
            fun p3 => some (decide (p2.2.generators.length = 2 ∧ p2.2.nrOfInputGenerators = 2 ∧
              bitwidthOf p2.2.generators.length = 1 ∧
              Z3Expr.ult (BvExpr.const { primed := false, level := 0 } 1) (BvExpr.val 2 1)
                ∈ p3.1.assertions)))
        = some true := by decide
    obtain ⟨⟨rep1, e1⟩, h1, h⟩ := Option.bind_eq_some.1 h
    obtain ⟨⟨rep2, e2⟩, h2, h⟩ := Option.bind_eq_some.1 h
    obtain ⟨⟨solver, e3⟩, h3, h⟩ := Option.bind_eq_some.1 h
    simp only [Option.some.injEq, decide_eq_true_eq] at h
    exact ⟨rep1, rep2, e1, e2, e3, solver, h1, h2, h3, h.1, h.2.1, h.2.2.1, h.2.2.2,
      fun σ => ult_val_wrap σ _ 1⟩

/-! ## The Pauli gates -/

theorem zSeq_row (n t : Nat) (ht : t < n) (row : Row) (h : RowOK n row) :
    (hPure t (sPure t (sPure t (hPure t row)))).1 = row.1 ∧
    (hPure t (sPure t (sPure t (hPure t row)))).2.1 = row.2.1 := by
  obtain ⟨xi, zi, ri⟩ := row
  obtain ⟨hx, hz, _⟩ := h
  simp only at hx hz
  have e1 := set_getD_self xi t false (by omega)
  have e2 := set_getD_self zi t false (by omega)
  have hlx : ∀ v, t < (xi.set t v).length := fun v => by simp; omega
  have hlz : ∀ v, t < (zi.set t v).length := fun v => by simp; omega
  simp only [hPure, sPure, List.set_set, getD_set_self xi t _ false (by omega),
    getD_set_self zi t _ false (by omega)]
  have hb : xor (xor (xi.getD t false) (zi.getD t false)) (zi.getD t false)
      = xi.getD t false := by
    cases xi.getD t false <;> cases zi.getD t false <;> rfl
  rw [hb]
  exact ⟨e1, e2⟩

theorem applyGate_Z (s : QState) (hs : s.WellShaped) (t : Nat) (ht : t < s.n) (q : Nat) :
    applyGate (gate OpType.Z t) q t s
      = some (s.withRows (s.rows.map (hPure t ∘ sPure t ∘ sPure t ∘ hPure t))) := by
  have e : applyGate (gate OpType.Z t) q t s
      = (s.applyH t).bind fun s1 => (s1.applyS t).bind fun s2 => (s2.applyS t).bind
          fun s3 => s3.applyH t := rfl
  have ok1 : ∀ row, RowOK s.n row → RowOK s.n (hPure t row) := fun row h => hPure_ok s.n t row h
  have ok2 : ∀ row, RowOK s.n row → RowOK s.n ((sPure t ∘ hPure t) row) :=
    fun row h => sPure_ok s.n t _ (ok1 row h)
  have ok3 : ∀ row, RowOK s.n row → RowOK s.n ((sPure t ∘ sPure t ∘ hPure t) row) :=
    fun row h => sPure_ok s.n t _ (ok2 row h)
  rw [e, applyH_eq s t hs ht, Option.some_bind, applyS_mapRows s _ t hs ok1 ht,
    Option.some_bind, applyS_mapRows s _ t hs ok2 ht, Option.some_bind,
    applyH_mapRows s _ t hs ok3 ht]

/-- C26 (Pauli gates, failing input): the sequence `H, S, S, H` that the preprocessor
applies for a `Z` gate leaves the X and Z matrices of every well-shaped tableau
unchanged. The sequences for `X` (`H, S, S`) and `Y` (`H, S, S, S`) do not: on the
one-qubit tableau of `+Z` the gate `X` ends in the matrices of `X` (x = 1, z = 0) and
the gate `Y` in those of `Y` (x = 1, z = 1), and `Y` applied twice ends in x = 1,
z = 0 instead of the initial x = 0, z = 1. -/
theorem pauli_updates (s : QState) (hs : s.WellShaped) (t : Nat) (ht : t < s.n) :
    (∀ q, ∃ s1, applyGate (gate OpType.Z t) q t s = some s1 ∧
      s1.x = s.x ∧ s1.z = s.z ∧ s1.n = s.n) ∧
    zeroTableau.WellShaped ∧
    applyGate (gate OpType.X 0) 0 0 zeroTableau
      = some { n := 1, x := [[true]], z := [[false]], r := [1], prevGenId := 0 } ∧
    applyGate (gate OpType.Y 0) 0 0 zeroTableau
      = some { n := 1, x := [[true]], z := [[true]], r := [1], prevGenId := 0 } ∧
    (applyGate (gate OpType.Y 0) 0 0 zeroTableau).bind (applyGate (gate OpType.Y 0) 0 0)
      = some { n := 1, x := [[true]], z := [[false]], r := [0], prevGenId := 0 } := by
  refine ⟨fun q => ⟨_, applyGate_Z s hs t ht q, ?_, ?_, rfl⟩, by decide, by decide, by decide,
    by decide⟩
  · obtain ⟨hx, _, _⟩ := fields_of_rows s hs
    conv_rhs => rw [hx]
    simp only [QState.withRows, List.map_map]
    apply List.map_congr_left
    intro row hrow
    exact (zSeq_row s.n t ht row ((wellShaped_rowsOK s hs).2 row hrow)).1
  · obtain ⟨_, hz, _⟩ := fields_of_rows s hs
    conv_rhs => rw [hz]
    simp only [QState.withRows, List.map_map]
    apply List.map_congr_left
    intro row hrow
    exact (zSeq_row s.n t ht row ((wellShaped_rowsOK s hs).2 row hrow)).2

/-- C26 on the sample tableau: the `Z` gate on qubit `1`. -/
theorem pauli_updates_witness :
    sampleTableau.WellShaped ∧ 1 < sampleTableau.n ∧
    ∃ s1, applyGate (gate OpType.Z 1) 0 1 sampleTableau = some s1 ∧
      s1.x = sampleTableau.x ∧ s1.z = sampleTableau.z ∧ s1.n = sampleTableau.n :=
  ⟨by decide, by decide, (pauli_updates sampleTableau (by decide) 1 (by decide)).1 0⟩

/-! ## Maps -/

theorem atKey_append_some {κ ν : Type} [DecidableEq κ] (m l : List (κ × ν)) (k : κ) (v : ν)
    (h : StdMap.atKey m k = some v) : StdMap.atKey (m ++ l) k = some v := by
  induction m with
  | nil => cases h
  | cons p rest ih =>
    obtain ⟨k1, v1⟩ := p
    simp only [List.cons_append, StdMap.atKey] at h ⊢
    split
    · rename_i hk
      rw [if_pos hk] at h
      exact h
    · rename_i hk
      rw [if_neg hk] at h
      exact ih h

theorem atKey_append_none {κ ν : Type} [DecidableEq κ] (m l : List (κ × ν)) (k : κ)
    (h : StdMap.atKey m k = none) : StdMap.atKey (m ++ l) k = StdMap.atKey l k := by
  induction m with
  | nil => rfl
  | cons p rest ih =>
    obtain ⟨k1, v1⟩ := p
    simp only [List.cons_append, StdMap.atKey] at h ⊢
    split
    · rename_i hk
      rw [if_pos hk] at h
      cases h
    · rename_i hk
      rw [if_neg hk] at h
      exact ih h

theorem atKey_mem {κ ν : Type} [DecidableEq κ] (m : List (κ × ν)) (k : κ) (v : ν)
    (h : StdMap.atKey m k = some v) : (k, v) ∈ m := by
  induction m with
  | nil => cases h
  | cons p rest ih =>
    obtain ⟨k1, v1⟩ := p
    simp only [StdMap.atKey] at h
    split at h
    · rename_i hk
      cases h
      subst hk
      exact List.mem_cons_self _ _
    · exact List.mem_cons_of_mem _ (ih h)

theorem atKey_eq_none_iff {κ ν : Type} [DecidableEq κ] (m : List (κ × ν)) (k : κ) :
    StdMap.atKey m k = none ↔ k ∉ m.map Prod.fst := by
  induction m with
  | nil => simp [StdMap.atKey]
  | cons p rest ih =>
    obtain ⟨k1, v1⟩ := p
    simp only [StdMap.atKey, List.map_cons, List.mem_cons, not_or]
    by_cases hk : k1 = k
    · simp [hk]
    · rw [if_neg hk, ih]
      constructor
      · intro h
        exact ⟨fun e => hk e.symm, h⟩
      · intro h
        exact h.2

theorem atKey_of_mem {κ ν : Type} [DecidableEq κ] (m : List (κ × ν)) (k : κ) (v : ν)
    (hn : (m.map Prod.fst).Nodup) (h : (k, v) ∈ m) : StdMap.atKey m k = some v := by
  induction m with
  | nil => cases h
  | cons p rest ih =>
    obtain ⟨k1, v1⟩ := p
    simp only [List.map_cons, List.nodup_cons] at hn
    simp only [StdMap.atKey]
    rcases List.mem_cons.1 h with e | e
    · cases e
      rw [if_pos rfl]
    · have hk : k1 ≠ k := by
        intro hk
        subst hk
        exact hn.1 (List.mem_map.2 ⟨(k1, v), e, rfl⟩)
      rw [if_neg hk]
      exact ih hn.2 e

theorem emplace_present {κ ν : Type} [DecidableEq κ] (m : List (κ × ν)) (k : κ) (v w : ν)
    (h : StdMap.atKey m k = some w) : StdMap.emplace m k v = (m, false) := by
  simp only [StdMap.emplace, h]

theorem emplace_absent {κ ν : Type} [DecidableEq κ] (m : List (κ × ν)) (k : κ) (v : ν)
    (h : StdMap.atKey m k = none) : StdMap.emplace m k v = (m ++ [(k, v)], true) := by
  simp only [StdMap.emplace, h]

theorem emplace_mono {κ ν : Type} [DecidableEq κ] (m : List (κ × ν)) (k k1 : κ) (v w : ν)
    (h : StdMap.atKey m k1 = some w) : StdMap.atKey (StdMap.emplace m k v).1 k1 = some w := by
  cases hk : StdMap.atKey m k with
  | some u => rw [emplace_present m k v u hk]; exact h
  | none => rw [emplace_absent m k v hk]; exact atKey_append_some m _ k1 w h

theorem emplace_self {κ ν : Type} [DecidableEq κ] (m : List (κ × ν)) (k : κ) (v : ν) :
    StdMap.atKey (StdMap.emplace m k v).1 k = some ((StdMap.atKey m k).getD v) := by
  cases hk : StdMap.atKey m k with
  | some u => rw [emplace_present m k v u hk]; simpa using hk
  | none =>
    rw [emplace_absent m k v hk, atKey_append_none m _ k hk]
    simp [StdMap.atKey]

theorem emplace_mem {κ ν : Type} [DecidableEq κ] (m : List (κ × ν)) (k : κ) (v : ν)
    (p : κ × ν) (h : p ∈ (StdMap.emplace m k v).1) : p ∈ m ∨ p = (k, v) := by
  cases hk : StdMap.atKey m k with
  | some u =>
    rw [emplace_present m k v u hk] at h
    exact Or.inl h
  | none =>
    rw [emplace_absent m k v hk] at h
    rcases List.mem_append.1 h with h | h
    · exact Or.inl h
    · exact Or.inr (List.mem_singleton.1 h)

/-! ## The registry -/

theorem internGenerator_present (enc : SatEncoder) (gen : Generator) (d : Nat)
    (h : RegistryOK enc) (hp : StdMap.atKey enc.generators gen = some d) :
    internGenerator enc gen = some (d, enc) := by
  obtain ⟨hid, _, _, _⟩ := h
  obtain ⟨gens, idm, stats, nin, cnt⟩ := enc
  simp only at hid hp
  subst hid
  simp only [internGenerator, emplace_present idm gen _ d hp,
    Bool.false_eq_true, if_false, hp, Option.bind_eq_bind, Option.some_bind]

theorem internGenerator_absent (enc : SatEncoder) (gen : Generator)
    (h : RegistryOK enc) (hp : StdMap.atKey enc.generators gen = none) :
    internGenerator enc gen = some (enc.generators.length,
      { enc with
        generators := enc.generators ++ [(gen, enc.generators.length)]
        uniqueGenCnt := enc.generators.length + 1
        generatorIdMap := enc.generators ++ [(gen, enc.generators.length)] }) := by
  obtain ⟨hid, _, hcnt, _⟩ := h
  simp only [internGenerator, emplace_absent enc.generators gen _ hp, hid, randomUuid,
    if_true, hcnt]

theorem registryOK_fresh : RegistryOK SatEncoder.fresh := by decide

theorem registryOK_append (enc : SatEncoder) (gen : Generator) (h : RegistryOK enc)
    (hp : StdMap.atKey enc.generators gen = none) :
    RegistryOK { enc with
      generators := enc.generators ++ [(gen, enc.generators.length)]
      uniqueGenCnt := enc.generators.length + 1
      generatorIdMap := enc.generators ++ [(gen, enc.generators.length)] } := by
  obtain ⟨_, hsnd, _, hnd⟩ := h
  refine ⟨rfl, ?_, ?_, ?_⟩
  · simp only [List.map_append, List.map_cons, List.map_nil, List.length_append,
      List.length_singleton, List.range_succ, hsnd]
  · simp
  · simp only [List.map_append, List.map_cons, List.map_nil]
    rw [List.nodup_append]
    refine ⟨hnd, List.nodup_singleton _, ?_⟩
    intro a ha hb
    rw [List.mem_singleton] at hb
    subst hb
    exact (atKey_eq_none_iff _ _).1 hp ha

theorem registry_lt (enc : SatEncoder) (gen : Generator) (d : Nat) (h : RegistryOK enc)
    (hp : StdMap.atKey enc.generators gen = some d) : d < enc.generators.length := by
  have hm := atKey_mem _ _ _ hp
  have hd : d ∈ enc.generators.map Prod.snd := List.mem_map.2 ⟨(gen, d), hm, rfl⟩
  rw [h.2.1] at hd
  exact List.mem_range.1 hd

theorem map_snd_inj {α β : Type} (l : List (α × β)) (h : (l.map Prod.snd).Nodup)
    (a1 a2 : α) (b : β) (h1 : (a1, b) ∈ l) (h2 : (a2, b) ∈ l) : a1 = a2 := by
  induction l with
  | nil => cases h1
  | cons p rest ih =>
    simp only [List.map_cons, List.nodup_cons] at h
    rcases List.mem_cons.1 h1 with e1 | e1
    · rcases List.mem_cons.1 h2 with e2 | e2
      · rw [← e1] at e2
        exact (Prod.mk.inj e2).1.symm
      · exfalso
        apply h.1
        rw [← e1]
        exact List.mem_map.2 ⟨(a2, b), e2, rfl⟩
    · rcases List.mem_cons.1 h2 with e2 | e2
      · exfalso
        apply h.1
        rw [← e2]
        exact List.mem_map.2 ⟨(a1, b), e1, rfl⟩
      · exact ih h.2 e1 e2

theorem registry_inj (enc : SatEncoder) (g1 g2 : Generator) (d : Nat) (h : RegistryOK enc)
    (h1 : StdMap.atKey enc.generators g1 = some d)
    (h2 : StdMap.atKey enc.generators g2 = some d) : g1 = g2 := by
  have hnd : (enc.generators.map Prod.snd).Nodup := by
    rw [h.2.1]
    exact List.nodup_range _
  exact map_snd_inj _ hnd g1 g2 d (atKey_mem _ _ _ h1) (atKey_mem _ _ _ h2)

/-- What one interning step does to a registry that satisfies the invariant. -/
theorem internGenerator_ok (enc : SatEncoder) (gen : Generator) (h : RegistryOK enc) :
    ∃ id enc1, internGenerator enc gen = some (id, enc1) ∧ RegistryOK enc1 ∧
      StdMap.atKey enc1.generators gen = some id ∧
      (∃ new, enc1.generators = enc.generators ++ new) ∧
      enc1.nrOfInputGenerators = enc.nrOfInputGenerators ∧ enc1.stats = enc.stats ∧
      (∀ d, StdMap.atKey enc.generators gen = some d → id = d ∧ enc1 = enc) ∧
      (StdMap.atKey enc.generators gen = none → id = enc.generators.length ∧
        enc1.generators = enc.generators ++ [(gen, enc.generators.length)]) := by
  cases hp : StdMap.atKey enc.generators gen with
  | some d =>
    refine ⟨d, enc, internGenerator_present enc gen d h hp, h, hp, ⟨[], by simp⟩, rfl, rfl,
      ?_, ?_⟩
    · intro d1 hd1
      cases hd1
      exact ⟨rfl, rfl⟩
    · intro hn
      cases hn
  | none =>
    refine ⟨_, _, internGenerator_absent enc gen h hp, registryOK_append enc gen h hp, ?_,
      ⟨_, rfl⟩, rfl, rfl, ?_, ?_⟩
    · simp only
      rw [atKey_append_none _ _ _ hp]
      simp [StdMap.atKey]
    · intro d hd
      cases hd
    · intro _
      exact ⟨rfl, rfl⟩

theorem mapGrows_refl {κ ν : Type} [DecidableEq κ] (m : List (κ × ν)) : MapGrows m m :=
  fun _ _ h => h

theorem mapGrows_trans {κ ν : Type} [DecidableEq κ] (a b c : List (κ × ν))
    (h1 : MapGrows a b) (h2 : MapGrows b c) : MapGrows a c :=
  fun k v h => h2 k v (h1 k v h)

theorem mapGrows_emplace {κ ν : Type} [DecidableEq κ] (m : List (κ × ν)) (k : κ) (v : ν) :
    MapGrows m (StdMap.emplace m k v).1 :=
  fun k1 w h => emplace_mono m k k1 v w h

theorem regGrows_refl (enc : SatEncoder) : RegGrows enc enc := ⟨⟨[], by simp⟩, rfl⟩

theorem regGrows_trans (a b c : SatEncoder) (h1 : RegGrows a b) (h2 : RegGrows b c) :
    RegGrows a c := by
  obtain ⟨⟨n1, e1⟩, i1⟩ := h1
  obtain ⟨⟨n2, e2⟩, i2⟩ := h2
  exact ⟨⟨n1 ++ n2, by rw [e2, e1, List.append_assoc]⟩, by rw [i2, i1]⟩

theorem regGrows_map (a b : SatEncoder) (h : RegGrows a b) :
    MapGrows a.generators b.generators := by
  obtain ⟨⟨new, e⟩, _⟩ := h
  intro k v hk
  rw [e]
  exact atKey_append_some _ _ k v hk

theorem regGrows_length (a b : SatEncoder) (h : RegGrows a b) :
    a.generators.length ≤ b.generators.length := by
  obtain ⟨⟨new, e⟩, _⟩ := h
  rw [e, List.length_append]
  omega

/-- Interning a generator and filing it in the uuid map of a representation. -/
theorem file_ok (idm : List (Uuid × Generator)) (enc : SatEncoder) (gen : Generator)
    (hr : RegistryOK enc) (hm : IdMapOK idm enc) :
    ∃ id enc1, internGenerator enc gen = some (id, enc1) ∧ RegistryOK enc1 ∧
      RegGrows enc enc1 ∧ IdMapOK (StdMap.emplace idm id gen).1 enc1 ∧
      StdMap.atKey (StdMap.emplace idm id gen).1 id = some gen ∧
      StdMap.atKey enc1.generators gen = some id ∧ enc1.stats = enc.stats := by
  obtain ⟨id, enc1, h1, hr1, hid, hnew, hin, hst, _, _⟩ := internGenerator_ok enc gen hr
  have hg : RegGrows enc enc1 := ⟨hnew, hin⟩
  have hself : StdMap.atKey (StdMap.emplace idm id gen).1 id = some gen := by
    rw [emplace_self]
    cases hk : StdMap.atKey idm id with
    | none => rfl
    | some g0 =>
      have h0 := regGrows_map enc enc1 hg g0 id (hm id g0 hk)
      rw [registry_inj enc1 g0 gen id hr1 h0 hid]
      rfl
  refine ⟨id, enc1, h1, hr1, hg, ?_, hself, hid, hst⟩
  intro u g hu
  cases hk : StdMap.atKey idm u with
  | some g1 =>
    have := mapGrows_emplace idm id gen u g1 hk
    rw [this] at hu
    cases hu
    exact regGrows_map enc enc1 hg g u (hm u g hk)
  | none =>
    cases hk2 : StdMap.atKey idm id with
    | some g2 =>
      rw [emplace_present idm id gen g2 hk2] at hu
      rw [hk] at hu
      cases hu
    | none =>
      rw [emplace_absent idm id gen hk2, atKey_append_none idm _ u hk] at hu
      simp only [StdMap.atKey] at hu
      split at hu
      · rename_i he
        cases hu
        rw [← he]
        exact hid
      · cases hu

/-- Induction over the loop `forStates`: a body that keeps an invariant, moves the
accumulator along a preorder and establishes a stable postcondition does so for the
whole loop, and the loop returns. -/
theorem forStates_ind
    (body : CircuitRepresentation × SatEncoder → QState →
      Option (QState × CircuitRepresentation × SatEncoder))
    (Inv : CircuitRepresentation × SatEncoder → Prop)
    (Rel : CircuitRepresentation × SatEncoder → CircuitRepresentation × SatEncoder → Prop)
    (Pre : QState → Prop)
    (Post : QState → QState → CircuitRepresentation × SatEncoder → Prop)
    (hrefl : ∀ a, Rel a a) (htrans : ∀ a b c, Rel a b → Rel b c → Rel a c)
    (hpost : ∀ s s1 a b, Post s s1 a → Rel a b → Post s s1 b)
    (hstep : ∀ a s, Inv a → Pre s →
      ∃ s1 a1, body a s = some (s1, a1) ∧ Inv a1 ∧ Rel a a1 ∧ Post s s1 a1) :
    ∀ (states : List QState) (a : CircuitRepresentation × SatEncoder), Inv a →
      (∀ s ∈ states, Pre s) →
      ∃ states1 a1, forStates body states a = some (states1, a1) ∧ Inv a1 ∧ Rel a a1 ∧
        List.Forall₂ (fun s s1 => Post s s1 a1) states states1 := by
  intro states
  induction states with
  | nil =>
    intro a ha _
    exact ⟨[], a, rfl, ha, hrefl a, List.Forall₂.nil⟩
  | cons s rest ih =>
    intro a ha hpre
    obtain ⟨s1, a1, hb, hi1, hr1, hp1⟩ := hstep a s ha (hpre s (List.mem_cons_self _ _))
    obtain ⟨rest1, a2, hf, hi2, hr2, hp2⟩ :=
      ih a1 hi1 (fun t ht => hpre t (List.mem_cons_of_mem _ ht))
    refine ⟨s1 :: rest1, a2, ?_, hi2, htrans a a1 a2 hr1 hr2,
      List.Forall₂.cons (hpost s s1 a1 a2 hp1 hr2) hp2⟩
    simp only [forStates, hb, hf, Option.bind_eq_bind, Option.some_bind]

/-! ## The interning loops -/

theorem getLevelGenerator_key_eq (s : QState) (hs : s.WellShaped) :
    s.getLevelGenerator = some s.key := getLevelGenerator_eq s hs

theorem key_relabel (s : QState) (id : Uuid) : ({ s with prevGenId := id } : QState).key = s.key :=
  rfl

theorem wellShaped_relabel (s : QState) (id : Uuid) (hs : s.WellShaped) :
    ({ s with prevGenId := id } : QState).WellShaped := hs

theorem registry_keys_step (enc enc1 : SatEncoder) (gen : Generator) (id : Uuid)
    (hr : RegistryOK enc) (h : internGenerator enc gen = some (id, enc1))
    (S : Generator → Prop) (hS : ∀ g ∈ enc.generators.map Prod.fst, S g) (hg : S gen) :
    ∀ g ∈ enc1.generators.map Prod.fst, S g := by
  obtain ⟨id2, enc2, h2, _, _, _, _, _, hpres, habs⟩ := internGenerator_ok enc gen hr
  rw [h] at h2
  cases h2
  cases hp : StdMap.atKey enc.generators gen with
  | some d =>
    rw [(hpres d hp).2]
    exact hS
  | none =>
    rw [(habs hp).2]
    intro g hgm
    simp only [List.map_append, List.map_cons, List.map_nil, List.mem_append,
      List.mem_singleton] at hgm
    rcases hgm with hgm | hgm
    · exact hS g hgm
    · rw [hgm]
      exact hg

theorem internInitial_step (S : Generator → Prop)
    (a : CircuitRepresentation × SatEncoder) (s : QState)
    (hi : RegistryOK a.2 ∧ IdMapOK a.1.idGeneratorMap a.2 ∧
      ∀ g ∈ a.2.generators.map Prod.fst, S g)
    (hs : s.WellShaped ∧ S s.key) :
    ∃ s1 a1, internInitial a s = some (s1, a1) ∧
      (RegistryOK a1.2 ∧ IdMapOK a1.1.idGeneratorMap a1.2 ∧
        ∀ g ∈ a1.2.generators.map Prod.fst, S g) ∧
      (RegGrows a.2 a1.2 ∧ MapGrows a.1.idGeneratorMap a1.1.idGeneratorMap ∧
        a1.1.generatorMappings = a.1.generatorMappings ∧ a1.2.stats = a.2.stats) ∧
      (s1 = { s with prevGenId := s1.prevGenId } ∧
        StdMap.atKey a1.1.idGeneratorMap s1.prevGenId = some s.key) := by
  obtain ⟨rep, enc⟩ := a
  obtain ⟨hr, hm, hS⟩ := hi
  obtain ⟨id, enc1, h1, hr1, hg1, hm1, hself, _, hst⟩ := file_ok rep.idGeneratorMap enc s.key hr hm
  refine ⟨{ s with prevGenId := id },
    ({ rep with idGeneratorMap := (StdMap.emplace rep.idGeneratorMap id s.key).1 }, enc1),
    ?_, ⟨hr1, hm1, registry_keys_step enc enc1 s.key id hr h1 S hS hs.2⟩,
    ⟨hg1, mapGrows_emplace _ _ _, rfl, hst⟩, ⟨rfl, hself⟩⟩
  simp only [internInitial, getLevelGenerator_key_eq s hs.1, h1, Option.bind_eq_bind,
    Option.some_bind]

theorem internInitial_loop (S : Generator → Prop) (states : List QState)
    (a : CircuitRepresentation × SatEncoder)
    (hi : RegistryOK a.2 ∧ IdMapOK a.1.idGeneratorMap a.2 ∧
      ∀ g ∈ a.2.generators.map Prod.fst, S g)
    (hs : ∀ s ∈ states, s.WellShaped ∧ S s.key) :
    ∃ states1 a1, forStates internInitial states a = some (states1, a1) ∧
      (RegistryOK a1.2 ∧ IdMapOK a1.1.idGeneratorMap a1.2 ∧
        ∀ g ∈ a1.2.generators.map Prod.fst, S g) ∧
      (RegGrows a.2 a1.2 ∧ MapGrows a.1.idGeneratorMap a1.1.idGeneratorMap ∧
        a1.1.generatorMappings = a.1.generatorMappings ∧ a1.2.stats = a.2.stats) ∧
      List.Forall₂ (fun s s1 => s1 = { s with prevGenId := s1.prevGenId } ∧
        StdMap.atKey a1.1.idGeneratorMap s1.prevGenId = some s.key) states states1 := by
  refine forStates_ind internInitial
    (fun a => RegistryOK a.2 ∧ IdMapOK a.1.idGeneratorMap a.2 ∧
      ∀ g ∈ a.2.generators.map Prod.fst, S g)
    (fun a a1 => RegGrows a.2 a1.2 ∧ MapGrows a.1.idGeneratorMap a1.1.idGeneratorMap ∧
      a1.1.generatorMappings = a.1.generatorMappings ∧ a1.2.stats = a.2.stats)
    (fun s => s.WellShaped ∧ S s.key)
    (fun s s1 a => s1 = { s with prevGenId := s1.prevGenId } ∧
      StdMap.atKey a.1.idGeneratorMap s1.prevGenId = some s.key)
    ?_ ?_ ?_ ?_ states a hi hs
  · intro a
    exact ⟨regGrows_refl _, mapGrows_refl _, rfl, rfl⟩
  · intro a b c h1 h2
    exact ⟨regGrows_trans _ _ _ h1.1 h2.1, mapGrows_trans _ _ _ h1.2.1 h2.2.1,
      by rw [h2.2.2.1, h1.2.2.1], by rw [h2.2.2.2, h1.2.2.2]⟩
  · intro s s1 a b hp hr
    exact ⟨hp.1, hr.2.1 _ _ hp.2⟩
  · intro a s hia hsa
    exact internInitial_step S a s hia hsa

theorem layerOf_set_self (rep : CircuitRepresentation) (idm : List (Uuid × Generator))
    (k : Nat) (layer : List (Uuid × Uuid)) (hk : k < rep.generatorMappings.length) :
    layerOf { generatorMappings := rep.generatorMappings.set k layer, idGeneratorMap := idm } k
      = layer :=
  getD_set_self rep.generatorMappings k layer [] hk

theorem layerOf_set_ne (rep : CircuitRepresentation) (idm : List (Uuid × Generator))
    (k j : Nat) (layer : List (Uuid × Uuid)) (hj : j ≠ k) :
    layerOf { generatorMappings := rep.generatorMappings.set k layer, idGeneratorMap := idm } j
      = layerOf rep j :=
  getD_set_ne rep.generatorMappings k j layer [] (Ne.symm hj)

theorem layer_lookup (rep : CircuitRepresentation) (k : Nat)
    (hk : k < rep.generatorMappings.length) :
    rep.generatorMappings[k]? = some (layerOf rep k) :=
  getD_eq_of_lt rep.generatorMappings k [] hk

theorem internLevel_step (k : Nat) (bank : List QState)
    (hdet : ∀ s1 ∈ bank, ∀ s2 ∈ bank, s1.prevGenId = s2.prevGenId → s1.key = s2.key)
    (a : CircuitRepresentation × SatEncoder) (s : QState)
    (hi : RegistryOK a.2 ∧ IdMapOK a.1.idGeneratorMap a.2 ∧ k < a.1.generatorMappings.length ∧
      ∀ p ∈ layerOf a.1 k,
        ∃ s0 ∈ bank, s0.prevGenId = p.1 ∧ StdMap.atKey a.2.generators s0.key = some p.2)
    (hs : s.WellShaped ∧ s ∈ bank) :
    ∃ s1 a1, internLevel k a s = some (s1, a1) ∧
      (RegistryOK a1.2 ∧ IdMapOK a1.1.idGeneratorMap a1.2 ∧
        k < a1.1.generatorMappings.length ∧
        ∀ p ∈ layerOf a1.1 k,
          ∃ s0 ∈ bank, s0.prevGenId = p.1 ∧ StdMap.atKey a1.2.generators s0.key = some p.2) ∧
      (RegGrows a.2 a1.2 ∧ MapGrows a.1.idGeneratorMap a1.1.idGeneratorMap ∧
        a1.1.generatorMappings.length = a.1.generatorMappings.length ∧
        MapGrows (layerOf a.1 k) (layerOf a1.1 k) ∧
        (∀ j, j ≠ k → layerOf a1.1 j = layerOf a.1 j) ∧ a1.2.stats = a.2.stats) ∧
      (s1 = { s with prevGenId := s1.prevGenId } ∧
        StdMap.atKey a1.1.idGeneratorMap s1.prevGenId = some s.key ∧
        StdMap.atKey (layerOf a1.1 k) s.prevGenId = some s1.prevGenId) := by
  obtain ⟨rep, enc⟩ := a
  obtain ⟨hr, hm, hk, hl⟩ := hi
  simp only at hr hm hk hl
  obtain ⟨id, enc1, h1, hr1, hg1, hm1, hself, hid, hst⟩ :=
    file_ok rep.idGeneratorMap enc s.key hr hm
  have hmono := regGrows_map enc enc1 hg1
  have hnew : StdMap.atKey (StdMap.emplace (layerOf rep k) s.prevGenId id).1 s.prevGenId
      = some id := by
    rw [emplace_self]
    cases hp : StdMap.atKey (layerOf rep k) s.prevGenId with
    | none => rfl
    | some w =>
      obtain ⟨s0, hs0, hprev, hkey⟩ := hl _ (atKey_mem _ _ _ hp)
      have hkeyeq : s0.key = s.key := hdet s0 hs0 s hs.2 hprev
      rw [hkeyeq] at hkey
      have := hmono _ _ hkey
      rw [hid] at this
      cases this
      rfl
  refine ⟨{ s with prevGenId := id },
    ({ generatorMappings := rep.generatorMappings.set k
          (StdMap.emplace (layerOf rep k) s.prevGenId id).1,
       idGeneratorMap := (StdMap.emplace rep.idGeneratorMap id s.key).1 }, enc1),
    ?_, ⟨hr1, hm1, ?_, ?_⟩, ⟨hg1, mapGrows_emplace _ _ _, ?_, ?_, ?_, hst⟩, ⟨rfl, hself, ?_⟩⟩
  · simp only [internLevel, getLevelGenerator_key_eq s hs.1, h1, layer_lookup rep k hk,
      Option.bind_eq_bind, Option.some_bind]
  · simp only [List.length_set]
    exact hk
  · intro p hp
    simp only at hp ⊢
    rw [layerOf_set_self rep _ k _ hk] at hp
    rcases emplace_mem _ _ _ p hp with h0 | h0
    · obtain ⟨s0, hs0, hprev, hkey⟩ := hl p h0
      exact ⟨s0, hs0, hprev, hmono _ _ hkey⟩
    · rw [h0]
      exact ⟨s, hs.2, rfl, hid⟩
  · simp only [List.length_set]
  · simp only
    rw [layerOf_set_self rep _ k _ hk]
    exact mapGrows_emplace _ _ _
  · intro j hj
    exact layerOf_set_ne rep _ k j _ hj
  · simp only
    rw [layerOf_set_self rep _ k _ hk]
    exact hnew

theorem internLevel_loop (k : Nat) (bank : List QState)
    (hdet : ∀ s1 ∈ bank, ∀ s2 ∈ bank, s1.prevGenId = s2.prevGenId → s1.key = s2.key)
    (states : List QState) (a : CircuitRepresentation × SatEncoder)
    (hi : RegistryOK a.2 ∧ IdMapOK a.1.idGeneratorMap a.2 ∧ k < a.1.generatorMappings.length ∧
      ∀ p ∈ layerOf a.1 k,
        ∃ s0 ∈ bank, s0.prevGenId = p.1 ∧ StdMap.atKey a.2.generators s0.key = some p.2)
    (hs : ∀ s ∈ states, s.WellShaped ∧ s ∈ bank) :
    ∃ states1 a1, forStates (internLevel k) states a = some (states1, a1) ∧
      (RegistryOK a1.2 ∧ IdMapOK a1.1.idGeneratorMap a1.2 ∧
        k < a1.1.generatorMappings.length ∧
        ∀ p ∈ layerOf a1.1 k,
          ∃ s0 ∈ bank, s0.prevGenId = p.1 ∧ StdMap.atKey a1.2.generators s0.key = some p.2) ∧
      (RegGrows a.2 a1.2 ∧ MapGrows a.1.idGeneratorMap a1.1.idGeneratorMap ∧
        a1.1.generatorMappings.length = a.1.generatorMappings.length ∧
        MapGrows (layerOf a.1 k) (layerOf a1.1 k) ∧
        (∀ j, j ≠ k → layerOf a1.1 j = layerOf a.1 j) ∧ a1.2.stats = a.2.stats) ∧
      List.Forall₂ (fun s s1 => s1 = { s with prevGenId := s1.prevGenId } ∧
        StdMap.atKey a1.1.idGeneratorMap s1.prevGenId = some s.key ∧
        StdMap.atKey (layerOf a1.1 k) s.prevGenId = some s1.prevGenId) states states1 := by
  refine forStates_ind (internLevel k)
    (fun a => RegistryOK a.2 ∧ IdMapOK a.1.idGeneratorMap a.2 ∧
      k < a.1.generatorMappings.length ∧
      ∀ p ∈ layerOf a.1 k,
        ∃ s0 ∈ bank, s0.prevGenId = p.1 ∧ StdMap.atKey a.2.generators s0.key = some p.2)
    (fun a a1 => RegGrows a.2 a1.2 ∧ MapGrows a.1.idGeneratorMap a1.1.idGeneratorMap ∧
      a1.1.generatorMappings.length = a.1.generatorMappings.length ∧
      MapGrows (layerOf a.1 k) (layerOf a1.1 k) ∧
      (∀ j, j ≠ k → layerOf a1.1 j = layerOf a.1 j) ∧ a1.2.stats = a.2.stats)
    (fun s => s.WellShaped ∧ s ∈ bank)
    (fun s s1 a => s1 = { s with prevGenId := s1.prevGenId } ∧
      StdMap.atKey a.1.idGeneratorMap s1.prevGenId = some s.key ∧
      StdMap.atKey (layerOf a.1 k) s.prevGenId = some s1.prevGenId)
    ?_ ?_ ?_ ?_ states a hi hs
  · intro a
    exact ⟨regGrows_refl _, mapGrows_refl _, rfl, mapGrows_refl _, fun _ _ => rfl, rfl⟩
  · intro a b c h1 h2
    exact ⟨regGrows_trans _ _ _ h1.1 h2.1, mapGrows_trans _ _ _ h1.2.1 h2.2.1,
      by rw [h2.2.2.1, h1.2.2.1], mapGrows_trans _ _ _ h1.2.2.2.1 h2.2.2.2.1,
      fun j hj => by rw [h2.2.2.2.2.1 j hj, h1.2.2.2.2.1 j hj],
      by rw [h2.2.2.2.2.2, h1.2.2.2.2.2]⟩
  · intro s s1 a b hp hr
    exact ⟨hp.1, hr.2.1 _ _ hp.2.1, hr.2.2.2.1 _ _ hp.2.2⟩
  · intro a s hia hsa
    exact internLevel_step k bank hdet a s hia hsa

/-! ## The gates of a level, state by state -/

theorem mapM_some_iff {α β : Type} (f : α → Option β) (l : List α) (l1 : List β) :
    l.mapM f = some l1 ↔ List.Forall₂ (fun a b => f a = some b) l l1 := by
  induction l generalizing l1 with
  | nil =>
    constructor
    · intro h
      cases h
      exact List.Forall₂.nil
    · intro h
      cases h
      rfl
  | cons a rest ih =>
    rw [List.mapM_cons]
    constructor
    · intro h
      cases ha : f a with
      | none =>
        rw [ha] at h
        cases h
      | some b =>
        rw [ha] at h
        cases hr : rest.mapM f with
        | none =>
          rw [hr] at h
          cases h
        | some rest1 =>
          rw [hr] at h
          cases h
          exact List.Forall₂.cons ha ((ih rest1).1 hr)
    · intro h
      cases h with
      | cons ha hr =>
        rw [ha, (ih _).2 hr]
        rfl

theorem forall2_self {α : Type} (f : α → Option α) (hf : ∀ s, f s = some s) (l : List α) :
    List.Forall₂ (fun s s1 => f s = some s1) l l := by
  induction l with
  | nil => exact List.Forall₂.nil
  | cons s rest ih => exact List.Forall₂.cons (hf s) ih

theorem applyQubit_pointwise (dag : DAG) (k : Nat) (bank : List QState) (c : Nat) (q : Nat)
    (bank1 : List QState) (c1 : Nat)
    (h : applyQubit dag k (bank, c) q = some (bank1, c1)) :
    List.Forall₂ (fun s s1 => applyQubitOne dag k s q = some s1) bank bank1 := by
  have hid : ∀ (f : QState → Option QState), (∀ s, f s = some s) →
      List.Forall₂ (fun s s1 => f s = some s1) bank bank :=
    fun f hf => forall2_self f hf bank
  simp only [applyQubit, Option.bind_eq_bind] at h
  cases hops : dag[q]? with
  | none =>
    rw [hops] at h
    cases h
  | some ops =>
    rw [hops, Option.some_bind] at h
    by_cases hlt : k < ops.length
    · rw [if_pos hlt] at h
      by_cases hemp : (!ops.isEmpty) = true
      · rw [if_pos hemp] at h
        cases hg : ops[k]? with
        | none =>
          rw [hg] at h
          cases h
        | some og =>
          rw [hg, Option.some_bind] at h
          cases og with
          | none =>
            simp only [Option.some.injEq, Prod.mk.injEq] at h
            rw [← h.1]
            apply hid
            intro s
            simp only [applyQubitOne, hops, Option.bind_eq_bind, Option.some_bind, if_pos hlt,
              if_pos hemp, hg]
          | some gate =>
            simp only [Option.bind_eq_bind] at h
            cases ht : gate.targets[0]? with
            | none =>
              rw [ht] at h
              cases h
            | some target =>
              rw [ht, Option.some_bind] at h
              cases hm : bank.mapM (applyGate gate q target) with
              | none =>
                rw [hm] at h
                cases h
              | some states =>
                rw [hm, Option.some_bind] at h
                simp only [Option.some.injEq, Prod.mk.injEq] at h
                rw [← h.1]
                have hf := (mapM_some_iff _ _ _).1 hm
                refine List.Forall₂.imp ?_ hf
                intro s s1 hs
                simp only [applyQubitOne, hops, Option.bind_eq_bind, Option.some_bind,
                  if_pos hlt, if_pos hemp, hg, ht]
                exact hs
      · rw [if_neg hemp] at h
        simp only [Option.some.injEq, Prod.mk.injEq] at h
        rw [← h.1]
        apply hid
        intro s
        simp only [applyQubitOne, hops, Option.bind_eq_bind, Option.some_bind, if_pos hlt,
          if_neg hemp]
    · rw [if_neg hlt] at h
      simp only [Option.some.injEq, Prod.mk.injEq] at h
      rw [← h.1]
      apply hid
      intro s
      simp only [applyQubitOne, hops, Option.bind_eq_bind, Option.some_bind, if_neg hlt]

theorem foldlM_pointwise (dag : DAG) (k : Nat) (qs : List Nat) :
    ∀ (bank : List QState) (c : Nat) (bank1 : List QState) (c1 : Nat),
      qs.foldlM (applyQubit dag k) (bank, c) = some (bank1, c1) →
      List.Forall₂ (fun s s1 => qs.foldlM (applyQubitOne dag k) s = some s1) bank bank1 := by
  induction qs with
  | nil =>
    intro bank c bank1 c1 h
    simp only [List.foldlM_nil] at h
    cases h
    clear c
    induction bank with
    | nil => exact List.Forall₂.nil
    | cons s rest ih => exact List.Forall₂.cons rfl ih
  | cons q rest ih =>
    intro bank c bank1 c1 h
    rw [List.foldlM_cons] at h
    obtain ⟨⟨mid, cm⟩, hq, hrest⟩ := Option.bind_eq_some.1 h
    have h1 := applyQubit_pointwise dag k bank c q mid cm hq
    have h2 := ih mid cm bank1 c1 hrest
    clear h hq hrest ih
    induction h1 generalizing bank1 with
    | nil =>
      cases h2
      exact List.Forall₂.nil
    | cons ha _ ih2 =>
      cases h2 with
      | cons hb hr =>
        refine List.Forall₂.cons ?_ (ih2 _ hr)
        rw [List.foldlM_cons, ha]
        exact hb

theorem applyLevel_pointwise (dag : DAG) (k : Nat) (bank : List QState) (c : Nat)
    (bank1 : List QState) (c1 : Nat) (h : applyLevel dag k (bank, c) = some (bank1, c1)) :
    List.Forall₂ (fun s s1 => levelFun dag k s = some s1) bank bank1 :=
  foldlM_pointwise dag k _ bank c bank1 c1 h

theorem keeps_of_acts (op : QState → Option QState) (h : ∀ n, ∃ g, ActsBy n op g) :
    Keeps op := by
  intro s s1 hs h1
  obtain ⟨g, hg⟩ := h s.n
  cases g with
  | none =>
    rw [hg s hs rfl] at h1
    cases h1
  | some g1 =>
    rw [hg.2 s hs rfl] at h1
    cases h1
    exact ⟨withRows_map_wellShaped s g1 hs hg.1, rfl, rfl⟩

theorem keeps_applyH (t : Nat) : Keeps (fun s => s.applyH t) :=
  keeps_of_acts _ (fun n => (applyH_acts n t).imp fun _ h => h.1)

theorem keeps_applyS (t : Nat) : Keeps (fun s => s.applyS t) :=
  keeps_of_acts _ (fun n => (applyS_acts n t).imp fun _ h => h.1)

theorem keeps_applyCNOT (c t : Nat) : Keeps (fun s => s.applyCNOT c t) :=
  keeps_of_acts _ (fun n => (applyCNOT_acts n c t).imp fun _ h => h.1)

theorem keeps_some : Keeps (fun s => some s) := by
  intro s s1 hs h
  cases h
  exact ⟨hs, rfl, rfl⟩

theorem keeps_bind (f g : QState → Option QState) (hf : Keeps f) (hg : Keeps g) :
    Keeps (fun s => (f s).bind g) := by
  intro s s2 hs h
  obtain ⟨s1, h1, h2⟩ := Option.bind_eq_some.1 h
  obtain ⟨a1, a2, a3⟩ := hf s s1 hs h1
  obtain ⟨b1, b2, b3⟩ := hg s1 s2 a1 h2
  exact ⟨b1, by rw [b2, a2], by rw [b3, a3]⟩

theorem keeps_applyGate (gate : Operation) (q t : Nat) : Keeps (applyGate gate q t) := by
  have hH := keeps_applyH t
  have hS := keeps_applyS t
  unfold applyGate
  split
  · exact hH
  · split
    · exact hS
    · split
      · exact keeps_bind _ _ hS (keeps_bind _ _ hS hS)
      · split
        · exact keeps_bind _ _ hH (keeps_bind _ _ hS (keeps_bind _ _ hS hH))
        · split
          · exact keeps_bind _ _ hH (keeps_bind _ _ hS hS)
          · split
            · exact keeps_bind _ _ hH (keeps_bind _ _ hS (keeps_bind _ _ hS hS))
            · split
              · split
                · split
                  · exact keeps_applyCNOT _ t
                  · exact keeps_some
                · exact keeps_some
              · exact keeps_some

theorem applyQubitOne_cases (dag : DAG) (k : Nat) (q : Nat) (s s1 : QState)
    (h : applyQubitOne dag k s q = some s1) :
    s1 = s ∨ ∃ gate target ops, dag[q]? = some ops ∧ ops[k]? = some (some gate) ∧
      gate.targets[0]? = some target ∧ applyGate gate q target s = some s1 := by
  simp only [applyQubitOne, Option.bind_eq_bind] at h
  cases hops : dag[q]? with
  | none =>
    rw [hops] at h
    cases h
  | some ops =>
    rw [hops, Option.some_bind] at h
    by_cases hlt : k < ops.length
    · rw [if_pos hlt] at h
      by_cases hemp : (!ops.isEmpty) = true
      · rw [if_pos hemp] at h
        cases hg : ops[k]? with
        | none =>
          rw [hg] at h
          cases h
        | some og =>
          rw [hg, Option.some_bind] at h
          cases og with
          | none =>
            cases h
            exact Or.inl rfl
          | some gate =>
            simp only [Option.bind_eq_bind] at h
            cases ht : gate.targets[0]? with
            | none =>
              rw [ht] at h
              cases h
            | some target =>
              rw [ht, Option.some_bind] at h
              exact Or.inr ⟨gate, target, ops, rfl, hg, ht, h⟩
      · rw [if_neg hemp] at h
        cases h
        exact Or.inl rfl
    · rw [if_neg hlt] at h
      cases h
      exact Or.inl rfl

theorem keeps_applyQubitOne (dag : DAG) (k q : Nat) :
    Keeps (fun s => applyQubitOne dag k s q) := by
  intro s s1 hs h
  rcases applyQubitOne_cases dag k q s s1 h with e | ⟨gate, target, _, _, _, _, hg⟩
  · rw [e]
    exact ⟨hs, rfl, rfl⟩
  · exact keeps_applyGate gate q target s s1 hs hg

theorem keeps_foldlM (f : QState → Nat → Option QState) (hf : ∀ q, Keeps (fun s => f s q))
    (qs : List Nat) : Keeps (fun s => qs.foldlM f s) := by
  induction qs with
  | nil => exact keeps_some
  | cons q rest ih =>
    intro s s2 hs h
    simp only [List.foldlM_cons] at h
    exact keeps_bind _ _ (hf q) ih s s2 hs h

theorem keeps_levelFun (dag : DAG) (k : Nat) : Keeps (levelFun dag k) :=
  keeps_foldlM _ (keeps_applyQubitOne dag k) _

/-! ## The levels of `preprocessCircuit` -/

theorem foldlM_range_succ {β : Type} (f : β → Nat → Option β) (a : β) (k : Nat) :
    (List.range (k + 1)).foldlM f a = ((List.range k).foldlM f a).bind fun b => f b k := by
  rw [List.range_succ, List.foldlM_append]
  cases (List.range k).foldlM f a with
  | none => rfl
  | some b => simp [List.foldlM_cons, List.foldlM_nil]

theorem preprocessUpTo_eq (enc : SatEncoder) (dag : DAG) (inputs : List String) (k : Nat) :
    enc.preprocessUpTo dag inputs k
      = (enc.preprocessStart dag inputs).bind fun acc =>
          (List.range k).foldlM (preprocessLevel dag) acc := by
  induction k with
  | zero =>
    simp only [SatEncoder.preprocessUpTo, List.range_zero, List.foldlM_nil]
    cases enc.preprocessStart dag inputs <;> rfl
  | succ k ih =>
    simp only [SatEncoder.preprocessUpTo, ih]
    cases enc.preprocessStart dag inputs with
    | none => rfl
    | some acc =>
      simp only [Option.some_bind]
      rw [foldlM_range_succ]

theorem preprocessCircuit_eq (enc : SatEncoder) (dag : DAG) (inputs : List String)
    (elapsed : Nat) :
    enc.preprocessCircuit dag inputs elapsed
      = (enc.preprocessUpTo dag inputs (nrOfLevels dag)).map fun acc =>
          (acc.2.1, { acc.2.2 with stats := { acc.2.2.stats with
            preprocTime := acc.2.2.stats.preprocTime + elapsed } }) := by
  rw [preprocessUpTo_eq]
  simp only [SatEncoder.preprocessCircuit, SatEncoder.preprocessStart, Option.bind_eq_bind]
  cases initialStates dag.length inputs with
  | none => rfl
  | some states =>
    simp only [Option.some_bind]
    cases forStates internInitial states _ with
    | none => rfl
    | some r =>
      obtain ⟨states1, rep1, enc1⟩ := r
      simp only [Option.some_bind]
      cases (List.range (nrOfLevels dag)).foldlM (preprocessLevel dag) _ with
      | none => rfl
      | some r2 =>
        obtain ⟨states2, rep2, enc2⟩ := r2
        rfl

theorem upTo_prior (enc : SatEncoder) (dag : DAG) (inputs : List String) (k m : Nat)
    (acc : List QState × CircuitRepresentation × SatEncoder) (hkm : k ≤ m)
    (h : enc.preprocessUpTo dag inputs m = some acc) :
    ∃ acc0, enc.preprocessUpTo dag inputs k = some acc0 := by
  induction m generalizing acc with
  | zero =>
    have : k = 0 := by omega
    subst this
    exact ⟨acc, h⟩
  | succ m ih =>
    rcases Nat.lt_or_ge k (m + 1) with hlt | hge
    · simp only [SatEncoder.preprocessUpTo] at h
      obtain ⟨acc1, h1, _⟩ := Option.bind_eq_some.1 h
      exact ih acc1 (by omega) h1
    · have : k = m + 1 := by omega
      subst this
      exact ⟨acc, h⟩

theorem keeps_prepareQubit (i : Nat) (c : Char) : Keeps (fun s => prepareQubit s i c) := by
  have hH := keeps_applyH i
  have hS := keeps_applyS i
  unfold prepareQubit
  split
  · exact keeps_bind _ _ hH (keeps_bind _ _ hS (keeps_bind _ _ hS hH))
  · split
    · exact hH
    · split
      · exact keeps_bind _ _ hH (keeps_bind _ _ hS hS)
      · split
        · exact keeps_bind _ _ hH hS
        · split
          · exact keeps_bind _ _ hH (keeps_bind _ _ hS (keeps_bind _ _ hS hS))
          · exact keeps_some

theorem keeps_prepareFrom (cs : List Char) : ∀ i, Keeps (prepareFrom i cs) := by
  induction cs with
  | nil =>
    intro i
    exact keeps_some
  | cons c rest ih =>
    intro i s s2 hs h
    simp only [prepareFrom, Option.bind_eq_bind] at h
    exact keeps_bind _ _ (keeps_prepareQubit i c) (ih (i + 1)) s s2 hs h

theorem initializeState_ok (n : Nat) (input : String) (s : QState)
    (h : initializeState n input = some s) : s.WellShaped ∧ s.n = n := by
  have h0 : (diagState n (fun _ => (false, true, 0))).WellShaped :=
    diagState_wellShaped n _ (fun _ => Or.inl rfl)
  simp only [initializeState] at h
  rw [initial_eq_diag] at h
  split at h
  · obtain ⟨a, b, _⟩ := keeps_prepareFrom input.toList 0 _ s h0 h
    exact ⟨a, b⟩
  · cases h
    exact ⟨h0, rfl⟩

theorem initialStates_ok (n : Nat) (inputs : List String) (states : List QState)
    (h : initialStates n inputs = some states) :
    states ≠ [] ∧ ∀ s ∈ states, s.WellShaped ∧ s.n = n := by
  simp only [initialStates] at h
  split at h
  · rename_i hlen
    have hf := (mapM_some_iff _ _ _).1 h
    constructor
    · intro he
      rw [he] at hf
      cases hf
      simp at hlen
    · intro s hs
      obtain ⟨i, hi, rfl⟩ := List.mem_iff_getElem.1 hs
      have hlen2 := hf.length_eq
      have := List.Forall₂.get hf (by omega) hi
      exact initializeState_ok n _ _ this
  · simp only [Option.bind_eq_bind] at h
    obtain ⟨s0, h0, h1⟩ := Option.bind_eq_some.1 h
    cases h1
    refine ⟨by simp, ?_⟩
    intro s hs
    rw [List.mem_singleton] at hs
    rw [hs]
    exact initializeState_ok n _ _ h0

theorem forall2_mem_right {α β : Type} (R : α → β → Prop) (l1 : List α) (l2 : List β)
    (h : List.Forall₂ R l1 l2) : ∀ b ∈ l2, ∃ a ∈ l1, R a b := by
  induction h with
  | nil =>
    intro b hb
    cases hb
  | cons hab _ ih =>
    intro b hb
    rcases List.mem_cons.1 hb with e | e
    · rw [e]
      exact ⟨_, List.mem_cons_self _ _, hab⟩
    · obtain ⟨a, ha, hr⟩ := ih b e
      exact ⟨a, List.mem_cons_of_mem _ ha, hr⟩

theorem forall2_mem_left {α β : Type} (R : α → β → Prop) (l1 : List α) (l2 : List β)
    (h : List.Forall₂ R l1 l2) : ∀ a ∈ l1, ∃ b ∈ l2, R a b := by
  induction h with
  | nil =>
    intro a ha
    cases ha
  | cons hab _ ih =>
    intro a ha
    rcases List.mem_cons.1 ha with e | e
    · rw [e]
      exact ⟨_, List.mem_cons_self _ _, hab⟩
    · obtain ⟨b, hb, hr⟩ := ih a e
      exact ⟨b, List.mem_cons_of_mem _ hb, hr⟩

theorem layerOf_replicate (rep : CircuitRepresentation) (m : Nat)
    (h : rep.generatorMappings = List.replicate m []) (j : Nat) : layerOf rep j = [] := by
  simp only [layerOf, h, List.getD_eq_getElem?_getD, List.getElem?_replicate]
  split <;> rfl

theorem idMapOK_nil (enc : SatEncoder) : IdMapOK [] enc := by
  intro u g hu
  simp [StdMap.atKey] at hu

/-- The state of `preprocessCircuit` before the first level. -/
theorem preprocessStart_ok (enc : SatEncoder) (dag : DAG) (inputs : List String)
    (acc : List QState × CircuitRepresentation × SatEncoder) (hr : RegistryOK enc)
    (h : enc.preprocessStart dag inputs = some acc) :
    BankInv dag 0 acc ∧ (∃ new, acc.2.2.generators = enc.generators ++ new) ∧
    acc.2.2.nrOfInputGenerators
      = (if enc.nrOfInputGenerators = 0 then acc.2.2.generators.length
         else enc.nrOfInputGenerators) ∧
    ∃ states0, initialStates dag.length inputs = some states0 ∧
      List.Forall₂ (fun s s1 => s1 = { s with prevGenId := s1.prevGenId }) states0 acc.1 ∧
      ∀ S : Generator → Prop, (∀ g ∈ enc.generators.map Prod.fst, S g) →
        (∀ s ∈ states0, S s.key) → ∀ g ∈ acc.2.2.generators.map Prod.fst, S g := by
  simp only [SatEncoder.preprocessStart, Option.bind_eq_bind] at h
  obtain ⟨states0, h0, h⟩ := Option.bind_eq_some.1 h
  obtain ⟨⟨states1, rep1, enc1⟩, h1, h⟩ := Option.bind_eq_some.1 h
  obtain ⟨hne, hws⟩ := initialStates_ok _ _ _ h0
  have hloop : ∀ S : Generator → Prop, (∀ g ∈ enc.generators.map Prod.fst, S g) →
      (∀ s ∈ states0, S s.key) →
      (RegistryOK enc1 ∧ IdMapOK rep1.idGeneratorMap enc1 ∧
        ∀ g ∈ enc1.generators.map Prod.fst, S g) ∧
      (RegGrows enc enc1 ∧ rep1.generatorMappings = List.replicate (nrOfLevels dag) []) ∧
      List.Forall₂ (fun s s1 => s1 = { s with prevGenId := s1.prevGenId } ∧
        StdMap.atKey rep1.idGeneratorMap s1.prevGenId = some s.key) states0 states1 := by
    intro S hS1 hS2
    obtain ⟨st, a1, hf, hi, hrel, hpost⟩ := internInitial_loop S states0
      ({ generatorMappings := List.replicate (nrOfLevels dag) [], idGeneratorMap := [] },
        { enc with stats := { enc.stats with
          circuitDepth :=
            if nrOfLevels dag > enc.stats.circuitDepth then nrOfLevels dag
            else enc.stats.circuitDepth } })
      ⟨hr, idMapOK_nil _, hS1⟩
      (fun s hs => ⟨(hws s hs).1, hS2 s hs⟩)
    have hf2 := hf.symm.trans h1
    cases hf2
    exact ⟨hi, ⟨hrel.1, hrel.2.2.1⟩, hpost⟩
  obtain ⟨⟨hr1, hm1, _⟩, ⟨hg1, hgm⟩, hpost⟩ :=
    hloop (fun _ => True) (fun _ _ => trivial) (fun _ _ => trivial)
  simp only [Option.some.injEq] at h
  have hgens : acc.2.2.generators = enc1.generators := by
    rw [← h]
    simp only
    split <;> rfl
  have hreg : RegistryOK acc.2.2 := by
    rw [← h]
    simp only
    split
    · exact hr1
    · exact hr1
  have hidm : acc.2.1.idGeneratorMap = rep1.idGeneratorMap := by rw [← h]
  have hbank : acc.1 = states1 := by rw [← h]
  have hlay : acc.2.1.generatorMappings = List.replicate (nrOfLevels dag) [] := by
    rw [← h]
    exact hgm
  refine ⟨⟨hreg, ?_, ?_, ?_, ?_, ?_⟩, ?_, ?_, states0, h0, ?_, ?_⟩
  · intro u g hu
    rw [hgens]
    rw [hidm] at hu
    exact hm1 u g hu
  · rw [hlay, List.length_replicate]
  · intro s1 hs1
    rw [hbank] at hs1
    obtain ⟨s, hs, he, hk⟩ := forall2_mem_right _ _ _ hpost s1 hs1
    rw [hidm]
    have hw := hws s hs
    rw [he]
    exact ⟨hw.1, hw.2, hk⟩
  · intro j _
    exact layerOf_replicate _ _ hlay j
  · intro j p hp
    rw [layerOf_replicate _ _ hlay j] at hp
    cases hp
  · rw [hgens]
    exact hg1.1
  · rw [hgens, ← h]
    simp only
    have hni : enc1.nrOfInputGenerators = enc.nrOfInputGenerators := hg1.2
    split
    · rename_i h0
      rw [hni] at h0
      rw [if_pos h0]
      exact hr1.2.2.1
    · rename_i h0
      rw [hni] at h0
      rw [if_neg h0]
      exact hni
  · rw [hbank]
    exact List.Forall₂.imp (fun _ _ hp => hp.1) hpost
  · intro S hS1 hS2
    rw [hgens]
    exact (hloop S hS1 hS2).1.2.2

/-! ## One level of `preprocessCircuit` -/

theorem forall2_comp_mem {α β γ : Type} (R : α → β → Prop) (Q : β → γ → Prop)
    (l1 : List α) (l2 : List β) (l3 : List γ) (h1 : List.Forall₂ R l1 l2)
    (h2 : List.Forall₂ Q l2 l3) :
    List.Forall₂ (fun a c => ∃ b ∈ l2, R a b ∧ Q b c) l1 l3 ∧
    ∀ b ∈ l2, ∃ a c, (a, c) ∈ l1.zip l3 ∧ R a b ∧ Q b c := by
  induction h1 generalizing l3 with
  | nil =>
    cases h2
    exact ⟨List.Forall₂.nil, fun b hb => by cases hb⟩
  | cons hab _ ih =>
    cases h2 with
    | cons hbc hrest =>
      obtain ⟨i1, i2⟩ := ih _ hrest
      constructor
      · refine List.Forall₂.cons ⟨_, List.mem_cons_self _ _, hab, hbc⟩ ?_
        exact List.Forall₂.imp
          (fun a c ⟨b, hb, h⟩ => ⟨b, List.mem_cons_of_mem _ hb, h⟩) i1
      · intro b hb
        rcases List.mem_cons.1 hb with e | e
        · rw [e]
          exact ⟨_, _, List.mem_cons_self _ _, hab, hbc⟩
        · obtain ⟨a, c, hm, h⟩ := i2 b e
          exact ⟨a, c, List.mem_cons_of_mem _ hm, h⟩

theorem forall2_imp_mem {α β : Type} (R Q : α → β → Prop) (l1 : List α) (l2 : List β)
    (h : List.Forall₂ R l1 l2) (hi : ∀ a ∈ l1, ∀ b ∈ l2, R a b → Q a b) :
    List.Forall₂ Q l1 l2 := by
  induction h with
  | nil => exact List.Forall₂.nil
  | cons hab _ ih =>
    refine List.Forall₂.cons (hi _ (List.mem_cons_self _ _) _ (List.mem_cons_self _ _) hab) ?_
    exact ih (fun a ha b hb => hi a (List.mem_cons_of_mem _ ha) b (List.mem_cons_of_mem _ hb))

theorem state_eq_of_key (s1 s2 : QState) (h1 : s1.WellShaped) (h2 : s2.WellShaped)
    (hk : s1.key = s2.key) (hp : s1.prevGenId = s2.prevGenId) : s1 = s2 := by
  have hg : s1.getLevelGenerator = s2.getLevelGenerator := by
    rw [getLevelGenerator_key_eq s1 h1, getLevelGenerator_key_eq s2 h2, hk]
  obtain ⟨a, b, c, d⟩ := (generator_eq_iff s1 s2 h1 h2).1 hg
  obtain ⟨n1, x1, z1, r1, p1⟩ := s1
  obtain ⟨n2, x2, z2, r2, p2⟩ := s2
  simp only at a b c d hp
  subst a b c d hp
  rfl

/-- One pass of the loop over `levelCnt`: the invariant moves on, the registry and the
uuid map grow, the maps of the other levels stay, and the map of level `k` holds
exactly the pairs (label before, label after) of the states of the bank. -/
theorem preprocessLevel_ok (dag : DAG) (k : Nat)
    (acc acc1 : List QState × CircuitRepresentation × SatEncoder)
    (hinv : BankInv dag k acc) (hk : k < nrOfLevels dag)
    (h : preprocessLevel dag acc k = some acc1) :
    BankInv dag (k + 1) acc1 ∧ RegGrows acc.2.2 acc1.2.2 ∧
    MapGrows acc.2.1.idGeneratorMap acc1.2.1.idGeneratorMap ∧
    (∀ j, j ≠ k → layerOf acc1.2.1 j = layerOf acc.2.1 j) ∧
    List.Forall₂ (fun s s1 =>
      (∃ m, levelFun dag k s = some m ∧ s1 = { m with prevGenId := s1.prevGenId }) ∧
      StdMap.atKey (layerOf acc1.2.1 k) s.prevGenId = some s1.prevGenId) acc.1 acc1.1 ∧
    (∀ p ∈ layerOf acc1.2.1 k,
      ∃ s s1, (s, s1) ∈ acc.1.zip acc1.1 ∧ p = (s.prevGenId, s1.prevGenId)) := by
  obtain ⟨hreg, hidm, hlen, hst, hempty, hfiled⟩ := hinv
  simp only [preprocessLevel, Option.bind_eq_bind] at h
  obtain ⟨⟨mid, c⟩, hA, hF⟩ := Option.bind_eq_some.1 h
  have hpw := applyLevel_pointwise dag k _ _ _ _ hA
  have hmid : ∀ m ∈ mid, ∃ s ∈ acc.1, levelFun dag k s = some m :=
    forall2_mem_right _ _ _ hpw
  have hkeep : ∀ s ∈ acc.1, ∀ m, levelFun dag k s = some m →
      m.WellShaped ∧ m.n = dag.length ∧ m.prevGenId = s.prevGenId := by
    intro s hs m hm
    obtain ⟨a1, a2, a3⟩ := keeps_levelFun dag k s m (hst s hs).1 hm
    exact ⟨a1, by rw [a2, (hst s hs).2.1], a3⟩
  have hdet : ∀ m1 ∈ mid, ∀ m2 ∈ mid, m1.prevGenId = m2.prevGenId → m1.key = m2.key := by
    intro m1 hm1 m2 hm2 hp
    obtain ⟨s1, hs1, hl1⟩ := hmid m1 hm1
    obtain ⟨s2, hs2, hl2⟩ := hmid m2 hm2
    have hp12 : s1.prevGenId = s2.prevGenId := by
      rw [← (hkeep s1 hs1 m1 hl1).2.2, ← (hkeep s2 hs2 m2 hl2).2.2, hp]
    have hk12 : s1.key = s2.key := by
      have e1 := (hst s1 hs1).2.2
      have e2 := (hst s2 hs2).2.2
      rw [hp12, e2] at e1
      exact (Option.some.inj e1).symm
    have hs12 := state_eq_of_key s1 s2 (hst s1 hs1).1 (hst s2 hs2).1 hk12 hp12
    rw [hs12, hl2] at hl1
    rw [Option.some.inj hl1]
  obtain ⟨states1, a1, hf, ⟨hr1, hm1, hk1, hlay1⟩, ⟨hg1, hmg1, hlen1, hlg1, hother1, _⟩,
      hpost⟩ := internLevel_loop k mid hdet mid
    (acc.2.1, { acc.2.2 with stats := { acc.2.2.stats with nrOfGates := c } })
    ⟨hreg, hidm, by rw [hlen]; exact hk, by
      intro p hp
      rw [hempty k (Nat.le_refl k)] at hp
      cases hp⟩
    (fun m hm => by
      obtain ⟨s, hs, hl⟩ := hmid m hm
      exact ⟨(hkeep s hs m hl).1, hm⟩)
  have hacc := hf.symm.trans hF
  simp only [Option.some.injEq] at hacc
  subst hacc
  simp only at hr1 hm1 hk1 hlay1 hg1 hmg1 hlen1 hlg1 hother1 ⊢
  obtain ⟨hcomp, hcompmem⟩ := forall2_comp_mem _ _ _ _ _ hpw hpost
  refine ⟨⟨hr1, hm1, by rw [hlen1, hlen], ?_, ?_, ?_⟩, hg1, hmg1, hother1, ?_, ?_⟩
  · intro s1 hs1
    obtain ⟨m, hm, he, hkey, _⟩ := forall2_mem_right _ _ _ hpost s1 hs1
    obtain ⟨s, hs, hl⟩ := hmid m hm
    obtain ⟨w1, w2, _⟩ := hkeep s hs m hl
    rw [he]
    exact ⟨w1, w2, hkey⟩
  · intro j hj
    rw [hother1 j (by omega)]
    exact hempty j (by omega)
  · intro j p hp
    by_cases hjk : j = k
    · subst hjk
      obtain ⟨s0, hs0, hprev, hkey⟩ := hlay1 p hp
      obtain ⟨s, hs, hl⟩ := hmid s0 hs0
      constructor
      · refine ⟨s.key, hmg1 _ _ ?_⟩
        rw [← hprev, (hkeep s hs s0 hl).2.2]
        exact (hst s hs).2.2
      · obtain ⟨s1, hs1, _, hk2, _⟩ := forall2_mem_left _ _ _ hpost s0 hs0
        have := hm1 _ _ hk2
        rw [hkey] at this
        rw [Option.some.inj this]
        exact ⟨_, hk2⟩
    · rw [hother1 j hjk] at hp
      obtain ⟨⟨g1, e1⟩, ⟨g2, e2⟩⟩ := hfiled j p hp
      exact ⟨⟨g1, hmg1 _ _ e1⟩, ⟨g2, hmg1 _ _ e2⟩⟩
  · refine forall2_imp_mem _ _ _ _ hcomp ?_
    rintro s hs s1 _ ⟨m, _, hl, he, _, hlay⟩
    refine ⟨⟨m, hl, he⟩, ?_⟩
    rw [← (hkeep s hs m hl).2.2]
    exact hlay
  · intro p hp
    obtain ⟨s0, hs0, hprev, hkey⟩ := hlay1 p hp
    obtain ⟨s, s1, hz, hl, _, hk2, _⟩ := hcompmem s0 hs0
    refine ⟨s, s1, hz, ?_⟩
    have hs : s ∈ acc.1 := (List.of_mem_zip hz).1
    have := hm1 _ _ hk2
    rw [hkey] at this
    exact Prod.ext (by rw [← hprev, (hkeep s hs s0 hl).2.2]) (Option.some.inj this)

theorem upTo_inv (enc : SatEncoder) (dag : DAG) (inputs : List String) (hr : RegistryOK enc)
    (k : Nat) (acc : List QState × CircuitRepresentation × SatEncoder)
    (hk : k ≤ nrOfLevels dag) (h : enc.preprocessUpTo dag inputs k = some acc) :
    BankInv dag k acc := by
  induction k generalizing acc with
  | zero => exact (preprocessStart_ok enc dag inputs acc hr h).1
  | succ k ih =>
    simp only [SatEncoder.preprocessUpTo] at h
    obtain ⟨acc0, h0, h1⟩ := Option.bind_eq_some.1 h
    exact (preprocessLevel_ok dag k acc0 acc (ih acc0 (by omega) h0) (by omega) h1).1

theorem upTo_mono (enc : SatEncoder) (dag : DAG) (inputs : List String) (hr : RegistryOK enc)
    (k m : Nat) (acck accm : List QState × CircuitRepresentation × SatEncoder)
    (hkm : k ≤ m) (hm : m ≤ nrOfLevels dag)
    (h1 : enc.preprocessUpTo dag inputs k = some acck)
    (h2 : enc.preprocessUpTo dag inputs m = some accm) :
    RegGrows acck.2.2 accm.2.2 ∧
    MapGrows acck.2.1.idGeneratorMap accm.2.1.idGeneratorMap ∧
    ∀ j, j < k → layerOf accm.2.1 j = layerOf acck.2.1 j := by
  induction m generalizing accm with
  | zero =>
    have : k = 0 := by omega
    subst this
    rw [h1] at h2
    cases h2
    exact ⟨regGrows_refl _, mapGrows_refl _, fun _ _ => rfl⟩
  | succ m ih =>
    rcases Nat.lt_or_ge k (m + 1) with hlt | hge
    · simp only [SatEncoder.preprocessUpTo] at h2
      obtain ⟨acc0, h0, hl⟩ := Option.bind_eq_some.1 h2
      obtain ⟨i1, i2, i3⟩ := ih acc0 (by omega) (by omega) h0
      obtain ⟨_, g1, g2, g3, _, _⟩ := preprocessLevel_ok dag m acc0 accm
        (upTo_inv enc dag inputs hr m acc0 (by omega) h0) (by omega) hl
      exact ⟨regGrows_trans _ _ _ i1 g1, mapGrows_trans _ _ _ i2 g2,
        fun j hj => by rw [g3 j (by omega), i3 j hj]⟩
    · have : k = m + 1 := by omega
      subst this
      rw [h1] at h2
      cases h2
      exact ⟨regGrows_refl _, mapGrows_refl _, fun _ _ => rfl⟩

/-- The result of `preprocessCircuit` is the state after the last level, up to the
statistics. -/
theorem preprocessCircuit_upTo (enc : SatEncoder) (dag : DAG) (inputs : List String)
    (elapsed : Nat) (rep : CircuitRepresentation) (enc1 : SatEncoder)
    (h : enc.preprocessCircuit dag inputs elapsed = some (rep, enc1)) :
    ∃ bank encL, enc.preprocessUpTo dag inputs (nrOfLevels dag) = some (bank, rep, encL) ∧
      enc1.generators = encL.generators ∧ enc1.generatorIdMap = encL.generatorIdMap ∧
      enc1.nrOfInputGenerators = encL.nrOfInputGenerators ∧
      enc1.uniqueGenCnt = encL.uniqueGenCnt := by
  rw [preprocessCircuit_eq] at h
  cases hu : enc.preprocessUpTo dag inputs (nrOfLevels dag) with
  | none =>
    rw [hu] at h
    cases h
  | some acc =>
    obtain ⟨bank, rep0, encL⟩ := acc
    rw [hu] at h
    simp only [Option.map_some', Option.some.injEq, Prod.mk.injEq] at h
    obtain ⟨e1, e2⟩ := h
    subst e1
    subst e2
    exact ⟨bank, encL, rfl, rfl, rfl, rfl, rfl⟩

/-! ## The registry invariant -/

theorem registryOK_congr (e1 e2 : SatEncoder) (h : RegistryOK e2)
    (hg : e1.generators = e2.generators) (hi : e1.generatorIdMap = e2.generatorIdMap)
    (hu : e1.uniqueGenCnt = e2.uniqueGenCnt) : RegistryOK e1 := by
  unfold RegistryOK at h ⊢
  rw [hg, hi, hu]
  exact h

theorem preprocessCircuit_registry (enc : SatEncoder) (hr : RegistryOK enc) (dag : DAG)
    (inputs : List String) (elapsed : Nat) (rep : CircuitRepresentation) (enc1 : SatEncoder)
    (h : enc.preprocessCircuit dag inputs elapsed = some (rep, enc1)) :
    RegistryOK enc1 ∧ ∃ new, enc1.generators = enc.generators ++ new := by
  obtain ⟨bank, encL, hL, hg, hi, _, hu⟩ := preprocessCircuit_upTo enc dag inputs elapsed rep enc1 h
  obtain ⟨acc0, h0⟩ := upTo_prior enc dag inputs 0 _ _ (Nat.zero_le _) hL
  have hinv := upTo_inv enc dag inputs hr _ _ (Nat.le_refl _) hL
  obtain ⟨_, ⟨new0, hn0⟩, _, _⟩ := preprocessStart_ok enc dag inputs acc0 hr h0
  obtain ⟨⟨⟨new1, hn1⟩, _⟩, _, _⟩ := upTo_mono enc dag inputs hr 0 _ acc0 _ (Nat.zero_le _)
    (Nat.le_refl _) h0 hL
  refine ⟨registryOK_congr enc1 encL hinv.1 hg hi hu, new0 ++ new1, ?_⟩
  rw [hg, hn1, hn0, List.append_assoc]

theorem preprocessAll_registry (circuits : List (DAG × List String × Nat)) :
    ∀ (enc encN : SatEncoder), RegistryOK enc → preprocessAll enc circuits = some encN →
      RegistryOK encN ∧ ∃ new, encN.generators = enc.generators ++ new := by
  induction circuits with
  | nil =>
    intro enc encN hr h
    cases h
    exact ⟨hr, [], by simp⟩
  | cons c rest ih =>
    intro enc encN hr h
    obtain ⟨dag, inputs, elapsed⟩ := c
    simp only [preprocessAll] at h
    obtain ⟨⟨rep, enc1⟩, h1, h2⟩ := Option.bind_eq_some.1 h
    obtain ⟨hr1, new1, hn1⟩ := preprocessCircuit_registry enc hr dag inputs elapsed rep enc1 h1
    obtain ⟨hrN, new2, hn2⟩ := ih enc1 encN hr1 h2
    exact ⟨hrN, new1 ++ new2, by rw [hn2, hn1, List.append_assoc]⟩

/-- C12 (registry invariant): a new encoder satisfies the registry invariant, and so
does every encoder reached from it by a sequence of `preprocessCircuit` calls: the
dense ids in `generators` are `0, .., size-1` in insertion order and `uniqueGenCnt` is
the size. On an encoder that satisfies the invariant, interning a generator that is
present returns the uuid filed for it and leaves the encoder as it is; interning a new
generator gives it the dense id `size`, appends it and grows the size and
`uniqueGenCnt` by one. A `preprocessCircuit` call keeps the invariant and only appends
to the registry. -/
theorem registry_invariant (enc : SatEncoder) (hr : RegistryOK enc) :
    RegistryOK SatEncoder.fresh ∧
    (∀ (circuits : List (DAG × List String × Nat)) (encN : SatEncoder),
      preprocessAll SatEncoder.fresh circuits = some encN → RegistryOK encN) ∧
    enc.generators.map Prod.snd = List.range enc.generators.length ∧
    enc.uniqueGenCnt = enc.generators.length ∧
    (∀ gen, ∃ id enc1, internGenerator enc gen = some (id, enc1) ∧ RegistryOK enc1 ∧
      (∀ d, StdMap.atKey enc.generators gen = some d →
        enc1 = enc ∧ StdMap.atKey enc.generatorIdMap gen = some id) ∧
      (StdMap.atKey enc.generators gen = none →
        enc1.generators = enc.generators ++ [(gen, enc.generators.length)] ∧
        enc1.generators.length = enc.generators.length + 1 ∧
        enc1.uniqueGenCnt = enc.uniqueGenCnt + 1 ∧
        StdMap.atKey enc1.generatorIdMap gen = some id)) ∧
    (∀ (dag : DAG) (inputs : List String) (elapsed : Nat) (rep : CircuitRepresentation)
      (enc1 : SatEncoder), enc.preprocessCircuit dag inputs elapsed = some (rep, enc1) →
      RegistryOK enc1 ∧ ∃ new, enc1.generators = enc.generators ++ new) := by
  refine ⟨registryOK_fresh, ?_, hr.2.1, hr.2.2.1, ?_, ?_⟩
  · intro circuits encN h
    exact (preprocessAll_registry circuits _ _ registryOK_fresh h).1
  · intro gen
    obtain ⟨id, enc1, h1, hr1, hid, _, _, _, hpres, habs⟩ := internGenerator_ok enc gen hr
    refine ⟨id, enc1, h1, hr1, ?_, ?_⟩
    · intro d hd
      obtain ⟨e1, e2⟩ := hpres d hd
      refine ⟨e2, ?_⟩
      rw [hr.1, hd, e1]
    · intro hn
      obtain ⟨e1, e2⟩ := habs hn
      refine ⟨e2, ?_, ?_, ?_⟩
      · rw [e2, List.length_append, List.length_singleton]
      · rw [hr1.2.2.1, e2, List.length_append, List.length_singleton, hr.2.2.1]
      · rw [hr1.1]
        exact hid
  · intro dag inputs elapsed rep enc1 h
    exact preprocessCircuit_registry enc hr dag inputs elapsed rep enc1 h

/-- C12 on a new encoder, and on the encoder reached from it by preprocessing `[H(0)]`
on one qubit with the inputs `z` and `x`: two generators with the dense ids `0`, `1`. -/
theorem registry_invariant_witness :
    RegistryOK SatEncoder.fresh ∧
    SatEncoder.fresh.generators.map Prod.snd = List.range SatEncoder.fresh.generators.length ∧
    ∃ (rep : CircuitRepresentation) (enc : SatEncoder),
      SatEncoder.fresh.preprocessCircuit [[some (gate OpType.H 0)]] ["z", "x"] 0
        = some (rep, enc) ∧
      RegistryOK enc ∧ enc.generators.map Prod.snd = [0, 1] ∧ enc.uniqueGenCnt = 2 := by
  refine ⟨by decide, (registry_invariant SatEncoder.fresh (by decide)).2.2.1, ?_⟩
  have h : ((SatEncoder.fresh.preprocessCircuit [[some (gate OpType.H 0)]] ["z", "x"] 0).bind
      fun p => some (decide (p.2.generators.map Prod.snd = [0, 1] ∧
        p.2.uniqueGenCnt = 2))) = some true := by decide
  obtain ⟨⟨rep, enc⟩, h1, h⟩ := Option.bind_eq_some.1 h
  simp only [Option.some.injEq, decide_eq_true_eq] at h
  exact ⟨rep, enc, h1,
    ((registry_invariant SatEncoder.fresh (by decide)).2.2.2.2.2 _ _ _ _ _ h1).1, h.1, h.2⟩

/-! ## The lookups of the encoder -/

theorem layerVars_get (primed : Bool) (depth bitwidth i : Nat) (hi : i ≤ depth) :
    (layerVars primed depth bitwidth)[i]?
      = some (BvExpr.const { primed := primed, level := i } bitwidth) := by
  simp only [layerVars, List.getElem?_map, List.getElem?_range (by omega : i < depth + 1)]
  rfl

theorem mem_layers_iff (rep : CircuitRepresentation) (layer : List (Uuid × Uuid)) :
    layer ∈ rep.generatorMappings ↔
      ∃ j, j < rep.generatorMappings.length ∧ layerOf rep j = layer := by
  constructor
  · intro h
    obtain ⟨j, hj, e⟩ := List.mem_iff_getElem.1 h
    refine ⟨j, hj, ?_⟩
    unfold layerOf
    rw [List.getD_eq_getElem?_getD, List.getElem?_eq_getElem hj, e]
    rfl
  · rintro ⟨j, hj, e⟩
    rw [← e]
    unfold layerOf
    rw [List.getD_eq_getElem?_getD, List.getElem?_eq_getElem hj]
    exact List.getElem_mem hj

theorem mappingConstraint_eq (enc : SatEncoder) (rep : CircuitRepresentation) (primed : Bool)
    (bitwidth : Nat) (connective : Z3Expr → Z3Expr → Z3Expr) (i : Nat) (p : Uuid × Uuid)
    (hw : 0 < bitwidth) (hi : i < rep.generatorMappings.length)
    (h1 : ∃ d, denseOfUuid enc rep p.1 = some d) (h2 : ∃ d, denseOfUuid enc rep p.2 = some d) :
    mappingConstraint enc.generators rep
        (layerVars primed rep.generatorMappings.length bitwidth) bitwidth connective i p
      = some (linkOf connective primed bitwidth enc rep i p) := by
  obtain ⟨d1, e1⟩ := h1
  obtain ⟨d2, e2⟩ := h2
  have f1 : (StdMap.atKey rep.idGeneratorMap p.1).bind (StdMap.atKey enc.generators)
      = some d1 := e1
  have f2 : (StdMap.atKey rep.idGeneratorMap p.2).bind (StdMap.atKey enc.generators)
      = some d2 := e2
  obtain ⟨g1, a1, b1⟩ := Option.bind_eq_some.1 f1
  obtain ⟨g2, a2, b2⟩ := Option.bind_eq_some.1 f2
  simp only [mappingConstraint, linkOf, a1, a2, b1, b2, e1, e2, Option.bind_eq_bind,
    Option.some_bind, layerVars_get primed rep.generatorMappings.length bitwidth i (by omega),
    layerVars_get primed rep.generatorMappings.length bitwidth (i + 1) (by omega), bvVal,
    if_neg (Nat.pos_iff_ne_zero.1 hw), Option.getD_some]

theorem repFiled_dense (rep : CircuitRepresentation) (enc : SatEncoder) (h : RepFiled rep enc)
    (j : Nat) (hj : j < rep.generatorMappings.length) (p : Uuid × Uuid)
    (hp : p ∈ layerOf rep j) :
    (∃ d, denseOfUuid enc rep p.1 = some d ∧ d < enc.generators.length) ∧
    (∃ d, denseOfUuid enc rep p.2 = some d ∧ d < enc.generators.length) := by
  obtain ⟨⟨g1, d1, a1, b1, c1⟩, ⟨g2, d2, a2, b2, c2⟩⟩ :=
    h _ ((mem_layers_iff rep _).2 ⟨j, hj, rfl⟩) p hp
  constructor
  · refine ⟨d1, ?_, c1⟩
    simp only [denseOfUuid, a1, Option.bind_eq_bind, Option.some_bind, b1]
  · refine ⟨d2, ?_, c2⟩
    simp only [denseOfUuid, a2, Option.bind_eq_bind, Option.some_bind, b2]

theorem functionalConstraints_eq (enc : SatEncoder) (rep : CircuitRepresentation)
    (primed : Bool) (bitwidth : Nat) (connective : Z3Expr → Z3Expr → Z3Expr)
    (hw : 0 < bitwidth) (h : RepFiled rep enc) :
    functionalConstraints enc.generators rep
        (layerVars primed rep.generatorMappings.length bitwidth) bitwidth connective
      = some ((List.range rep.generatorMappings.length).map fun i =>
          (layerOf rep i).map (linkOf connective primed bitwidth enc rep i)).flatten := by
  unfold functionalConstraints
  have hm : (List.range rep.generatorMappings.length).mapM (fun i =>
        (rep.generatorMappings[i]?).bind fun layer =>
          layer.mapM (mappingConstraint enc.generators rep
            (layerVars primed rep.generatorMappings.length bitwidth) bitwidth connective i))
      = some ((List.range rep.generatorMappings.length).map fun i =>
          (layerOf rep i).map (linkOf connective primed bitwidth enc rep i)) := by
    apply mapM_eq_some_map
    intro i hi
    have hi2 := List.mem_range.1 hi
    rw [layer_lookup rep i hi2, Option.some_bind]
    apply mapM_eq_some_map
    intro p hp
    obtain ⟨⟨d1, e1, _⟩, ⟨d2, e2, _⟩⟩ := repFiled_dense rep enc h i hi2 p hp
    exact mappingConstraint_eq enc rep primed bitwidth connective i p hw hi2 ⟨d1, e1⟩ ⟨d2, e2⟩
  simp only [Option.bind_eq_bind] at hm ⊢
  rw [hm]
  rfl

theorem bitwidth_pos (m : Nat) (hm : 2 ≤ m) : 0 < bitwidthOf m := by
  obtain ⟨h1, _⟩ := bitwidthOf_spec m (by omega)
  rcases Nat.eq_zero_or_pos (bitwidthOf m) with h0 | h0
  · rw [h0] at h1
    simp at h1
    omega
  · exact h0

theorem repFiled_grows (rep : CircuitRepresentation) (enc enc2 : SatEncoder)
    (h : RepFiled rep enc) (hg : ∃ new, enc2.generators = enc.generators ++ new) :
    RepFiled rep enc2 := by
  obtain ⟨new, hn⟩ := hg
  have hlen : enc.generators.length ≤ enc2.generators.length := by
    rw [hn, List.length_append]
    omega
  intro layer hl p hp
  obtain ⟨⟨g1, d1, a1, b1, c1⟩, ⟨g2, d2, a2, b2, c2⟩⟩ := h layer hl p hp
  exact ⟨⟨g1, d1, a1, by rw [hn]; exact atKey_append_some _ _ _ _ b1, by omega⟩,
    ⟨g2, d2, a2, by rw [hn]; exact atKey_append_some _ _ _ _ b2, by omega⟩⟩

theorem repFiled_of_inv (dag : DAG) (k : Nat)
    (acc : List QState × CircuitRepresentation × SatEncoder) (h : BankInv dag k acc) :
    RepFiled acc.2.1 acc.2.2 ∧
    ∀ j, ∀ p ∈ layerOf acc.2.1 j,
      denseOfUuid acc.2.2 acc.2.1 p.1 = some p.1 ∧ denseOfUuid acc.2.2 acc.2.1 p.2 = some p.2 := by
  obtain ⟨hreg, hidm, _, _, _, hfiled⟩ := h
  constructor
  · intro layer hl p hp
    obtain ⟨j, _, e⟩ := (mem_layers_iff _ _).1 hl
    rw [← e] at hp
    obtain ⟨⟨g1, e1⟩, ⟨g2, e2⟩⟩ := hfiled j p hp
    exact ⟨⟨g1, p.1, e1, hidm _ _ e1, registry_lt _ _ _ hreg (hidm _ _ e1)⟩,
      ⟨g2, p.2, e2, hidm _ _ e2, registry_lt _ _ _ hreg (hidm _ _ e2)⟩⟩
  · intro j p hp
    obtain ⟨⟨g1, e1⟩, ⟨g2, e2⟩⟩ := hfiled j p hp
    constructor
    · simp only [denseOfUuid, e1, Option.bind_eq_bind, Option.some_bind, hidm _ _ e1]
    · simp only [denseOfUuid, e2, Option.bind_eq_bind, Option.some_bind, hidm _ _ e2]

theorem encodeCircuit_total (enc : SatEncoder) (rep : CircuitRepresentation) (primed : Bool)
    (connective : Z3Expr → Z3Expr → Z3Expr) (generatorCnt bitwidth : Nat) (needed : Bool)
    (solver : Solver) (hw : 0 < bitwidth) (h : RepFiled rep enc) :
    ∃ r, encodeCircuit enc rep primed connective generatorCnt bitwidth needed solver
      = some r := by
  have hf := functionalConstraints_eq enc rep primed bitwidth connective hw h
  have hv : mkVars primed rep.generatorMappings.length bitwidth
      = some (layerVars primed rep.generatorMappings.length bitwidth) :=
    mkVars_eq primed _ bitwidth hw
  simp only [encodeCircuit, hv, Option.bind_eq_bind, Option.some_bind, hf,
    blockingConstraints_eq needed _ generatorCnt bitwidth hw]
  exact ⟨_, rfl⟩

theorem constructSatInstance_some (enc : SatEncoder) (rep : CircuitRepresentation)
    (solver : Solver) (elapsed : Nat) (solver1 : Solver) (enc1 : SatEncoder)
    (h : enc.constructSatInstance rep solver elapsed = some (solver1, enc1)) :
    0 < bitwidthOf enc.generators.length ∧
    ∃ f, functionalConstraints enc.generators rep
        (layerVars false rep.generatorMappings.length (bitwidthOf enc.generators.length))
        (bitwidthOf enc.generators.length) Z3Expr.implies = some f ∧
      solver1.assertions = solver.assertions ++ f ++
        blockingOf (layerVars false rep.generatorMappings.length
          (bitwidthOf enc.generators.length)) enc.generators.length
          (bitwidthOf enc.generators.length) := by
  simp only [SatEncoder.constructSatInstance, Option.bind_eq_bind] at h
  obtain ⟨⟨vars1, s1, e1⟩, h1, h⟩ := Option.bind_eq_some.1 h
  obtain ⟨hw, hv1, ⟨f1, hf1, ha1⟩, _, _⟩ := encodeCircuit_some _ _ _ _ _ _ _ _ _ _ _ h1
  simp only at hf1
  have hv1 : vars1 = layerVars false rep.generatorMappings.length
      (bitwidthOf enc.generators.length) := hv1
  subst hv1
  simp only [Option.some.injEq, Prod.mk.injEq] at h
  refine ⟨hw, f1, hf1, ?_⟩
  rw [← h.1, ha1]
  simp only [blockingOf, blockingConstraintsNeeded, decide_eq_true_eq]

theorem constructSatInstance_total (enc : SatEncoder) (rep : CircuitRepresentation)
    (solver : Solver) (elapsed : Nat) (hm : 2 ≤ enc.generators.length)
    (h : RepFiled rep enc) :
    ∃ r, enc.constructSatInstance rep solver elapsed = some r := by
  have hw := bitwidth_pos _ hm
  obtain ⟨r, hr⟩ := encodeCircuit_total
    { enc with stats := { enc.stats with nrOfGenerators := enc.generators.length } } rep false
    Z3Expr.implies enc.generators.length (bitwidthOf enc.generators.length)
    (blockingConstraintsNeeded enc.generators.length (bitwidthOf enc.generators.length))
    solver hw h
  simp only [SatEncoder.constructSatInstance, Option.bind_eq_bind]
  rw [hr]
  exact ⟨_, rfl⟩

theorem constructMiterInstance_total (enc : SatEncoder) (rep1 rep2 : CircuitRepresentation)
    (solver : Solver) (elapsed : Nat) (hm : 2 ≤ enc.generators.length)
    (h1 : RepFiled rep1 enc) (h2 : RepFiled rep2 enc) :
    ∃ r, enc.constructMiterInstance rep1 rep2 solver elapsed = some r := by
  have hw := bitwidth_pos _ hm
  obtain ⟨⟨v1, s1, e1⟩, hr1⟩ := encodeCircuit_total
    { enc with stats := { enc.stats with nrOfGenerators := enc.generators.length } } rep1 false
    Z3Expr.iff enc.generators.length (bitwidthOf enc.generators.length)
    (blockingConstraintsNeeded enc.generators.length (bitwidthOf enc.generators.length))
    solver hw h1
  obtain ⟨_, hv1, _, hg1, _⟩ := encodeCircuit_some _ _ _ _ _ _ _ _ _ _ _ hr1
  have h2a : RepFiled rep2 e1 := repFiled_grows rep2 enc e1 h2 ⟨[], by simp [hg1]⟩
  obtain ⟨⟨v2, s2, e2⟩, hr2⟩ := encodeCircuit_total e1 rep2 true
    Z3Expr.iff enc.generators.length (bitwidthOf enc.generators.length)
    (blockingConstraintsNeeded enc.generators.length (bitwidthOf enc.generators.length))
    s1 hw h2a
  obtain ⟨_, hv2, _, _, _⟩ := encodeCircuit_some _ _ _ _ _ _ _ _ _ _ _ hr2
  have hv1 : v1 = layerVars false rep1.generatorMappings.length
      (bitwidthOf enc.generators.length) := hv1
  have hv2 : v2 = layerVars true rep2.generatorMappings.length
      (bitwidthOf enc.generators.length) := hv2
  subst hv1
  subst hv2
  simp only [SatEncoder.constructMiterInstance, Option.bind_eq_bind]
  rw [hr1, Option.some_bind, hr2]
  simp only [Option.some_bind, layerVars_head, layerVars_getLast, bvVal,
    if_neg (Nat.pos_iff_ne_zero.1 hw)]
  exact ⟨_, rfl⟩

theorem preprocessCircuit_filed (enc : SatEncoder) (hr : RegistryOK enc) (dag : DAG)
    (inputs : List String) (elapsed : Nat) (rep : CircuitRepresentation) (enc1 : SatEncoder)
    (h : enc.preprocessCircuit dag inputs elapsed = some (rep, enc1)) : RepFiled rep enc1 := by
  obtain ⟨bank, encL, hL, hg, _, _, _⟩ := preprocessCircuit_upTo enc dag inputs elapsed rep enc1 h
  have hinv := upTo_inv enc dag inputs hr _ _ (Nat.le_refl _) hL
  exact repFiled_grows rep encL enc1 (repFiled_of_inv dag _ _ hinv).1 ⟨[], by simp [hg]⟩

/-- C20 (lookups are total): on an encoder that satisfies the registry invariant, the
representation that `preprocessCircuit` returns has every key and every value of every
generator map filed in its `idGeneratorMap`, with the generator registered under a
dense id below the registry size. This stays so when the registry grows, so
`constructSatInstance` returns on it for a registry of at least two generators, and
`constructMiterInstance` returns on it together with the representation of a circuit
preprocessed later on the same encoder. -/
theorem lookups_total (enc : SatEncoder) (dag : DAG) (inputs : List String) (elapsed : Nat)
    (rep : CircuitRepresentation) (enc1 : SatEncoder) (hr : RegistryOK enc)
    (h : enc.preprocessCircuit dag inputs elapsed = some (rep, enc1)) :
    RepFiled rep enc1 ∧
    (∀ layer ∈ rep.generatorMappings, ∀ p ∈ layer,
      (∃ d, denseOfUuid enc1 rep p.1 = some d ∧ d < enc1.generators.length) ∧
      (∃ d, denseOfUuid enc1 rep p.2 = some d ∧ d < enc1.generators.length)) ∧
    (∀ enc2 : SatEncoder, (∃ new, enc2.generators = enc1.generators ++ new) →
      RepFiled rep enc2) ∧
    (∀ (solver : Solver) (t : Nat), 2 ≤ enc1.generators.length →
      ∃ r, enc1.constructSatInstance rep solver t = some r) ∧
    (∀ (dag2 : DAG) (inputs2 : List String) (t2 : Nat) (rep2 : CircuitRepresentation)
      (enc2 : SatEncoder) (solver : Solver) (t : Nat),
      enc1.preprocessCircuit dag2 inputs2 t2 = some (rep2, enc2) →
      2 ≤ enc2.generators.length →
      ∃ r, enc2.constructMiterInstance rep rep2 solver t = some r) := by
  have hf := preprocessCircuit_filed enc hr dag inputs elapsed rep enc1 h
  obtain ⟨hr1, _⟩ := preprocessCircuit_registry enc hr dag inputs elapsed rep enc1 h
  refine ⟨hf, ?_, fun enc2 hg => repFiled_grows rep enc1 enc2 hf hg, ?_, ?_⟩
  · intro layer hl p hp
    obtain ⟨j, hj, e⟩ := (mem_layers_iff _ _).1 hl
    rw [← e] at hp
    exact repFiled_dense rep enc1 hf j hj p hp
  · intro solver t hm
    exact constructSatInstance_total enc1 rep solver t hm hf
  · intro dag2 inputs2 t2 rep2 enc2 solver t h2 hm
    obtain ⟨_, hg2⟩ := preprocessCircuit_registry enc1 hr1 dag2 inputs2 t2 rep2 enc2 h2
    exact constructMiterInstance_total enc2 rep rep2 solver t hm
      (repFiled_grows rep enc1 enc2 hf hg2)
      (preprocessCircuit_filed enc1 hr1 dag2 inputs2 t2 rep2 enc2 h2)

/-- C20 on the sample circuit, preprocessed on a new encoder. -/
theorem lookups_total_witness :
    RegistryOK SatEncoder.fresh ∧
    SatEncoder.fresh.preprocessCircuit sampleDag sampleInputs 0
      = some (sampleRun.1, sampleRun.2) ∧
    RepFiled sampleRun.1 sampleRun.2 ∧ sampleRun.1.generatorMappings.length = 2 ∧
    sampleRun.2.generators.length = 7 :=
  ⟨by decide, by decide,
    (lookups_total SatEncoder.fresh sampleDag sampleInputs 0 sampleRun.1 sampleRun.2
      (by decide) (by decide)).1, by decide, by decide⟩

/-! ## Determinism within a level -/

theorem forall2_index {α β : Type} (R : α → β → Prop) (l1 : List α) (l2 : List β)
    (h : List.Forall₂ R l1 l2) :
    ∀ (i : Nat) (a : α) (b : β), l1[i]? = some a → l2[i]? = some b → R a b := by
  induction h with
  | nil =>
    intro i a b ha
    simp at ha
  | cons hab _ ih =>
    intro i a b ha hb
    cases i with
    | zero =>
      simp only [List.getElem?_cons_zero, Option.some.injEq] at ha hb
      rw [← ha, ← hb]
      exact hab
    | succ i =>
      simp only [List.getElem?_cons_succ] at ha hb
      exact ih i a b ha hb

theorem mem_zip_index {α β : Type} (l1 : List α) (l2 : List β) (a : α) (b : β)
    (h : (a, b) ∈ l1.zip l2) : ∃ i : Nat, l1[i]? = some a ∧ l2[i]? = some b := by
  induction l1 generalizing l2 with
  | nil => simp at h
  | cons x xs ih =>
    cases l2 with
    | nil => simp at h
    | cons y ys =>
      rw [List.zip_cons_cons] at h
      rcases List.mem_cons.1 h with e | e
      · cases e
        exact ⟨0, by simp, by simp⟩
      · obtain ⟨i, h1, h2⟩ := ih ys e
        exact ⟨i + 1, by simpa using h1, by simpa using h2⟩

/-- C11 (determinism within a layer): take any encoder that satisfies the registry
invariant, any DAG, any inputs and any level `k`; let `bank` be the bank of tableaux
before level `k` and `bank1` the bank after it. Two tableaux with the same `prevGenId`
in `bank` have the same `prevGenId` in `bank1`. The generator map of level `k` sends
the label of every tableau before the level to its label after it, so no insertion
finds a conflicting pair; it holds no other pairs, and it is the map of level `k` in
the representation that `preprocessCircuit` returns. -/
theorem layer_deterministic (enc : SatEncoder) (dag : DAG) (inputs : List String) (k : Nat)
    (bank : List QState) (rep : CircuitRepresentation) (e : SatEncoder)
    (bank1 : List QState) (rep1 : CircuitRepresentation) (e1 : SatEncoder)
    (hr : RegistryOK enc) (hk : k < nrOfLevels dag)
    (h1 : enc.preprocessUpTo dag inputs k = some (bank, rep, e))
    (h2 : preprocessLevel dag (bank, rep, e) k = some (bank1, rep1, e1)) :
    bank1.length = bank.length ∧
    (∀ (i j : Nat) (s t s1 t1 : QState), bank[i]? = some s → bank[j]? = some t → bank1[i]? = some s1 →
      bank1[j]? = some t1 → s.prevGenId = t.prevGenId → s1.prevGenId = t1.prevGenId) ∧
    (∀ (i : Nat) (s s1 : QState), bank[i]? = some s → bank1[i]? = some s1 →
      StdMap.atKey (layerOf rep1 k) s.prevGenId = some s1.prevGenId) ∧
    (∀ p ∈ layerOf rep1 k, ∃ (i : Nat) (s s1 : QState), bank[i]? = some s ∧ bank1[i]? = some s1 ∧
      p = (s.prevGenId, s1.prevGenId)) ∧
    (∀ (elapsed : Nat) (repF : CircuitRepresentation) (encF : SatEncoder),
      enc.preprocessCircuit dag inputs elapsed = some (repF, encF) →
      repF.generatorMappings[k]? = some (layerOf rep1 k)) := by
  have hinv := upTo_inv enc dag inputs hr k _ (by omega) h1
  obtain ⟨hinv1, _, _, _, hpost, hpairs⟩ := preprocessLevel_ok dag k _ _ hinv hk h2
  simp only at hpost hpairs
  have hlook : ∀ (i : Nat) (s s1 : QState), bank[i]? = some s → bank1[i]? = some s1 →
      StdMap.atKey (layerOf rep1 k) s.prevGenId = some s1.prevGenId :=
    fun i s s1 hs hs1 => (forall2_index _ _ _ hpost i s s1 hs hs1).2
  refine ⟨hpost.length_eq.symm, ?_, hlook, ?_, ?_⟩
  · intro i j s t s1 t1 hs ht hs1 ht1 hp
    have a := hlook i s s1 hs hs1
    have b := hlook j t t1 ht ht1
    rw [hp, b] at a
    exact (Option.some.inj a).symm
  · intro p hp
    obtain ⟨s, s1, hz, e⟩ := hpairs p hp
    obtain ⟨i, a, b⟩ := mem_zip_index _ _ _ _ hz
    exact ⟨i, s, s1, a, b, e⟩
  · intro elapsed repF encF hF
    obtain ⟨bankL, encL, hL, _⟩ := preprocessCircuit_upTo enc dag inputs elapsed repF encF hF
    have hk1 : enc.preprocessUpTo dag inputs (k + 1) = some (bank1, rep1, e1) := by
      simp only [SatEncoder.preprocessUpTo, h1, Option.some_bind]
      exact h2
    obtain ⟨_, _, hlay⟩ := upTo_mono enc dag inputs hr (k + 1) (nrOfLevels dag) _ _ (by omega)
      (Nat.le_refl _) hk1 hL
    have hinvL := upTo_inv enc dag inputs hr _ _ (Nat.le_refl _) hL
    have hlen : k < repF.generatorMappings.length := by
      rw [hinvL.2.2.1]
      exact hk
    rw [layer_lookup repF k hlen]
    exact congrArg some (hlay k (by omega))

/-- C11 on the sample run, at level `1` (the level of the `CNOT`). -/
theorem layer_deterministic_witness :
    RegistryOK SatEncoder.fresh ∧ 1 < nrOfLevels sampleDag ∧
    SatEncoder.fresh.preprocessUpTo sampleDag sampleInputs 1
      = some ((sampleUpTo 1).1, (sampleUpTo 1).2.1, (sampleUpTo 1).2.2) ∧
    preprocessLevel sampleDag ((sampleUpTo 1).1, (sampleUpTo 1).2.1, (sampleUpTo 1).2.2) 1
      = some ((sampleUpTo 2).1, (sampleUpTo 2).2.1, (sampleUpTo 2).2.2) ∧
    (∀ (i : Nat) (s s1 : QState), (sampleUpTo 1).1[i]? = some s →
      (sampleUpTo 2).1[i]? = some s1 →
      StdMap.atKey (layerOf (sampleUpTo 2).2.1 1) s.prevGenId = some s1.prevGenId) ∧
    layerOf (sampleUpTo 2).2.1 1 = [(2, 4), (3, 5), (0, 6), (1, 1)] :=
  ⟨by decide, by decide, by decide, by decide,
    (layer_deterministic SatEncoder.fresh sampleDag sampleInputs 1 (sampleUpTo 1).1
      (sampleUpTo 1).2.1 (sampleUpTo 1).2.2 (sampleUpTo 2).1 (sampleUpTo 2).2.1
      (sampleUpTo 2).2.2 (by decide) (by decide) (by decide) (by decide)).2.2.1,
    by decide⟩

/-! ## The snapshot of the input generators -/

theorem dense_of_filed (rep0 rep : CircuitRepresentation) (e0 e : SatEncoder)
    (hidm : IdMapOK rep0.idGeneratorMap e0) (hreg : RegistryOK e0)
    (hm : MapGrows rep0.idGeneratorMap rep.idGeneratorMap)
    (hg : MapGrows e0.generators e.generators) (u : Uuid) (g : Generator)
    (h : StdMap.atKey rep0.idGeneratorMap u = some g) :
    denseOfUuid e rep u = some u ∧ u < e0.generators.length := by
  have h1 := hidm u g h
  refine ⟨?_, registry_lt e0 g u hreg h1⟩
  simp only [denseOfUuid, hm u g h, Option.bind_eq_bind, Option.some_bind, hg g u h1]

/-- What a whole `preprocessCircuit` call does to the snapshot and to the labels of the
input bank. -/
theorem preprocessCircuit_inputs (enc : SatEncoder) (hr : RegistryOK enc) (dag : DAG)
    (inputs : List String) (elapsed : Nat) (rep : CircuitRepresentation) (enc1 : SatEncoder)
    (h : enc.preprocessCircuit dag inputs elapsed = some (rep, enc1)) :
    ∃ bank0 rep0 e0 states0, enc.preprocessStart dag inputs = some (bank0, rep0, e0) ∧
      initialStates dag.length inputs = some states0 ∧ states0 ≠ [] ∧
      List.Forall₂ (fun s s1 => s1 = { s with prevGenId := s1.prevGenId }) states0 bank0 ∧
      RegistryOK e0 ∧ (∃ new, e0.generators = enc.generators ++ new) ∧
      MapGrows e0.generators enc1.generators ∧
      enc1.nrOfInputGenerators
        = (if enc.nrOfInputGenerators = 0 then e0.generators.length
           else enc.nrOfInputGenerators) ∧
      (∀ s ∈ bank0, s.WellShaped ∧ StdMap.atKey e0.generators s.key = some s.prevGenId ∧
        denseOfUuid enc1 rep s.prevGenId = some s.prevGenId ∧
        s.prevGenId < e0.generators.length) ∧
      (∀ S : Generator → Prop, (∀ g ∈ enc.generators.map Prod.fst, S g) →
        (∀ s ∈ states0, S s.key) → ∀ g ∈ e0.generators.map Prod.fst, S g) := by
  obtain ⟨bankL, encL, hL, hg, _, hni, _⟩ :=
    preprocessCircuit_upTo enc dag inputs elapsed rep enc1 h
  obtain ⟨⟨bank0, rep0, e0⟩, h0⟩ := upTo_prior enc dag inputs 0 _ _ (Nat.zero_le _) hL
  obtain ⟨hinv, hnew, hsnap, states0, hs0, hrel, hS⟩ :=
    preprocessStart_ok enc dag inputs _ hr h0
  obtain ⟨hgrow, hmg, _⟩ := upTo_mono enc dag inputs hr 0 _ _ _ (Nat.zero_le _)
    (Nat.le_refl _) h0 hL
  simp only at hgrow hmg hsnap hnew hS
  obtain ⟨hreg0, hidm0, _, hst0, _, _⟩ := hinv
  simp only at hreg0 hidm0 hst0
  have hgens : MapGrows e0.generators enc1.generators := by
    rw [hg]
    exact regGrows_map e0 encL hgrow
  refine ⟨bank0, rep0, e0, states0, h0, hs0, (initialStates_ok _ _ _ hs0).1, hrel, hreg0, hnew,
    hgens, ?_, ?_, hS⟩
  · rw [hni, hgrow.2]
    exact hsnap
  · intro s hs
    obtain ⟨w, _, hk⟩ := hst0 s hs
    obtain ⟨d1, d2⟩ := dense_of_filed rep0 rep e0 enc1 hidm0 hreg0 hmg hgens _ _ hk
    exact ⟨w, hidm0 _ _ hk, d1, d2⟩

/-- C17 (input-generator snapshot): on a new encoder, after `preprocessCircuit` of the
first circuit `nrOfInputGenerators` is the size of the registry right after the
interning of the input bank, which is the number of distinct keys of the input states;
it is positive, and the dense id of the initial label of every input state is below it.
A later `preprocessCircuit` call with the same qubit count and the same inputs leaves
`nrOfInputGenerators` as it is and again labels every input state with an id below
it. -/
theorem input_snapshot (dag : DAG) (inputs : List String) (elapsed : Nat)
    (rep : CircuitRepresentation) (e1 : SatEncoder)
    (h : SatEncoder.fresh.preprocessCircuit dag inputs elapsed = some (rep, e1)) :
    ∃ bank0 rep0 e0, SatEncoder.fresh.preprocessStart dag inputs = some (bank0, rep0, e0) ∧
      e1.nrOfInputGenerators = e0.generators.length ∧
      e0.generators.length = ((bank0.map QState.key).dedup).length ∧
      0 < e1.nrOfInputGenerators ∧
      (∀ s ∈ bank0, ∃ d, denseOfUuid e1 rep s.prevGenId = some d ∧
        d < e1.nrOfInputGenerators) ∧
      ∀ (dag2 : DAG) (elapsed2 : Nat) (rep2 : CircuitRepresentation) (e2 : SatEncoder),
        dag2.length = dag.length →
        e1.preprocessCircuit dag2 inputs elapsed2 = some (rep2, e2) →
        e2.nrOfInputGenerators = e1.nrOfInputGenerators ∧
        ∃ bank2 rep3 e3, e1.preprocessStart dag2 inputs = some (bank2, rep3, e3) ∧
          ∀ s ∈ bank2, ∃ d, denseOfUuid e2 rep2 s.prevGenId = some d ∧
            d < e2.nrOfInputGenerators := by
  obtain ⟨bank0, rep0, e0, states0, h0, hs0, hne, hrel, hreg0, _, hgens, hsnap, hbank, hS⟩ :=
    preprocessCircuit_inputs SatEncoder.fresh registryOK_fresh dag inputs elapsed rep e1 h
  have hN : e1.nrOfInputGenerators = e0.generators.length := by
    rw [hsnap]
    rfl
  have hkeys : ∀ g, g ∈ e0.generators.map Prod.fst ↔ g ∈ (bank0.map QState.key).dedup := by
    intro g
    rw [List.mem_dedup]
    constructor
    · intro hg
      refine hS (fun g => g ∈ bank0.map QState.key) ?_ ?_ g hg
      · intro g hg
        simp [SatEncoder.fresh] at hg
      · intro s hs
        obtain ⟨s1, hs1, e⟩ := forall2_mem_left _ _ _ hrel s hs
        refine List.mem_map.2 ⟨s1, hs1, ?_⟩
        rw [e]
        rfl
    · intro hg
      obtain ⟨s, hs, e⟩ := List.mem_map.1 hg
      rw [← e]
      exact List.mem_map.2 ⟨_, atKey_mem _ _ _ (hbank s hs).2.1, rfl⟩
  have hcount : e0.generators.length = ((bank0.map QState.key).dedup).length := by
    have hp := (List.perm_ext_iff_of_nodup hreg0.2.2.2 (List.nodup_dedup _)).2 hkeys
    rw [← hp.length_eq, List.length_map]
  have hpos : 0 < e0.generators.length := by
    cases hb : bank0 with
    | nil =>
      rw [hb] at hrel
      cases hrel
      exact absurd rfl hne
    | cons s rest =>
      have := (hbank s (by rw [hb]; exact List.mem_cons_self _ _)).2.2.2
      exact Nat.lt_of_le_of_lt (Nat.zero_le _) this
  obtain ⟨hr1, _⟩ := preprocessCircuit_registry SatEncoder.fresh registryOK_fresh dag inputs
    elapsed rep e1 h
  refine ⟨bank0, rep0, e0, h0, hN, hcount, by rw [hN]; exact hpos, ?_, ?_⟩
  · intro s hs
    exact ⟨s.prevGenId, (hbank s hs).2.2.1, by rw [hN]; exact (hbank s hs).2.2.2⟩
  · intro dag2 elapsed2 rep2 e2 hlen h2
    obtain ⟨bank2, rep3, e3, states2, h3, hs2, _, hrel2, _, ⟨new3, hnew3⟩, _, hsnap2, hbank2,
      _⟩ := preprocessCircuit_inputs e1 hr1 dag2 inputs elapsed2 rep2 e2 h2
    have hN2 : e2.nrOfInputGenerators = e1.nrOfInputGenerators := by
      rw [hsnap2, if_neg (by omega)]
    refine ⟨hN2, bank2, rep3, e3, h3, ?_⟩
    intro s2 hm2
    rw [hlen, hs0] at hs2
    cases hs2
    obtain ⟨s0, hm0, e20⟩ := forall2_mem_right _ _ _ hrel2 s2 hm2
    obtain ⟨s, hm, e10⟩ := forall2_mem_left _ _ _ hrel s0 hm0
    have hk : s2.key = s.key := by
      rw [e20, e10]
      rfl
    obtain ⟨_, a1, _, a3⟩ := hbank s hm
    obtain ⟨_, b1, b2, _⟩ := hbank2 s2 hm2
    have hsame : s2.prevGenId = s.prevGenId := by
      have c1 := hgens _ _ a1
      have c2 : StdMap.atKey e3.generators s.key = some s.prevGenId := by
        rw [hnew3]
        exact atKey_append_some _ _ _ _ c1
      rw [hk, c2] at b1
      exact (Option.some.inj b1).symm
    exact ⟨s2.prevGenId, b2, by rw [hN2, hN, hsame]; exact a3⟩

/-- C17 on the sample run followed by a second circuit on the same encoder. -/
theorem input_snapshot_witness :
    SatEncoder.fresh.preprocessCircuit sampleDag sampleInputs 0
      = some (sampleRun.1, sampleRun.2) ∧
    (∃ bank0 rep0 e0,
      SatEncoder.fresh.preprocessStart sampleDag sampleInputs = some (bank0, rep0, e0) ∧
      sampleRun.2.nrOfInputGenerators = e0.generators.length) ∧
    sampleRun.2.nrOfInputGenerators = 4 ∧ sampleRunTwo.2.nrOfInputGenerators = 4 ∧
    sampleStartTwo.1.map (fun s => s.prevGenId) = [0, 1, 2, 3] := by
  obtain ⟨bank0, rep0, e0, h0, hN, _⟩ :=
    input_snapshot sampleDag sampleInputs 0 sampleRun.1 sampleRun.2 (by decide)
  exact ⟨by decide, ⟨bank0, rep0, e0, h0, hN⟩, by decide, by decide, by decide⟩

/-! ## Trajectories through the generator maps -/

theorem run_level (enc : SatEncoder) (hr : RegistryOK enc) (dag : DAG)
    (inputs : List String) (elapsed : Nat) (rep : CircuitRepresentation) (enc1 : SatEncoder)
    (h : enc.preprocessCircuit dag inputs elapsed = some (rep, enc1)) (k : Nat)
    (hk : k ≤ nrOfLevels dag) :
    rep.generatorMappings.length = nrOfLevels dag ∧
    ∃ bank repk ek, enc.preprocessUpTo dag inputs k = some (bank, repk, ek) ∧
      BankInv dag k (bank, repk, ek) ∧
      MapGrows repk.idGeneratorMap rep.idGeneratorMap ∧
      MapGrows ek.generators enc1.generators ∧
      ek.generators.length ≤ enc1.generators.length ∧
      ∀ j, j < k → layerOf rep j = layerOf repk j := by
  obtain ⟨bankL, encL, hL, hg, _, _, _⟩ := preprocessCircuit_upTo enc dag inputs elapsed rep enc1 h
  obtain ⟨⟨bank, repk, ek⟩, hk0⟩ := upTo_prior enc dag inputs k _ _ hk hL
  have hinv := upTo_inv enc dag inputs hr k _ hk hk0
  have hinvL := upTo_inv enc dag inputs hr _ _ (Nat.le_refl _) hL
  obtain ⟨g1, g2, g3⟩ := upTo_mono enc dag inputs hr k _ _ _ hk (Nat.le_refl _) hk0 hL
  refine ⟨hinvL.2.2.1, bank, repk, ek, hk0, hinv, g2, ?_, ?_, g3⟩
  · rw [hg]
    exact regGrows_map _ _ g1
  · rw [hg]
    exact regGrows_length _ _ g1

theorem run_step (enc : SatEncoder) (hr : RegistryOK enc) (dag : DAG)
    (inputs : List String) (elapsed : Nat) (rep : CircuitRepresentation) (enc1 : SatEncoder)
    (h : enc.preprocessCircuit dag inputs elapsed = some (rep, enc1)) (k : Nat)
    (hk : k < nrOfLevels dag) :
    ∃ bank repk ek bank1 rep1 e1,
      enc.preprocessUpTo dag inputs k = some (bank, repk, ek) ∧
      enc.preprocessUpTo dag inputs (k + 1) = some (bank1, rep1, e1) ∧
      List.Forall₂ (fun s s1 =>
        StdMap.atKey (layerOf rep k) s.prevGenId = some s1.prevGenId) bank bank1 ∧
      ∀ p ∈ layerOf rep k,
        ∃ s s1, (s, s1) ∈ bank.zip bank1 ∧ p = (s.prevGenId, s1.prevGenId) := by
  obtain ⟨_, bank1, rep1, e1, h1, _, _, _, _, hlay⟩ :=
    run_level enc hr dag inputs elapsed rep enc1 h (k + 1) (by omega)
  have h1b := h1
  simp only [SatEncoder.preprocessUpTo] at h1b
  obtain ⟨⟨bank, repk, ek⟩, h0, hl⟩ := Option.bind_eq_some.1 h1b
  have hinv := upTo_inv enc dag inputs hr k _ (by omega) h0
  obtain ⟨_, _, _, _, hpost, hpairs⟩ := preprocessLevel_ok dag k _ _ hinv hk hl
  simp only at hpost hpairs
  have e : layerOf rep k = layerOf rep1 k := hlay k (by omega)
  refine ⟨bank, repk, ek, bank1, rep1, e1, h0, h1, ?_, ?_⟩
  · rw [e]
    exact List.Forall₂.imp (fun _ _ hp => hp.2) hpost
  · rw [e]
    exact hpairs

theorem trajectory_succ (rep : CircuitRepresentation) (start : Uuid) (k : Nat)
    (hk : k < rep.generatorMappings.length) :
    trajectory rep start (k + 1)
      = (trajectory rep start k).bind fun u => StdMap.atKey (layerOf rep k) u := by
  unfold trajectory
  rw [List.take_succ, layer_lookup rep k hk, Option.toList_some, List.foldlM_append]
  cases (List.take k rep.generatorMappings).foldlM
      (fun uuid layer => StdMap.atKey layer uuid) start with
  | none => rfl
  | some u =>
    simp only [Option.bind_eq_bind, Option.some_bind, List.foldlM_cons, List.foldlM_nil]
    cases StdMap.atKey (layerOf rep k) u <;> rfl

/-- The labels of one state of the input bank through the levels: there is a state in
every bank whose label is the uuid that the generator maps reach from the initial
label, and all these uuids have themselves as dense ids. -/
theorem trajectory_ok (enc : SatEncoder) (hr : RegistryOK enc) (dag : DAG)
    (inputs : List String) (elapsed : Nat) (rep : CircuitRepresentation) (enc1 : SatEncoder)
    (h : enc.preprocessCircuit dag inputs elapsed = some (rep, enc1))
    (bank0 : List QState) (rep0 : CircuitRepresentation) (e0 : SatEncoder)
    (h0 : enc.preprocessStart dag inputs = some (bank0, rep0, e0)) (s0 : QState)
    (hs0 : s0 ∈ bank0) (k : Nat) (hk : k ≤ nrOfLevels dag) :
    ∃ bank repk ek s, enc.preprocessUpTo dag inputs k = some (bank, repk, ek) ∧ s ∈ bank ∧
      trajectory rep s0.prevGenId k = some s.prevGenId ∧
      denseOfUuid enc1 rep s.prevGenId = some s.prevGenId ∧
      s.prevGenId < enc1.generators.length := by
  have hdense : ∀ (j : Nat), j ≤ nrOfLevels dag → ∀ bank repk ek,
      enc.preprocessUpTo dag inputs j = some (bank, repk, ek) → ∀ s ∈ bank,
      denseOfUuid enc1 rep s.prevGenId = some s.prevGenId ∧
      s.prevGenId < enc1.generators.length := by
    intro j hj bank repk ek hu s hs
    obtain ⟨_, bank2, rep2, e2, hu2, hinv, g1, g2, g3, _⟩ :=
      run_level enc hr dag inputs elapsed rep enc1 h j hj
    rw [hu] at hu2
    cases hu2
    obtain ⟨hreg, hidm, _, hst, _, _⟩ := hinv
    obtain ⟨a, b⟩ := dense_of_filed repk rep ek enc1 hidm hreg g1 g2 _ _ (hst s hs).2.2
    exact ⟨a, Nat.lt_of_lt_of_le b g3⟩
  induction k with
  | zero =>
    refine ⟨bank0, rep0, e0, s0, h0, hs0, rfl, ?_⟩
    exact hdense 0 (Nat.zero_le _) bank0 rep0 e0 h0 s0 hs0
  | succ k ih =>
    obtain ⟨bank, repk, ek, s, hu, hs, ht, _⟩ := ih (by omega)
    obtain ⟨bank2, rep2, e2, bank1, rep1, e1, hu2, hu1, hpost, _⟩ :=
      run_step enc hr dag inputs elapsed rep enc1 h k (by omega)
    rw [hu] at hu2
    cases hu2
    obtain ⟨s1, hs1, hl⟩ := forall2_mem_left _ _ _ hpost s hs
    obtain ⟨hlen, _⟩ := run_level enc hr dag inputs elapsed rep enc1 h k (by omega)
    refine ⟨bank1, rep1, e1, s1, hu1, hs1, ?_, hdense (k + 1) hk bank1 rep1 e1 hu1 s1 hs1⟩
    rw [trajectory_succ rep _ k (by omega), ht, Option.some_bind, hl]

theorem layer_sets (rep : CircuitRepresentation) (k : Nat) (bank bank1 : List QState)
    (hpost : List.Forall₂ (fun s s1 =>
      StdMap.atKey (layerOf rep k) s.prevGenId = some s1.prevGenId) bank bank1)
    (hpairs : ∀ p ∈ layerOf rep k,
      ∃ s s1, (s, s1) ∈ bank.zip bank1 ∧ p = (s.prevGenId, s1.prevGenId)) :
    (∀ u, u ∈ (layerOf rep k).map Prod.fst ↔ u ∈ bank.map fun s => s.prevGenId) ∧
    (∀ u, u ∈ (layerOf rep k).map Prod.snd ↔ u ∈ bank1.map fun s => s.prevGenId) ∧
    (∀ p q, p ∈ layerOf rep k → q ∈ layerOf rep k → p.1 = q.1 → p.2 = q.2) := by
  refine ⟨?_, ?_, ?_⟩
  · intro u
    constructor
    · intro hu
      obtain ⟨p, hp, e⟩ := List.mem_map.1 hu
      obtain ⟨s, s1, hz, e2⟩ := hpairs p hp
      refine List.mem_map.2 ⟨s, (List.of_mem_zip hz).1, ?_⟩
      rw [← e, e2]
    · intro hu
      obtain ⟨s, hs, e⟩ := List.mem_map.1 hu
      obtain ⟨s1, _, hl⟩ := forall2_mem_left _ _ _ hpost s hs
      exact List.mem_map.2 ⟨_, atKey_mem _ _ _ hl, e⟩
  · intro u
    constructor
    · intro hu
      obtain ⟨p, hp, e⟩ := List.mem_map.1 hu
      obtain ⟨s, s1, hz, e2⟩ := hpairs p hp
      refine List.mem_map.2 ⟨s1, (List.of_mem_zip hz).2, ?_⟩
      rw [← e, e2]
    · intro hu
      obtain ⟨s1, hs1, e⟩ := List.mem_map.1 hu
      obtain ⟨s, _, hl⟩ := forall2_mem_right _ _ _ hpost s1 hs1
      exact List.mem_map.2 ⟨_, atKey_mem _ _ _ hl, e⟩
  · intro p q hp hq hpq
    obtain ⟨s, s1, hz, e⟩ := hpairs p hp
    obtain ⟨t, t1, hz2, e2⟩ := hpairs q hq
    obtain ⟨i, a1, a2⟩ := mem_zip_index _ _ _ _ hz
    obtain ⟨j, b1, b2⟩ := mem_zip_index _ _ _ _ hz2
    have c1 := forall2_index _ _ _ hpost i s s1 a1 a2
    have c2 := forall2_index _ _ _ hpost j t t1 b1 b2
    rw [e, e2] at hpq ⊢
    simp only at hpq ⊢
    rw [hpq, c2] at c1
    exact (Option.some.inj c1).symm

/-- C23 (trajectory chaining): the representation that `preprocessCircuit` returns has
one generator map per level. The keys of the map of level `0` are the initial labels
of the input bank, and the keys of the map of level `k + 1` are the values of the map
of level `k`. Every map sends a key to one value only, and from the initial label of
every input state the maps lead through all levels. -/
theorem trajectory_chaining (enc : SatEncoder) (dag : DAG) (inputs : List String)
    (elapsed : Nat) (rep : CircuitRepresentation) (enc1 : SatEncoder) (hr : RegistryOK enc)
    (h : enc.preprocessCircuit dag inputs elapsed = some (rep, enc1)) :
    rep.generatorMappings.length = nrOfLevels dag ∧
    ∃ bank0 rep0 e0, enc.preprocessStart dag inputs = some (bank0, rep0, e0) ∧
      (0 < nrOfLevels dag → ∀ u,
        u ∈ (layerOf rep 0).map Prod.fst ↔ u ∈ bank0.map fun s => s.prevGenId) ∧
      (∀ k, k + 1 < nrOfLevels dag → ∀ u,
        u ∈ (layerOf rep (k + 1)).map Prod.fst ↔ u ∈ (layerOf rep k).map Prod.snd) ∧
      (∀ k, k < nrOfLevels dag → ∀ p q, p ∈ layerOf rep k → q ∈ layerOf rep k →
        p.1 = q.1 → p.2 = q.2) ∧
      (∀ s ∈ bank0, ∀ k, k ≤ nrOfLevels dag → ∃ u, trajectory rep s.prevGenId k = some u) ∧
      (∀ s ∈ bank0, ∃ last,
        rep.generatorMappings.foldlM (fun uuid layer => StdMap.atKey layer uuid) s.prevGenId
          = some last) := by
  obtain ⟨hlen, bank0, rep0, e0, h0, _⟩ :=
    run_level enc hr dag inputs elapsed rep enc1 h 0 (Nat.zero_le _)
  have h0s : enc.preprocessStart dag inputs = some (bank0, rep0, e0) := h0
  refine ⟨hlen, bank0, rep0, e0, h0s, ?_, ?_, ?_, ?_, ?_⟩
  · intro hL u
    obtain ⟨bank, repk, ek, bank1, rep1, e1, hu, _, hpost, hpairs⟩ :=
      run_step enc hr dag inputs elapsed rep enc1 h 0 hL
    rw [h0] at hu
    cases hu
    exact (layer_sets rep 0 _ _ hpost hpairs).1 u
  · intro k hk u
    obtain ⟨bank, repk, ek, bank1, rep1, e1, _, hu1, hpost, hpairs⟩ :=
      run_step enc hr dag inputs elapsed rep enc1 h k (by omega)
    obtain ⟨bank2, rep2, e2, bank3, rep3, e3, hu2, _, hpost2, hpairs2⟩ :=
      run_step enc hr dag inputs elapsed rep enc1 h (k + 1) hk
    rw [hu1] at hu2
    cases hu2
    rw [(layer_sets rep (k + 1) _ _ hpost2 hpairs2).1 u,
      (layer_sets rep k _ _ hpost hpairs).2.1 u]
  · intro k hk p q hp hq hpq
    obtain ⟨bank, repk, ek, bank1, rep1, e1, _, _, hpost, hpairs⟩ :=
      run_step enc hr dag inputs elapsed rep enc1 h k hk
    exact (layer_sets rep k _ _ hpost hpairs).2.2 p q hp hq hpq
  · intro s hs k hk
    obtain ⟨_, _, _, s1, _, _, ht, _⟩ :=
      trajectory_ok enc hr dag inputs elapsed rep enc1 h bank0 rep0 e0 h0s s hs k hk
    exact ⟨_, ht⟩
  · intro s hs
    obtain ⟨_, _, _, s1, _, _, ht, _⟩ :=
      trajectory_ok enc hr dag inputs elapsed rep enc1 h bank0 rep0 e0 h0s s hs
        (nrOfLevels dag) (Nat.le_refl _)
    refine ⟨s1.prevGenId, ?_⟩
    unfold trajectory at ht
    rw [← hlen, List.take_length] at ht
    exact ht

/-- C23 on the sample run. -/
theorem trajectory_chaining_witness :
    RegistryOK SatEncoder.fresh ∧
    SatEncoder.fresh.preprocessCircuit sampleDag sampleInputs 0
      = some (sampleRun.1, sampleRun.2) ∧
    sampleRun.1.generatorMappings.length = nrOfLevels sampleDag ∧
    sampleRun.1.generatorMappings
      = [[(0, 2), (1, 3), (2, 0), (3, 1)], [(2, 4), (3, 5), (0, 6), (1, 1)]] ∧
    trajectory sampleRun.1 0 2 = some 4 :=
  ⟨by decide, by decide,
    (trajectory_chaining SatEncoder.fresh sampleDag sampleInputs 0 sampleRun.1 sampleRun.2
      (by decide) (by decide)).1, by decide, by decide⟩

/-! ## The single-circuit instance -/

theorem denseOfUuid_congr (e1 e2 : SatEncoder) (rep : CircuitRepresentation) (u : Uuid)
    (h : e1.generators = e2.generators) : denseOfUuid e1 rep u = denseOfUuid e2 rep u := by
  unfold denseOfUuid
  rw [h]

theorem final_dense (enc : SatEncoder) (hr : RegistryOK enc) (dag : DAG)
    (inputs : List String) (elapsed : Nat) (rep : CircuitRepresentation) (enc1 : SatEncoder)
    (h : enc.preprocessCircuit dag inputs elapsed = some (rep, enc1)) :
    ∀ j, ∀ p ∈ layerOf rep j,
      (denseOfUuid enc1 rep p.1 = some p.1 ∧ p.1 < enc1.generators.length) ∧
      (denseOfUuid enc1 rep p.2 = some p.2 ∧ p.2 < enc1.generators.length) := by
  obtain ⟨bankL, encL, hL, hg, _, _, _⟩ := preprocessCircuit_upTo enc dag inputs elapsed rep enc1 h
  have hinv := upTo_inv enc dag inputs hr _ _ (Nat.le_refl _) hL
  obtain ⟨hreg, hidm, _, _, _, hfiled⟩ := hinv
  intro j p hp
  obtain ⟨⟨g1, e1⟩, ⟨g2, e2⟩⟩ := hfiled j p hp
  have a1 := hidm _ _ e1
  have a2 := hidm _ _ e2
  simp only at a1 a2 e1 e2 hreg
  constructor
  · refine ⟨?_, by rw [hg]; exact registry_lt _ _ _ hreg a1⟩
    simp only [denseOfUuid, e1, Option.bind_eq_bind, Option.some_bind, hg, a1]
  · refine ⟨?_, by rw [hg]; exact registry_lt _ _ _ hreg a2⟩
    simp only [denseOfUuid, e2, Option.bind_eq_bind, Option.some_bind, hg, a2]

theorem layerOf_beyond (rep : CircuitRepresentation) (k : Nat)
    (hk : rep.generatorMappings.length ≤ k) : layerOf rep k = [] := by
  unfold layerOf
  rw [List.getD_eq_getElem?_getD, List.getElem?_eq_none hk]
  rfl

/-- The values of the trajectory assignment. -/
theorem trajectoryAssignment_eq (enc : SatEncoder) (hr : RegistryOK enc) (dag : DAG)
    (inputs : List String) (elapsed : Nat) (rep : CircuitRepresentation) (enc1 : SatEncoder)
    (h : enc.preprocessCircuit dag inputs elapsed = some (rep, enc1))
    (bank0 : List QState) (rep0 : CircuitRepresentation) (e0 : SatEncoder)
    (h0 : enc.preprocessStart dag inputs = some (bank0, rep0, e0)) (s0 : QState)
    (hs0 : s0 ∈ bank0) (primed : Bool) (k : Nat) (hk : k ≤ nrOfLevels dag) :
    trajectory rep s0.prevGenId k
      = some (trajectoryAssignment enc1 rep s0.prevGenId { primed := primed, level := k }) ∧
    trajectoryAssignment enc1 rep s0.prevGenId { primed := primed, level := k }
      < enc1.generators.length := by
  obtain ⟨_, _, _, s, _, _, ht, hd, hlt⟩ :=
    trajectory_ok enc hr dag inputs elapsed rep enc1 h bank0 rep0 e0 h0 s0 hs0 k hk
  have e : trajectoryAssignment enc1 rep s0.prevGenId { primed := primed, level := k }
      = s.prevGenId := by
    simp only [trajectoryAssignment, ht, Option.some_bind, hd, Option.getD_some]
  rw [e]
  exact ⟨ht, hlt⟩

theorem link_eval (enc : SatEncoder) (hr : RegistryOK enc) (dag : DAG)
    (inputs : List String) (elapsed : Nat) (rep : CircuitRepresentation) (enc1 : SatEncoder)
    (h : enc.preprocessCircuit dag inputs elapsed = some (rep, enc1))
    (bank0 : List QState) (rep0 : CircuitRepresentation) (e0 : SatEncoder)
    (h0 : enc.preprocessStart dag inputs = some (bank0, rep0, e0)) (s0 : QState)
    (hs0 : s0 ∈ bank0) (i : Nat) (hi : i < nrOfLevels dag) (p : Uuid × Uuid)
    (hp : p ∈ layerOf rep i) :
    (linkOf Z3Expr.implies false (bitwidthOf enc1.generators.length) enc1 rep i p).eval
      (trajectoryAssignment enc1 rep s0.prevGenId) = true := by
  obtain ⟨hpow, _⟩ := bitwidthOf_spec enc1.generators.length (by
    obtain ⟨_, hlt⟩ := trajectoryAssignment_eq enc hr dag inputs elapsed rep enc1 h bank0 rep0
      e0 h0 s0 hs0 false 0 (Nat.zero_le _)
    omega)
  obtain ⟨⟨d1, l1⟩, ⟨d2, l2⟩⟩ := final_dense enc hr dag inputs elapsed rep enc1 h i p hp
  obtain ⟨t1, b1⟩ := trajectoryAssignment_eq enc hr dag inputs elapsed rep enc1 h bank0 rep0
    e0 h0 s0 hs0 false i (by omega)
  obtain ⟨t2, b2⟩ := trajectoryAssignment_eq enc hr dag inputs elapsed rep enc1 h bank0 rep0
    e0 h0 s0 hs0 false (i + 1) (by omega)
  obtain ⟨hlen, _⟩ := run_level enc hr dag inputs elapsed rep enc1 h 0 (Nat.zero_le _)
  simp only [linkOf, Z3Expr.eval, BvExpr.eval, d1, d2, Option.getD_some,
    Nat.mod_eq_of_lt (Nat.lt_of_lt_of_le l1 hpow), Nat.mod_eq_of_lt (Nat.lt_of_lt_of_le l2 hpow),
    Nat.mod_eq_of_lt (Nat.lt_of_lt_of_le b1 hpow), Nat.mod_eq_of_lt (Nat.lt_of_lt_of_le b2 hpow),
    Bool.or_eq_true, Bool.not_eq_true', decide_eq_false_iff_not, decide_eq_true_eq]
  by_cases heq : trajectoryAssignment enc1 rep s0.prevGenId { primed := false, level := i } = p.1
  · right
    rw [trajectory_succ rep _ i (by omega), t1, Option.some_bind] at t2
    obtain ⟨_, _, _, _, _, _, _, _, hpost, hpairs⟩ :=
      run_step enc hr dag inputs elapsed rep enc1 h i hi
    have hfun := (layer_sets rep i _ _ hpost hpairs).2.2 _ p (atKey_mem _ _ _ t2) hp heq
    exact hfun
  · left
    exact heq

theorem blocking_eval (enc : SatEncoder) (hr : RegistryOK enc) (dag : DAG)
    (inputs : List String) (elapsed : Nat) (rep : CircuitRepresentation) (enc1 : SatEncoder)
    (h : enc.preprocessCircuit dag inputs elapsed = some (rep, enc1))
    (bank0 : List QState) (rep0 : CircuitRepresentation) (e0 : SatEncoder)
    (h0 : enc.preprocessStart dag inputs = some (bank0, rep0, e0)) (s0 : QState)
    (hs0 : s0 ∈ bank0) (c : Z3Expr)
    (hc : c ∈ blockingOf (layerVars false rep.generatorMappings.length
      (bitwidthOf enc1.generators.length)) enc1.generators.length
      (bitwidthOf enc1.generators.length)) :
    c.eval (trajectoryAssignment enc1 rep s0.prevGenId) = true := by
  obtain ⟨hlen, _⟩ := run_level enc hr dag inputs elapsed rep enc1 h 0 (Nat.zero_le _)
  unfold blockingOf at hc
  split at hc
  · rename_i hlt
    simp only [layerVars, List.map_map, List.mem_map, List.mem_range] at hc
    obtain ⟨k, hk, e⟩ := hc
    obtain ⟨_, b⟩ := trajectoryAssignment_eq enc hr dag inputs elapsed rep enc1 h bank0 rep0
      e0 h0 s0 hs0 false k (by omega)
    rw [← e]
    simp only [Function.comp, Z3Expr.eval, BvExpr.eval, Nat.mod_eq_of_lt hlt,
      Nat.mod_eq_of_lt (Nat.lt_trans b hlt), decide_eq_true_eq]
    exact b
  · cases hc

/-- The assertions that `constructSatInstance` adds hold under the trajectory
assignment of every input state. -/
theorem satInstance_ok (enc : SatEncoder) (hr : RegistryOK enc) (dag : DAG)
    (inputs : List String) (elapsed : Nat) (rep : CircuitRepresentation) (enc1 : SatEncoder)
    (h : enc.preprocessCircuit dag inputs elapsed = some (rep, enc1))
    (hm : 2 ≤ enc1.generators.length) (solver : Solver) (t : Nat) :
    ∃ solver1 enc2 added, enc1.constructSatInstance rep solver t = some (solver1, enc2) ∧
      enc2.generators = enc1.generators ∧
      solver1.assertions = solver.assertions ++ added ∧
      (∀ bank0 rep0 e0 s, enc.preprocessStart dag inputs = some (bank0, rep0, e0) →
        s ∈ bank0 → ∀ c ∈ added, c.eval (trajectoryAssignment enc1 rep s.prevGenId) = true) ∧
      Satisfiable added := by
  have hf := preprocessCircuit_filed enc hr dag inputs elapsed rep enc1 h
  obtain ⟨⟨solver1, enc2⟩, hc⟩ := constructSatInstance_total enc1 rep solver t hm hf
  obtain ⟨hw, f, hfc, ha⟩ := constructSatInstance_some enc1 rep solver t solver1 enc2 hc
  rw [functionalConstraints_eq enc1 rep false _ Z3Expr.implies hw hf] at hfc
  have hgen : enc2.generators = enc1.generators := by
    simp only [SatEncoder.constructSatInstance, Option.bind_eq_bind] at hc
    obtain ⟨⟨v, s1, e1⟩, h1, h2⟩ := Option.bind_eq_some.1 hc
    obtain ⟨_, _, _, hg, _⟩ := encodeCircuit_some _ _ _ _ _ _ _ _ _ _ _ h1
    simp only [Option.some.injEq, Prod.mk.injEq] at h2
    rw [← h2.2]
    exact hg
  obtain ⟨hlen, _⟩ := run_level enc hr dag inputs elapsed rep enc1 h 0 (Nat.zero_le _)
  have hall : ∀ bank0 rep0 e0 s, enc.preprocessStart dag inputs = some (bank0, rep0, e0) →
      s ∈ bank0 → ∀ c ∈ f ++ blockingOf (layerVars false rep.generatorMappings.length
        (bitwidthOf enc1.generators.length)) enc1.generators.length
        (bitwidthOf enc1.generators.length),
      c.eval (trajectoryAssignment enc1 rep s.prevGenId) = true := by
    intro bank0 rep0 e0 s h0 hs c hcm
    rcases List.mem_append.1 hcm with hcf | hcb
    · rw [← Option.some.inj hfc] at hcf
      simp only [List.mem_flatten, List.mem_map, List.mem_range] at hcf
      obtain ⟨l, ⟨i, hi, e⟩, hcl⟩ := hcf
      rw [← e] at hcl
      obtain ⟨p, hp, e2⟩ := List.mem_map.1 hcl
      rw [← e2]
      exact link_eval enc hr dag inputs elapsed rep enc1 h bank0 rep0 e0 h0 s hs i
        (by omega) p hp
    · exact blocking_eval enc hr dag inputs elapsed rep enc1 h bank0 rep0 e0 h0 s hs c hcb
  refine ⟨solver1, enc2, _, hc, hgen, by rw [ha, List.append_assoc], hall, ?_⟩
  obtain ⟨bank0, rep0, e0, states0, h0, _, hne, hrel, _⟩ :=
    preprocessCircuit_inputs enc hr dag inputs elapsed rep enc1 h
  cases hb : bank0 with
  | nil =>
    rw [hb] at hrel
    cases hrel
    exact absurd rfl hne
  | cons s rest =>
    exact ⟨trajectoryAssignment enc1 rep s.prevGenId,
      hall bank0 rep0 e0 s h0 (by rw [hb]; exact List.mem_cons_self _ _)⟩

theorem isSatisfiable_sat (enc : SatEncoder) (env : Environment) (solver : Solver)
    (h : env.check solver = CheckResult.sat) : (enc.isSatisfiable env solver).1 = true := by
  simp only [SatEncoder.isSatisfiable, h, if_true]

theorem check_sat_of_satisfiable (env : Environment) (hs : SolverSound env.check)
    (hd : SolverDecisive env.check) (solver : Solver) (h : Satisfiable solver.assertions) :
    env.check solver = CheckResult.sat := by
  cases hc : env.check solver with
  | sat => rfl
  | unsat => exact absurd h ((hs solver).2 hc)
  | unknown => exact absurd hc (hd solver)

/-- C25 (the single-circuit instance is satisfiable): take the representation that
`preprocessCircuit` returns on an encoder that satisfies the registry invariant, with
at least two generators registered afterwards. `constructSatInstance` returns on it,
and every assertion it adds (the implications of all levels and the blocking
constraints) holds when the constants `x^0, .., x^L` get the dense ids along the
trajectory of any one input state; so the added assertions are satisfiable. With a
sound solver that never answers `unknown`, `checkSatisfiability` on a Clifford circuit
that leaves at least two generators registered therefore records `satisfiable = true`. -/
theorem single_circuit_satisfiable (enc : SatEncoder) (dag : DAG) (inputs : List String)
    (elapsed : Nat) (rep : CircuitRepresentation) (enc1 : SatEncoder) (hr : RegistryOK enc)
    (h : enc.preprocessCircuit dag inputs elapsed = some (rep, enc1))
    (hm : 2 ≤ enc1.generators.length) :
    (∀ (solver : Solver) (t : Nat),
      ∃ solver1 enc2 added, enc1.constructSatInstance rep solver t = some (solver1, enc2) ∧
        solver1.assertions = solver.assertions ++ added ∧
        (∀ bank0 rep0 e0 s, enc.preprocessStart dag inputs = some (bank0, rep0, e0) →
          s ∈ bank0 →
          ∀ c ∈ added, c.eval (trajectoryAssignment enc1 rep s.prevGenId) = true) ∧
        Satisfiable added) ∧
    (∀ (env : Environment) (circuit : QuantumComputation) (inputs2 : List String)
      (encA encR : SatEncoder), RegistryOK encA → SolverSound env.check →
      SolverDecisive env.check → isClifford circuit = true →
      encA.checkSatisfiability env circuit inputs2 = some encR →
      2 ≤ encR.generators.length → encR.stats.satisfiable = true) := by
  constructor
  · intro solver t
    obtain ⟨solver1, enc2, added, a, _, b, c, d⟩ :=
      satInstance_ok enc hr dag inputs elapsed rep enc1 h hm solver t
    exact ⟨solver1, enc2, added, a, b, c, d⟩
  · intro env circuit inputs2 encA encR hrA hs hd hcl hcheck hmR
    simp only [SatEncoder.checkSatisfiability, hcl, Bool.not_true, Bool.false_eq_true,
      if_false, Option.bind_eq_bind] at hcheck
    obtain ⟨⟨repA, e1⟩, hp, hcheck⟩ := Option.bind_eq_some.1 hcheck
    obtain ⟨⟨solverA, e2⟩, hc, hcheck⟩ := Option.bind_eq_some.1 hcheck
    simp only [Option.some.injEq] at hcheck
    have hg2 : ∀ (e : SatEncoder) (sv : Solver),
        (e.isSatisfiable env sv).2.generators = e.generators := by
      intro e sv
      simp only [SatEncoder.isSatisfiable]
      split_ifs <;> rfl
    have hgR : encR.generators = e2.generators := by
      rw [← hcheck]
      exact hg2 e2 solverA
    have hrA2 : RegistryOK { encA with stats := { encA.stats with
        nrOfDiffInputStates := inputs2.length, nrOfQubits := circuit.getNqubits } } := hrA
    have hc0 := hc
    simp only [SatEncoder.constructSatInstance, Option.bind_eq_bind] at hc0
    obtain ⟨⟨v, s1, e1b⟩, h1, h2⟩ := Option.bind_eq_some.1 hc0
    obtain ⟨_, _, _, hg1, _⟩ := encodeCircuit_some _ _ _ _ _ _ _ _ _ _ _ h1
    simp only [Option.some.injEq, Prod.mk.injEq] at h2
    have hge : e2.generators = e1.generators := by
      rw [← h2.2]
      exact hg1
    have hm1 : 2 ≤ e1.generators.length := by
      rw [← hge, ← hgR]
      exact hmR
    obtain ⟨solver1, enc2, added, a, _, b, _, d⟩ :=
      satInstance_ok _ hrA2 _ _ _ repA e1 hp hm1 { assertions := [] } env.constructionMillis
    rw [hc] at a
    cases a
    have hsat : Satisfiable solverA.assertions := by
      rw [b]
      exact d
    have hres := isSatisfiable_sat e2 env solverA
      (check_sat_of_satisfiable env hs hd solverA hsat)
    rw [← hcheck]
    simp only
    exact hres

/-- C25 on the sample run: the single-circuit instance of the sample circuit. -/
theorem single_circuit_satisfiable_witness :
    RegistryOK SatEncoder.fresh ∧
    SatEncoder.fresh.preprocessCircuit sampleDag sampleInputs 0
      = some (sampleRun.1, sampleRun.2) ∧
    2 ≤ sampleRun.2.generators.length ∧
    ∃ solver1 enc2 added,
      sampleRun.2.constructSatInstance sampleRun.1 { assertions := [] } 0
        = some (solver1, enc2) ∧
      solver1.assertions = [] ++ added ∧ Satisfiable added := by
  obtain ⟨solver1, enc2, added, a, b, _, d⟩ :=
    (single_circuit_satisfiable SatEncoder.fresh sampleDag sampleInputs 0 sampleRun.1
      sampleRun.2 (by decide) (by decide) (by decide)).1 { assertions := [] } 0
  exact ⟨by decide, by decide, by decide, solver1, enc2, added, a, b, d⟩

/-! ## Injectivity of the generator maps -/

theorem injUpdate_some (n : Nat) : InjUpdate n (fun s => some s) := by
  refine ⟨id, id, fun row h => ⟨h, rfl⟩, fun s hs _ => Or.inr ?_⟩
  rw [withRows_map_id s id hs (fun _ _ => rfl)]

theorem injUpdate_none (n : Nat) : InjUpdate n (fun _ => none) :=
  ⟨id, id, fun _ h => ⟨h, rfl⟩, fun _ _ _ => Or.inl rfl⟩

theorem injUpdate_bind (n : Nat) (f g : QState → Option QState) (hf : InjUpdate n f)
    (hg : InjUpdate n g) : InjUpdate n (fun s => (f s).bind g) := by
  obtain ⟨g1, i1, h1, a1⟩ := hf
  obtain ⟨g2, i2, h2, a2⟩ := hg
  refine ⟨g2 ∘ g1, i1 ∘ i2, ?_, ?_⟩
  · intro row hrow
    obtain ⟨b1, c1⟩ := h1 row hrow
    obtain ⟨b2, c2⟩ := h2 _ b1
    refine ⟨b2, ?_⟩
    simp only [Function.comp]
    rw [c2, c1]
  · intro s hs hn
    subst hn
    simp only
    rcases a1 s hs rfl with e | e
    · left
      rw [e]
      rfl
    · rw [e, Option.some_bind]
      rcases a2 _ (withRows_map_wellShaped s g1 hs (fun row h => (h1 row h).1)) rfl with
        e2 | e2
      · left
        exact e2
      · right
        rw [e2, mapRows_mapRows]

theorem injUpdate_applyH (n t : Nat) (ht : t < n) : InjUpdate n (fun s => s.applyH t) := by
  refine ⟨hPure t, hPure t, fun row h => ⟨hPure_ok n t row h, hPure_hPure n t ht row h⟩, ?_⟩
  intro s hs hn
  right
  exact applyH_eq s t hs (by omega)

theorem injUpdate_applyS (n t : Nat) (ht : t < n) : InjUpdate n (fun s => s.applyS t) := by
  refine ⟨sPure t, sPure t ∘ sPure t ∘ sPure t,
    fun row h => ⟨sPure_ok n t row h, sPure_four n t ht row h⟩, ?_⟩
  intro s hs hn
  right
  exact applyS_eq s t hs (by omega)

theorem injUpdate_applyCNOT (n c t : Nat) (hc : c < n) (ht : t < n) (hct : c ≠ t) :
    InjUpdate n (fun s => s.applyCNOT c t) := by
  refine ⟨cnotPure c t, cnotPure c t,
    fun row h => ⟨cnotPure_ok n c t row h, cnotPure_cnotPure n c t hc ht hct row h⟩, ?_⟩
  intro s hs hn
  right
  exact applyCNOT_eq s c t hs (by omega) (by omega)

theorem injUpdate_applyGate (n : Nat) (gate : Operation) (q t : Nat)
    (hok : gateOK n gate = true) (ht : gate.targets[0]? = some t) :
    InjUpdate n (applyGate gate q t) := by
  simp only [gateOK, ht, Bool.and_eq_true, decide_eq_true_eq] at hok
  obtain ⟨htn, hctl⟩ := hok
  have hH := injUpdate_applyH n t htn
  have hS := injUpdate_applyS n t htn
  unfold applyGate
  split
  · exact hH
  · split
    · exact hS
    · split
      · exact injUpdate_bind n _ _ hS (injUpdate_bind n _ _ hS hS)
      · split
        · exact injUpdate_bind n _ _ hH (injUpdate_bind n _ _ hS (injUpdate_bind n _ _ hS hH))
        · split
          · exact injUpdate_bind n _ _ hH (injUpdate_bind n _ _ hS hS)
          · split
            · exact injUpdate_bind n _ _ hH
                (injUpdate_bind n _ _ hS (injUpdate_bind n _ _ hS hS))
            · split
              · split
                · rename_i hX _ control hc
                  rw [hc] at hctl
                  simp only [Bool.and_eq_true, Bool.or_eq_true, decide_eq_true_eq, hX.2,
                    ne_eq, not_true_eq_false, false_or] at hctl
                  split
                  · exact injUpdate_applyCNOT n control t hctl.1 htn hctl.2
                  · exact injUpdate_some n
                · exact injUpdate_some n
              · exact injUpdate_some n

theorem injUpdate_congr (n : Nat) (op op1 : QState → Option QState)
    (h : ∀ s, op s = op1 s) (h1 : InjUpdate n op1) : InjUpdate n op := by
  obtain ⟨g, ginv, a, b⟩ := h1
  refine ⟨g, ginv, a, fun s hs hn => ?_⟩
  rw [h s]
  exact b s hs hn

theorem dagOK_gate (dag : DAG) (h : dagOK dag = true) (q k : Nat) (ops : List (Option Operation))
    (gate : Operation) (hq : dag[q]? = some ops) (hk : ops[k]? = some (some gate)) :
    gateOK dag.length gate = true := by
  simp only [dagOK, List.all_eq_true] at h
  have hmem : ops ∈ dag := List.mem_iff_getElem?.2 ⟨q, hq⟩
  have hmem2 : some gate ∈ ops := List.mem_iff_getElem?.2 ⟨k, hk⟩
  exact h ops hmem (some gate) hmem2

theorem injUpdate_applyQubitOne (dag : DAG) (h : dagOK dag = true) (k q : Nat) :
    InjUpdate dag.length (fun s => applyQubitOne dag k s q) := by
  cases hops : dag[q]? with
  | none =>
    refine injUpdate_congr _ _ _ (fun s => ?_) (injUpdate_none _)
    simp only [applyQubitOne, hops, Option.bind_eq_bind, Option.none_bind]
  | some ops =>
    by_cases hlt : k < ops.length
    · by_cases hemp : (!ops.isEmpty) = true
      · cases hg : ops[k]? with
        | none =>
          refine injUpdate_congr _ _ _ (fun s => ?_) (injUpdate_none _)
          simp only [applyQubitOne, hops, Option.bind_eq_bind, Option.some_bind, if_pos hlt,
            if_pos hemp, hg, Option.none_bind]
        | some og =>
          cases og with
          | none =>
            refine injUpdate_congr _ _ _ (fun s => ?_) (injUpdate_some _)
            simp only [applyQubitOne, hops, Option.bind_eq_bind, Option.some_bind, if_pos hlt,
              if_pos hemp, hg]
          | some gate =>
            cases ht : gate.targets[0]? with
            | none =>
              refine injUpdate_congr _ _ _ (fun s => ?_) (injUpdate_none _)
              simp only [applyQubitOne, hops, Option.bind_eq_bind, Option.some_bind,
                if_pos hlt, if_pos hemp, hg, ht, Option.none_bind]
            | some target =>
              refine injUpdate_congr _ _ _ (fun s => ?_)
                (injUpdate_applyGate dag.length gate q target
                  (dagOK_gate dag h q k ops gate hops hg) ht)
              simp only [applyQubitOne, hops, Option.bind_eq_bind, Option.some_bind,
                if_pos hlt, if_pos hemp, hg, ht]
      · refine injUpdate_congr _ _ _ (fun s => ?_) (injUpdate_some _)
        simp only [applyQubitOne, hops, Option.bind_eq_bind, Option.some_bind, if_pos hlt,
          if_neg hemp]
    · refine injUpdate_congr _ _ _ (fun s => ?_) (injUpdate_some _)
      simp only [applyQubitOne, hops, Option.bind_eq_bind, Option.some_bind, if_neg hlt]

theorem injUpdate_foldlM (n : Nat) (f : QState → Nat → Option QState)
    (hf : ∀ q, InjUpdate n (fun s => f s q)) (qs : List Nat) :
    InjUpdate n (fun s => qs.foldlM f s) := by
  induction qs with
  | nil => exact injUpdate_some n
  | cons q rest ih =>
    refine injUpdate_congr _ _ _ (fun s => ?_) (injUpdate_bind n _ _ (hf q) ih)
    rw [List.foldlM_cons]
    rfl

theorem injUpdate_levelFun (dag : DAG) (h : dagOK dag = true) (k : Nat) :
    InjUpdate dag.length (levelFun dag k) :=
  injUpdate_foldlM _ _ (injUpdate_applyQubitOne dag h k) _

theorem key_withRows (s : QState) (rows : List Row) :
    (s.withRows rows).key = rows.map keyRow := by
  unfold QState.key
  rw [rows_withRows]

theorem rows_key_inj (n : Nat) (l1 l2 : List Row) (h1 : ∀ row ∈ l1, RowOK n row)
    (h2 : ∀ row ∈ l2, RowOK n row) (h : l1.map keyRow = l2.map keyRow) : l1 = l2 :=
  map_inj_on keyRow (RowOK n) (keyRow_inj n) l1 l2 h1 h2 h

/-- An injective update sends tableaux with different keys to tableaux with different
keys. -/
theorem injUpdate_key (n : Nat) (op : QState → Option QState) (h : InjUpdate n op)
    (s t m m1 : QState) (hs : s.WellShaped) (ht : t.WellShaped) (hsn : s.n = n)
    (htn : t.n = n) (h1 : op s = some m) (h2 : op t = some m1) (hk : m.key = m1.key) :
    s.key = t.key := by
  obtain ⟨g, ginv, a, b⟩ := h
  have rs := (wellShaped_rowsOK s hs).2
  have rt := (wellShaped_rowsOK t ht).2
  rw [hsn] at rs
  rw [htn] at rt
  rcases b s hs hsn with e | e
  · rw [e] at h1
    cases h1
  rcases b t ht htn with e2 | e2
  · rw [e2] at h2
    cases h2
  rw [e] at h1
  rw [e2] at h2
  rw [← Option.some.inj h1, ← Option.some.inj h2, key_withRows, key_withRows] at hk
  have hg : s.rows.map g = t.rows.map g := by
    apply rows_key_inj n _ _ _ _ hk
    · intro row hrow
      obtain ⟨r0, hr0, e0⟩ := List.mem_map.1 hrow
      rw [← e0]
      exact (a r0 (rs r0 hr0)).1
    · intro row hrow
      obtain ⟨r0, hr0, e0⟩ := List.mem_map.1 hrow
      rw [← e0]
      exact (a r0 (rt r0 hr0)).1
  have hrows : s.rows = t.rows := by
    apply map_inj_on g (RowOK n) _ _ _ rs rt hg
    intro r1 r2 p1 p2 e0
    rw [← (a r1 p1).2, ← (a r2 p2).2, e0]
  unfold QState.key
  rw [hrows]

theorem bijectiveOn_of_rows (n : Nat) (op : QState → Option QState) (g ginv : Row → Row)
    (hg : ∀ row, RowOK n row → RowOK n (g row) ∧ ginv (g row) = row)
    (hginv : ∀ row, RowOK n row → RowOK n (ginv row) ∧ g (ginv row) = row)
    (hop : ∀ s : QState, s.WellShaped → s.n = n → op s = some (s.withRows (s.rows.map g))) :
    BijectiveOn n op := by
  have hinj : InjUpdate n op := ⟨g, ginv, hg, fun s hs hn => Or.inr (hop s hs hn)⟩
  refine ⟨?_, ?_, ?_⟩
  · intro s hs hn
    subst hn
    exact ⟨_, hop s hs rfl, withRows_map_wellShaped s g hs (fun row h => (hg row h).1), rfl⟩
  · intro s s1 hs hs1 hn hn1 e
    have a := hop s hs hn
    have b := hop s1 hs1 hn1
    rw [e] at a
    have hk := injUpdate_key n op hinj s s1 _ _ hs hs1 hn hn1 (e.trans a) a rfl
    have hp : s.prevGenId = s1.prevGenId := by
      rw [hop s hs hn, b] at e
      have hh := congrArg QState.prevGenId (Option.some.inj e)
      exact hh
    exact state_eq_of_key s s1 hs hs1 hk hp
  · intro m hm hn
    subst hn
    have hw := withRows_map_wellShaped m ginv hm (fun row h => (hginv row h).1)
    refine ⟨m.withRows (m.rows.map ginv), hw, rfl, ?_⟩
    rw [hop _ hw rfl, mapRows_mapRows]
    exact congrArg some (withRows_map_id m _ hm (fun row h => (hginv row h).2))

theorem bijectiveOn_applyH (n t : Nat) (ht : t < n) : BijectiveOn n (fun s => s.applyH t) :=
  bijectiveOn_of_rows n _ (hPure t) (hPure t)
    (fun row h => ⟨hPure_ok n t row h, hPure_hPure n t ht row h⟩)
    (fun row h => ⟨hPure_ok n t row h, hPure_hPure n t ht row h⟩)
    (fun s hs hn => applyH_eq s t hs (by omega))

theorem bijectiveOn_applyS (n t : Nat) (ht : t < n) : BijectiveOn n (fun s => s.applyS t) :=
  bijectiveOn_of_rows n _ (sPure t) (sPure t ∘ sPure t ∘ sPure t)
    (fun row h => ⟨sPure_ok n t row h, sPure_four n t ht row h⟩)
    (fun row h => ⟨sPure_ok n t _ (sPure_ok n t _ (sPure_ok n t row h)),
      sPure_four n t ht row h⟩)
    (fun s hs hn => applyS_eq s t hs (by omega))

theorem bijectiveOn_applyCNOT (n c t : Nat) (hc : c < n) (ht : t < n) (hct : c ≠ t) :
    BijectiveOn n (fun s => s.applyCNOT c t) :=
  bijectiveOn_of_rows n _ (cnotPure c t) (cnotPure c t)
    (fun row h => ⟨cnotPure_ok n c t row h, cnotPure_cnotPure n c t hc ht hct row h⟩)
    (fun row h => ⟨cnotPure_ok n c t row h, cnotPure_cnotPure n c t hc ht hct row h⟩)
    (fun s hs hn => applyCNOT_eq s c t hs (by omega) (by omega))

theorem run_step_inv (enc : SatEncoder) (hr : RegistryOK enc) (dag : DAG)
    (inputs : List String) (elapsed : Nat) (rep : CircuitRepresentation) (enc1 : SatEncoder)
    (h : enc.preprocessCircuit dag inputs elapsed = some (rep, enc1)) (k : Nat)
    (hk : k < nrOfLevels dag) :
    ∃ bank repk ek bank1 rep1 e1,
      BankInv dag k (bank, repk, ek) ∧ BankInv dag (k + 1) (bank1, rep1, e1) ∧
      List.Forall₂ (fun s s1 =>
        ∃ m, levelFun dag k s = some m ∧ s1 = { m with prevGenId := s1.prevGenId })
        bank bank1 ∧
      ∀ p ∈ layerOf rep k,
        ∃ s s1, (s, s1) ∈ bank.zip bank1 ∧ p = (s.prevGenId, s1.prevGenId) := by
  obtain ⟨_, bank1, rep1, e1, h1, _, _, _, _, hlay⟩ :=
    run_level enc hr dag inputs elapsed rep enc1 h (k + 1) (by omega)
  have h1b := h1
  simp only [SatEncoder.preprocessUpTo] at h1b
  obtain ⟨⟨bank, repk, ek⟩, h0, hl⟩ := Option.bind_eq_some.1 h1b
  have hinv := upTo_inv enc dag inputs hr k _ (by omega) h0
  obtain ⟨hinv1, _, _, _, hpost, hpairs⟩ := preprocessLevel_ok dag k _ _ hinv hk hl
  simp only at hpost hpairs
  have e : layerOf rep k = layerOf rep1 k := hlay k (by omega)
  refine ⟨bank, repk, ek, bank1, rep1, e1, hinv, hinv1, ?_, ?_⟩
  · exact List.Forall₂.imp (fun _ _ hp => hp.1) hpost
  · rw [e]
    exact hpairs

/-- No two entries of a generator map of a well-formed DAG have the same next uuid
with different previous uuids. -/
theorem layer_injective (enc : SatEncoder) (hr : RegistryOK enc) (dag : DAG)
    (hd : dagOK dag = true) (inputs : List String) (elapsed : Nat)
    (rep : CircuitRepresentation) (enc1 : SatEncoder)
    (h : enc.preprocessCircuit dag inputs elapsed = some (rep, enc1)) (k : Nat)
    (p q : Uuid × Uuid) (hp : p ∈ layerOf rep k) (hq : q ∈ layerOf rep k)
    (e : p.2 = q.2) : p.1 = q.1 := by
  obtain ⟨hlen, _⟩ := run_level enc hr dag inputs elapsed rep enc1 h 0 (Nat.zero_le _)
  by_cases hk : k < nrOfLevels dag
  · obtain ⟨bank, repk, ek, bank1, rep1, e1, hinv, hinv1, hpost, hpairs⟩ :=
      run_step_inv enc hr dag inputs elapsed rep enc1 h k hk
    obtain ⟨_, hidm, _, hst, _, _⟩ := hinv
    obtain ⟨_, _, _, hst1, _, _⟩ := hinv1
    simp only at hidm hst hst1
    obtain ⟨s, s1, hz, ep⟩ := hpairs p hp
    obtain ⟨t, t1, hz2, eq⟩ := hpairs q hq
    obtain ⟨i, a1, a2⟩ := mem_zip_index _ _ _ _ hz
    obtain ⟨j, b1, b2⟩ := mem_zip_index _ _ _ _ hz2
    obtain ⟨m, hm, em⟩ := forall2_index _ _ _ hpost i s s1 a1 a2
    obtain ⟨m2, hm2, em2⟩ := forall2_index _ _ _ hpost j t t1 b1 b2
    have ms := (List.of_mem_zip hz).1
    have ms1 := (List.of_mem_zip hz).2
    have mt := (List.of_mem_zip hz2).1
    have mt1 := (List.of_mem_zip hz2).2
    rw [ep, eq] at e
    simp only at e
    rw [ep, eq]
    simp only
    have k1 : s1.key = m.key := by
      have hh := congrArg QState.key em
      exact hh
    have k2 : t1.key = m2.key := by
      have hh := congrArg QState.key em2
      exact hh
    have f1 := (hst1 s1 ms1).2.2
    have f2 := (hst1 t1 mt1).2.2
    rw [e, f2] at f1
    have hkey : m.key = m2.key := by
      rw [← k1, ← k2]
      exact (Option.some.inj f1).symm
    have hsk := injUpdate_key dag.length _ (injUpdate_levelFun dag hd k) s t m m2
      (hst s ms).1 (hst t mt).1 (hst s ms).2.1 (hst t mt).2.1 hm hm2 hkey
    have g1 := hidm _ _ (hst s ms).2.2
    have g2 := hidm _ _ (hst t mt).2.2
    rw [hsk, g2] at g1
    exact (Option.some.inj g1).symm
  · rw [layerOf_beyond rep k (by omega)] at hp
    cases hp

theorem link_iff_eval (enc : SatEncoder) (hr : RegistryOK enc) (dag : DAG)
    (hd : dagOK dag = true)
    (inputs : List String) (elapsed : Nat) (rep : CircuitRepresentation) (enc1 : SatEncoder)
    (h : enc.preprocessCircuit dag inputs elapsed = some (rep, enc1))
    (bank0 : List QState) (rep0 : CircuitRepresentation) (e0 : SatEncoder)
    (h0 : enc.preprocessStart dag inputs = some (bank0, rep0, e0)) (s0 : QState)
    (hs0 : s0 ∈ bank0) (primed : Bool) (i : Nat) (hi : i < nrOfLevels dag) (p : Uuid × Uuid)
    (hp : p ∈ layerOf rep i) :
    (linkOf Z3Expr.iff primed (bitwidthOf enc1.generators.length) enc1 rep i p).eval
      (trajectoryAssignment enc1 rep s0.prevGenId) = true := by
  obtain ⟨hpow, _⟩ := bitwidthOf_spec enc1.generators.length (by
    obtain ⟨_, hlt⟩ := trajectoryAssignment_eq enc hr dag inputs elapsed rep enc1 h bank0 rep0
      e0 h0 s0 hs0 false 0 (Nat.zero_le _)
    omega)
  obtain ⟨⟨d1, l1⟩, ⟨d2, l2⟩⟩ := final_dense enc hr dag inputs elapsed rep enc1 h i p hp
  obtain ⟨t1, b1⟩ := trajectoryAssignment_eq enc hr dag inputs elapsed rep enc1 h bank0 rep0
    e0 h0 s0 hs0 primed i (by omega)
  obtain ⟨t2, b2⟩ := trajectoryAssignment_eq enc hr dag inputs elapsed rep enc1 h bank0 rep0
    e0 h0 s0 hs0 primed (i + 1) (by omega)
  obtain ⟨hlen, _⟩ := run_level enc hr dag inputs elapsed rep enc1 h 0 (Nat.zero_le _)
  rw [trajectory_succ rep _ i (by omega), t1, Option.some_bind] at t2
  have hmem := atKey_mem _ _ _ t2
  obtain ⟨_, _, _, _, _, _, _, _, hpost, hpairs⟩ :=
    run_step enc hr dag inputs elapsed rep enc1 h i hi
  have hfun := (layer_sets rep i _ _ hpost hpairs).2.2
  simp only [linkOf, Z3Expr.eval, BvExpr.eval, d1, d2, Option.getD_some,
    Nat.mod_eq_of_lt (Nat.lt_of_lt_of_le l1 hpow), Nat.mod_eq_of_lt (Nat.lt_of_lt_of_le l2 hpow),
    Nat.mod_eq_of_lt (Nat.lt_of_lt_of_le b1 hpow), Nat.mod_eq_of_lt (Nat.lt_of_lt_of_le b2 hpow),
    beq_iff_eq, decide_eq_decide]
  constructor
  · intro heq
    exact hfun _ p hmem hp heq
  · intro heq
    exact layer_injective enc hr dag hd inputs elapsed rep enc1 h i _ p hmem hp heq

/-- C24 (layer maps are injective): take a DAG whose operations have their first target
and first control among the `n` qubits of the DAG, with the control of every controlled
`X` different from its target, and an encoder that satisfies the registry invariant.
For `t < n` the updates `applyH` and `applyS`, and for `c < n`, `c ≠ t` the update
`applyCNOT`, are bijections of the well-shaped tableaux of `n` qubits. In every
generator map of the representation that `preprocessCircuit` returns, two entries with
the same next uuid have the same previous uuid. With at least two generators registered,
the biconditional constraints of the representation are built, and all of them, of every
level, hold when the constants get the dense ids along the trajectory of any one input
state. -/
theorem layer_maps_injective (enc : SatEncoder) (dag : DAG) (inputs : List String)
    (elapsed : Nat) (rep : CircuitRepresentation) (enc1 : SatEncoder) (hr : RegistryOK enc)
    (hd : dagOK dag = true)
    (h : enc.preprocessCircuit dag inputs elapsed = some (rep, enc1)) :
    (∀ n t : Nat, t < n →
      BijectiveOn n (fun s => s.applyH t) ∧ BijectiveOn n (fun s => s.applyS t) ∧
      ∀ c : Nat, c < n → c ≠ t → BijectiveOn n (fun s => s.applyCNOT c t)) ∧
    (∀ layer ∈ rep.generatorMappings, ∀ p ∈ layer, ∀ q ∈ layer, p.2 = q.2 → p.1 = q.1) ∧
    (2 ≤ enc1.generators.length → ∀ primed : Bool,
      ∃ f, functionalConstraints enc1.generators rep
          (layerVars primed rep.generatorMappings.length (bitwidthOf enc1.generators.length))
          (bitwidthOf enc1.generators.length) Z3Expr.iff = some f ∧
        ∀ bank0 rep0 e0 s, enc.preprocessStart dag inputs = some (bank0, rep0, e0) →
          s ∈ bank0 →
          ∀ c ∈ f, c.eval (trajectoryAssignment enc1 rep s.prevGenId) = true) := by
  refine ⟨?_, ?_, ?_⟩
  · intro n t ht
    exact ⟨bijectiveOn_applyH n t ht, bijectiveOn_applyS n t ht,
      fun c hc hct => bijectiveOn_applyCNOT n c t hc ht hct⟩
  · intro layer hl p hp q hq e
    obtain ⟨j, _, ej⟩ := (mem_layers_iff rep layer).1 hl
    rw [← ej] at hp hq
    exact layer_injective enc hr dag hd inputs elapsed rep enc1 h j p q hp hq e
  · intro hm primed
    have hf := preprocessCircuit_filed enc hr dag inputs elapsed rep enc1 h
    have hw : 0 < bitwidthOf enc1.generators.length := bitwidth_pos _ hm
    obtain ⟨hlen, _⟩ := run_level enc hr dag inputs elapsed rep enc1 h 0 (Nat.zero_le _)
    refine ⟨_, functionalConstraints_eq enc1 rep primed _ Z3Expr.iff hw hf, ?_⟩
    intro bank0 rep0 e0 s h0 hs c hc
    simp only [List.mem_flatten, List.mem_map, List.mem_range] at hc
    obtain ⟨l, ⟨i, hi, e⟩, hcl⟩ := hc
    rw [← e] at hcl
    obtain ⟨p, hp, e2⟩ := List.mem_map.1 hcl
    rw [← e2]
    exact link_iff_eval enc hr dag hd inputs elapsed rep enc1 h bank0 rep0 e0 h0 s hs primed i
      (by omega) p hp

/-- C24 on the sample run: the two generator maps of `H(0)`, `CNOT(0, 1)`. -/
theorem layer_maps_injective_witness :
    RegistryOK SatEncoder.fresh ∧ dagOK sampleDag = true ∧
    SatEncoder.fresh.preprocessCircuit sampleDag sampleInputs 0
      = some (sampleRun.1, sampleRun.2) ∧
    sampleRun.1.generatorMappings
      = [[(0, 2), (1, 3), (2, 0), (3, 1)], [(2, 4), (3, 5), (0, 6), (1, 1)]] ∧
    (∀ layer ∈ sampleRun.1.generatorMappings, ∀ p ∈ layer, ∀ q ∈ layer,
      p.2 = q.2 → p.1 = q.1) :=
  ⟨by decide, by decide, by decide, by decide,
    (layer_maps_injective SatEncoder.fresh sampleDag sampleInputs 0 sampleRun.1 sampleRun.2
      (by decide) (by decide) (by decide)).2.1⟩

/-! ## The bit-width at a registry of one generator -/

theorem constructSatInstance_width_zero (enc : SatEncoder) (rep : CircuitRepresentation)
    (solver : Solver) (t : Nat) (h : enc.generators.length = 1) :
    enc.constructSatInstance rep solver t = none := by
  have hb : bitwidthOf 1 = 0 := by decide
  simp only [SatEncoder.constructSatInstance, encodeCircuit, h, hb, mkVars_none,
    Option.bind_eq_bind, Option.none_bind]

theorem constructMiterInstance_width_zero (enc : SatEncoder) (r1 r2 : CircuitRepresentation)
    (solver : Solver) (t : Nat) (h : enc.generators.length = 1) :
    enc.constructMiterInstance r1 r2 solver t = none := by
  have hb : bitwidthOf 1 = 0 := by decide
  simp only [SatEncoder.constructMiterInstance, encodeCircuit, h, hb, mkVars_none,
    Option.bind_eq_bind, Option.none_bind]

theorem testEqual_none_of_pipeline (enc : SatEncoder) (env : Environment)
    (circuitOne circuitTwo : QuantumComputation) (inputs : List String)
    (h1 : isClifford circuitOne = true) (h2 : isClifford circuitTwo = true)
    (h3 : circuitOne.empty = false) (h4 : circuitTwo.empty = false)
    (hp : miterPipeline enc.core (env.constructDAG circuitOne) (env.constructDAG circuitTwo)
      inputs 0 0 0 = none) :
    enc.testEqual env circuitOne circuitTwo inputs = none := by
  have hv := testEqual_verdict enc env circuitOne circuitTwo inputs h1 h2 h3 h4
  rw [hp] at hv
  exact Option.map_eq_none'.1 hv

theorem checkSatisfiability_none_of_one (enc : SatEncoder) (env : Environment)
    (circuit : QuantumComputation) (inputs : List String)
    (h1 : isClifford circuit = true)
    (hp : (enc.core.preprocessCircuit (env.constructDAG circuit) inputs 0).map
      (fun p => p.2.generators.length) = some 1) :
    enc.checkSatisfiability env circuit inputs = none := by
  simp only [SatEncoder.checkSatisfiability, h1, Bool.not_true, Bool.false_eq_true, if_false,
    Option.bind_eq_bind]
  have hc := preprocessCircuit_core
    { enc with stats := { enc.stats with nrOfDiffInputStates := inputs.length,
                                         nrOfQubits := circuit.getNqubits } }
    enc.core rfl (env.constructDAG circuit) inputs
    (env.preprocMillis (env.constructDAG circuit)) 0
  have hl := congrArg
    (Option.map (fun p : CircuitRepresentation × SatEncoder => p.2.generators.length)) hc
  rw [Option.map_map, Option.map_map] at hl
  have hl2 := hl.trans hp
  cases hq : SatEncoder.preprocessCircuit
      { enc with stats := { enc.stats with nrOfDiffInputStates := inputs.length,
                                           nrOfQubits := circuit.getNqubits } }
      (env.constructDAG circuit) inputs (env.preprocMillis (env.constructDAG circuit)) with
  | none => rfl
  | some p =>
    rw [hq] at hl2
    simp only [Option.map_some', Function.comp, Option.some.injEq] at hl2
    obtain ⟨rep, e⟩ := p
    simp only [Option.some_bind]
    rw [constructSatInstance_width_zero e rep _ _ hl2]
    rfl

/-- C16 (bit-width, failing input): for every registry size `M ≥ 2` the width `W` used
by both encoders is at least `1` and is the least width with `M ≤ 2 ^ W`, so every id
`0 .. M-1` is below `2 ^ W`. At `M = 1` the width is `0`, not `1`: no constant of width
zero can be declared, so on an encoder with one registered generator neither
`constructSatInstance` nor `constructMiterInstance` returns. One qubit, no inputs, new
encoder: `[S(0)]` and `[I(0)]` both leave the all-zero state at the generator `+Z`, the
registry holds this one generator, and `testEqual` on `[S(0)]` against `[I(0)]`, on
`[I(0)]` against itself, and `checkSatisfiability` on `[S(0)]` do not return. -/
theorem bitwidth_zero_at_one (env : Environment)
    (hS : env.constructDAG { nqubits := 1, ops := [gate OpType.S 0] }
      = [[some (gate OpType.S 0)]])
    (hI : env.constructDAG { nqubits := 1, ops := [gate OpType.I 0] }
      = [[some (gate OpType.I 0)]]) :
    (∀ m, 2 ≤ m → 1 ≤ bitwidthOf m ∧ m ≤ 2 ^ bitwidthOf m ∧
      (∀ w, m ≤ 2 ^ w → bitwidthOf m ≤ w) ∧ ∀ id, id < m → id % 2 ^ bitwidthOf m = id) ∧
    bitwidthOf 1 = 0 ∧
    (∀ (enc : SatEncoder) (r1 r2 : CircuitRepresentation) (solver : Solver) (t : Nat),
      enc.generators.length = 1 →
      enc.constructSatInstance r1 solver t = none ∧
      enc.constructMiterInstance r1 r2 solver t = none) ∧
    finalGenerator [[some (gate OpType.S 0)]] "" = some [[false, true, false]] ∧
    finalGenerator [[some (gate OpType.I 0)]] "" = some [[false, true, false]] ∧
    (miterPipeline SatEncoder.fresh [[some (gate OpType.S 0)]] [[some (gate OpType.I 0)]]
      [] 0 0 0 = none) ∧
    SatEncoder.fresh.testEqual env { nqubits := 1, ops := [gate OpType.S 0] }
      { nqubits := 1, ops := [gate OpType.I 0] } [] = none ∧
    SatEncoder.fresh.testEqual env { nqubits := 1, ops := [gate OpType.I 0] }
      { nqubits := 1, ops := [gate OpType.I 0] } [] = none ∧
    SatEncoder.fresh.checkSatisfiability env { nqubits := 1, ops := [gate OpType.S 0] } []
      = none := by
  refine ⟨?_, by decide, ?_, by decide, by decide, by decide, ?_, ?_, ?_⟩
  · intro m hm
    obtain ⟨h1, h2⟩ := bitwidthOf_spec m (by omega)
    exact ⟨bitwidth_pos m hm, h1, h2, fun id hid => Nat.mod_eq_of_lt (by omega)⟩
  · intro enc r1 r2 solver t h
    exact ⟨constructSatInstance_width_zero enc r1 solver t h,
      constructMiterInstance_width_zero enc r1 r2 solver t h⟩
  · apply testEqual_none_of_pipeline _ _ _ _ _ (by decide) (by decide) (by decide) (by decide)
    rw [hS, hI]
    decide
  · apply testEqual_none_of_pipeline _ _ _ _ _ (by decide) (by decide) (by decide) (by decide)
    rw [hI]
    decide
  · apply checkSatisfiability_none_of_one _ _ _ _ (by decide)
    rw [hS]
    decide

/-- C16 with the modelled DAG constructor and the reference solver. -/
theorem bitwidth_zero_at_one_witness :
    (referenceEnv constructDAG).constructDAG { nqubits := 1, ops := [gate OpType.S 0] }
      = [[some (gate OpType.S 0)]] ∧
    (referenceEnv constructDAG).constructDAG { nqubits := 1, ops := [gate OpType.I 0] }
      = [[some (gate OpType.I 0)]] ∧
    bitwidthOf 1 = 0 ∧
    SatEncoder.fresh.testEqual (referenceEnv constructDAG)
      { nqubits := 1, ops := [gate OpType.S 0] }
      { nqubits := 1, ops := [gate OpType.I 0] } [] = none :=
  ⟨by decide, by decide,
    (bitwidth_zero_at_one (referenceEnv constructDAG) (by decide) (by decide)).2.1,
    (bitwidth_zero_at_one (referenceEnv constructDAG) (by decide)
      (by decide)).2.2.2.2.2.2.1⟩

end QSat
